import Mathlib

/-!
# Logix: tokenizer, parser and evaluator

A shallow embedding of the Go packages `lexer`, `parser` and `evaluator` of
`alicavdar/logix`, followed by theorems about them.

Conventions of the embedding

* A Go `string` is a sequence of bytes.  It is modelled by a list of
  characters (or a `String`), each character standing for one byte; on ASCII
  text the two views coincide.
* A Go call can return, return a non-nil `error`, or panic.  `Outcome` keeps
  the three apart.  Loops whose trip count is not bounded by the code itself
  are run on a fuel counter, and `Outcome.timeout` is the answer of a run
  that used its fuel up.
* `interface{}` values are modelled by `SingleValue`: the four literal kinds
  the parser builds, and the maps and slices of a decoded JSON context.
-/

namespace Logix

/-! ## Outcomes of a Go call -/

/-- The way a Go call ends: `ok a` is a normal return (with a nil `error`
where the function has one), `error msg` is a return with a non-nil `error`,
`panic msg` is a run-time panic or an explicit `panic(...)`, and `timeout`
says that the fuel of the model ran out before the call ended. -/
inductive Outcome (α : Type) where
  | ok (a : α)
  | error (msg : String)
  | panic (msg : String)
  | timeout
  deriving DecidableEq, Repr

/-! ## Package lexer -/

/-- The token kinds of `lexer.go` (Go constants of type `TokenKind`). -/
inductive TokenKind where
  | EOF | IDENT | EQ | NEQ | GT | GTE | LT | LTE | CONTAINS | BETWEEN | IN
  | NOT | STRING | NUMBER | NIL | STARTS_WITH | ENDS_WITH | LSQUARE | RSQUARE
  | COMMA | GROUP | AND | OR | INDENT | DEDENT | ILLEGAL | TRUE | FALSE
  deriving DecidableEq, Repr

/-- The string value of a `TokenKind` constant, as printed by `%s`. -/
def TokenKind.name : TokenKind → String
  | .EOF => "EOF" | .IDENT => "IDENT" | .EQ => "EQ" | .NEQ => "NEQ"
  | .GT => "GT" | .GTE => "GTE" | .LT => "LT" | .LTE => "LTE"
  | .CONTAINS => "CONTAINS" | .BETWEEN => "BETWEEN" | .IN => "IN"
  | .NOT => "NOT" | .STRING => "STRING" | .NUMBER => "NUMBER" | .NIL => "NIL"
  | .STARTS_WITH => "STARTS_WITH" | .ENDS_WITH => "ENDS_WITH"
  | .LSQUARE => "LSQUARE" | .RSQUARE => "RSQUARE" | .COMMA => "COMMA"
  | .GROUP => "GROUP" | .AND => "AND" | .OR => "OR" | .INDENT => "INDENT"
  | .DEDENT => "DEDENT" | .ILLEGAL => "ILLEGAL" | .TRUE => "TRUE"
  | .FALSE => "FALSE"

/-- The map `keywords` of `lexer.go`, as the list of its entries. -/
def keywords : List (String × TokenKind) :=
  [("eq", .EQ), ("neq", .NEQ), ("gt", .GT), ("lt", .LT), ("gte", .GTE), ("lte", .LTE),
   ("contains", .CONTAINS), ("between", .BETWEEN), ("not", .NOT), ("nil", .NIL),
   ("startsWith", .STARTS_WITH), ("endsWith", .ENDS_WITH), ("in", .IN), ("true", .TRUE),
   ("false", .FALSE), ("group", .GROUP), ("and", .AND), ("or", .OR)]

/-- Method `lookupKeyword`: the kind of a keyword, `IDENT` for any other
lexeme. -/
def lookupKeyword (lexeme : String) : TokenKind :=
  match keywords.lookup lexeme with
  | some tok => tok
  | none => .IDENT

/-- A token: its kind and its lexeme. -/
structure Token where
  Kind : TokenKind
  Lexeme : String
  deriving DecidableEq, Repr

/-- The rune 0, which `readRune` stores in `ch` at the end of the input. -/
abbrev NUL : Char := Char.ofNat 0

/-- The struct `Lexer`.  `input` holds the bytes of the Go string; the top of
`indentStack` is its last element, as in the Go slice. -/
structure Lexer where
  input : List Char
  position : Nat
  readPosition : Nat
  ch : Char
  indentWidth : Int
  useSpaces : Bool
  indentStack : List Int
  dedentCount : Int
  deriving DecidableEq, Repr

/-- The byte `l.input[i]` as a rune, `none` when `i` is out of range (where
Go panics). -/
def byteAt (input : List Char) (i : Nat) : Option Char := input.get? i

/-- The slice expression `input[a:b]` as a string. -/
def slice (input : List Char) (a b : Nat) : String :=
  String.mk ((input.drop a).take (b - a))

/-- Method `isDigit`. -/
def isDigit (ch : Char) : Bool := decide ('0' ≤ ch) && decide (ch ≤ '9')

/-- Method `isAlpha`. -/
def isAlpha (ch : Char) : Bool :=
  (decide ('a' ≤ ch) && decide (ch ≤ 'z')) ||
  (decide ('A' ≤ ch) && decide (ch ≤ 'Z')) ||
  decide (ch = '_')

/-- Method `isAlphaNumeric`. -/
def isAlphaNumeric (ch : Char) : Bool := isAlpha ch || isDigit ch

/-- The Go function `unicode.IsSpace` on the runes a byte converts to (the
Latin-1 range): tab, line feed, vertical tab, form feed, carriage return,
space, U+0085 and U+00A0. -/
def unicodeIsSpace (ch : Char) : Bool :=
  ch = '\t' || ch = '\n' || ch = Char.ofNat 11 || ch = Char.ofNat 12 ||
  ch = '\r' || ch = ' ' || ch = Char.ofNat 133 || ch = Char.ofNat 160

/-- The UTF-8 encoding of a rune below U+0800 (every rune that a byte converts
to), which `strings.Builder.WriteRune` appends and the conversion
`string(rune)` returns: the byte itself below 0x80, two bytes from 0x80 on. -/
def writeRune (ch : Char) : List Char :=
  if ch.toNat < 128 then [ch]
  else [Char.ofNat (192 + ch.toNat / 64), Char.ofNat (128 + ch.toNat % 64)]

/-- Method `readRune`. -/
def Lexer.readRune (l : Lexer) : Lexer :=
  { l with
    ch := if l.readPosition ≥ l.input.length then NUL
          else (byteAt l.input l.readPosition).getD NUL
    position := l.readPosition
    readPosition := l.readPosition + 1 }

/-- Function `NewLexer`. -/
def NewLexer (input : String) : Lexer :=
  Lexer.readRune
    { input := input.data, position := 0, readPosition := 0, ch := NUL,
      indentWidth := -1, useSpaces := false, indentStack := [0],
      dedentCount := 0 }

/-- Method `peek`. -/
def Lexer.peek (l : Lexer) : Char :=
  if l.readPosition ≥ l.input.length then NUL
  else (byteAt l.input l.readPosition).getD NUL

/-- Method `newToken`. -/
def Lexer.newToken (_l : Lexer) (tokenKind : TokenKind) (lexeme : String) : Token :=
  { Kind := tokenKind, Lexeme := lexeme }

/-- The Go loop `for cond(l.ch) { l.readRune() }`.  A state whose `ch` passes
`cond` either has input left or reads the rune 0 next, so the loop makes at
most `len(input) + 1` rounds; it is run with that fuel. -/
def Lexer.readWhile (cond : Char → Bool) : Nat → Lexer → Lexer
  | 0, l => l
  | fuel + 1, l => if cond l.ch then Lexer.readWhile cond fuel l.readRune else l

/-- Method `skipWhitespace`. -/
def Lexer.skipWhitespace (l : Lexer) : Lexer :=
  Lexer.readWhile (fun c => c = ' ' || c = '\t' || c = '\n' || c = '\r')
    (l.input.length + 1) l

/-- The comment loop of `Next`: `for l.ch != '\n' && l.ch != 0 { l.readRune() }`. -/
def Lexer.skipComment (l : Lexer) : Lexer :=
  Lexer.readWhile (fun c => c ≠ '\n' && c ≠ NUL) (l.input.length + 1) l

/-- Method `readNumber`: the lexeme and the lexer after it. -/
def Lexer.readNumber (l : Lexer) : String × Lexer :=
  let position := l.position
  let l1 := Lexer.readWhile isDigit (l.input.length + 1) l
  (slice l.input position l1.position, l1)

/-- Method `readLexeme`: the lexeme and the lexer after it. -/
def Lexer.readLexeme (l : Lexer) : String × Lexer :=
  let position := l.position
  let l1 := Lexer.readWhile
    (fun c => isAlphaNumeric c || c = '.' || c = '[' || c = ']')
    (l.input.length + 1) l
  (slice l.input position l1.position, l1)

/-- The loop of `readStringToken`, which appends each rune to the builder. -/
def Lexer.readStringLoop : Nat → Lexer → List Char → Lexer × List Char
  | 0, l, builder => (l, builder)
  | fuel + 1, l, builder =>
    if l.ch ≠ '"' && l.ch ≠ NUL then
      Lexer.readStringLoop fuel l.readRune (builder ++ writeRune l.ch)
    else (l, builder)

/-- Method `readStringToken`. -/
def Lexer.readStringToken (l : Lexer) : Token × Lexer :=
  let l1 := l.readRune
  let (l2, builder) := Lexer.readStringLoop (l1.input.length + 1) l1 []
  if l2.ch = '"' then
    let l3 := l2.readRune
    (l3.newToken .STRING (String.mk builder), l3)
  else (l2.newToken .ILLEGAL "Unclosed string", l2)

/-- The counting loop of `setIndentationMode`, run on `input[pos:]` with the
count `i` so far: `none` when the index `pos` leaves the input, where the Go
expression `l.input[pos]` panics. -/
def countSpaces : List Char → Nat → Option Nat
  | [], _ => none
  | c :: rest, i => if unicodeIsSpace c then countSpaces rest (i + 1) else some i

/-- The panic of an index expression out of range. -/
def indexPanic (i : Int) (len : Nat) : String :=
  "runtime error: index out of range [" ++ toString i ++ "] with length " ++ toString len

/-- Method `setIndentationMode`. -/
def Lexer.setIndentationMode (l : Lexer) : Outcome Lexer :=
  let isIndent : Bool :=
    l.ch = '\n' && l.peek ≠ NUL && (l.peek = ' ' || l.peek = '\t')
  if l.indentWidth ≠ -1 || !isIndent then .ok l
  else
    match byteAt l.input l.readPosition with
    | none => .panic (indexPanic l.readPosition l.input.length)
    | some c =>
      if c = '\t' then .ok { l with useSpaces := false, indentWidth := 1 }
      else
        match countSpaces (l.input.drop l.readPosition) 0 with
        | none => .panic (indexPanic l.input.length l.input.length)
        | some i => .ok { l with useSpaces := true, indentWidth := i }

/-- The loop of `readIndentLevel`: `for l.peek() == ch { indentCount += 1; l.readRune() }`.
Every round moves `readPosition` forward inside the input, so the loop makes
at most `len(input)` rounds. -/
def Lexer.readIndentLoop (ch : Char) : Nat → Lexer → Int → Lexer × Int
  | 0, l, indentCount => (l, indentCount)
  | fuel + 1, l, indentCount =>
    if l.peek = ch then Lexer.readIndentLoop ch fuel l.readRune (indentCount + 1)
    else (l, indentCount)

/-- Method `readIndentLevel`: the level and the lexer after the indentation.
Go's `/` on `int` truncates and panics on a zero divisor. -/
def Lexer.readIndentLevel (l : Lexer) : Outcome (Int × Lexer) :=
  let ch : Char := if l.useSpaces then ' ' else '\t'
  let (l1, indentCount) := Lexer.readIndentLoop ch l.input.length l 0
  if l1.useSpaces then
    if l1.indentWidth = 0 then .panic "runtime error: integer divide by zero"
    else .ok (Int.tdiv indentCount l1.indentWidth, l1)
  else .ok (indentCount, l1)

/-- The top of the indent stack, `l.indentStack[len(l.indentStack)-1]`, which
panics on an empty stack. -/
def stackTop (stack : List Int) : Outcome Int :=
  match stack.getLast? with
  | none => .panic (indexPanic (-1) 0)
  | some top => .ok top

/-- The popping loop of `Next`:
`for indentLevel < top { indentStack = indentStack[:len-1]; dedentCount++ }`.
Every round drops one entry, so `len(indentStack) + 1` rounds of fuel reach
the exit or the panic on the empty stack. -/
def popLevels (indentLevel : Int) : Nat → List Int → Int → Outcome (List Int × Int)
  | 0, _, _ => .timeout
  | fuel + 1, stack, dedentCount =>
    match stackTop stack with
    | .ok top =>
      if indentLevel < top then
        popLevels indentLevel fuel stack.dropLast (dedentCount + 1)
      else .ok (stack, dedentCount)
    | .panic msg => .panic msg
    | .error msg => .error msg
    | .timeout => .timeout

/-- The block `if l.ch == '\n' { ... }` of `Next`: `some token` when the block
returns an `INDENT` or `DEDENT` token, `none` when control falls through. -/
def Lexer.indentStep (l : Lexer) : Outcome (Option Token × Lexer) :=
  if l.ch = '\n' then
    match l.readIndentLevel with
    | .ok (indentLevel, l1) =>
      match stackTop l1.indentStack with
      | .ok top =>
        if indentLevel > top then
          let l2 := { l1 with indentStack := l1.indentStack ++ [indentLevel] }
          .ok (some (l2.newToken .INDENT ""), l2)
        else if indentLevel < top then
          match popLevels indentLevel (l1.indentStack.length + 1)
              l1.indentStack l1.dedentCount with
          | .ok (stack, dedentCount) =>
            let l2 := { l1 with indentStack := stack, dedentCount := dedentCount - 1 }
            .ok (some (l2.newToken .DEDENT ""), l2)
          | .panic msg => .panic msg
          | .error msg => .error msg
          | .timeout => .timeout
        else .ok (none, l1)
      | .panic msg => .panic msg
      | .error msg => .error msg
      | .timeout => .timeout
    | .panic msg => .panic msg
    | .error msg => .error msg
    | .timeout => .timeout
  else .ok (none, l)

/-- The token dispatch at the end of `Next`, after white space and comments. -/
def Lexer.scanToken (l : Lexer) : Token × Lexer :=
  if l.ch = '"' then l.readStringToken
  else if l.ch = '[' then
    let l1 := l.readRune
    (l1.newToken .LSQUARE "[", l1)
  else if l.ch = ']' then
    let l1 := l.readRune
    (l1.newToken .RSQUARE "]", l1)
  else if l.ch = ',' then
    let l1 := l.readRune
    (l1.newToken .COMMA ",", l1)
  else if isAlpha l.ch then
    let (lexeme, l1) := l.readLexeme
    (l1.newToken (lookupKeyword lexeme) lexeme, l1)
  else if isDigit l.ch then
    let (lexeme, l1) := l.readNumber
    (l1.newToken .NUMBER lexeme, l1)
  else if l.ch = NUL then (l.newToken .EOF "", l)
  else
    let tok := l.newToken .ILLEGAL (String.mk (writeRune l.ch))
    (tok, l.readRune)

/-- Method `Next` on a fuel counter: one unit of fuel is spent by each call of
`Next`, the first one and the recursive one after a comment. -/
def Lexer.nextFuel : Nat → Lexer → Outcome (Token × Lexer)
  | 0, _ => .timeout
  | fuel + 1, l0 =>
    match l0.setIndentationMode with
    | .ok l =>
      if l.dedentCount > 0 then
        let l1 := { l with dedentCount := l.dedentCount - 1 }
        .ok (l1.newToken .DEDENT "", l1)
      else
        match l.indentStep with
        | .ok (some token, l1) => .ok (token, l1)
        | .ok (none, l1) =>
          let l2 := l1.skipWhitespace
          if l2.ch = '#' then Lexer.nextFuel fuel l2.skipComment
          else .ok l2.scanToken
        | .panic msg => .panic msg
        | .error msg => .error msg
        | .timeout => .timeout
    | .panic msg => .panic msg
    | .error msg => .error msg
    | .timeout => .timeout

/-- Method `Next`.  Each recursive call follows a comment, which holds at
least the byte `#`, so `len(input) + 2` calls are enough. -/
def Lexer.Next (l : Lexer) : Outcome (Token × Lexer) :=
  Lexer.nextFuel (l.input.length + 2) l

/-! ## Numbers and library functions -/

/-- A Go `float64`, up to the sign of zero (which neither `==` nor the
ordering observes): not-a-number, the two infinities, and the finite values,
each given by the rational number it denotes. -/
inductive Float64 where
  | nan
  | posInf
  | negInf
  | fin (q : ℚ)
  deriving DecidableEq, Repr

/-- The Go operator `<` on `float64`. -/
def Float64.lt : Float64 → Float64 → Bool
  | .fin a, .fin b => decide (a < b)
  | .fin _, .posInf => true
  | .negInf, .fin _ => true
  | .negInf, .posInf => true
  | _, _ => false

/-- The Go operator `<=` on `float64`. -/
def Float64.le : Float64 → Float64 → Bool
  | .fin a, .fin b => decide (a ≤ b)
  | .fin _, .posInf => true
  | .negInf, .fin _ => true
  | .negInf, .posInf => true
  | .negInf, .negInf => true
  | .posInf, .posInf => true
  | _, _ => false

/-- The Go operator `==` on `float64`. -/
def Float64.eq : Float64 → Float64 → Bool
  | .fin a, .fin b => decide (a = b)
  | .negInf, .negInf => true
  | .posInf, .posInf => true
  | _, _ => false

/-- The number that a sequence of decimal digits denotes. -/
def decimalValue (digits : List Char) : Nat :=
  digits.foldl (fun n c => 10 * n + (c.toNat - 48)) 0

/-- The `float64` nearest to a natural number (ties to the even mantissa), or
`none` when that is beyond the largest finite `float64`. -/
def roundFloat64 (n : Nat) : Option ℚ :=
  if n < 2 ^ 53 then some n
  else
    let shift := Nat.log2 n - 52
    let mantissa := n / 2 ^ shift
    let rest := n % 2 ^ shift
    let half := 2 ^ (shift - 1)
    let rounded :=
      if rest > half || (rest = half && mantissa % 2 = 1) then mantissa + 1 else mantissa
    if rounded * 2 ^ shift ≥ 2 ^ 1024 then none
    else some ((rounded * 2 ^ shift : Nat) : ℚ)

/-- The Go function `strconv.ParseFloat(s, 64)` on the lexemes `readNumber`
produces, the non-empty sequences of decimal digits: the nearest `float64`,
or the range error.  Every other string is reported as a syntax error. -/
def ParseFloat (s : String) : Outcome Float64 :=
  if s.data ≠ [] ∧ s.data.all isDigit = true then
    match roundFloat64 (decimalValue s.data) with
    | some q => .ok (.fin q)
    | none => .error ("strconv.ParseFloat: parsing \"" ++ s ++ "\": value out of range")
  else .error ("strconv.ParseFloat: parsing \"" ++ s ++ "\": invalid syntax")

/-- The Go function `strconv.Atoi` on a 64-bit `int`: the value and whether
the error is non-nil.  A number out of range is clamped to the nearest bound
and comes with an error; a string that is not an optional sign followed by
decimal digits gives 0 and an error. -/
def Atoi (s : List Char) : Int × Bool :=
  let negative : Bool := s.head? = some '-'
  let digits : List Char := if s.head? = some '-' ∨ s.head? = some '+' then s.tail else s
  if digits ≠ [] ∧ digits.all isDigit = true then
    let n := decimalValue digits
    if negative then
      if n > 2 ^ 63 then (-(2 ^ 63 : Int), true) else (-(n : Int), false)
    else
      if n ≥ 2 ^ 63 then ((2 ^ 63 - 1 : Int), true) else ((n : Int), false)
  else (0, true)

/-- The verb `%d` on an `int`. -/
def formatInt : Int → String
  | .ofNat n => Nat.repr n
  | .negSucc n => "-" ++ Nat.repr (n + 1)

/-- The Go function `strings.HasPrefix`. -/
def stringsHasPrefix (s pre : String) : Bool := pre.data.isPrefixOf s.data

/-- The Go function `strings.HasSuffix`. -/
def stringsHasSuffix (s suf : String) : Bool := suf.data.isSuffixOf s.data

/-- Whether the byte sequence `sub` occurs in a byte sequence. -/
def containsBytes (sub : List Char) : List Char → Bool
  | [] => sub.isEmpty
  | c :: rest => sub.isPrefixOf (c :: rest) || containsBytes sub rest

/-- The Go function `strings.Contains`. -/
def stringsContains (s sub : String) : Bool := containsBytes sub.data s.data

/-- The class `\w` of Go regular expressions: `[0-9A-Za-z_]`. -/
def isWordChar (c : Char) : Bool := isAlphaNumeric c

/-- The call `FindAllString(s, -1)` of the pattern `(\w+|\[\d+\])`: the
successive leftmost matches.  At a word character the first alternative takes
the longest run of word characters; at `[` the second alternative takes the
digits up to `]` when there is at least one digit and the `]` follows;
anywhere else no match starts and the scan moves on by one byte.  Each round
consumes input, so `len(s)` rounds of fuel reach the end. -/
def findAllSegments : Nat → List Char → List String
  | 0, _ => []
  | _, [] => []
  | fuel + 1, c :: rest =>
    if isWordChar c then
      String.mk (c :: rest.takeWhile isWordChar) ::
        findAllSegments fuel (rest.dropWhile isWordChar)
    else if c = '[' then
      match rest.takeWhile isDigit, rest.dropWhile isDigit with
      | d :: ds, r :: after =>
        if r = ']' then
          String.mk ('[' :: (d :: ds) ++ [']']) :: findAllSegments fuel after
        else findAllSegments fuel rest
      | _, _ => findAllSegments fuel rest
    else findAllSegments fuel rest

/-- The matches of `regexp.MustCompile("(\\w+|\\[\\d+\\])").FindAllString(s, -1)`. -/
def FindAllString (s : String) : List String := findAllSegments s.data.length s.data

/-! ## Package parser -/

/-- The values an `interface{}` of this program holds (`parser.SingleValue`):
the four literal kinds that `parseValue` builds (nil, bool, float64, string)
and, in a context, `map[string]interface{}` and `[]interface{}`.  A map is
given by its entries; a key is looked up from the front. -/
inductive SingleValue where
  | null
  | bool (b : Bool)
  | num (f : Float64)
  | str (s : String)
  | map (entries : List (String × SingleValue))
  | seq (elems : List SingleValue)
  deriving Repr

/-- The type `parser.Value`, a slice of values. -/
abbrev Value := List SingleValue

/-- The struct `Condition`. -/
structure Condition where
  Field : String
  Operator : String
  Value : Value
  Negate : Bool
  deriving Repr

/-- What `ParseNext` returns and what `Group.Children` holds: a `*Condition`
or a `*Group` with its `LogicalOp` and `Children`. -/
inductive Statement where
  | condition (cond : Condition)
  | group (LogicalOp : String) (Children : List Statement)
  deriving Repr

/-- The struct `Parser`.  The field `peekToken` is never read nor written and
is left out. -/
structure Parser where
  lexer : Lexer
  currToken : Token
  deriving DecidableEq, Repr

/-- The bind of `Outcome`: the rest of the code runs after a normal return. -/
def Outcome.bind {α β : Type} (x : Outcome α) (f : α → Outcome β) : Outcome β :=
  match x with
  | .ok a => f a
  | .error msg => .error msg
  | .panic msg => .panic msg
  | .timeout => .timeout

instance : Monad Outcome where
  pure := Outcome.ok
  bind := Outcome.bind

/-- The loop `for p.currToken.Kind == lexer.INDENT { p.currToken = p.lexer.Next() }`
of `nextToken`. -/
def Parser.skipIndent : Nat → Parser → Outcome Parser
  | 0, _ => .timeout
  | fuel + 1, p =>
    if p.currToken.Kind = .INDENT then
      match p.lexer.Next with
      | .ok (token, lexer) => Parser.skipIndent fuel { lexer := lexer, currToken := token }
      | .panic msg => .panic msg
      | .error msg => .error msg
      | .timeout => .timeout
    else .ok p

/-- Method `nextToken`. -/
def Parser.nextToken (fuel : Nat) (p : Parser) : Outcome Parser :=
  match p.lexer.Next with
  | .ok (token, lexer) => Parser.skipIndent fuel { lexer := lexer, currToken := token }
  | .panic msg => .panic msg
  | .error msg => .error msg
  | .timeout => .timeout

/-- Function `NewParser`.  The parser starts with the zero `Token` in
`currToken`, which `nextToken` overwrites without reading it; a token of kind
`EOF` stands for it. -/
def NewParser (fuel : Nat) (lexer : Lexer) : Outcome Parser :=
  Parser.nextToken fuel { lexer := lexer, currToken := { Kind := .EOF, Lexeme := "" } }

/-- Function `parseValue`. -/
def parseValue (token : Token) : Outcome SingleValue :=
  match token.Kind with
  | .TRUE => .ok (.bool true)
  | .FALSE => .ok (.bool false)
  | .NIL => .ok .null
  | .NUMBER =>
    match ParseFloat token.Lexeme with
    | .ok number => .ok (.num number)
    | .error err => .panic ("Invalid number literal: " ++ err)
    | .panic msg => .panic msg
    | .timeout => .timeout
  | .STRING => .ok (.str token.Lexeme)
  | _ => .ok .null

/-- Function `allowedNegateSuffix`. -/
def allowedNegateSuffix (op : String) : Bool :=
  op = "in" || op = "contains" || op = "between" || op = "startsWith" || op = "endsWith"

/-- Method `parseRange`. -/
def Parser.parseRange (fuel : Nat) (p : Parser) : Outcome (Value × Parser) := do
  let low ← parseValue p.currToken
  let p1 ← p.nextToken fuel
  if p1.currToken.Kind ≠ .AND then .panic "Expected 'and' in range condition"
  else do
    let p2 ← p1.nextToken fuel
    let high ← parseValue p2.currToken
    pure ([low, high], p2)

/-- The loop of `parseArray`, with the values collected so far.  The loop has
no bound of its own: it runs until the current token is `RSQUARE`. -/
def Parser.parseArrayLoop (fuel : Nat) : Nat → Parser → Value → Outcome (Value × Parser)
  | 0, _, _ => .timeout
  | rounds + 1, p, arrayValues =>
    if p.currToken.Kind ≠ .RSQUARE then do
      let value ← parseValue p.currToken
      let p1 ← p.nextToken fuel
      let p2 ← if p1.currToken.Kind = .COMMA then p1.nextToken fuel else pure p1
      Parser.parseArrayLoop fuel rounds p2 (arrayValues ++ [value])
    else .ok (arrayValues, p)

/-- Method `parseArray`.  The check after the loop cannot fail: the loop ends
only on `RSQUARE`. -/
def Parser.parseArray (fuel : Nat) (p : Parser) : Outcome (Value × Parser) := do
  let p1 ← p.nextToken fuel
  let (arrayValues, p2) ← Parser.parseArrayLoop fuel fuel p1 []
  if p2.currToken.Kind ≠ .RSQUARE then .panic "Expected ']' to close array"
  else pure (arrayValues, p2)

/-- Method `parseCondition`. -/
def Parser.parseCondition (fuel : Nat) (p : Parser) : Outcome (Condition × Parser) := do
  let field := p.currToken.Lexeme
  let p1 ← p.nextToken fuel
  let negate : Bool := decide (p1.currToken.Kind = .NOT)
  let p2 ← if p1.currToken.Kind = .NOT then p1.nextToken fuel else pure p1
  let operator := p2.currToken.Lexeme
  if negate && !allowedNegateSuffix operator then
    .panic ("Negation is not supported for operator: " ++ operator)
  else do
    let p3 ← p2.nextToken fuel
    let (value, p4) ←
      if operator = "between" then p3.parseRange fuel
      else if p3.currToken.Kind = .LSQUARE then p3.parseArray fuel
      else do
        let single ← parseValue p3.currToken
        pure ([single], p3)
    pure ({ Field := field, Operator := operator, Value := value, Negate := negate }, p4)

/-- The loop of `parseGroup` over the children of a group, with the children
collected so far; `parseGroup` stands for the recursive call. -/
def Parser.parseGroupLoop (parseGroup : Parser → Outcome (Statement × Parser))
    (fuel : Nat) : Nat → Parser → List Statement → Outcome (List Statement × Parser)
  | 0, _, _ => .timeout
  | rounds + 1, p, children =>
    if p.currToken.Kind ≠ .DEDENT ∧ p.currToken.Kind ≠ .EOF then do
      let (children1, p1) ←
        if p.currToken.Kind = .GROUP then do
          let (child, p1) ← parseGroup p
          pure (children ++ [child], p1)
        else if p.currToken.Kind = .IDENT then do
          let (child, p1) ← p.parseCondition fuel
          pure (children ++ [Statement.condition child], p1)
        else pure (children, p)
      let p2 ← p1.nextToken fuel
      Parser.parseGroupLoop parseGroup fuel rounds p2 children1
    else .ok (children, p)

/-- Method `parseGroup`; `depth` bounds the nesting of the recursive calls. -/
def Parser.parseGroup (fuel : Nat) : Nat → Parser → Outcome (Statement × Parser)
  | 0, _ => .timeout
  | depth + 1, p => do
    let p1 ← p.nextToken fuel
    if p1.currToken.Kind ≠ .AND ∧ p1.currToken.Kind ≠ .OR then
      .panic ("Expected logical operator 'and' or 'or', got: " ++ p1.currToken.Lexeme)
    else do
      let logicalOp := p1.currToken.Lexeme
      let p2 ← p1.nextToken fuel
      let (children, p3) ← Parser.parseGroupLoop (Parser.parseGroup fuel depth) fuel fuel p2 []
      pure (Statement.group logicalOp children, p3)

/-- Method `ParseNext`: `none` is the nil result at the end of the input.
`fuel` bounds each loop of the parser and the nesting of groups. -/
def Parser.ParseNext (fuel : Nat) (p : Parser) : Outcome (Option Statement × Parser) :=
  if p.currToken.Kind = .EOF then .ok (none, p)
  else do
    let (result, p1) ←
      if p.currToken.Kind = .GROUP then p.parseGroup fuel fuel
      else if p.currToken.Kind = .IDENT then do
        let (cond, p1) ← p.parseCondition fuel
        pure (Statement.condition cond, p1)
      else
        .panic ("Unexpected token: '" ++ p.currToken.Lexeme ++ "' of kind '" ++
          p.currToken.Kind.name ++ "'")
    let p2 ← p1.nextToken fuel
    pure (some result, p2)

/-! ## Package evaluator -/

/-- The verb `%T` on an `interface{}` value. -/
def typeName : SingleValue → String
  | .null => "<nil>"
  | .bool _ => "bool"
  | .num _ => "float64"
  | .str _ => "string"
  | .map _ => "map[string]interface \x7b\x7d"
  | .seq _ => "[]interface \x7b\x7d"

/-- The Go operator `==` on two `interface{}` values: values of different
dynamic types are unequal, values of one comparable type are compared, and
two values of one type that is not comparable (maps, slices) make the
comparison panic. -/
def interfaceEq : SingleValue → SingleValue → Outcome Bool
  | .null, .null => .ok true
  | .bool a, .bool b => .ok (a == b)
  | .num a, .num b => .ok (Float64.eq a b)
  | .str a, .str b => .ok (a == b)
  | .map _, .map _ =>
    .panic "runtime error: comparing uncomparable type map[string]interface \x7b\x7d"
  | .seq _, .seq _ =>
    .panic "runtime error: comparing uncomparable type []interface \x7b\x7d"
  | _, _ => .ok false

/-- The type assertion `conditionValue.(string)` in its one-result form on an
operand, whose static type is `parser.SingleValue`: it panics on any dynamic
type other than `string`, and the panic names the static type. -/
def assertString : SingleValue → Outcome String
  | .str s => .ok s
  | .null => .panic "interface conversion: parser.SingleValue is nil, not string"
  | v => .panic ("interface conversion: parser.SingleValue is " ++ typeName v ++ ", not string")

/-- The index expression `m[key]` on a `map[string]interface{}`: nil for an
absent key. -/
def mapIndex (entries : List (String × SingleValue)) (key : String) : SingleValue :=
  match entries.find? (fun entry => entry.1 = key) with
  | some entry => entry.2
  | none => .null

/-- Function `applyNegation`. -/
def applyNegation (result : Bool) (negate : Bool) : Bool :=
  if negate then !result else result

/-- Function `evaluateIn`. -/
def evaluateIn (fieldValue : SingleValue) (values : Value) (negate : Bool) : Outcome Bool :=
  match values with
  | [] => .ok (applyNegation false negate)
  | val :: rest =>
    match interfaceEq fieldValue val with
    | .ok true => .ok (applyNegation true negate)
    | .ok false => evaluateIn fieldValue rest negate
    | .error msg => .error msg
    | .panic msg => .panic msg
    | .timeout => .timeout

/-- Function `compareNumeric`. -/
def compareNumeric (fieldValue conditionValue : SingleValue) (operator : String)
    (negate : Bool) : Outcome Bool :=
  match fieldValue, conditionValue with
  | .num fieldFloat, .num conditionFloat =>
    let result : Bool :=
      if operator = "lt" then Float64.lt fieldFloat conditionFloat
      else if operator = "gt" then Float64.lt conditionFloat fieldFloat
      else if operator = "lte" then Float64.le fieldFloat conditionFloat
      else if operator = "gte" then Float64.le conditionFloat fieldFloat
      else false
    .ok (applyNegation result negate)
  | _, _ =>
    .error ("invalid types for numeric comparison: " ++ typeName fieldValue ++ " and " ++
      typeName conditionValue)

/-- Function `evaluateBetween`. -/
def evaluateBetween (fieldValue : SingleValue) (values : Value) (negate : Bool) : Outcome Bool :=
  match values with
  | [] => .panic (indexPanic 0 0)
  | [_] => .panic (indexPanic 1 1)
  | lowValue :: highValue :: _ =>
    match fieldValue, lowValue, highValue with
    | .num fieldFloat, .num low, .num high =>
      let result := Float64.le low fieldFloat && Float64.le fieldFloat high
      .ok (applyNegation result negate)
    | _, _, _ => .error "invalid types for 'between' operator"

/-- One round of the loop of `resolveFieldValue`: the segment `m` applied to
the current value. -/
def resolveSegment (current : SingleValue) (m : String) : Outcome SingleValue :=
  match current with
  | .map cur => .ok (mapIndex cur m)
  | .seq cur =>
    if !stringsHasPrefix m "[" || !stringsHasSuffix m "]" then
      .error ("invalid array index: " ++ m)
    else
      let value := (m.data.drop 1).take (m.data.length - 1 - 1)
      let (index, err) := Atoi value
      if index < 0 || index ≥ (cur.length : Int) then
        .error ("array index out of range: " ++ formatInt index)
      else if err then .error ("invalid array index: " ++ m)
      else
        match cur.get? index.toNat with
        | some elem => .ok elem
        | none => .panic (indexPanic index cur.length)
  | _ => .error ("invalid field path: " ++ m)

/-- The loop of `resolveFieldValue` over the matches. -/
def resolveSegments : SingleValue → List String → Outcome SingleValue
  | current, [] => .ok current
  | current, m :: rest =>
    match resolveSegment current m with
    | .ok next => resolveSegments next rest
    | .error msg => .error msg
    | .panic msg => .panic msg
    | .timeout => .timeout

/-- Function `resolveFieldValue`. -/
def resolveFieldValue (fieldName : String) (context : SingleValue) : Outcome SingleValue :=
  resolveSegments context (FindAllString fieldName)

/-- Function `evaluateCondition`. -/
def evaluateCondition (cond : Condition) (context : List (String × SingleValue)) :
    Outcome Bool :=
  match resolveFieldValue cond.Field (.map context) with
  | .ok fieldValue =>
    match cond.Value with
    | [] => .panic (indexPanic 0 0)
    | conditionValue :: _ =>
      if cond.Operator = "lt" ∨ cond.Operator = "gt" ∨ cond.Operator = "lte" ∨
          cond.Operator = "gte" then
        compareNumeric fieldValue conditionValue cond.Operator cond.Negate
      else if cond.Operator = "eq" then
        (interfaceEq fieldValue conditionValue).bind fun equal =>
          .ok (applyNegation equal cond.Negate)
      else if cond.Operator = "neq" then
        (interfaceEq fieldValue conditionValue).bind fun equal =>
          .ok (applyNegation (!equal) cond.Negate)
      else if cond.Operator = "contains" then
        match fieldValue with
        | .str strVal =>
          (assertString conditionValue).bind fun sub =>
            .ok (applyNegation (stringsContains strVal sub) cond.Negate)
        | _ => .error "the field value is not a string for 'contains' operator"
      else if cond.Operator = "between" then
        evaluateBetween fieldValue cond.Value cond.Negate
      else if cond.Operator = "startsWith" then
        match fieldValue with
        | .str strVal =>
          (assertString conditionValue).bind fun pre =>
            .ok (applyNegation (stringsHasPrefix strVal pre) cond.Negate)
        | _ => .error "the field value is not a string for 'startsWith' operator"
      else if cond.Operator = "endsWith" then
        match fieldValue with
        | .str strVal =>
          (assertString conditionValue).bind fun suf =>
            .ok (applyNegation (stringsHasSuffix strVal suf) cond.Negate)
        | _ => .error "field value is not a string for 'endsWith' operator"
      else if cond.Operator = "in" then
        evaluateIn fieldValue cond.Value cond.Negate
      else .error ("unknown operator '" ++ cond.Operator ++ "'")
  | .error msg => .error msg
  | .panic msg => .panic msg
  | .timeout => .timeout

/-- Function `evaluateGroup`, on the fields of the group, together with the
dispatch of its loop on the kind of a child (`evaluateChild`) and the loop
itself with the result so far (`evaluateChildren`). -/
def evaluateGroup (logicalOp : String) (children : List Statement)
    (context : List (String × SingleValue)) : Outcome Bool :=
  evaluateChildren logicalOp children context (decide (logicalOp = "and"))
where
  /-- The `switch child := child.(type)` of the loop. -/
  evaluateChild (child : Statement) (context : List (String × SingleValue)) : Outcome Bool :=
    match child with
    | .condition cond => evaluateCondition cond context
    | .group logicalOp children =>
      evaluateChildren logicalOp children context (decide (logicalOp = "and"))
  /-- The loop `for _, child := range group.Children`. -/
  evaluateChildren (logicalOp : String) (children : List Statement)
      (context : List (String × SingleValue)) (result : Bool) : Outcome Bool :=
    match children with
    | [] => .ok result
    | child :: rest =>
      match evaluateChild child context with
      | .ok childResult =>
        evaluateChildren logicalOp rest context
          (if logicalOp = "and" then result && childResult else result || childResult)
      | .error msg => .error msg
      | .panic msg => .panic msg
      | .timeout => .timeout

/-- The loop of `Evaluate`: `rounds` bounds the number of statements read,
`fuel` is the fuel of each `ParseNext`.  The default case of the type switch
is not reached: `ParseNext` returns a condition, a group or nil. -/
def evaluateLoop (fuel : Nat) : Nat → Parser → List (String × SingleValue) → Outcome Bool
  | 0, _, _ => .timeout
  | rounds + 1, p, context =>
    match p.ParseNext fuel with
    | .ok (none, _) => .ok true
    | .ok (some (.condition item), p1) =>
      match evaluateCondition item context with
      | .ok conditionResult =>
        if !conditionResult then .ok false else evaluateLoop fuel rounds p1 context
      | .error msg => .error msg
      | .panic msg => .panic msg
      | .timeout => .timeout
    | .ok (some (.group logicalOp children), p1) =>
      match evaluateGroup logicalOp children context with
      | .ok groupResult =>
        if !groupResult then .ok false else evaluateLoop fuel rounds p1 context
      | .error msg => .error msg
      | .panic msg => .panic msg
      | .timeout => .timeout
    | .error msg => .error msg
    | .panic msg => .panic msg
    | .timeout => .timeout

/-- Function `Evaluate`: `ok b` is the return `(b, nil)` and `error msg` the
return `(false, err)`. -/
def Evaluate (fuel : Nat) (p : Parser) (context : List (String × SingleValue)) : Outcome Bool :=
  evaluateLoop fuel fuel p context

/-- Function `EvaluateLogix` of `main.go`. -/
def EvaluateLogix (fuel : Nat) (logixContent : String)
    (context : List (String × SingleValue)) : Outcome Bool :=
  match NewParser fuel (NewLexer logixContent) with
  | .ok pr => Evaluate fuel pr context
  | .error msg => .error msg
  | .panic msg => .panic msg
  | .timeout => .timeout

/-! ## Notions used to state the properties -/

/-- The outcome of the negated condition in terms of the outcome of the
un-negated one: a boolean is complemented, an error or a panic is kept. -/
def complementOutcome : Outcome Bool → Outcome Bool
  | .ok b => .ok (!b)
  | other => other

/-- A segment of a field path: an identifier segment (a key), or an index
segment written `[digits]`. -/
inductive Segment where
  | key (name : String)
  | index (digits : String)
  deriving DecidableEq, Repr

/-- The text that the pattern of `resolveFieldValue` matches for a segment. -/
def Segment.text : Segment → String
  | .key name => name
  | .index digits => String.mk ('[' :: digits.data ++ [']'])

/-- A key is a non-empty run of word characters; an index is a non-empty run
of decimal digits. -/
def Segment.wellFormed : Segment → Bool
  | .key name => !name.data.isEmpty && name.data.all isWordChar
  | .index digits => !digits.data.isEmpty && digits.data.all isDigit

/-- An index segment denotes an index that fits a 64-bit `int`, as every
index into a Go slice does. -/
def Segment.fitsInt : Segment → Bool
  | .key _ => true
  | .index digits => decide (decimalValue digits.data < 2 ^ 63)

/-- The text of the segments of a path when each key is written after a dot:
`.category`, `[0]`. -/
def pathTail : List Segment → List Char
  | [] => []
  | .key name :: rest => '.' :: name.data ++ pathTail rest
  | .index digits :: rest => '[' :: digits.data ++ ']' :: pathTail rest

/-- The text of a field path: its segments in order, a key that is not the
first segment being written after a dot, as in `products[0].category.name`. -/
def pathText : List Segment → String
  | [] => ""
  | .key name :: rest => String.mk (name.data ++ pathTail rest)
  | .index digits :: rest => String.mk ('[' :: digits.data ++ ']' :: pathTail rest)

/-- The value reached from `value` by following the segments in order: a key
selects the entry of a mapping that holds it, an index selects the element
of a sequence at that position; `none` when a mapping lacks the key, the
index is not inside the sequence, or the value is of the other kind. -/
def follow : SingleValue → List Segment → Option SingleValue
  | value, [] => some value
  | .map entries, .key name :: rest =>
    match entries.find? (fun entry => entry.1 = name) with
    | some entry => follow entry.2 rest
    | none => none
  | .seq elems, .index digits :: rest =>
    match elems.get? (decimalValue digits.data) with
    | some elem => follow elem rest
    | none => none
  | _, _ => none

/-- The lexer that has read `before` and has `rest` ahead of it: the input is
`before ++ rest`, the current rune `ch` is the first byte of `rest` (the rune
0 when `rest` is empty), and the indentation fields are those of `base`. -/
def Lexer.atSplit (before rest : List Char) (base : Lexer) : Lexer :=
  { base with
    input := before ++ rest
    position := before.length
    readPosition := before.length + 1
    ch := rest.headD NUL }

/-- The indentation fields of a lexer made by `NewLexer`. -/
def initialLexer : Lexer :=
  { input := [], position := 0, readPosition := 0, ch := NUL, indentWidth := -1,
    useSpaces := false, indentStack := [0], dedentCount := 0 }

/-- The bytes that `readLexeme` takes into a lexeme. -/
def isLexemeChar (c : Char) : Bool := isAlphaNumeric c || c = '.' || c = '[' || c = ']'

/-- A piece of rule text that the tokenizer reads as one token: a word (an
identifier or keyword lexeme), a number, or a string literal given by its
content. -/
inductive Lexical where
  | word (chars : List Char)
  | number (digits : List Char)
  | string (content : List Char)
  deriving DecidableEq, Repr

/-- The text of a piece: a string literal is written between double quotes. -/
def Lexical.text : Lexical → List Char
  | .word chars => chars
  | .number digits => digits
  | .string content => '"' :: content ++ ['"']

/-- A word starts with a letter or underscore and goes on with lexeme bytes;
a number is a non-empty run of digits; the content of a string literal has
no double quote and no byte 0, and is ASCII. -/
def Lexical.wellFormed : Lexical → Bool
  | .word chars => (chars.head?.map isAlpha).getD false && chars.all isLexemeChar
  | .number digits => !digits.isEmpty && digits.all isDigit
  | .string content => content.all fun c => c ≠ '"' && c ≠ NUL && decide (c.toNat < 128)

/-- The token of a piece. -/
def Lexical.token : Lexical → Token
  | .word chars => { Kind := lookupKeyword (String.mk chars), Lexeme := String.mk chars }
  | .number digits => { Kind := .NUMBER, Lexeme := String.mk digits }
  | .string content => { Kind := .STRING, Lexeme := String.mk content }

/-- Whether the text `rest` that follows a piece leaves the piece as it is:
a word ends before a byte that is no lexeme byte, a number before a byte that
is no digit, a string literal at its closing quote. -/
def Lexical.endsBefore : Lexical → List Char → Bool
  | .word _, rest => (rest.head?.map fun c => !isLexemeChar c).getD true
  | .number _, rest => (rest.head?.map fun c => !isDigit c).getD true
  | .string _, _ => true

/-- A scalar literal of the grammar: a string literal, a number, `true`,
`false` or `nil`. -/
inductive Scalar where
  | string (content : List Char)
  | number (digits : List Char)
  | boolTrue
  | boolFalse
  | null
  deriving DecidableEq, Repr

/-- The piece of text of a scalar literal. -/
def Scalar.lexical : Scalar → Lexical
  | .string content => .string content
  | .number digits => .number digits
  | .boolTrue => .word "true".data
  | .boolFalse => .word "false".data
  | .null => .word "nil".data

/-- The value that a scalar literal denotes: the content of a string literal,
the `float64` nearest to a number (none beyond the range of `float64`), a
boolean, or nil. -/
def Scalar.value : Scalar → Option SingleValue
  | .string content => some (.str (String.mk content))
  | .number digits => (roundFloat64 (decimalValue digits)).map fun q => .num (.fin q)
  | .boolTrue => some (.bool true)
  | .boolFalse => some (.bool false)
  | .null => some .null

/-- Pieces of text written one after the other with one space between them. -/
def spaced : List (List Char) → List Char
  | [] => []
  | [piece] => piece
  | piece :: rest => piece ++ ' ' :: spaced rest

/-- The rule text made of the given pieces, one space between them. -/
def ruleText (pieces : List (List Char)) : String := String.mk (spaced pieces)

/-- Successive calls of `ParseNext` from the parser `p` return the statements
`stmts`, in order, and leave the parser `q`. -/
def readsStatements (fuel : Nat) : Parser → List Statement → Parser → Prop
  | p, [], q => p = q
  | p, stmt :: rest, q =>
    ∃ p1, p.ParseNext fuel = .ok (some stmt, p1) ∧ readsStatements fuel p1 rest q

/-- The outcome of the call of `Next` that comes after `n` earlier calls. -/
def Lexer.nextAfter : Nat → Lexer → Outcome (Token × Lexer)
  | 0, l => l.Next
  | n + 1, l =>
    match l.Next with
    | .ok (_, l1) => Lexer.nextAfter n l1
    | other => other


/-- The conditions of a statement, at any depth, in source order. -/
def Statement.conditions : Statement → List Condition
  | .condition cond => [cond]
  | .group _ children => conditionsOfList children
where
  /-- The conditions of a list of statements. -/
  conditionsOfList : List Statement → List Condition
    | [] => []
    | stmt :: rest => stmt.conditions ++ conditionsOfList rest

/-- The result of a child of a group, in the words of the specification: a
condition is evaluated by `evaluateCondition`, a nested group by
`evaluateGroup`, that is, in the same way as the group that holds it. -/
def Statement.result (context : List (String × SingleValue)) : Statement → Outcome Bool
  | .condition cond => evaluateCondition cond context
  | .group logicalOp children => evaluateGroup logicalOp children context

/-- Whether a scalar literal is written as the grammar asks: the content of a
string literal has no double quote and no byte 0 (every other byte may
occur), a number is a non-empty run of digits. -/
def Scalar.isLiteral : Scalar → Bool
  | .string content => content.all fun c => c ≠ '"' && c ≠ NUL
  | .number digits => !digits.isEmpty && digits.all isDigit
  | _ => true

/-- The bytes that `readStringToken` collects for the content of a string
literal: each byte goes through `WriteRune`. -/
def writtenRunes (content : List Char) : List Char := content.flatMap writeRune

/-- The token that the tokenizer makes of a scalar literal. -/
def Scalar.token : Scalar → Token
  | .string content => { Kind := .STRING, Lexeme := String.mk (writtenRunes content) }
  | v => v.lexical.token


/-- The lexer `l` returns the tokens `tokens`, one call of `Next` after the
other, and is then the lexer `final`. -/
def Lexer.yields : Lexer → List Token → Lexer → Prop
  | l, [], final => l = final
  | l, token :: rest, final => ∃ l1, l.Next = .ok (token, l1) ∧ Lexer.yields l1 rest final

/-- The token sequence `tokens` is a statement of the grammar that stands for
`stmt`.  A condition is a sequence that starts with an `IDENT` token and from
which `parseCondition` reads the condition, ending on its last token.  A
group is `group`, the token `and` or `or`, `INDENT`, the token sequences of
its children in order, and `DEDENT`, in whose place the end of the input may
stand. -/
def Statement.writtenAs (fuel : Nat) : Statement → List Token → Prop
  | .condition cond, tokens =>
    ∃ first rest, tokens = first :: rest ∧ first.Kind = .IDENT ∧
      ∀ l final, l.yields rest final →
        Parser.parseCondition fuel { lexer := l, currToken := first } =
          .ok (cond, { lexer := final, currToken := rest.getLastD first })
  | .group logicalOp children, tokens =>
    ∃ header op indent body close,
      tokens = header :: op :: indent :: (body ++ [close]) ∧
      header.Kind = .GROUP ∧ (op.Kind = .AND ∨ op.Kind = .OR) ∧ op.Lexeme = logicalOp ∧
      indent.Kind = .INDENT ∧ (close.Kind = .DEDENT ∨ close.Kind = .EOF) ∧
      writtenAsList fuel children body
where
  /-- The token sequence is the token sequences of the statements, in order. -/
  writtenAsList (fuel : Nat) : List Statement → List Token → Prop
    | [], tokens => tokens = []
    | stmt :: rest, tokens =>
      ∃ front back, tokens = front ++ back ∧ stmt.writtenAs fuel front ∧
        writtenAsList fuel rest back

/-- The first tokens that the tokenizer returns, `n` at most. -/
def Lexer.take : Nat → Lexer → List Token
  | 0, _ => []
  | n + 1, l =>
    match l.Next with
    | .ok (token, l1) => token :: Lexer.take n l1
    | _ => []

/-- A line of a rule text: its nesting level, its content (from its first
token to its last), what follows the content up to the line break (nothing
or a comment), and the tokens of its content.  A line that holds only a
comment has no content and no tokens. -/
structure Line where
  level : Nat
  content : List Char
  comment : List Char
  tokens : List Token

/-- A line written with `k` spaces for each level. -/
def Line.render (k : Nat) (line : Line) : List Char :=
  List.replicate (line.level * k) ' ' ++ (line.content ++ line.comment)

/-- The lines after the first: each one follows a line break. -/
def renderLines (k : Nat) : List Line → List Char
  | [] => []
  | line :: rest => '\n' :: (line.render k ++ renderLines k rest)

/-- The rule text of a first line and the lines after it, with `k` spaces for
each level. -/
def renderText (k : Nat) (first : Line) (rest : List Line) : String :=
  String.mk (first.render k ++ renderLines k rest)

/-- What may stand between the content of a line and the line break:
nothing, or spaces and tabs (if any), the byte `#` and the text of the
comment, which has no line break and no byte 0. -/
def isLineComment (comment : List Char) : Bool :=
  match comment.dropWhile (fun c => c = ' ' || c = '\t') with
  | [] => comment.isEmpty
  | c :: text => c = '#' && text.all (fun d => d ≠ '\n' && d ≠ NUL)

/-- The line ends in nothing or in a comment, and either it holds only a
comment, which starts at the byte `#`, or its content starts with a token
(with no white space and no comment) and the tokenizer reads from it the
tokens of the line, up to the end of the content, whatever text has been
read before and whatever follows the line break. -/
def Line.wellFormed (line : Line) : Prop :=
  isLineComment line.comment = true ∧
  ((line.content = [] ∧ line.tokens = [] ∧ line.comment.head? = some '#') ∨
    ((∃ c cs, line.content = c :: cs ∧ unicodeIsSpace c = false ∧ c ≠ '#') ∧
      ∀ (before rest : List Char) (base : Lexer), ¬ base.dedentCount > 0 →
        (∀ c ∈ rest.head?, c = '\n') →
        (Lexer.atSplit before (line.content ++ (line.comment ++ rest)) base).yields line.tokens
          (Lexer.atSplit (before ++ line.content) (line.comment ++ rest) base)))

/-- The lexer `l` returns the tokens `tokens` and is then in a state from
which `Next` returns what it returns from `final`: the two states differ by
a comment that `Next` passes over. -/
def Lexer.reaches (l : Lexer) (tokens : List Token) (final : Lexer) : Prop :=
  ∃ l1, l.yields tokens l1 ∧ l1.Next = final.Next

/-- The lexer stands on a byte of its input or at its end, with
`readPosition` one after `position`. -/
def Lexer.proper (l : Lexer) : Prop :=
  l.readPosition = l.position + 1 ∧ (l.ch ≠ NUL → l.position < l.input.length)

/-- The lexer `b` reads the input of `a` and does not stand before `a`. -/
def Lexer.follows (a b : Lexer) : Prop :=
  b.input = a.input ∧ a.position ≤ b.position ∧ b.proper

/-- The indentation that the tokenizer has seen: the level of the line that
set the width of one step (none before the first indented line) and the
levels of the open blocks, the innermost first. -/
structure Indentation where
  unit : Option Nat
  levels : List Nat

/-- Closing the blocks deeper than `level`: the levels left and the number
of blocks closed. -/
def closeLevels (level : Nat) : List Nat → List Nat × Nat
  | [] => ([], 0)
  | top :: below =>
    if level < top then ((closeLevels level below).1, (closeLevels level below).2 + 1)
    else (top :: below, 0)

/-- The step of a line in units of the first indented line. -/
def Indentation.step (st : Indentation) (n : Nat) : Option Nat :=
  if st.unit.isNone && decide (0 < n) then some n else st.unit

/-- The depth of a line of level `n`, in steps. -/
def Indentation.depth (st : Indentation) (n : Nat) : Nat :=
  match st.step n with
  | none => 0
  | some u => n / u

/-- The indentation once the line break before a line of level `n` has been
seen. -/
def Indentation.withStep (st : Indentation) (n : Nat) : Indentation :=
  { unit := st.step n, levels := st.levels }

/-- The step is not zero and the outermost level is 0. -/
def Indentation.sound (st : Indentation) : Prop :=
  (∀ u, st.unit = some u → 0 < u) ∧ st.levels.getLast? = some 0

/-- The tokens that a line break before a line of level `n` gives, and the
indentation after it: `INDENT` when the line is deeper than the innermost
open block, one `DEDENT` for each block that it closes. -/
def Indentation.enter (st : Indentation) (n : Nat) : List Token × Indentation :=
  if st.levels.headD 0 < st.depth n then
    ([{ Kind := .INDENT, Lexeme := "" }],
      { unit := st.step n, levels := st.depth n :: st.levels })
  else if st.depth n < st.levels.headD 0 then
    (List.replicate (closeLevels (st.depth n) st.levels).2 { Kind := .DEDENT, Lexeme := "" },
      { unit := st.step n, levels := (closeLevels (st.depth n) st.levels).1 })
  else ([], { unit := st.step n, levels := st.levels })

/-- The tokens of the lines after the first. -/
def lineTokens : Indentation → List Line → List Token
  | _, [] => []
  | st, line :: rest =>
    (st.enter line.level).1 ++ line.tokens ++ lineTokens (st.enter line.level).2 rest

/-- The indentation fields of the lexer for an indentation, at `k` spaces
for each level. -/
def Indentation.lexer (k : Nat) (st : Indentation) : Lexer :=
  { initialLexer with
    indentWidth := match st.unit with
      | none => -1
      | some u => ((u * k : Nat) : Int)
    useSpaces := st.unit.isSome
    indentStack := st.levels.reverse.map Int.ofNat
    dedentCount := 0 }

/-- The tokens of the lines after the first when the level rises by at most
one from a line to the next: `INDENT` before a line one level deeper than the
line before it (of level `previous`), one `DEDENT` for each level closed. -/
def blockTokens : Nat → List Line → List Token
  | _, [] => []
  | previous, line :: rest =>
    (if previous < line.level then [{ Kind := .INDENT, Lexeme := "" }]
      else List.replicate (previous - line.level) { Kind := .DEDENT, Lexeme := "" }) ++
      line.tokens ++ blockTokens line.level rest

/-- The level rises by at most one from a line to the next. -/
def risesByOne : Nat → List Line → Prop
  | _, [] => True
  | previous, line :: rest => line.level ≤ previous + 1 ∧ risesByOne line.level rest

/-- The open levels below a line of level `p` when every level was entered
one step at a time: `p`, ..., 1, 0. -/
def levelsTo : Nat → List Nat
  | 0 => [0]
  | p + 1 => (p + 1) :: levelsTo p

/-- The line whose content is the given pieces, one space between them,
followed by `comment`. -/
def Line.ofPieces (level : Nat) (pieces : List Lexical) (comment : List Char) : Line :=
  { level := level
    content := spaced (pieces.map Lexical.text)
    comment := comment
    tokens := pieces.map Lexical.token }

/-- The line that holds only the comment `#` and `text`. -/
def Line.ofComment (level : Nat) (text : List Char) : Line :=
  { level := level, content := [], comment := '#' :: text, tokens := [] }

/-- A statement of a rule text written as lines: a condition on a line of its
own (its content, the comment after it if any, the tokens of the content and
the condition they stand for), a group (the word after `group` in its header
line, the comment after the header if any, and its children, whose lines are
one level deeper), or a line that holds only a comment. -/
inductive Block where
  | condition (content comment : List Char) (tokens : List Token) (cond : Condition)
  | group (logicalOp comment : List Char) (children : List Block)
  | comment (text : List Char)

/-- The lines of a block whose first line has the level `level`. -/
def Block.lines (level : Nat) : Block → List Line
  | .condition content note tokens _ =>
    [Line.mk level content note tokens]
  | .group logicalOp note children =>
    Line.ofPieces level [.word "group".data, .word logicalOp] note ::
      linesOfList (level + 1) children
  | .comment text => [Line.ofComment level text]
where
  /-- The lines of a list of blocks, one block after the other. -/
  linesOfList (level : Nat) : List Block → List Line
    | [] => []
    | block :: rest => block.lines level ++ linesOfList level rest

/-- The statements that a block stands for: a condition, a group with the
statements of its children, and none for a comment. -/
def Block.statements : Block → List Statement
  | .condition _ _ _ cond => [.condition cond]
  | .group logicalOp _ children => [.group (String.mk logicalOp) (statementsOfList children)]
  | .comment _ => []
where
  /-- The statements of a list of blocks, in order. -/
  statementsOfList : List Block → List Statement
    | [] => []
    | block :: rest => block.statements ++ statementsOfList rest

/-- The tokens of a block: those of its lines, `INDENT` after the header of
a group, and at the end of a group the token `close` when nothing follows the
group at its level, `DEDENT` otherwise. -/
def Block.tokens (close : Token) : Block → List Token
  | .condition _ _ tokens _ => tokens
  | .group logicalOp _ children =>
    (Lexical.word "group".data).token :: (Lexical.word logicalOp).token ::
      { Kind := .INDENT, Lexeme := "" } :: (tokensOfList close children ++ [close])
  | .comment _ => []
where
  /-- The tokens of a list of blocks. -/
  tokensOfList (close : Token) : List Block → List Token
    | [] => []
    | block :: rest =>
      block.tokens (if rest.isEmpty then close else { Kind := .DEDENT, Lexeme := "" }) ++
        tokensOfList close rest

/-- The block is written as the grammar asks: the line of a condition is one
that the tokenizer reads and from whose tokens `parseCondition` reads the
condition, the header of a group is `group and` or `group or`, a group has at
least one line in its block, and a comment ends at the line break. -/
def Block.wellFormed (fuel : Nat) : Block → Prop
  | .condition content note tokens cond =>
    (Line.mk 0 content note tokens).wellFormed ∧
      (Statement.condition cond).writtenAs fuel tokens
  | .group logicalOp note children =>
    (logicalOp = "and".data ∨ logicalOp = "or".data) ∧ isLineComment note = true ∧
      children ≠ [] ∧ wellFormedList fuel children
  | .comment text => text.all (fun d => d ≠ '\n' && d ≠ NUL) = true
where
  /-- Every block of the list is written as the grammar asks. -/
  wellFormedList (fuel : Nat) : List Block → Prop
    | [] => True
    | block :: rest => block.wellFormed fuel ∧ wellFormedList fuel rest

/-- The lines of a text, each after the first following a line break. -/
def renderAll (k : Nat) : List Line → List Char
  | [] => []
  | first :: rest => first.render k ++ renderLines k rest

/-- The rule text of a list of blocks at level 0, with `k` spaces for each
level. -/
def blocksText (k : Nat) (blocks : List Block) : String :=
  String.mk (renderAll k (Block.lines.linesOfList 0 blocks))

/-- The indentation fields of two lexer states are the same. -/
def Lexer.sameIndentation (a b : Lexer) : Prop :=
  a.indentWidth = b.indentWidth ∧ a.useSpaces = b.useSpaces ∧
    a.indentStack = b.indentStack ∧ a.dedentCount = b.dedentCount

/-- The invariant of the indentation fields: the indent stack starts with 0
at its bottom and is strictly increasing from bottom to top, no negative
number of `DEDENT` tokens is pending, the width of an indentation step in
spaces is positive, and as long as no width has been set (`indentWidth` is
-1) the stack is `[0]` and the indentation is counted in tabs. -/
def Lexer.sound (l : Lexer) : Prop :=
  l.indentStack.head? = some 0 ∧ l.indentStack.Chain' (· < ·) ∧ 0 ≤ l.dedentCount ∧
    (l.useSpaces = true → 0 < l.indentWidth) ∧
    (l.indentWidth = -1 → l.indentStack = [0] ∧ l.useSpaces = false)

/-- What a token adds to the number of open blocks: 1 for `INDENT`, -1 for
`DEDENT`, 0 for every other token. -/
def Token.indentChange (token : Token) : Int :=
  if token.Kind = .INDENT then 1 else if token.Kind = .DEDENT then -1 else 0

/-- The number of `INDENT` tokens minus the number of `DEDENT` tokens. -/
def indentBalance (tokens : List Token) : Int :=
  (tokens.countP fun token => token.Kind = .INDENT) -
    (tokens.countP fun token => token.Kind = .DEDENT)

/-- Successive calls of `nextToken` from the parser `p` make the tokens
`tokens` the current token, one after the other, and leave the parser `q`. -/
def Parser.advances (fuel : Nat) : Parser → List Token → Parser → Prop
  | p, [], q => p = q
  | p, token :: rest, q =>
    ∃ p1, p.nextToken fuel = .ok p1 ∧ p1.currToken = token ∧ Parser.advances fuel p1 rest q

/-- The tokens of an array after its `[`, up to and with its `]`, and the
operands they stand for: each token before the `]` that is not the comma
after an element is an element, whose value is that of `parseValue`, and the
comma after an element is optional. -/
inductive ArrayBody : List Token → Value → Prop
  | close (token : Token) : token.Kind = .RSQUARE → ArrayBody [token] []
  | element (token : Token) (value : SingleValue) (rest : List Token) (values : Value) :
    token.Kind ≠ .RSQUARE → parseValue token = .ok value →
    (∀ next ∈ rest.head?, next.Kind ≠ .COMMA) → ArrayBody rest values →
    ArrayBody (token :: rest) (value :: values)
  | elementComma (token comma : Token) (value : SingleValue) (rest : List Token)
      (values : Value) :
    token.Kind ≠ .RSQUARE → parseValue token = .ok value → comma.Kind = .COMMA →
    ArrayBody rest values → ArrayBody (token :: comma :: rest) (value :: values)

/-! # Theorems -/

/-! ## Groups -/

theorem evaluateChild_group (logicalOp : String) (children : List Statement)
    (context : List (String × SingleValue)) :
    evaluateGroup.evaluateChild (.group logicalOp children) context =
      evaluateGroup logicalOp children context := by
  rw [evaluateGroup.evaluateChild, evaluateGroup]

theorem evaluateChild_condition (cond : Condition) (context : List (String × SingleValue)) :
    evaluateGroup.evaluateChild (.condition cond) context = evaluateCondition cond context := by
  rw [evaluateGroup.evaluateChild]

theorem evaluateChildren_nil (logicalOp : String) (context : List (String × SingleValue))
    (result : Bool) :
    evaluateGroup.evaluateChildren logicalOp [] context result = .ok result := by
  rw [evaluateGroup.evaluateChildren]

theorem evaluateChildren_cons_ok (logicalOp : String) (child : Statement)
    (rest : List Statement) (context : List (String × SingleValue)) (result b : Bool)
    (h : evaluateGroup.evaluateChild child context = .ok b) :
    evaluateGroup.evaluateChildren logicalOp (child :: rest) context result =
      evaluateGroup.evaluateChildren logicalOp rest context
        (if logicalOp = "and" then result && b else result || b) := by
  rw [evaluateGroup.evaluateChildren, h]

theorem evaluateChildren_cons_error (logicalOp : String) (child : Statement)
    (rest : List Statement) (context : List (String × SingleValue)) (result : Bool)
    (msg : String) (h : evaluateGroup.evaluateChild child context = .error msg) :
    evaluateGroup.evaluateChildren logicalOp (child :: rest) context result = .error msg := by
  rw [evaluateGroup.evaluateChildren, h]

theorem evaluateChildren_first_error (logicalOp : String) (context : List (String × SingleValue))
    (child : Statement) (after : List Statement) (msg : String)
    (hchild : evaluateGroup.evaluateChild child context = .error msg) :
    ∀ (before : List Statement) (result : Bool),
      (∀ c ∈ before, ∃ b, evaluateGroup.evaluateChild c context = .ok b) →
      evaluateGroup.evaluateChildren logicalOp (before ++ child :: after) context result =
        .error msg := by
  intro before
  induction before with
  | nil =>
    intro result _
    exact evaluateChildren_cons_error logicalOp child after context result msg hchild
  | cons c cs ih =>
    intro result hb
    obtain ⟨b, hc⟩ := hb c (List.mem_cons_self c cs)
    rw [List.cons_append, evaluateChildren_cons_ok logicalOp c _ context result b hc]
    exact ih _ (fun d hd => hb d (List.mem_cons_of_mem c hd))

theorem evaluateChildren_results (logicalOp : String) (context : List (String × SingleValue)) :
    ∀ (children : List Statement) (results : List Bool) (result : Bool),
      children.map (fun c => evaluateGroup.evaluateChild c context) = results.map Outcome.ok →
      evaluateGroup.evaluateChildren logicalOp children context result =
        .ok (if logicalOp = "and" then result && results.all id
             else result || results.any id) := by
  intro children
  induction children with
  | nil =>
    intro results result h
    cases results with
    | nil => rw [evaluateChildren_nil]; by_cases hop : logicalOp = "and" <;> simp [hop]
    | cons b bs => simp at h
  | cons c cs ih =>
    intro results result h
    cases results with
    | nil => simp at h
    | cons b bs =>
      simp only [List.map_cons, List.cons.injEq] at h
      rw [evaluateChildren_cons_ok logicalOp c cs context result b h.1, ih bs _ h.2]
      by_cases hop : logicalOp = "and" <;> simp [hop, Bool.and_assoc, Bool.or_assoc]

/-- A group does not short-circuit on a boolean.  When a child of a group
(AND or OR) returns an evaluation error and the children before it return
booleans, `evaluateGroup` returns that error, whatever those booleans are: a
false child of an AND group or a true child of an OR group does not hide it. -/
theorem evaluateGroup_returns_first_child_error (logicalOp : String)
    (before : List Statement) (child : Statement) (after : List Statement)
    (context : List (String × SingleValue)) (msg : String)
    (hbefore : ∀ c ∈ before, ∃ b, evaluateGroup.evaluateChild c context = .ok b)
    (hchild : evaluateGroup.evaluateChild child context = .error msg) :
    evaluateGroup logicalOp (before ++ child :: after) context = .error msg := by
  rw [evaluateGroup]
  exact evaluateChildren_first_error logicalOp context child after msg hchild before _ hbefore

theorem evaluateChild_result (context : List (String × SingleValue)) (child : Statement) :
    evaluateGroup.evaluateChild child context = child.result context := by
  cases child with
  | condition cond => rw [evaluateChild_condition, Statement.result]
  | group logicalOp children => rw [evaluateChild_group, Statement.result]

/-- C3: when every child of a group returns a boolean (`results`, in order;
the result of a child that is a condition is that of `evaluateCondition`, the
result of a child that is a nested group is that of `evaluateGroup` on it),
`evaluateGroup` returns the conjunction of the results for the operator `and`
and their disjunction for the operator `or`; so a group with no children is
true for `and` and false for `or`. -/
theorem evaluateGroup_and_or (logicalOp : String) (children : List Statement)
    (context : List (String × SingleValue)) (results : List Bool)
    (hchildren : children.map (Statement.result context) = results.map Outcome.ok) :
    (logicalOp = "and" → evaluateGroup logicalOp children context = .ok (results.all id)) ∧
    (logicalOp = "or" → evaluateGroup logicalOp children context = .ok (results.any id)) := by
  have hdispatch : children.map (fun c => evaluateGroup.evaluateChild c context) =
      results.map Outcome.ok := by
    rw [← hchildren]
    exact List.map_congr_left (fun c _ => evaluateChild_result context c)
  rw [evaluateGroup, evaluateChildren_results logicalOp context children results _ hdispatch]
  constructor
  · intro hop; simp [hop]
  · intro hop; subst hop; simp

/-! ## Conditions -/

theorem Float64.le_of_eq_left (v x : Float64) (h : Float64.eq v x = true) :
    Float64.le x v = true := by
  cases v <;> cases x <;> simp_all [Float64.eq, Float64.le]

theorem Float64.le_of_eq_right (v x : Float64) (h : Float64.eq v x = true) :
    Float64.le v x = true := by
  cases v <;> cases x <;> simp_all [Float64.eq, Float64.le]

theorem Float64.le_congr_left (v x y : Float64) (h : Float64.eq v x = true) :
    Float64.le v y = Float64.le x y := by
  cases v <;> cases x <;> cases y <;> simp_all [Float64.eq, Float64.le]

theorem Float64.le_congr_right (v x y : Float64) (h : Float64.eq v y = true) :
    Float64.le x v = Float64.le x y := by
  cases v <;> cases x <;> cases y <;> simp_all [Float64.eq, Float64.le]

/-- C4: on a numeric field value `v` and numeric bounds `x` and `y`, the
un-negated condition `between x and y` returns, without error, the
conjunction of what the conditions `gte x` and `lte y` return on the same
field; and it returns true when `v` equals one of the bounds and `x <= y`. -/
theorem between_is_gte_and_lte (field : String) (context : List (String × SingleValue))
    (v x y : Float64)
    (hfield : resolveFieldValue field (.map context) = .ok (.num v)) :
    (∃ lower upper : Bool,
      evaluateCondition
        { Field := field, Operator := "gte", Value := [.num x], Negate := false } context =
          .ok lower ∧
      evaluateCondition
        { Field := field, Operator := "lte", Value := [.num y], Negate := false } context =
          .ok upper ∧
      evaluateCondition
        { Field := field, Operator := "between", Value := [.num x, .num y], Negate := false }
        context = .ok (lower && upper)) ∧
    (Float64.le x y = true → (Float64.eq v x = true ∨ Float64.eq v y = true) →
      evaluateCondition
        { Field := field, Operator := "between", Value := [.num x, .num y], Negate := false }
        context = .ok true) := by
  have hbetween : evaluateCondition
      { Field := field, Operator := "between", Value := [.num x, .num y], Negate := false }
      context = .ok (Float64.le x v && Float64.le v y) := by
    simp [evaluateCondition, hfield, evaluateBetween, applyNegation]
  refine ⟨⟨Float64.le x v, Float64.le v y, ?_, ?_, hbetween⟩, ?_⟩
  · simp [evaluateCondition, hfield, compareNumeric, applyNegation]
  · simp [evaluateCondition, hfield, compareNumeric, applyNegation]
  · intro hxy hv
    rw [hbetween]
    rcases hv with hv | hv
    · rw [Float64.le_of_eq_left v x hv, Float64.le_congr_left v x y hv, hxy]; rfl
    · rw [Float64.le_of_eq_right v y hv, Float64.le_congr_right v x y hv, hxy]; rfl

theorem evaluateIn_negate (fieldValue : SingleValue) (values : Value) :
    evaluateIn fieldValue values true = complementOutcome (evaluateIn fieldValue values false) := by
  induction values with
  | nil => simp [evaluateIn, applyNegation, complementOutcome]
  | cons val rest ih =>
    rw [evaluateIn, evaluateIn]
    cases h : interfaceEq fieldValue val with
    | ok b => cases b <;> simp [applyNegation, complementOutcome, ih]
    | error msg => simp [complementOutcome]
    | panic msg => simp [complementOutcome]
    | timeout => simp [complementOutcome]

theorem compareNumeric_negate (fieldValue conditionValue : SingleValue) (operator : String) :
    compareNumeric fieldValue conditionValue operator true =
      complementOutcome (compareNumeric fieldValue conditionValue operator false) := by
  cases fieldValue <;> cases conditionValue <;>
    simp [compareNumeric, applyNegation, complementOutcome]

theorem evaluateBetween_negate (fieldValue : SingleValue) (values : Value) :
    evaluateBetween fieldValue values true =
      complementOutcome (evaluateBetween fieldValue values false) := by
  match values with
  | [] => simp [evaluateBetween, complementOutcome]
  | [_] => simp [evaluateBetween, complementOutcome]
  | lowValue :: highValue :: _ =>
    cases fieldValue <;> cases lowValue <;> cases highValue <;>
      simp [evaluateBetween, applyNegation, complementOutcome]

theorem bind_applyNegation_negate (x : Outcome Bool) :
    (x.bind fun b => Outcome.ok (applyNegation b true)) =
      complementOutcome (x.bind fun b => Outcome.ok (applyNegation b false)) := by
  cases x <;> simp [Outcome.bind, applyNegation, complementOutcome]

theorem bind_string_negate (x : Outcome String) (test : String → Bool) :
    (x.bind fun s => Outcome.ok (applyNegation (test s) true)) =
      complementOutcome (x.bind fun s => Outcome.ok (applyNegation (test s) false)) := by
  cases x <;> simp [Outcome.bind, applyNegation, complementOutcome]

theorem evaluateCondition_negate (field operator : String) (value : Value)
    (context : List (String × SingleValue)) :
    evaluateCondition { Field := field, Operator := operator, Value := value, Negate := true }
        context =
      complementOutcome (evaluateCondition
        { Field := field, Operator := operator, Value := value, Negate := false } context) := by
  unfold evaluateCondition
  cases hres : resolveFieldValue field (.map context) with
  | ok fieldValue =>
    cases value with
    | nil => simp [complementOutcome]
    | cons conditionValue rest =>
      simp only []
      split_ifs
      · exact compareNumeric_negate _ _ _
      · exact bind_applyNegation_negate _
      · cases hx : interfaceEq fieldValue conditionValue <;>
          simp [Outcome.bind, applyNegation, complementOutcome]
      · cases fieldValue <;> first | exact bind_string_negate _ _ | simp [complementOutcome]
      · exact evaluateBetween_negate _ _
      · cases fieldValue <;> first | exact bind_string_negate _ _ | simp [complementOutcome]
      · cases fieldValue <;> first | exact bind_string_negate _ _ | simp [complementOutcome]
      · exact evaluateIn_negate _ _
      · simp [complementOutcome]
  | error msg => simp [complementOutcome]
  | panic msg => simp [complementOutcome]
  | timeout => simp [complementOutcome]

/-- C5: for each of the operators `in`, `contains`, `between`, `startsWith`
and `endsWith`, every field and context and every operand list, the negated
condition ends as the un-negated one does, with the boolean complemented: it
returns an error exactly when the un-negated condition returns that error,
and it returns the complement of the boolean that the un-negated condition
returns (`complementOutcome` also carries over a panic). -/
theorem negation_complements_result (field operator : String) (value : Value)
    (context : List (String × SingleValue))
    (hop : operator = "in" ∨ operator = "contains" ∨ operator = "between" ∨
      operator = "startsWith" ∨ operator = "endsWith") :
    evaluateCondition { Field := field, Operator := operator, Value := value, Negate := true }
        context =
      complementOutcome (evaluateCondition
        { Field := field, Operator := operator, Value := value, Negate := false } context) ∧
    (∀ msg : String,
      evaluateCondition { Field := field, Operator := operator, Value := value, Negate := true }
        context = .error msg ↔
      evaluateCondition { Field := field, Operator := operator, Value := value, Negate := false }
        context = .error msg) ∧
    (∀ b : Bool,
      evaluateCondition { Field := field, Operator := operator, Value := value, Negate := false }
        context = .ok b →
      evaluateCondition { Field := field, Operator := operator, Value := value, Negate := true }
        context = .ok (!b)) := by
  have _ := hop
  have h := evaluateCondition_negate field operator value context
  refine ⟨h, ?_, ?_⟩
  · intro msg
    rw [h]
    cases evaluateCondition
      { Field := field, Operator := operator, Value := value, Negate := false } context <;>
      simp [complementOutcome]
  · intro b hb
    rw [h, hb]
    rfl

/-! ## Field paths -/

theorem takeWhile_append_stop (p : Char → Bool) (run tail : List Char)
    (hrun : run.all p = true) (htail : ∀ c ∈ tail.head?, p c = false) :
    (run ++ tail).takeWhile p = run := by
  induction run with
  | nil =>
    cases tail with
    | nil => rfl
    | cons c cs => simp [List.takeWhile, htail c (by simp)]
  | cons c cs ih =>
    simp only [List.all_cons, Bool.and_eq_true] at hrun
    simp [List.takeWhile, hrun.1, ih hrun.2]

theorem dropWhile_append_stop (p : Char → Bool) (run tail : List Char)
    (hrun : run.all p = true) (htail : ∀ c ∈ tail.head?, p c = false) :
    (run ++ tail).dropWhile p = tail := by
  induction run with
  | nil =>
    cases tail with
    | nil => rfl
    | cons c cs => simp [List.dropWhile, htail c (by simp)]
  | cons c cs ih =>
    simp only [List.all_cons, Bool.and_eq_true] at hrun
    simp [List.dropWhile, hrun.1, ih hrun.2]

theorem pathTail_head_not_word (path : List Segment) :
    ∀ c ∈ (pathTail path).head?, isWordChar c = false := by
  intro c hc
  cases path with
  | nil => simp [pathTail] at hc
  | cons seg rest =>
    cases seg <;> simp [pathTail] at hc <;> subst hc <;> decide

theorem isDigit_not_bracket : ∀ c ∈ (']' :: ([] : List Char)).head?, isDigit c = false := by
  intro c hc
  simp at hc
  subst hc
  decide

theorem findAllSegments_pathTail (path : List Segment) :
    (∀ seg ∈ path, seg.wellFormed = true) →
    ∀ fuel, (pathTail path).length ≤ fuel →
      findAllSegments fuel (pathTail path) = path.map Segment.text := by
  induction path with
  | nil =>
    intro _ fuel _
    cases fuel <;> simp [pathTail, findAllSegments]
  | cons seg rest ih =>
    intro hwf fuel hfuel
    have hrest := ih (fun s hs => hwf s (List.mem_cons_of_mem seg hs))
    have hseg := hwf seg (List.mem_cons_self seg rest)
    cases seg with
    | key name =>
      obtain ⟨chars⟩ := name
      simp only [Segment.wellFormed, Bool.and_eq_true, Bool.not_eq_true',
        List.isEmpty_eq_false_iff_exists_mem] at hseg
      cases chars with
      | nil => simp at hseg
      | cons c cs =>
        simp only [List.all_cons, Bool.and_eq_true] at hseg
        obtain ⟨-, hc, hcs⟩ := hseg
        simp only [pathTail, List.length_cons, List.length_append] at hfuel
        obtain ⟨fuel1, rfl⟩ : ∃ k, fuel = k + 1 := ⟨fuel - 1, by omega⟩
        obtain ⟨fuel2, rfl⟩ : ∃ k, fuel1 = k + 1 := ⟨fuel1 - 1, by omega⟩
        have hdot : isWordChar '.' = false := by decide
        have hdot2 : ('.' : Char) ≠ '[' := by decide
        simp only [pathTail, List.cons_append, findAllSegments, hdot, hc, Bool.false_eq_true,
          if_false, if_true, hdot2, List.map_cons, Segment.text, List.append_eq]
        rw [takeWhile_append_stop isWordChar cs _ hcs (pathTail_head_not_word rest),
          dropWhile_append_stop isWordChar cs _ hcs (pathTail_head_not_word rest),
          hrest fuel2 (by omega)]
    | index digits =>
      obtain ⟨chars⟩ := digits
      simp only [Segment.wellFormed, Bool.and_eq_true, Bool.not_eq_true',
        List.isEmpty_eq_false_iff_exists_mem] at hseg
      cases chars with
      | nil => simp at hseg
      | cons d ds =>
        obtain ⟨-, hds⟩ := hseg
        simp only [pathTail, List.length_cons, List.length_append] at hfuel
        obtain ⟨fuel1, rfl⟩ : ∃ k, fuel = k + 1 := ⟨fuel - 1, by omega⟩
        have hbr : isWordChar '[' = false := by decide
        have htake : ((d :: ds) ++ ']' :: pathTail rest).takeWhile isDigit = d :: ds :=
          takeWhile_append_stop isDigit (d :: ds) _ hds (by
            intro c hc; simp at hc; subst hc; decide)
        have hdrop : ((d :: ds) ++ ']' :: pathTail rest).dropWhile isDigit =
            ']' :: pathTail rest :=
          dropWhile_append_stop isDigit (d :: ds) _ hds (by
            intro c hc; simp at hc; subst hc; decide)
        simp only [pathTail, findAllSegments, hbr, Bool.false_eq_true, if_false, if_true,
          List.map_cons, Segment.text, List.append_eq]
        rw [htake, hdrop]
        show (if (']' : Char) = ']' then _ else _) = _
        rw [if_pos rfl, hrest fuel1 (by omega)]

theorem FindAllString_pathText (path : List Segment)
    (hwf : ∀ seg ∈ path, seg.wellFormed = true) :
    FindAllString (pathText path) = path.map Segment.text := by
  cases path with
  | nil => rfl
  | cons seg rest =>
    cases seg with
    | index digits =>
      exact findAllSegments_pathTail (.index digits :: rest) hwf _ (le_refl _)
    | key name =>
      have hrest := findAllSegments_pathTail rest
        (fun s hs => hwf s (List.mem_cons_of_mem _ hs))
      have hseg := hwf (.key name) (List.mem_cons_self _ rest)
      obtain ⟨chars⟩ := name
      cases chars with
      | nil => simp [Segment.wellFormed] at hseg
      | cons c cs =>
        simp only [Segment.wellFormed, Bool.and_eq_true, List.all_cons] at hseg
        obtain ⟨-, hc, hcs⟩ := hseg
        simp only [FindAllString, pathText, List.cons_append, List.length_cons,
          findAllSegments, hc, if_true, List.map_cons, Segment.text, List.append_eq]
        rw [takeWhile_append_stop isWordChar cs _ hcs (pathTail_head_not_word rest),
          dropWhile_append_stop isWordChar cs _ hcs (pathTail_head_not_word rest),
          hrest _ (by simp)]

theorem stringsHasPrefix_bracket (rest : List Char) :
    stringsHasPrefix (String.mk ('[' :: rest)) "[" = true := by
  have h : ("[" : String).data = ['['] := rfl
  simp [stringsHasPrefix, h]

theorem stringsHasSuffix_bracket (body : List Char) :
    stringsHasSuffix (String.mk (body ++ [']'])) "]" = true := by
  have h : ("]" : String).data = [']'] := rfl
  simp [stringsHasSuffix, h, List.isSuffixOf]

theorem isDigit_not_sign (d : Char) (hd : isDigit d = true) : d ≠ '-' ∧ d ≠ '+' := by
  constructor <;> (intro h; subst h; revert hd; decide)

theorem Atoi_digits (d : Char) (ds : List Char) (hds : (d :: ds).all isDigit = true) :
    Atoi (d :: ds) =
      if decimalValue (d :: ds) ≥ 2 ^ 63 then ((2 ^ 63 - 1 : Int), true)
      else ((decimalValue (d :: ds) : Int), false) := by
  have hd : isDigit d = true := by
    simp only [List.all_cons, Bool.and_eq_true] at hds
    exact hds.1
  obtain ⟨h1, h2⟩ := isDigit_not_sign d hd
  simp [Atoi, h1, h2, hds]

theorem formatInt_maxInt : formatInt 9223372036854775807 = "9223372036854775807" := by
  decide

theorem resolveSegment_index (elems : List SingleValue) (digits : String)
    (hwf : (Segment.index digits).wellFormed = true) :
    resolveSegment (.seq elems) (Segment.text (.index digits)) =
      if decimalValue digits.data ≥ 2 ^ 63 then
        (if elems.length ≤ 9223372036854775807 then
          .error "array index out of range: 9223372036854775807"
         else .error ("invalid array index: " ++ Segment.text (.index digits)))
      else
        match elems.get? (decimalValue digits.data) with
        | some elem => .ok elem
        | none => .error ("array index out of range: " ++ Nat.repr (decimalValue digits.data)) := by
  obtain ⟨chars⟩ := digits
  cases chars with
  | nil => simp [Segment.wellFormed] at hwf
  | cons d ds =>
    simp only [Segment.wellFormed, Bool.and_eq_true] at hwf
    obtain ⟨-, hds⟩ := hwf
    have hsuf := stringsHasSuffix_bracket ('[' :: d :: ds)
    have hpre := stringsHasPrefix_bracket (d :: ds ++ [']'])
    have hvalue : (List.drop 1 ('[' :: (d :: ds) ++ [']'])).take
        (('[' :: (d :: ds) ++ [']']).length - 1 - 1) = d :: ds := by
      simp
    simp only [List.cons_append] at hsuf hpre hvalue
    simp only [resolveSegment, Segment.text, List.cons_append, hsuf, hpre, hvalue,
      Atoi_digits d ds hds, Bool.not_true, Bool.or_self, Bool.false_eq_true, if_false]
    by_cases hbig : decimalValue (d :: ds) ≥ 2 ^ 63
    · simp only [hbig, if_true]
      by_cases hlen : elems.length ≤ 9223372036854775807
      · simp [hlen, formatInt_maxInt]
      · simp [hlen]
    · simp only [hbig, if_false]
      cases hget : elems.get? (decimalValue (d :: ds)) with
      | some elem =>
        obtain ⟨hlt, heq⟩ := List.get?_eq_some.mp hget
        have hnonneg : ¬ ((decimalValue (d :: ds) : Int) < 0) := by omega
        simp [hlt, Nat.not_le.mpr hlt, hnonneg]
        exact heq
      | none =>
        have hge : elems.length ≤ decimalValue (d :: ds) := by
          rw [List.get?_eq_none] at hget
          exact hget
        simp [hge, formatInt]

theorem resolveSegments_append (first second : List String) :
    ∀ value : SingleValue,
      resolveSegments value (first ++ second) =
        (resolveSegments value first).bind fun reached => resolveSegments reached second := by
  induction first with
  | nil => intro value; simp [resolveSegments, Outcome.bind]
  | cons m rest ih =>
    intro value
    simp only [List.cons_append, resolveSegments]
    cases resolveSegment value m with
    | ok next => exact ih next
    | error msg => rfl
    | panic msg => rfl
    | timeout => rfl

theorem resolveSegments_follow (path : List Segment) :
    ∀ value result : SingleValue,
      (∀ seg ∈ path, seg.wellFormed = true) →
      (∀ seg ∈ path, seg.fitsInt = true) →
      follow value path = some result →
      resolveSegments value (path.map Segment.text) = .ok result := by
  induction path with
  | nil =>
    intro value result _ _ h
    simp only [follow, Option.some.injEq] at h
    simp [resolveSegments, h]
  | cons seg rest ih =>
    intro value result hwf hint h
    have hwfRest : ∀ s ∈ rest, s.wellFormed = true :=
      fun s hs => hwf s (List.mem_cons_of_mem seg hs)
    have hintRest : ∀ s ∈ rest, s.fitsInt = true :=
      fun s hs => hint s (List.mem_cons_of_mem seg hs)
    cases seg with
    | key name =>
      cases value with
      | map entries =>
        simp only [follow] at h
        cases hfind : entries.find? (fun entry => entry.1 = name) with
        | none => simp [hfind] at h
        | some entry =>
          simp only [hfind] at h
          simp only [List.map_cons, resolveSegments, resolveSegment, mapIndex, Segment.text,
            hfind]
          exact ih entry.2 result hwfRest hintRest h
      | null => simp [follow] at h
      | bool b => simp [follow] at h
      | num f => simp [follow] at h
      | str s => simp [follow] at h
      | seq elems => simp [follow] at h
    | index digits =>
      cases value with
      | seq elems =>
        rw [follow] at h
        have hfit := hint (.index digits) (List.mem_cons_self _ rest)
        simp only [Segment.fitsInt, decide_eq_true_eq] at hfit
        cases hget : elems.get? (decimalValue digits.data) with
        | none =>
          rw [hget] at h
          exact absurd h (by simp)
        | some elem =>
          rw [hget] at h
          simp only [] at h
          simp only [List.map_cons, resolveSegments,
            resolveSegment_index elems digits (hwf _ (List.mem_cons_self _ rest)),
            Nat.not_le.mpr hfit, if_false, hget, ge_iff_le]
          exact ih elem result hwfRest hintRest h
      | null => simp [follow] at h
      | bool b => simp [follow] at h
      | num f => simp [follow] at h
      | str s => simp [follow] at h
      | map entries => simp [follow] at h

/-- C7: for a field path made of identifier segments and `[i]` index
segments, and a context that holds a mapping with the key at each identifier
segment and a sequence with the index inside it at each index segment (so
that `follow` reaches a value; an index into a Go slice fits an `int`),
`resolveFieldValue` returns that value without error, at any depth. -/
theorem resolveFieldValue_follows_path (path : List Segment) (context result : SingleValue)
    (hwf : ∀ seg ∈ path, seg.wellFormed = true)
    (hint : ∀ seg ∈ path, seg.fitsInt = true)
    (hfollow : follow context path = some result) :
    resolveFieldValue (pathText path) context = .ok result := by
  rw [resolveFieldValue, FindAllString_pathText path hwf]
  exact resolveSegments_follow path context result hwf hint hfollow

/-- C8, as amended: when the path reaches a sequence of length `n` and the
next segment is an index segment `[i]` with `i >= n`, `resolveFieldValue`
returns the error `array index out of range: j`, never a value, where `j` is
`i` below `2^63` and `9223372036854775807` from there on (`Atoi` clamps the
index to the largest `int`). -/
theorem resolveFieldValue_index_out_of_range (before : List Segment) (digits : String)
    (after : List Segment) (context : SingleValue) (elems : List SingleValue)
    (hwf : ∀ seg ∈ before ++ Segment.index digits :: after, seg.wellFormed = true)
    (hint : ∀ seg ∈ before, seg.fitsInt = true)
    (hreach : follow context before = some (.seq elems))
    (hlen : elems.length < 2 ^ 63)
    (hrange : elems.length ≤ decimalValue digits.data) :
    resolveFieldValue (pathText (before ++ Segment.index digits :: after)) context =
      .error ("array index out of range: " ++
        Nat.repr (min (decimalValue digits.data) (2 ^ 63 - 1))) := by
  have hwfBefore : ∀ seg ∈ before, seg.wellFormed = true :=
    fun s hs => hwf s (List.mem_append_left _ hs)
  have hwfIndex : (Segment.index digits).wellFormed = true :=
    hwf _ (List.mem_append_right _ (List.mem_cons_self _ _))
  rw [resolveFieldValue, FindAllString_pathText _ hwf, List.map_append,
    resolveSegments_append,
    resolveSegments_follow before context (.seq elems) hwfBefore hint hreach]
  simp only [Outcome.bind, List.map_cons, resolveSegments,
    resolveSegment_index elems digits hwfIndex]
  by_cases hbig : decimalValue digits.data ≥ 2 ^ 63
  · have hlen2 : elems.length ≤ 9223372036854775807 := by omega
    have hmin : min (decimalValue digits.data) (2 ^ 63 - 1) = 9223372036854775807 := by
      omega
    simp only [hbig, if_true, hlen2, hmin]
    rfl
  · have hget : elems.get? (decimalValue digits.data) = none := by
      rw [List.get?_eq_none]
      exact hrange
    have hmin : min (decimalValue digits.data) (2 ^ 63 - 1) = decimalValue digits.data := by
      omega
    simp only [hbig, if_false, hget, hmin]

/-- The two mismatches that `resolveFieldValue` reports: an identifier segment
on a sequence, and any segment on a value that is neither a mapping nor a
sequence; each error names the segment. -/
theorem resolveSegment_mismatch (name : String) (elems : List SingleValue)
    (hkey : (Segment.key name).wellFormed = true) (m : String) :
    resolveSegment (.seq elems) name = .error ("invalid array index: " ++ name) ∧
    resolveSegment .null m = .error ("invalid field path: " ++ m) ∧
    (∀ b, resolveSegment (.bool b) m = .error ("invalid field path: " ++ m)) ∧
    (∀ x, resolveSegment (.num x) m = .error ("invalid field path: " ++ m)) ∧
    (∀ s, resolveSegment (.str s) m = .error ("invalid field path: " ++ m)) := by
  refine ⟨?_, rfl, fun _ => rfl, fun _ => rfl, fun _ => rfl⟩
  obtain ⟨chars⟩ := name
  cases chars with
  | nil => simp [Segment.wellFormed] at hkey
  | cons c cs =>
    simp only [Segment.wellFormed, Bool.and_eq_true, List.all_cons] at hkey
    have hc : c ≠ '[' := by
      intro h
      subst h
      exact absurd hkey.2.1 (by decide)
    have h : ("[" : String).data = ['['] := rfl
    have hpre : stringsHasPrefix (String.mk (c :: cs)) "[" = false := by
      simp [stringsHasPrefix, h, List.isPrefixOf, Ne.symm hc]
    simp [resolveSegment, hpre]

/-- On a mapping every segment, an index segment included, is looked up as a
key and is no error. -/
theorem resolveSegment_mapping (entries : List (String × SingleValue)) (m : String) :
    resolveSegment (.map entries) m = .ok (mapIndex entries m) := rfl

/-! ## The tokenizer on a piece of text -/

theorem atSplit_readRune (before : List Char) (c : Char) (rest : List Char) (base : Lexer) :
    (Lexer.atSplit before (c :: rest) base).readRune =
      Lexer.atSplit (before ++ [c]) rest base := by
  cases rest with
  | nil =>
    simp [Lexer.readRune, Lexer.atSplit]
  | cons d ds =>
    have hbyte : byteAt (before ++ c :: d :: ds) (before.length + 1) = some d := by
      simp only [byteAt]
      rw [List.get?_eq_getElem?, List.getElem?_append_right (by omega)]
      simp
    simp [Lexer.readRune, Lexer.atSplit, hbyte]

theorem atSplit_ch (before rest : List Char) (base : Lexer) :
    (Lexer.atSplit before rest base).ch = rest.headD NUL := rfl

theorem atSplit_dedentCount (before rest : List Char) (base : Lexer) :
    (Lexer.atSplit before rest base).dedentCount = base.dedentCount := rfl

theorem atSplit_input (before rest : List Char) (base : Lexer) :
    (Lexer.atSplit before rest base).input = before ++ rest := rfl

theorem atSplit_position (before rest : List Char) (base : Lexer) :
    (Lexer.atSplit before rest base).position = before.length := rfl

theorem NewLexer_atSplit (input : String) :
    NewLexer input = Lexer.atSplit [] input.data initialLexer := by
  obtain ⟨chars⟩ := input
  cases chars <;> rfl

theorem readWhile_atSplit (cond : Char → Bool) (hnul : cond NUL = false) (base : Lexer)
    (run : List Char) :
    ∀ (before rest : List Char) (fuel : Nat),
      run.all cond = true → (∀ c ∈ rest.head?, cond c = false) → run.length ≤ fuel →
      Lexer.readWhile cond fuel (Lexer.atSplit before (run ++ rest) base) =
        Lexer.atSplit (before ++ run) rest base := by
  induction run with
  | nil =>
    intro before rest fuel _ hrest _
    have hch : cond (Lexer.atSplit before rest base).ch = false := by
      rw [atSplit_ch]
      cases rest with
      | nil => exact hnul
      | cons c cs => exact hrest c (by simp)
    cases fuel with
    | zero => simp [Lexer.readWhile]
    | succ n => simp [Lexer.readWhile, hch]
  | cons c cs ih =>
    intro before rest fuel hrun hrest hfuel
    simp only [List.all_cons, Bool.and_eq_true] at hrun
    cases fuel with
    | zero => simp at hfuel
    | succ n =>
      have hch : cond (Lexer.atSplit before (c :: cs ++ rest) base).ch = true := by
        rw [atSplit_ch]; exact hrun.1
      rw [Lexer.readWhile]
      simp only [List.cons_append] at hch ⊢
      rw [if_pos hch, atSplit_readRune,
        ih (before ++ [c]) rest n hrun.2 hrest (by simpa using hfuel)]
      simp

theorem slice_atSplit (before run rest : List Char) :
    slice (before ++ (run ++ rest)) before.length (before ++ run).length = String.mk run := by
  simp [slice]

theorem skipWhitespace_atSplit (before spaces rest : List Char) (base : Lexer)
    (hspaces : spaces.all (fun c => c = ' ') = true)
    (hrest : ∀ c ∈ rest.head?, (c = ' ' || c = '\t' || c = '\n' || c = '\r') = false) :
    (Lexer.atSplit before (spaces ++ rest) base).skipWhitespace =
      Lexer.atSplit (before ++ spaces) rest base := by
  rw [Lexer.skipWhitespace]
  apply readWhile_atSplit _ (by decide) base spaces before rest
  · rw [List.all_eq_true] at hspaces ⊢
    intro c hc
    have := hspaces c hc
    simp only [decide_eq_true_eq] at this
    subst this
    decide
  · exact hrest
  · rw [atSplit_input]
    simp only [List.length_append]
    omega

theorem Next_of_no_indent (l : Lexer) (hdedent : ¬ l.dedentCount > 0) (hch : l.ch ≠ '\n')
    (hcomment : l.skipWhitespace.ch ≠ '#') :
    l.Next = .ok l.skipWhitespace.scanToken := by
  have hmode : l.setIndentationMode = .ok l := by
    simp [Lexer.setIndentationMode, hch]
  have hstep : l.indentStep = .ok (none, l) := by
    simp [Lexer.indentStep, hch]
  simp only [Lexer.Next, Lexer.nextFuel, hmode, hdedent, if_false, hstep, hcomment]

theorem isAlpha_not_special (c : Char) (hc : isAlpha c = true) :
    c ≠ '"' ∧ c ≠ '[' ∧ c ≠ ']' ∧ c ≠ ',' ∧ c ≠ '#' ∧ c ≠ '\n' ∧ c ≠ NUL ∧
      (c = ' ' || c = '\t' || c = '\n' || c = '\r') = false := by
  refine ⟨?_, ?_, ?_, ?_, ?_, ?_, ?_, ?_⟩ <;>
    first
    | (intro h; subst h; revert hc; decide)
    | (simp only [Bool.or_eq_false_iff, decide_eq_false_iff_not]
       refine ⟨⟨⟨?_, ?_⟩, ?_⟩, ?_⟩ <;> (intro h; subst h; revert hc; decide))

theorem Char.le_iff_toNat (a b : Char) : a ≤ b ↔ a.toNat ≤ b.toNat := Iff.rfl

theorem isDigit_iff (c : Char) : isDigit c = true ↔ 48 ≤ c.toNat ∧ c.toNat ≤ 57 := by
  simp only [isDigit, Bool.and_eq_true, decide_eq_true_eq, Char.le_iff_toNat]
  rfl

theorem isDigit_not_alpha (c : Char) (hc : isDigit c = true) : isAlpha c = false := by
  rw [isDigit_iff] at hc
  have h3 : c ≠ '_' := by
    intro h
    subst h
    have : ('_' : Char).toNat = 95 := rfl
    omega
  have ha : ('a' : Char).toNat = 97 := rfl
  have hA : ('A' : Char).toNat = 65 := rfl
  simp only [isAlpha, Bool.or_eq_false_iff, Bool.and_eq_false_iff, decide_eq_false_iff_not,
    Char.le_iff_toNat, not_le, ha, hA]
  exact ⟨⟨Or.inl (by omega), Or.inl (by omega)⟩, h3⟩

theorem isDigit_not_special (c : Char) (hc : isDigit c = true) :
    c ≠ '"' ∧ c ≠ '[' ∧ c ≠ ']' ∧ c ≠ ',' ∧ c ≠ '#' ∧ c ≠ '\n' ∧ c ≠ NUL ∧
      (c = ' ' || c = '\t' || c = '\n' || c = '\r') = false := by
  refine ⟨?_, ?_, ?_, ?_, ?_, ?_, ?_, ?_⟩ <;>
    first
    | (intro h; subst h; revert hc; decide)
    | (simp only [Bool.or_eq_false_iff, decide_eq_false_iff_not]
       refine ⟨⟨⟨?_, ?_⟩, ?_⟩, ?_⟩ <;> (intro h; subst h; revert hc; decide))

theorem scanToken_word (before chars rest : List Char) (base : Lexer)
    (hwf : (Lexical.word chars).wellFormed = true)
    (hend : (Lexical.word chars).endsBefore rest = true) :
    (Lexer.atSplit before (chars ++ rest) base).scanToken =
      ((Lexical.word chars).token, Lexer.atSplit (before ++ chars) rest base) := by
  cases chars with
  | nil => simp [Lexical.wellFormed] at hwf
  | cons c cs =>
    simp only [Lexical.wellFormed, List.head?_cons, Option.map_some', Option.getD_some,
      Bool.and_eq_true] at hwf
    obtain ⟨hc, hall⟩ := hwf
    obtain ⟨h1, h2, h3, h4, -, -, -, -⟩ := isAlpha_not_special c hc
    have hstop : ∀ d ∈ rest.head?,
        (fun c => isAlphaNumeric c || c = '.' || c = '[' || c = ']') d = false := by
      intro d hd
      cases rest with
      | nil => simp at hd
      | cons r rs =>
        simp only [List.head?_cons, Option.mem_def, Option.some.injEq] at hd
        subst hd
        simpa [Lexical.endsBefore, isLexemeChar] using hend
    have hloop := readWhile_atSplit
      (fun c => isAlphaNumeric c || c = '.' || c = '[' || c = ']') (by decide) base
      (c :: cs) before rest ((before ++ (c :: cs ++ rest)).length + 1) hall hstop
      (by simp only [List.length_append, List.length_cons]; omega)
    have hch : (Lexer.atSplit before (c :: cs ++ rest) base).ch = c := rfl
    simp only [Lexer.scanToken, hch, h1, h2, h3, h4, if_false, hc, if_true, Lexer.readLexeme,
      atSplit_input, atSplit_position, hloop, Lexer.newToken, Lexical.token,
      slice_atSplit]

theorem scanToken_number (before digits rest : List Char) (base : Lexer)
    (hwf : (Lexical.number digits).wellFormed = true)
    (hend : (Lexical.number digits).endsBefore rest = true) :
    (Lexer.atSplit before (digits ++ rest) base).scanToken =
      ((Lexical.number digits).token, Lexer.atSplit (before ++ digits) rest base) := by
  cases digits with
  | nil => simp [Lexical.wellFormed] at hwf
  | cons c cs =>
    simp only [Lexical.wellFormed, Bool.and_eq_true] at hwf
    obtain ⟨-, hall⟩ := hwf
    have hc : isDigit c = true := by
      simp only [List.all_cons, Bool.and_eq_true] at hall
      exact hall.1
    obtain ⟨h1, h2, h3, h4, -, -, -, -⟩ := isDigit_not_special c hc
    have h5 := isDigit_not_alpha c hc
    have hstop : ∀ d ∈ rest.head?, isDigit d = false := by
      intro d hd
      cases rest with
      | nil => simp at hd
      | cons r rs =>
        simp only [List.head?_cons, Option.mem_def, Option.some.injEq] at hd
        subst hd
        simpa [Lexical.endsBefore] using hend
    have hloop := readWhile_atSplit isDigit (by decide) base
      (c :: cs) before rest ((before ++ (c :: cs ++ rest)).length + 1) hall hstop
      (by simp only [List.length_append, List.length_cons]; omega)
    have hch : (Lexer.atSplit before (c :: cs ++ rest) base).ch = c := rfl
    simp only [Lexer.scanToken, hch, h1, h2, h3, h4, h5, if_false, hc, if_true,
      Lexer.readNumber, atSplit_input, atSplit_position, hloop, Lexer.newToken,
      Lexical.token, slice_atSplit, Bool.false_eq_true]

theorem readStringLoop_atSplit (base : Lexer) (content : List Char) :
    ∀ (before rest builder : List Char) (fuel : Nat),
      content.all (fun c => c ≠ '"' && c ≠ NUL && decide (c.toNat < 128)) = true →
      (∀ c ∈ rest.head?, c = '"') → content.length ≤ fuel →
      Lexer.readStringLoop fuel (Lexer.atSplit before (content ++ rest) base) builder =
        (Lexer.atSplit (before ++ content) rest base, builder ++ content) := by
  induction content with
  | nil =>
    intro before rest builder fuel _ hrest _
    have hch : ¬ (((Lexer.atSplit before rest base).ch ≠ '"' &&
        (Lexer.atSplit before rest base).ch ≠ NUL) = true) := by
      rw [atSplit_ch]
      cases rest with
      | nil => decide
      | cons c cs =>
        have := hrest c (by simp)
        subst this
        simp
    cases fuel with
    | zero => simp [Lexer.readStringLoop]
    | succ n =>
      simp only [List.nil_append]
      rw [Lexer.readStringLoop, if_neg hch]
      simp
  | cons c cs ih =>
    intro before rest builder fuel hall hrest hfuel
    simp only [List.all_cons, Bool.and_eq_true, decide_eq_true_eq] at hall
    obtain ⟨⟨⟨hq, hn⟩, hascii⟩, hcs⟩ := hall
    cases fuel with
    | zero => simp at hfuel
    | succ n =>
      have hcond : ((Lexer.atSplit before (c :: cs ++ rest) base).ch ≠ '"' &&
          (Lexer.atSplit before (c :: cs ++ rest) base).ch ≠ NUL) = true := by
        rw [atSplit_ch]
        simp [hq, hn]
      have hwrite : writeRune (Lexer.atSplit before (c :: cs ++ rest) base).ch = [c] := by
        rw [atSplit_ch]
        simp [writeRune, hascii]
      rw [Lexer.readStringLoop, if_pos hcond, hwrite]
      simp only [List.cons_append]
      rw [atSplit_readRune, ih (before ++ [c]) rest (builder ++ [c]) n
        (by simpa [List.all_eq_true] using hcs) hrest (by simpa using hfuel)]
      simp

theorem scanToken_string (before content rest : List Char) (base : Lexer)
    (hwf : (Lexical.string content).wellFormed = true) :
    (Lexer.atSplit before ((Lexical.string content).text ++ rest) base).scanToken =
      ((Lexical.string content).token,
        Lexer.atSplit (before ++ (Lexical.string content).text) rest base) := by
  simp only [Lexical.wellFormed] at hwf
  have hloop := readStringLoop_atSplit base content (before ++ ['"']) ('"' :: rest) []
    ((before ++ ['"'] ++ (content ++ '"' :: rest)).length + 1) hwf (by simp)
    (by simp only [List.length_append, List.length_cons]; omega)
  have htext : (Lexical.string content).text ++ rest = '"' :: (content ++ '"' :: rest) := by
    simp [Lexical.text]
  have hch : (Lexer.atSplit before ('"' :: (content ++ '"' :: rest)) base).ch = '"' := rfl
  rw [htext, Lexer.scanToken, if_pos hch, Lexer.readStringToken]
  simp only [atSplit_readRune, atSplit_input, hloop, atSplit_ch, List.headD_cons, if_true,
    Lexer.newToken, Lexical.token, List.nil_append]
  simp [Lexical.text]

theorem Lexical.text_head (item : Lexical) (hwf : item.wellFormed = true) :
    ∃ c cs, item.text = c :: cs ∧ c ≠ '#' ∧ c ≠ '\n' ∧
      (c = ' ' || c = '\t' || c = '\n' || c = '\r') = false := by
  cases item with
  | word chars =>
    cases chars with
    | nil => simp [Lexical.wellFormed] at hwf
    | cons c cs =>
      simp only [Lexical.wellFormed, List.head?_cons, Option.map_some', Option.getD_some,
        Bool.and_eq_true] at hwf
      obtain ⟨-, -, -, -, h5, h6, -, h8⟩ := isAlpha_not_special c hwf.1
      exact ⟨c, cs, rfl, h5, h6, h8⟩
  | number digits =>
    cases digits with
    | nil => simp [Lexical.wellFormed] at hwf
    | cons c cs =>
      simp only [Lexical.wellFormed, Bool.and_eq_true, List.all_cons] at hwf
      obtain ⟨-, -, -, -, h5, h6, -, h8⟩ := isDigit_not_special c hwf.2.1
      exact ⟨c, cs, rfl, h5, h6, h8⟩
  | string content =>
    exact ⟨'"', content ++ ['"'], rfl, by decide, by decide, by decide⟩

theorem scanToken_lexical (item : Lexical) (before rest : List Char) (base : Lexer)
    (hwf : item.wellFormed = true) (hend : item.endsBefore rest = true) :
    (Lexer.atSplit before (item.text ++ rest) base).scanToken =
      (item.token, Lexer.atSplit (before ++ item.text) rest base) := by
  cases item with
  | word chars => exact scanToken_word before chars rest base hwf hend
  | number digits => exact scanToken_number before digits rest base hwf hend
  | string content => exact scanToken_string before content rest base hwf

theorem Next_lexical (item : Lexical) (before spaces rest : List Char) (base : Lexer)
    (hbase : ¬ base.dedentCount > 0)
    (hspaces : spaces.all (fun c => c = ' ') = true)
    (hwf : item.wellFormed = true) (hend : item.endsBefore rest = true) :
    (Lexer.atSplit before (spaces ++ (item.text ++ rest)) base).Next =
      .ok (item.token, Lexer.atSplit (before ++ spaces ++ item.text) rest base) := by
  obtain ⟨c, cs, htext, hcomment, hnewline, hblank⟩ := item.text_head hwf
  have hskip : (Lexer.atSplit before (spaces ++ (item.text ++ rest)) base).skipWhitespace =
      Lexer.atSplit (before ++ spaces) (item.text ++ rest) base := by
    apply skipWhitespace_atSplit before spaces _ base hspaces
    intro d hd
    rw [htext] at hd
    simp only [List.cons_append, List.head?_cons, Option.mem_def, Option.some.injEq] at hd
    subst hd
    exact hblank
  have hch : (Lexer.atSplit before (spaces ++ (item.text ++ rest)) base).ch ≠ '\n' := by
    rw [atSplit_ch]
    cases spaces with
    | nil =>
      rw [htext]
      exact hnewline
    | cons s ss =>
      simp only [List.all_cons, Bool.and_eq_true, decide_eq_true_eq] at hspaces
      rw [List.cons_append, List.headD_cons, hspaces.1]
      decide
  rw [Next_of_no_indent (Lexer.atSplit before (spaces ++ (item.text ++ rest)) base) hbase hch,
    hskip, scanToken_lexical item _ rest base hwf hend]
  rw [hskip, atSplit_ch, htext]
  exact hcomment

theorem Next_end (before : List Char) (base : Lexer) (hbase : ¬ base.dedentCount > 0) :
    (Lexer.atSplit before [] base).Next =
      .ok ({ Kind := .EOF, Lexeme := "" }, Lexer.atSplit before [] base) := by
  have hskip : (Lexer.atSplit before [] base).skipWhitespace = Lexer.atSplit before [] base := by
    have h := skipWhitespace_atSplit before [] [] base (by simp) (by simp)
    simpa using h
  have hch : (Lexer.atSplit before [] base).ch ≠ '\n' := by
    rw [atSplit_ch]
    decide
  rw [Next_of_no_indent (Lexer.atSplit before [] base) hbase hch, hskip]
  · rfl
  · rw [hskip, atSplit_ch]
    decide

/-! ## The parser on a piece of text -/

theorem nextToken_of_Next (fuel : Nat) (p : Parser) (token : Token) (lexer : Lexer)
    (hnext : p.lexer.Next = .ok (token, lexer)) (hkind : token.Kind ≠ .INDENT) :
    p.nextToken (fuel + 1) = .ok { lexer := lexer, currToken := token } := by
  rw [Parser.nextToken, hnext]
  simp only [Parser.skipIndent, hkind, if_false]

theorem lookup_mem_values (key : String) (kind : TokenKind) :
    ∀ table : List (String × TokenKind),
      table.lookup key = some kind → kind ∈ table.map Prod.snd := by
  intro table
  induction table with
  | nil => intro h; simp [List.lookup] at h
  | cons entry rest ih =>
    intro h
    obtain ⟨k, v⟩ := entry
    rw [List.lookup] at h
    cases hk : (key == k) with
    | true =>
      rw [hk] at h
      simp only [Option.some.injEq] at h
      subst h
      simp
    | false =>
      rw [hk] at h
      simp only [List.map_cons, List.mem_cons]
      exact Or.inr (ih h)

theorem lookupKeyword_ne_INDENT (lexeme : String) : lookupKeyword lexeme ≠ .INDENT := by
  unfold lookupKeyword
  cases h : keywords.lookup lexeme with
  | none => simp
  | some kind =>
    have hmem := lookup_mem_values lexeme kind keywords h
    intro heq
    simp only at heq
    subst heq
    revert hmem
    decide

theorem Lexical.token_kind_ne_INDENT (item : Lexical) : item.token.Kind ≠ .INDENT := by
  cases item with
  | word chars => exact lookupKeyword_ne_INDENT _
  | number digits => simp [Lexical.token]
  | string content => simp [Lexical.token]

theorem nextToken_lexical (fuel : Nat) (token : Token) (item : Lexical)
    (before spaces rest : List Char) (base : Lexer)
    (hbase : ¬ base.dedentCount > 0)
    (hspaces : spaces.all (fun c => c = ' ') = true)
    (hwf : item.wellFormed = true) (hend : item.endsBefore rest = true) :
    Parser.nextToken (fuel + 1)
        { lexer := Lexer.atSplit before (spaces ++ (item.text ++ rest)) base,
          currToken := token } =
      .ok { lexer := Lexer.atSplit (before ++ spaces ++ item.text) rest base,
            currToken := item.token } :=
  nextToken_of_Next fuel _ _ _
    (Next_lexical item before spaces rest base hbase hspaces hwf hend)
    item.token_kind_ne_INDENT

theorem nextToken_end (fuel : Nat) (token : Token) (before : List Char) (base : Lexer)
    (hbase : ¬ base.dedentCount > 0) :
    Parser.nextToken (fuel + 1)
        { lexer := Lexer.atSplit before [] base, currToken := token } =
      .ok { lexer := Lexer.atSplit before [] base,
            currToken := { Kind := .EOF, Lexeme := "" } } :=
  nextToken_of_Next fuel _ _ _ (Next_end before base hbase) (by simp)

/-! ## Parsing a negated condition -/

theorem Outcome.ok_bind {α β : Type} (a : α) (f : α → Outcome β) :
    (Outcome.ok a >>= f) = f a := rfl

theorem Outcome.panic_bind {α β : Type} (msg : String) (f : α → Outcome β) :
    ((Outcome.panic msg : Outcome α) >>= f) = Outcome.panic msg := rfl

theorem Outcome.pure_eq {α : Type} (a : α) : (pure a : Outcome α) = Outcome.ok a := rfl

theorem lookupKeyword_ne_LSQUARE (lexeme : String) : lookupKeyword lexeme ≠ .LSQUARE := by
  unfold lookupKeyword
  cases h : keywords.lookup lexeme with
  | none => simp
  | some kind =>
    have hmem := lookup_mem_values lexeme kind keywords h
    intro heq
    simp only at heq
    subst heq
    revert hmem
    decide

theorem Scalar.token_kind_ne_LSQUARE (v : Scalar) : v.lexical.token.Kind ≠ .LSQUARE := by
  cases v with
  | string content => simp [Scalar.lexical, Lexical.token]
  | number digits => simp [Scalar.lexical, Lexical.token]
  | boolTrue => decide
  | boolFalse => decide
  | null => decide

theorem parseValue_scalar (v : Scalar) (val : SingleValue)
    (hwf : v.lexical.wellFormed = true) (hval : v.value = some val) :
    parseValue v.lexical.token = .ok val := by
  cases v with
  | string content =>
    simp only [Scalar.value, Option.some.injEq] at hval
    subst hval
    rfl
  | number digits =>
    simp only [Scalar.lexical, Lexical.wellFormed, Bool.and_eq_true, Bool.not_eq_true',
      List.isEmpty_eq_false_iff_exists_mem] at hwf
    have hne : digits ≠ [] := by
      obtain ⟨⟨c, hc⟩, -⟩ := hwf
      exact List.ne_nil_of_mem hc
    simp only [Scalar.value, Option.map_eq_some'] at hval
    obtain ⟨q, hq, rfl⟩ := hval
    simp [parseValue, Scalar.lexical, Lexical.token, ParseFloat, hne, hwf.2, hq]
  | boolTrue =>
    simp only [Scalar.value, Option.some.injEq] at hval
    subst hval
    rfl
  | boolFalse =>
    simp only [Scalar.value, Option.some.injEq] at hval
    subst hval
    rfl
  | null =>
    simp only [Scalar.value, Option.some.injEq] at hval
    subst hval
    rfl

theorem endsBefore_space (item : Lexical) (rest : List Char) :
    item.endsBefore (' ' :: rest) = true := by
  cases item <;> simp [Lexical.endsBefore] <;> decide

theorem endsBefore_nil (item : Lexical) : item.endsBefore [] = true := by
  cases item <;> rfl

theorem nextToken_spaced (fuel : Nat) (token : Token) (item : Lexical)
    (before rest : List Char) (base : Lexer)
    (hbase : ¬ base.dedentCount > 0)
    (hwf : item.wellFormed = true) (hend : item.endsBefore rest = true) :
    Parser.nextToken (fuel + 1)
        { lexer := Lexer.atSplit before (' ' :: (item.text ++ rest)) base,
          currToken := token } =
      .ok { lexer := Lexer.atSplit (before ++ ' ' :: item.text) rest base,
            currToken := item.token } := by
  have h := nextToken_lexical fuel token item before [' '] rest base hbase (by decide) hwf hend
  simpa using h

theorem nextToken_first (fuel : Nat) (token : Token) (item : Lexical)
    (rest : List Char) (base : Lexer)
    (hbase : ¬ base.dedentCount > 0)
    (hwf : item.wellFormed = true) (hend : item.endsBefore rest = true) :
    Parser.nextToken (fuel + 1)
        { lexer := Lexer.atSplit [] (item.text ++ rest) base, currToken := token } =
      .ok { lexer := Lexer.atSplit item.text rest base, currToken := item.token } := by
  have h := nextToken_lexical fuel token item [] [] rest base hbase (by decide) hwf hend
  simpa using h

theorem parseCondition_not_refused (fuel : Nat) (p p1 p2 : Parser)
    (h1 : p.nextToken fuel = .ok p1) (hnot : p1.currToken.Kind = .NOT)
    (h2 : p1.nextToken fuel = .ok p2)
    (hop : allowedNegateSuffix p2.currToken.Lexeme = false) :
    p.parseCondition fuel =
      .panic ("Negation is not supported for operator: " ++ p2.currToken.Lexeme) := by
  rw [Parser.parseCondition]
  simp only [h1, Outcome.ok_bind, hnot, if_true, h2, hop, decide_True, Bool.not_false,
    Bool.and_self]

theorem parseCondition_not_single (fuel : Nat) (p p1 p2 p3 : Parser) (val : SingleValue)
    (h1 : p.nextToken fuel = .ok p1) (hnot : p1.currToken.Kind = .NOT)
    (h2 : p1.nextToken fuel = .ok p2)
    (hop : allowedNegateSuffix p2.currToken.Lexeme = true)
    (hbetween : p2.currToken.Lexeme ≠ "between")
    (h3 : p2.nextToken fuel = .ok p3) (hkind : p3.currToken.Kind ≠ .LSQUARE)
    (hval : parseValue p3.currToken = .ok val) :
    p.parseCondition fuel =
      .ok ({ Field := p.currToken.Lexeme, Operator := p2.currToken.Lexeme, Value := [val],
             Negate := true }, p3) := by
  rw [Parser.parseCondition]
  simp only [h1, Outcome.ok_bind, hnot, if_true, h2, hop, decide_True, Bool.not_true,
    Bool.and_false, Bool.false_eq_true, if_false, h3, hbetween, hkind, hval, Outcome.pure_eq]

theorem parseCondition_not_between (fuel : Nat) (p p1 p2 p3 p4 p5 : Parser)
    (low high : SingleValue)
    (h1 : p.nextToken fuel = .ok p1) (hnot : p1.currToken.Kind = .NOT)
    (h2 : p1.nextToken fuel = .ok p2)
    (hbetween : p2.currToken.Lexeme = "between")
    (h3 : p2.nextToken fuel = .ok p3) (hlow : parseValue p3.currToken = .ok low)
    (h4 : p3.nextToken fuel = .ok p4) (hand : p4.currToken.Kind = .AND)
    (h5 : p4.nextToken fuel = .ok p5) (hhigh : parseValue p5.currToken = .ok high) :
    p.parseCondition fuel =
      .ok ({ Field := p.currToken.Lexeme, Operator := "between", Value := [low, high],
             Negate := true }, p5) := by
  have hop : allowedNegateSuffix "between" = true := by decide
  have hne : ¬ (TokenKind.AND ≠ TokenKind.AND) := by simp
  rw [Parser.parseCondition]
  simp only [h1, Outcome.ok_bind, hnot, if_true, h2, hop, decide_True, Bool.not_true,
    Bool.and_false, Bool.false_eq_true, if_false, h3, hbetween, Parser.parseRange, hlow, h4,
    hand, hne, h5, hhigh, Outcome.pure_eq]

theorem parseCondition_not_between_single (fuel : Nat) (p p1 p2 p3 p4 : Parser)
    (low : SingleValue)
    (h1 : p.nextToken fuel = .ok p1) (hnot : p1.currToken.Kind = .NOT)
    (h2 : p1.nextToken fuel = .ok p2)
    (hbetween : p2.currToken.Lexeme = "between")
    (h3 : p2.nextToken fuel = .ok p3) (hlow : parseValue p3.currToken = .ok low)
    (h4 : p3.nextToken fuel = .ok p4) (hand : p4.currToken.Kind ≠ .AND) :
    p.parseCondition fuel = .panic "Expected 'and' in range condition" := by
  have hop : allowedNegateSuffix "between" = true := by decide
  rw [Parser.parseCondition]
  simp only [h1, Outcome.ok_bind, hnot, if_true, h2, hop, decide_True, Bool.not_true,
    Bool.and_false, Bool.false_eq_true, if_false, h3, hbetween, Parser.parseRange, hlow, h4,
    hand, ne_eq, not_false_eq_true, Outcome.panic_bind]

theorem ParseNext_condition (fuel : Nat) (p p1 p2 : Parser) (cond : Condition)
    (hkind : p.currToken.Kind = .IDENT)
    (hcond : p.parseCondition fuel = .ok (cond, p1))
    (hnext : p1.nextToken fuel = .ok p2) :
    p.ParseNext fuel = .ok (some (.condition cond), p2) := by
  have h1 : ¬ (TokenKind.IDENT = TokenKind.EOF) := by decide
  have h2 : ¬ (TokenKind.IDENT = TokenKind.GROUP) := by decide
  rw [Parser.ParseNext]
  simp only [hkind, h1, h2, if_false, if_true, hcond, Outcome.ok_bind, Outcome.pure_eq, hnext]

theorem ParseNext_condition_panic (fuel : Nat) (p : Parser) (msg : String)
    (hkind : p.currToken.Kind = .IDENT)
    (hcond : p.parseCondition fuel = .panic msg) :
    p.ParseNext fuel = .panic msg := by
  have h1 : ¬ (TokenKind.IDENT = TokenKind.EOF) := by decide
  have h2 : ¬ (TokenKind.IDENT = TokenKind.GROUP) := by decide
  rw [Parser.ParseNext]
  simp only [hkind, h1, h2, if_false, if_true, hcond, Outcome.panic_bind]

theorem initialLexer_no_dedent : ¬ initialLexer.dedentCount > 0 := by decide

theorem NewParser_ruleText (fuel : Nat) (first : List Char) (rest : List Char)
    (hwf : (Lexical.word first).wellFormed = true)
    (hend : (Lexical.word first).endsBefore rest = true) :
    NewParser (fuel + 1) (NewLexer (String.mk (first ++ rest))) =
      .ok { lexer := Lexer.atSplit first rest initialLexer,
            currToken := (Lexical.word first).token } := by
  rw [NewParser, NewLexer_atSplit]
  exact nextToken_first fuel _ (.word first) rest initialLexer initialLexer_no_dedent hwf hend

theorem negation_message_ne (operator : String) :
    "Expected 'and' in range condition" ≠
      "Negation is not supported for operator: " ++ operator := by
  intro h
  have hdata := congrArg String.data h
  have h1 : ("Negation is not supported for operator: " : String).data =
      'N' :: "egation is not supported for operator: ".data := rfl
  have h2 : ("Expected 'and' in range condition" : String).data =
      'E' :: "xpected 'and' in range condition".data := rfl
  rw [String.data_append, h1, h2, List.cons_append] at hdata
  have hhead := (List.cons.inj hdata).1
  revert hhead
  decide

/-- C6: on the rule text `f not op v`, where `f` is an identifier, `op` any
word, number or string literal and `v` a scalar literal with a value,
`ParseNext` panics with `Negation is not supported for operator: op` if and
only if the lexeme of `op` is not one of `in`, `contains`, `between`,
`startsWith`, `endsWith` (so it does for `eq`, `neq`, `gt`, `gte`, `lt`,
`lte`); for `in`, `contains`, `startsWith` and `endsWith` it returns the
condition with `Negate = true` and the value of `v`, and on
`f not between v and w` it returns the condition with the values of `v` and
`w`. -/
theorem parseCondition_negation (fuel : Nat) (f : List Char) (op : Lexical) (v w : Scalar)
    (vval wval : SingleValue)
    (hf : (Lexical.word f).wellFormed = true)
    (hident : lookupKeyword (String.mk f) = .IDENT)
    (hop : op.wellFormed = true)
    (hv : v.lexical.wellFormed = true) (hvval : v.value = some vval)
    (hw : w.lexical.wellFormed = true) (hwval : w.value = some wval) :
    (∃ p, NewParser (fuel + 1)
          (NewLexer (ruleText [f, "not".data, op.text, v.lexical.text])) = .ok p ∧
      (p.ParseNext (fuel + 1) =
          .panic ("Negation is not supported for operator: " ++ op.token.Lexeme) ↔
        op.token.Lexeme ∉ ["in", "contains", "between", "startsWith", "endsWith"]) ∧
      (op.token.Lexeme ∈ ["in", "contains", "startsWith", "endsWith"] →
        ∃ q, p.ParseNext (fuel + 1) =
          .ok (some (.condition
            { Field := String.mk f, Operator := op.token.Lexeme, Value := [vval],
              Negate := true }), q))) ∧
    (∃ p q, NewParser (fuel + 1)
          (NewLexer (ruleText
            [f, "not".data, "between".data, v.lexical.text, "and".data, w.lexical.text])) =
          .ok p ∧
      p.ParseNext (fuel + 1) =
        .ok (some (.condition
          { Field := String.mk f, Operator := "between", Value := [vval, wval],
            Negate := true }), q)) := by
  have hB := initialLexer_no_dedent
  have hvalue := parseValue_scalar v vval hv hvval
  have hwvalue := parseValue_scalar w wval hw hwval
  constructor
  · -- the text `f not op v`
    have h0 := NewParser_ruleText fuel f
      (' ' :: ("not".data ++ (' ' :: (op.text ++ (' ' :: v.lexical.text))))) hf
      (endsBefore_space _ _)
    have h1 := nextToken_spaced fuel (Lexical.word f).token (.word "not".data) f
      (' ' :: (op.text ++ (' ' :: v.lexical.text))) initialLexer hB (by decide)
      (endsBefore_space _ _)
    have h2 := nextToken_spaced fuel (Lexical.word "not".data).token op
      (f ++ ' ' :: (Lexical.word "not".data).text)
      (' ' :: v.lexical.text) initialLexer hB hop (endsBefore_space _ _)
    have h3 := nextToken_spaced fuel op.token v.lexical
      (f ++ ' ' :: (Lexical.word "not".data).text ++ ' ' :: op.text)
      [] initialLexer hB hv (endsBefore_nil _)
    have h4 := nextToken_end fuel v.lexical.token
      (f ++ ' ' :: (Lexical.word "not".data).text ++ ' ' :: op.text ++ ' ' :: v.lexical.text)
      initialLexer hB
    simp only [List.append_nil, Lexical.text] at h1 h2 h3 h4
    refine ⟨_, h0, ?_, ?_⟩
    · constructor
      · intro hpanic hmem
        by_cases hbetween : op.token.Lexeme = "between"
        · have hcond := parseCondition_not_between_single (fuel + 1) _ _ _ _ _ vval h1 rfl h2
            hbetween h3 hvalue h4 (by simp)
          have hpanic2 := (ParseNext_condition_panic (fuel + 1) _ _ hident hcond).symm.trans
            hpanic
          simp only [Outcome.panic.injEq] at hpanic2
          exact negation_message_ne _ hpanic2
        · have hallowed : allowedNegateSuffix op.token.Lexeme = true := by
            simp only [List.mem_cons, List.mem_singleton, List.not_mem_nil, or_false] at hmem
            simp only [allowedNegateSuffix, Bool.or_eq_true, decide_eq_true_eq]
            tauto
          have hcond := parseCondition_not_single (fuel + 1) _ _ _ _ vval h1 rfl h2 hallowed
            hbetween h3 v.token_kind_ne_LSQUARE hvalue
          have hpanic2 := (ParseNext_condition (fuel + 1) _ _ _ _ hident hcond h4).symm.trans
            hpanic
          exact Outcome.noConfusion hpanic2
      · intro hmem
        have hrefused : allowedNegateSuffix op.token.Lexeme = false := by
          simp only [List.mem_cons, List.mem_singleton, List.not_mem_nil, or_false,
            not_or] at hmem
          simp only [allowedNegateSuffix, Bool.or_eq_false_iff, decide_eq_false_iff_not]
          tauto
        have hcond := parseCondition_not_refused (fuel + 1) _ _ _ h1 rfl h2 hrefused
        exact ParseNext_condition_panic (fuel + 1) _ _ hident hcond
    · intro hmem
      have hallowed : allowedNegateSuffix op.token.Lexeme = true := by
        simp only [List.mem_cons, List.mem_singleton, List.not_mem_nil, or_false] at hmem
        simp only [allowedNegateSuffix, Bool.or_eq_true, decide_eq_true_eq]
        tauto
      have hbetween : op.token.Lexeme ≠ "between" := by
        simp only [List.mem_cons, List.mem_singleton, List.not_mem_nil, or_false] at hmem
        rcases hmem with h | h | h | h <;> rw [h] <;> decide
      have hcond := parseCondition_not_single (fuel + 1) _ _ _ _ vval h1 rfl h2 hallowed
        hbetween h3 v.token_kind_ne_LSQUARE hvalue
      exact ⟨_, ParseNext_condition (fuel + 1) _ _ _ _ hident hcond h4⟩
  · -- the text `f not between v and w`
    have h0 := NewParser_ruleText fuel f
      (' ' :: ("not".data ++ (' ' :: ("between".data ++ (' ' :: (v.lexical.text ++
        (' ' :: ("and".data ++ (' ' :: w.lexical.text))))))))) hf (endsBefore_space _ _)
    have h1 := nextToken_spaced fuel (Lexical.word f).token (.word "not".data) f
      (' ' :: ("between".data ++ (' ' :: (v.lexical.text ++
        (' ' :: ("and".data ++ (' ' :: w.lexical.text)))))))
      initialLexer hB (by decide) (endsBefore_space _ _)
    have h2 := nextToken_spaced fuel (Lexical.word "not".data).token (.word "between".data)
      (f ++ ' ' :: "not".data)
      (' ' :: (v.lexical.text ++ (' ' :: ("and".data ++ (' ' :: w.lexical.text)))))
      initialLexer hB (by decide) (endsBefore_space _ _)
    have h3 := nextToken_spaced fuel (Lexical.word "between".data).token v.lexical
      (f ++ ' ' :: "not".data ++ ' ' :: "between".data)
      (' ' :: ("and".data ++ (' ' :: w.lexical.text)))
      initialLexer hB hv (endsBefore_space _ _)
    have h4 := nextToken_spaced fuel v.lexical.token (.word "and".data)
      (f ++ ' ' :: "not".data ++ ' ' :: "between".data ++ ' ' :: v.lexical.text)
      (' ' :: w.lexical.text) initialLexer hB (by decide) (endsBefore_space _ _)
    have h5 := nextToken_spaced fuel (Lexical.word "and".data).token w.lexical
      (f ++ ' ' :: "not".data ++ ' ' :: "between".data ++ ' ' :: v.lexical.text ++
        ' ' :: "and".data)
      [] initialLexer hB hw (endsBefore_nil _)
    have h6 := nextToken_end fuel w.lexical.token
      (f ++ ' ' :: "not".data ++ ' ' :: "between".data ++ ' ' :: v.lexical.text ++
        ' ' :: "and".data ++ ' ' :: w.lexical.text)
      initialLexer hB
    simp only [List.append_nil, Lexical.text] at h1 h2 h3 h4 h5 h6
    have hcond := parseCondition_not_between (fuel + 1) _ _ _ _ _ _ vval wval h1 rfl h2 rfl h3
      hvalue h4 rfl h5 hwvalue
    exact ⟨_, _, h0, ParseNext_condition (fuel + 1) _ _ _ _ hident hcond h6⟩

/-! ## Instances on the inputs of the repository's tests -/

theorem evaluateGroup_returns_first_child_error_witness :
    evaluateGroup "and"
        ([Statement.condition ⟨"age", "gt", [.num (.fin 30)], false⟩] ++
          Statement.condition ⟨"age", "lt", [.str "twenty"], false⟩ :: [])
        [("age", .num (.fin 25))] =
      .error "invalid types for numeric comparison: float64 and string" ∧
    evaluateGroup "or"
        ([Statement.condition ⟨"age", "gt", [.num (.fin 18)], false⟩] ++
          Statement.condition ⟨"age", "lt", [.str "twenty"], false⟩ :: [])
        [("age", .num (.fin 25))] =
      .error "invalid types for numeric comparison: float64 and string" :=
  ⟨evaluateGroup_returns_first_child_error "and" _ _ _ _ _
      (by intro c hc; rw [List.mem_singleton] at hc; subst hc; exact ⟨false, by decide⟩)
      (by decide),
    evaluateGroup_returns_first_child_error "or" _ _ _ _ _
      (by intro c hc; rw [List.mem_singleton] at hc; subst hc; exact ⟨true, by decide⟩)
      (by decide)⟩

theorem evaluateGroup_and_or_witness :
    evaluateGroup "and"
        [Statement.condition ⟨"age", "gt", [.num (.fin 18)], false⟩,
          Statement.group "or"
            [Statement.condition ⟨"age", "gt", [.num (.fin 30)], false⟩,
              Statement.condition ⟨"title", "contains", [.str "Hello"], false⟩]]
        [("age", .num (.fin 25)), ("title", .str "Hello World")] =
      .ok ([true, true].all id) ∧
    evaluateGroup "and"
        [Statement.condition ⟨"age", "gt", [.num (.fin 18)], false⟩,
          Statement.condition ⟨"title", "contains", [.str "Hi"], false⟩]
        [("age", .num (.fin 25)), ("title", .str "Hello World")] =
      .ok ([true, false].all id) ∧
    evaluateGroup "or"
        [Statement.condition ⟨"age", "gt", [.num (.fin 30)], false⟩,
          Statement.group "and"
            [Statement.condition ⟨"age", "gt", [.num (.fin 18)], false⟩,
              Statement.condition ⟨"title", "contains", [.str "Hello"], false⟩]]
        [("age", .num (.fin 25)), ("title", .str "Hello World")] =
      .ok ([false, true].any id) ∧
    evaluateGroup "or"
        [Statement.condition ⟨"age", "gt", [.num (.fin 30)], false⟩,
          Statement.condition ⟨"title", "contains", [.str "Hi"], false⟩]
        [("age", .num (.fin 25)), ("title", .str "Hello World")] =
      .ok ([false, false].any id) ∧
    evaluateGroup "and" [] [] = .ok true ∧ evaluateGroup "or" [] [] = .ok false :=
  ⟨(evaluateGroup_and_or "and" _ _ [true, true] (by decide)).1 rfl,
    (evaluateGroup_and_or "and" _ _ [true, false] (by decide)).1 rfl,
    (evaluateGroup_and_or "or" _ _ [false, true] (by decide)).2 rfl,
    (evaluateGroup_and_or "or" _ _ [false, false] (by decide)).2 rfl,
    (evaluateGroup_and_or "and" [] [] [] rfl).1 rfl,
    (evaluateGroup_and_or "or" [] [] [] rfl).2 rfl⟩

theorem between_is_gte_and_lte_witness :
    resolveFieldValue "age" (.map [("age", .num (.fin 10))]) = .ok (.num (.fin 10)) ∧
    evaluateCondition
      { Field := "age", Operator := "between", Value := [.num (.fin 10), .num (.fin 30)],
        Negate := false }
      [("age", .num (.fin 10))] = .ok true :=
  ⟨rfl, (between_is_gte_and_lte "age" [("age", .num (.fin 10))] (.fin 10) (.fin 10) (.fin 30)
    rfl).2 (by decide) (Or.inl (by decide))⟩

theorem negation_complements_result_witness :
    evaluateCondition
      { Field := "title", Operator := "contains", Value := [.str "Berlin"], Negate := true }
      [("title", .str "Hello World")] = .ok (!false) :=
  (negation_complements_result "title" "contains" [.str "Berlin"]
    [("title", .str "Hello World")] (Or.inr (Or.inl rfl))).2.2 false (by decide)

theorem resolveFieldValue_follows_path_witness :
    resolveFieldValue "products[0].category.name"
      (.map [("products",
        .seq [.map [("category", .map [("name", .str "Electronics")])]])]) =
      .ok (.str "Electronics") :=
  resolveFieldValue_follows_path
    [.key "products", .index "0", .key "category", .key "name"] _ _
    (by decide) (by decide) rfl

theorem resolveFieldValue_index_out_of_range_witness :
    resolveFieldValue "products[100].category.name"
      (.map [("products",
        .seq [.map [("category", .map [("name", .str "Electronics")])]])]) =
      .error "array index out of range: 100" :=
  resolveFieldValue_index_out_of_range [.key "products"] "100"
    [.key "category", .key "name"] _
    [.map [("category", .map [("name", .str "Electronics")])]]
    (by decide) (by decide) rfl (by decide) (by decide)

/-- C8, the claim as stated fails: on a one-element list the index segment
`[9223372036854775808]` is out of range, and the error that
`resolveFieldValue` returns carries `9223372036854775807`, not the index. -/
theorem resolveFieldValue_index_message_counterexample :
    resolveFieldValue "products[9223372036854775808]"
        (.map [("products", .seq [.num (.fin 1)])]) =
      .error "array index out of range: 9223372036854775807" ∧
    resolveFieldValue "products[9223372036854775808]"
        (.map [("products", .seq [.num (.fin 1)])]) ≠
      .error "array index out of range: 9223372036854775808" := by
  have h : resolveFieldValue "products[9223372036854775808]"
      (.map [("products", .seq [.num (.fin 1)])]) =
      .error "array index out of range: 9223372036854775807" := by rfl
  refine ⟨h, ?_⟩
  rw [h]
  simp

/-- C9, the failing input: the index segment `[0]` of the path `a[0]` meets
a mapping, and `resolveFieldValue` returns nil and no error; the segment is
looked up as the key `[0]`. -/
theorem resolveFieldValue_index_on_mapping :
    resolveFieldValue "a[0]" (.map [("a", .map [("b", .num (.fin 1))])]) = .ok .null := by
  rfl

/-! ## Top-level statements -/

theorem evaluateLoop_step_true (fuel rounds : Nat) (p p1 : Parser) (stmt : Statement)
    (context : List (String × SingleValue))
    (hparse : p.ParseNext fuel = .ok (some stmt, p1))
    (htrue : evaluateGroup.evaluateChild stmt context = .ok true) :
    evaluateLoop fuel (rounds + 1) p context = evaluateLoop fuel rounds p1 context := by
  cases stmt with
  | condition cond =>
    rw [evaluateChild_condition] at htrue
    simp [evaluateLoop, hparse, htrue]
  | group logicalOp children =>
    rw [evaluateChild_group] at htrue
    simp [evaluateLoop, hparse, htrue]

theorem evaluateLoop_step_false (fuel rounds : Nat) (p p1 : Parser) (stmt : Statement)
    (context : List (String × SingleValue))
    (hparse : p.ParseNext fuel = .ok (some stmt, p1))
    (hfalse : evaluateGroup.evaluateChild stmt context = .ok false) :
    evaluateLoop fuel (rounds + 1) p context = .ok false := by
  cases stmt with
  | condition cond =>
    rw [evaluateChild_condition] at hfalse
    simp [evaluateLoop, hparse, hfalse]
  | group logicalOp children =>
    rw [evaluateChild_group] at hfalse
    simp [evaluateLoop, hparse, hfalse]

theorem evaluateLoop_false (fuel : Nat) (context : List (String × SingleValue))
    (stmt : Statement) (q r : Parser)
    (hnext : q.ParseNext fuel = .ok (some stmt, r))
    (hfalse : evaluateGroup.evaluateChild stmt context = .ok false) :
    ∀ (before : List Statement) (rounds : Nat) (p : Parser),
      readsStatements fuel p before q →
      (∀ t ∈ before, evaluateGroup.evaluateChild t context = .ok true) →
      before.length < rounds →
      evaluateLoop fuel rounds p context = .ok false := by
  intro before
  induction before with
  | nil =>
    intro rounds p hread _ hrounds
    simp only [readsStatements] at hread
    subst hread
    obtain ⟨n, rfl⟩ : ∃ n, rounds = n + 1 := ⟨rounds - 1, by simp at hrounds; omega⟩
    exact evaluateLoop_step_false fuel n p r stmt context hnext hfalse
  | cons first rest ih =>
    intro rounds p hread htrue hrounds
    simp only [readsStatements] at hread
    obtain ⟨p1, hparse, hrest⟩ := hread
    obtain ⟨n, rfl⟩ : ∃ n, rounds = n + 1 := ⟨rounds - 1, by simp at hrounds; omega⟩
    rw [evaluateLoop_step_true fuel n p p1 first context hparse
      (htrue first (List.mem_cons_self _ _))]
    exact ih n p1 hrest (fun t ht => htrue t (List.mem_cons_of_mem _ ht))
      (by simp at hrounds; omega)

/-- Top-level statements are AND-ed with short-circuit once they are read.
When the statements that `ParseNext` returns first (`before`) all evaluate to
true and the next one, which `ParseNext` returns too, evaluates to false,
`Evaluate` returns false and no error, and calls `ParseNext` no more.
(`fuel` bounds the statements read and the work of each `ParseNext`.) -/
theorem Evaluate_false_short_circuits (fuel : Nat) (p q r : Parser)
    (context : List (String × SingleValue)) (before : List Statement) (stmt : Statement)
    (hread : readsStatements fuel p before q)
    (htrue : ∀ t ∈ before, evaluateGroup.evaluateChild t context = .ok true)
    (hnext : q.ParseNext fuel = .ok (some stmt, r))
    (hfalse : evaluateGroup.evaluateChild stmt context = .ok false)
    (hfuel : before.length < fuel) :
    Evaluate fuel p context = .ok false :=
  evaluateLoop_false fuel context stmt q r hnext hfalse before fuel p hread htrue hfuel

theorem Evaluate_false_short_circuits_witness :
    ∃ p, NewParser 3 (NewLexer "age gt 18\nage eq 1\nage lt \"twenty\"") = .ok p ∧
      Evaluate 3 p [("age", .num (.fin 25))] = .ok false :=
  ⟨_, rfl,
    Evaluate_false_short_circuits 3 _ _ _ [("age", .num (.fin 25))]
      [.condition ⟨"age", "gt", [.num (.fin 18)], false⟩]
      (.condition ⟨"age", "eq", [.num (.fin 1)], false⟩)
      ⟨_, rfl, rfl⟩
      (by intro t ht; rw [List.mem_singleton] at ht; subst ht; decide)
      rfl (by decide) (by decide)⟩

theorem parseCondition_negation_witness :
    (∃ p q, NewParser 1 (NewLexer "title not contains \"Berlin\"") = .ok p ∧
      p.ParseNext 1 =
        .ok (some (.condition
          { Field := "title", Operator := "contains", Value := [.str "Berlin"],
            Negate := true }), q)) ∧
    (∃ p, NewParser 1 (NewLexer "title not eq \"Berlin\"") = .ok p ∧
      p.ParseNext 1 = .panic "Negation is not supported for operator: eq") := by
  have hcontains := (parseCondition_negation 0 "title".data (.word "contains".data)
    (.string "Berlin".data) .null (.str "Berlin") .null
    (by decide) (by decide) (by decide) (by decide) rfl (by decide) rfl).1
  have heq := (parseCondition_negation 0 "title".data (.word "eq".data)
    (.string "Berlin".data) .null (.str "Berlin") .null
    (by decide) (by decide) (by decide) (by decide) rfl (by decide) rfl).1
  obtain ⟨p, hp, -, hok⟩ := hcontains
  obtain ⟨q, hq⟩ := hok (by decide)
  obtain ⟨p2, hp2, hiff, -⟩ := heq
  exact ⟨⟨p, q, hp, hq⟩, ⟨p2, hp2, hiff.mpr (by decide)⟩⟩

/-! ## Conditions that make evaluation panic -/

/-- C10, the failing inputs: the parser returns the condition of
`title contains 5` with the number 5 as operand, and `evaluateCondition`
panics in the type assertion `conditionValue.(string)` (the same for
`startsWith` and `endsWith`); the parser returns the condition of
`title in []` with no operand, and `evaluateCondition` panics in
`cond.Value[0]`. -/
theorem evaluateCondition_panics :
    (∃ p q, NewParser 2 (NewLexer "title contains 5") = .ok p ∧
      p.ParseNext 2 =
        .ok (some (.condition
          { Field := "title", Operator := "contains", Value := [.num (.fin 5)],
            Negate := false }), q)) ∧
    evaluateCondition
        { Field := "title", Operator := "contains", Value := [.num (.fin 5)], Negate := false }
        [("title", .str "Hello World")] =
      .panic "interface conversion: parser.SingleValue is float64, not string" ∧
    evaluateCondition
        { Field := "title", Operator := "startsWith", Value := [.num (.fin 5)], Negate := false }
        [("title", .str "Hello World")] =
      .panic "interface conversion: parser.SingleValue is float64, not string" ∧
    evaluateCondition
        { Field := "title", Operator := "endsWith", Value := [.null], Negate := false }
        [("title", .str "Hello World")] =
      .panic "interface conversion: parser.SingleValue is nil, not string" ∧
    (∃ p q, NewParser 2 (NewLexer "title in []") = .ok p ∧
      p.ParseNext 2 =
        .ok (some (.condition
          { Field := "title", Operator := "in", Value := [], Negate := false }), q)) ∧
    evaluateCondition
        { Field := "title", Operator := "in", Value := [], Negate := false }
        [("title", .str "Hello World")] =
      .panic "runtime error: index out of range [0] with length 0" ∧
    EvaluateLogix 2 "title contains 5" [("title", .str "Hello World")] =
      .panic "interface conversion: parser.SingleValue is float64, not string" ∧
    EvaluateLogix 2 "title in []" [("title", .str "Hello World")] =
      .panic "runtime error: index out of range [0] with length 0" :=
  ⟨⟨_, _, rfl, rfl⟩, by decide, by decide, by decide, ⟨_, _, rfl, rfl⟩, by decide, by decide,
    by decide⟩

/-! ## A child that panics before a child that returns an error -/

/-- C2, the failing input: in the group of `title contains 5` and
`age lt "twenty"`, with `title` a string and `age` a number, the second
child alone returns an evaluation error; `evaluateGroup` does not return
that error but panics in the first child, on the type assertion
`conditionValue.(string)`.  The same holds with `title in []` as the first
child, and for the rule text of the group. -/
theorem evaluateGroup_panics_before_child_error :
    evaluateCondition
        { Field := "age", Operator := "lt", Value := [.str "twenty"], Negate := false }
        [("title", .str "Hello World"), ("age", .num (.fin 25))] =
      .error "invalid types for numeric comparison: float64 and string" ∧
    (∀ logicalOp, evaluateGroup logicalOp
        [.condition
            { Field := "title", Operator := "contains", Value := [.num (.fin 5)],
              Negate := false },
          .condition
            { Field := "age", Operator := "lt", Value := [.str "twenty"], Negate := false }]
        [("title", .str "Hello World"), ("age", .num (.fin 25))] =
      .panic "interface conversion: parser.SingleValue is float64, not string") ∧
    (∀ logicalOp, evaluateGroup logicalOp
        [.condition { Field := "title", Operator := "in", Value := [], Negate := false },
          .condition
            { Field := "age", Operator := "lt", Value := [.str "twenty"], Negate := false }]
        [("title", .str "Hello World"), ("age", .num (.fin 25))] =
      .panic "runtime error: index out of range [0] with length 0") ∧
    EvaluateLogix 3 "group and\n  title contains 5\n  age lt \"twenty\""
        [("title", .str "Hello World"), ("age", .num (.fin 25))] =
      .panic "interface conversion: parser.SingleValue is float64, not string" := by
  refine ⟨by decide, ?_, ?_, by decide!⟩
  · intro logicalOp
    have hchild : evaluateGroup.evaluateChild
        (.condition
          { Field := "title", Operator := "contains", Value := [.num (.fin 5)],
            Negate := false })
        [("title", .str "Hello World"), ("age", .num (.fin 25))] =
        .panic "interface conversion: parser.SingleValue is float64, not string" := by
      decide
    rw [evaluateGroup, evaluateGroup.evaluateChildren, hchild]
  · intro logicalOp
    have hchild : evaluateGroup.evaluateChild
        (.condition { Field := "title", Operator := "in", Value := [], Negate := false })
        [("title", .str "Hello World"), ("age", .num (.fin 25))] =
        .panic "runtime error: index out of range [0] with length 0" := by
      decide
    rw [evaluateGroup, evaluateGroup.evaluateChildren, hchild]

/-! ## Illegal tokens inside a condition -/

/-- C11, the failing inputs: the parser takes the illegal token `@` of
`price @ 10` as the operator and returns a condition, so that evaluation
returns the evaluation error `unknown operator '@'`; it takes the illegal
token of the unterminated string in `price eq "10` as a nil operand and
returns a condition, so that evaluation returns a boolean. -/
theorem illegal_token_is_parsed :
    (∃ p q, NewParser 1 (NewLexer "price @ 10") = .ok p ∧
      p.ParseNext 1 =
        .ok (some (.condition
          { Field := "price", Operator := "@", Value := [.num (.fin 10)],
            Negate := false }), q)) ∧
    EvaluateLogix 2 "price @ 10" [("price", .num (.fin 5))] =
      .error "unknown operator '@'" ∧
    (∃ p q, NewParser 1 (NewLexer "price eq \"10") = .ok p ∧
      p.ParseNext 1 =
        .ok (some (.condition
          { Field := "price", Operator := "eq", Value := [.null], Negate := false }), q)) ∧
    EvaluateLogix 2 "price eq \"10" [] = .ok true ∧
    EvaluateLogix 2 "price eq \"10" [("price", .num (.fin 5))] = .ok false :=
  ⟨⟨_, _, rfl, rfl⟩, by decide, ⟨_, _, rfl, rfl⟩, by decide, by decide⟩

/-! ## A line break before trailing white space -/

/-- C17, the failing input: on the input of a line break and one space, the
first call of `Next` panics in `setIndentationMode`, whose counting loop
reads `l.input[pos]` past the end of the input; so does the fourth call on
`a eq 1`, a line break and two spaces. -/
theorem Next_panics_on_trailing_indentation :
    (NewLexer "\n ").Next = .panic "runtime error: index out of range [2] with length 2" ∧
    (∃ l1 l2 l3 t1 t2 t3,
      (NewLexer "a eq 1\n  ").Next = .ok (t1, l1) ∧ l1.Next = .ok (t2, l2) ∧
      l2.Next = .ok (t3, l3) ∧
      l3.Next = .panic "runtime error: index out of range [9] with length 9") :=
  ⟨by decide, ⟨_, _, _, _, _, _, rfl, rfl, rfl, by decide⟩⟩

/-! ## The end of the input -/

theorem readRune_dedentCount (l : Lexer) : l.readRune.dedentCount = l.dedentCount := rfl

theorem readWhile_dedentCount (cond : Char → Bool) :
    ∀ (fuel : Nat) (l : Lexer), (Lexer.readWhile cond fuel l).dedentCount = l.dedentCount := by
  intro fuel
  induction fuel with
  | zero => intro l; rfl
  | succ n ih =>
    intro l
    rw [Lexer.readWhile]
    split_ifs
    · rw [ih, readRune_dedentCount]
    · rfl

theorem readWhile_of_not (cond : Char → Bool) (fuel : Nat) (l : Lexer)
    (h : cond l.ch = false) : Lexer.readWhile cond fuel l = l := by
  cases fuel with
  | zero => rfl
  | succ n => simp [Lexer.readWhile, h]

theorem readIndentLoop_dedentCount (ch : Char) :
    ∀ (fuel : Nat) (l : Lexer) (count : Int),
      (Lexer.readIndentLoop ch fuel l count).1.dedentCount = l.dedentCount := by
  intro fuel
  induction fuel with
  | zero => intro l count; rfl
  | succ n ih =>
    intro l count
    rw [Lexer.readIndentLoop]
    split_ifs
    · rw [ih, readRune_dedentCount]
    · rfl

theorem setIndentationMode_dedentCount (l l1 : Lexer) (h : l.setIndentationMode = .ok l1) :
    l1.dedentCount = l.dedentCount := by
  unfold Lexer.setIndentationMode at h
  simp only at h
  split_ifs at h with h1
  · cases h; rfl
  · split at h
    · cases h
    · split_ifs at h
      · cases h; rfl
      · split at h
        · cases h
        · cases h; rfl

theorem readIndentLevel_dedentCount (l l1 : Lexer) (level : Int)
    (h : l.readIndentLevel = .ok (level, l1)) : l1.dedentCount = l.dedentCount := by
  unfold Lexer.readIndentLevel at h
  simp only at h
  split_ifs at h <;> cases h <;> exact readIndentLoop_dedentCount _ _ _ _

theorem indentStep_none (l l1 : Lexer) (h : l.indentStep = .ok (none, l1)) :
    l1.dedentCount = l.dedentCount := by
  unfold Lexer.indentStep at h
  split_ifs at h with hch
  · cases hlevel : l.readIndentLevel with
    | ok r =>
      obtain ⟨level, l2⟩ := r
      rw [hlevel] at h
      simp only at h
      cases htop : stackTop l2.indentStack with
      | ok top =>
        rw [htop] at h
        simp only at h
        split_ifs at h
        · cases h
        · cases hpop : popLevels level (l2.indentStack.length + 1) l2.indentStack
              l2.dedentCount with
          | ok r2 => rw [hpop] at h; cases h
          | error m => rw [hpop] at h; cases h
          | panic m => rw [hpop] at h; cases h
          | timeout => rw [hpop] at h; cases h
        · cases h
          exact readIndentLevel_dedentCount l l1 level hlevel
      | error m => rw [htop] at h; cases h
      | panic m => rw [htop] at h; cases h
      | timeout => rw [htop] at h; cases h
    | error m => rw [hlevel] at h; cases h
    | panic m => rw [hlevel] at h; cases h
    | timeout => rw [hlevel] at h; cases h
  · cases h; rfl

theorem indentStep_some (l l1 : Lexer) (token : Token)
    (h : l.indentStep = .ok (some token, l1)) :
    token = { Kind := .INDENT, Lexeme := "" } ∨ token = { Kind := .DEDENT, Lexeme := "" } := by
  unfold Lexer.indentStep at h
  split_ifs at h with hch
  · cases hlevel : l.readIndentLevel with
    | ok r =>
      obtain ⟨level, l2⟩ := r
      rw [hlevel] at h
      simp only at h
      cases htop : stackTop l2.indentStack with
      | ok top =>
        rw [htop] at h
        simp only at h
        split_ifs at h
        · cases h; exact Or.inl rfl
        · cases hpop : popLevels level (l2.indentStack.length + 1) l2.indentStack
              l2.dedentCount with
          | ok r2 => rw [hpop] at h; cases h; exact Or.inr rfl
          | error m => rw [hpop] at h; cases h
          | panic m => rw [hpop] at h; cases h
          | timeout => rw [hpop] at h; cases h
        · cases h
      | error m => rw [htop] at h; cases h
      | panic m => rw [htop] at h; cases h
      | timeout => rw [htop] at h; cases h
    | error m => rw [hlevel] at h; cases h
    | panic m => rw [hlevel] at h; cases h
    | timeout => rw [hlevel] at h; cases h
  · cases h

theorem lookupKeyword_ne_EOF (lexeme : String) : lookupKeyword lexeme ≠ .EOF := by
  unfold lookupKeyword
  cases h : keywords.lookup lexeme with
  | none => simp
  | some kind =>
    have hmem := lookup_mem_values lexeme kind keywords h
    intro heq
    simp only at heq
    subst heq
    revert hmem
    decide

theorem scanToken_EOF (l : Lexer) (h : l.scanToken.1.Kind = .EOF) :
    l.ch = NUL ∧ l.scanToken = ({ Kind := .EOF, Lexeme := "" }, l) := by
  unfold Lexer.scanToken at h ⊢
  split_ifs at h ⊢ with h1 h2 h3 h4 h5 h6 h7
  · exfalso
    revert h
    unfold Lexer.readStringToken
    simp only
    split_ifs <;> simp [Lexer.newToken]
  · simp [Lexer.newToken] at h
  · simp [Lexer.newToken] at h
  · simp [Lexer.newToken] at h
  · exact absurd h (lookupKeyword_ne_EOF _)
  · simp [Lexer.newToken, Lexer.readNumber] at h
  · exact ⟨h7, rfl⟩
  · simp [Lexer.newToken] at h

theorem nextFuel_EOF :
    ∀ (fuel : Nat) (l l1 : Lexer) (token : Token),
      Lexer.nextFuel fuel l = .ok (token, l1) → token.Kind = .EOF →
      token = { Kind := .EOF, Lexeme := "" } ∧ l1.ch = NUL ∧ ¬ l1.dedentCount > 0 := by
  intro fuel
  induction fuel with
  | zero => intro l l1 token h; simp [Lexer.nextFuel] at h
  | succ n ih =>
    intro l0 l1 token h hkind
    rw [Lexer.nextFuel] at h
    cases hmode : l0.setIndentationMode with
    | ok l =>
      rw [hmode] at h
      simp only at h
      split_ifs at h with hdedent
      · cases h
        simp [Lexer.newToken] at hkind
      · cases hstep : l.indentStep with
        | ok r =>
          obtain ⟨tok, l2⟩ := r
          rw [hstep] at h
          cases tok with
          | some t =>
            simp only at h
            cases h
            rcases indentStep_some l l1 token hstep with ht | ht <;> rw [ht] at hkind <;>
              simp at hkind
          | none =>
            simp only at h
            split_ifs at h with hcomment
            · exact ih _ _ _ h hkind
            · simp only [Outcome.ok.injEq] at h
              have hk : l2.skipWhitespace.scanToken.1.Kind = .EOF := by rw [h]; exact hkind
              obtain ⟨hnul, hscan⟩ := scanToken_EOF _ hk
              rw [hscan] at h
              simp only [Prod.mk.injEq] at h
              obtain ⟨htok, hl⟩ := h
              subst htok hl
              refine ⟨rfl, hnul, ?_⟩
              rw [Lexer.skipWhitespace, readWhile_dedentCount, indentStep_none l l2 hstep]
              exact hdedent
        | error m => rw [hstep] at h; cases h
        | panic m => rw [hstep] at h; cases h
        | timeout => rw [hstep] at h; cases h
    | error m => rw [hmode] at h; cases h
    | panic m => rw [hmode] at h; cases h
    | timeout => rw [hmode] at h; cases h

theorem Next_at_end (l : Lexer) (hch : l.ch = NUL) (hdedent : ¬ l.dedentCount > 0) :
    l.Next = .ok ({ Kind := .EOF, Lexeme := "" }, l) := by
  have hskip : l.skipWhitespace = l :=
    readWhile_of_not _ _ l (by rw [hch]; decide)
  rw [Next_of_no_indent l hdedent (by rw [hch]; decide) (by rw [hskip, hch]; decide), hskip]
  unfold Lexer.scanToken
  rw [hch]
  rfl

theorem nextAfter_at_end (l : Lexer) (hch : l.ch = NUL) (hdedent : ¬ l.dedentCount > 0) :
    ∀ n, Lexer.nextAfter n l = .ok ({ Kind := .EOF, Lexeme := "" }, l) := by
  intro n
  induction n with
  | zero => exact Next_at_end l hch hdedent
  | succ k ih =>
    rw [Lexer.nextAfter, Next_at_end l hch hdedent]
    exact ih

/-- C16: once `Next` has returned a token of kind `EOF`, from any lexer
state, that token has the empty lexeme and every later call of `Next`
returns the same `EOF` token and leaves the lexer as it is; and the first
call on the empty input returns `EOF`. -/
theorem Next_EOF_forever (l l1 : Lexer) (token : Token)
    (hnext : l.Next = .ok (token, l1)) (hkind : token.Kind = .EOF) :
    token = { Kind := .EOF, Lexeme := "" } ∧
    (∀ n, Lexer.nextAfter n l1 = .ok ({ Kind := .EOF, Lexeme := "" }, l1)) ∧
    (NewLexer "").Next = .ok ({ Kind := .EOF, Lexeme := "" }, NewLexer "") := by
  obtain ⟨htok, hch, hdedent⟩ := nextFuel_EOF _ l l1 token hnext hkind
  exact ⟨htok, nextAfter_at_end l1 hch hdedent, by decide⟩

theorem Next_EOF_forever_witness :
    (NewLexer "a").Next =
      .ok ({ Kind := .IDENT, Lexeme := "a" }, Lexer.atSplit "a".data [] initialLexer) ∧
    ∃ l2, (Lexer.atSplit "a".data [] initialLexer).Next =
        .ok ({ Kind := .EOF, Lexeme := "" }, l2) ∧
      Lexer.nextAfter 3 l2 = .ok ({ Kind := .EOF, Lexeme := "" }, l2) :=
  ⟨by decide, _, rfl,
    (Next_EOF_forever (Lexer.atSplit "a".data [] initialLexer) _ _ rfl rfl).2.1 3⟩

/-! ## An array that is not closed -/

theorem Outcome.timeout_bind {α β : Type} (f : α → Outcome β) :
    ((Outcome.timeout : Outcome α) >>= f) = Outcome.timeout := rfl

theorem nextToken_zero (p : Parser) (token : Token) (lexer : Lexer)
    (hnext : p.lexer.Next = .ok (token, lexer)) : p.nextToken 0 = .timeout := by
  rw [Parser.nextToken, hnext]
  rfl

theorem parseArrayLoop_at_end (fuel : Nat) (lexer : Lexer)
    (hend : lexer.Next = .ok ({ Kind := .EOF, Lexeme := "" }, lexer)) :
    ∀ (rounds : Nat) (arrayValues : Value),
      Parser.parseArrayLoop (fuel + 1) rounds
        { lexer := lexer, currToken := { Kind := .EOF, Lexeme := "" } }
        arrayValues = .timeout := by
  intro rounds
  induction rounds with
  | zero => intro arrayValues; rfl
  | succ n ih =>
    intro arrayValues
    have hkind : (TokenKind.EOF ≠ TokenKind.RSQUARE) := by decide
    have hcomma : ¬ (TokenKind.EOF = TokenKind.COMMA) := by decide
    have hvalue : parseValue { Kind := .EOF, Lexeme := "" } = .ok .null := rfl
    have hnext := nextToken_of_Next fuel
      { lexer := lexer, currToken := { Kind := .EOF, Lexeme := "" } } _ _ hend (by decide)
    rw [Parser.parseArrayLoop]
    simp only [hkind, ne_eq, not_false_eq_true, if_true, hvalue, Outcome.ok_bind, hnext,
      hcomma, if_false, Outcome.pure_eq]
    exact ih _

theorem ParseNext_unclosed_array (s1 s2 s3 s4 s5 s6 : Lexer)
    (n1 : s1.Next = .ok ({ Kind := .IN, Lexeme := "in" }, s2))
    (n2 : s2.Next = .ok ({ Kind := .LSQUARE, Lexeme := "[" }, s3))
    (n3 : s3.Next = .ok ({ Kind := .NUMBER, Lexeme := "1" }, s4))
    (n4 : s4.Next = .ok ({ Kind := .COMMA, Lexeme := "," }, s5))
    (n5 : s5.Next = .ok ({ Kind := .NUMBER, Lexeme := "2" }, s6))
    (n6 : s6.Next = .ok ({ Kind := .EOF, Lexeme := "" }, s6)) :
    ∀ fuel, Parser.ParseNext fuel
      { lexer := s1, currToken := { Kind := .IDENT, Lexeme := "a" } } = .timeout := by
  intro fuel
  have h1 : ¬ (TokenKind.IDENT = TokenKind.EOF) := by decide
  have h2 : ¬ (TokenKind.IDENT = TokenKind.GROUP) := by decide
  cases fuel with
  | zero =>
    have t0 := nextToken_zero
      { lexer := s1, currToken := { Kind := .IDENT, Lexeme := "a" } } _ _ n1
    rw [Parser.ParseNext]
    simp only [h1, h2, if_false, if_true, Parser.parseCondition, t0, Outcome.timeout_bind]
  | succ k =>
    have t1 := nextToken_of_Next k
      { lexer := s1, currToken := { Kind := .IDENT, Lexeme := "a" } } _ _ n1 (by decide)
    have t2 := nextToken_of_Next k
      { lexer := s2, currToken := { Kind := .IN, Lexeme := "in" } } _ _ n2 (by decide)
    have t3 := nextToken_of_Next k
      { lexer := s3, currToken := { Kind := .LSQUARE, Lexeme := "[" } } _ _ n3 (by decide)
    have t4 := nextToken_of_Next k
      { lexer := s4, currToken := { Kind := .NUMBER, Lexeme := "1" } } _ _ n4 (by decide)
    have t5 := nextToken_of_Next k
      { lexer := s5, currToken := { Kind := .COMMA, Lexeme := "," } } _ _ n5 (by decide)
    have t6 := nextToken_of_Next k
      { lexer := s6, currToken := { Kind := .NUMBER, Lexeme := "2" } } _ _ n6 (by decide)
    have hloop2 : ∀ (rounds : Nat) (arrayValues : Value),
        Parser.parseArrayLoop (k + 1) rounds
          { lexer := s6, currToken := { Kind := .NUMBER, Lexeme := "2" } } arrayValues =
          .timeout := by
      intro rounds arrayValues
      cases rounds with
      | zero => rfl
      | succ r =>
        have hv : parseValue { Kind := .NUMBER, Lexeme := "2" } = .ok (.num (.fin 2)) := by
          rfl
        have hk : TokenKind.NUMBER ≠ TokenKind.RSQUARE := by decide
        have hc : ¬ (TokenKind.EOF = TokenKind.COMMA) := by decide
        rw [Parser.parseArrayLoop]
        simp only [hk, ne_eq, not_false_eq_true, if_true, hv, Outcome.ok_bind, t6, hc,
          if_false, Outcome.pure_eq]
        exact parseArrayLoop_at_end k s6 n6 r _
    have hloop1 : Parser.parseArrayLoop (k + 1) (k + 1)
          { lexer := s4, currToken := { Kind := .NUMBER, Lexeme := "1" } } [] = .timeout := by
      have hv : parseValue { Kind := .NUMBER, Lexeme := "1" } = .ok (.num (.fin 1)) := by
        rfl
      have hk : TokenKind.NUMBER ≠ TokenKind.RSQUARE := by decide
      rw [Parser.parseArrayLoop]
      simp only [hk, ne_eq, not_false_eq_true, if_true, hv, Outcome.ok_bind, t4, t5,
        Outcome.pure_eq]
      exact hloop2 k _
    have hnot : ¬ (TokenKind.IN = TokenKind.NOT) := by decide
    have hbetween : ¬ (("in" : String) = "between") := by decide
    rw [Parser.ParseNext]
    simp only [h1, h2, if_false, if_true, Parser.parseCondition, t1, Outcome.ok_bind, hnot,
      decide_False, Bool.false_and, Bool.false_eq_true, Outcome.pure_eq, t2, hbetween,
      Parser.parseArray, t3, hloop1, Outcome.timeout_bind]

/-- C12, the failing input: on the rule text `a in [1, 2` the call of
`ParseNext` does not end.  At the end of the input every round of the loop
of `parseArray` appends nil and reads the `EOF` token again, so the check
after the loop is never reached: no amount of fuel makes the call return or
panic. -/
theorem parseArray_unclosed_diverges :
    ∃ p, (∀ fuel, NewParser (fuel + 1) (NewLexer "a in [1, 2") = .ok p) ∧
      p.currToken = { Kind := .IDENT, Lexeme := "a" } ∧
      ∀ fuel, p.ParseNext fuel = .timeout := by
  have n0 : (NewLexer "a in [1, 2").Next =
      .ok ({ Kind := .IDENT, Lexeme := "a" },
        Lexer.atSplit "a".data " in [1, 2".data initialLexer) := by decide
  have n1 : (Lexer.atSplit "a".data " in [1, 2".data initialLexer).Next =
      .ok ({ Kind := .IN, Lexeme := "in" },
        Lexer.atSplit "a in".data " [1, 2".data initialLexer) := by decide
  have n2 : (Lexer.atSplit "a in".data " [1, 2".data initialLexer).Next =
      .ok ({ Kind := .LSQUARE, Lexeme := "[" },
        Lexer.atSplit "a in [".data "1, 2".data initialLexer) := by decide
  have n3 : (Lexer.atSplit "a in [".data "1, 2".data initialLexer).Next =
      .ok ({ Kind := .NUMBER, Lexeme := "1" },
        Lexer.atSplit "a in [1".data ", 2".data initialLexer) := by decide
  have n4 : (Lexer.atSplit "a in [1".data ", 2".data initialLexer).Next =
      .ok ({ Kind := .COMMA, Lexeme := "," },
        Lexer.atSplit "a in [1,".data " 2".data initialLexer) := by decide
  have n5 : (Lexer.atSplit "a in [1,".data " 2".data initialLexer).Next =
      .ok ({ Kind := .NUMBER, Lexeme := "2" },
        Lexer.atSplit "a in [1, 2".data [] initialLexer) := by decide
  have n6 := Next_end "a in [1, 2".data initialLexer initialLexer_no_dedent
  exact ⟨{ lexer := Lexer.atSplit "a".data " in [1, 2".data initialLexer,
           currToken := { Kind := .IDENT, Lexeme := "a" } },
    fun fuel => nextToken_of_Next fuel _ _ _ n0 (by decide), rfl,
    ParseNext_unclosed_array _ _ _ _ _ _ n1 n2 n3 n4 n5 n6⟩

/-! ## The number of operands -/

theorem Outcome.bind_eq_ok {α β : Type} (x : Outcome α) (f : α → Outcome β) (b : β) :
    (x >>= f) = .ok b ↔ ∃ a, x = .ok a ∧ f a = .ok b := by
  cases x with
  | ok a => exact ⟨fun h => ⟨a, rfl, h⟩, fun ⟨a', ha, h⟩ => by cases ha; exact h⟩
  | error m => exact ⟨fun h => (by cases h), fun ⟨_, ha, _⟩ => (by cases ha)⟩
  | panic m => exact ⟨fun h => (by cases h), fun ⟨_, ha, _⟩ => (by cases ha)⟩
  | timeout => exact ⟨fun h => (by cases h), fun ⟨_, ha, _⟩ => (by cases ha)⟩

theorem parseRange_length (fuel : Nat) (p q : Parser) (value : Value)
    (h : p.parseRange fuel = .ok (value, q)) : value.length = 2 := by
  rw [Parser.parseRange, Outcome.bind_eq_ok] at h
  obtain ⟨low, -, h⟩ := h
  rw [Outcome.bind_eq_ok] at h
  obtain ⟨p1, -, h⟩ := h
  split_ifs at h
  rw [Outcome.bind_eq_ok] at h
  obtain ⟨p2, -, h⟩ := h
  rw [Outcome.bind_eq_ok] at h
  obtain ⟨high, -, h⟩ := h
  cases h
  rfl

theorem parseArray_ends (fuel : Nat) (p q : Parser) (value : Value)
    (h : p.parseArray fuel = .ok (value, q)) : q.currToken.Kind = .RSQUARE := by
  rw [Parser.parseArray, Outcome.bind_eq_ok] at h
  obtain ⟨p1, -, h⟩ := h
  rw [Outcome.bind_eq_ok] at h
  obtain ⟨⟨values, p2⟩, -, h⟩ := h
  simp only at h
  split_ifs at h with hk
  cases h
  simpa using hk

/-- The three ways in which `parseCondition` returns a condition: the value
is a range, an array, or a single value. -/
theorem parseCondition_ok_inv (fuel : Nat) (p q : Parser) (cond : Condition)
    (h : p.parseCondition fuel = .ok (cond, q)) :
    (cond.Operator = "between" ∧
      ∃ p3 : Parser, p3.parseRange fuel = .ok (cond.Value, q)) ∨
    (cond.Operator ≠ "between" ∧ ∃ p3 : Parser, p3.currToken.Kind = .LSQUARE ∧
      p3.parseArray fuel = .ok (cond.Value, q)) ∨
    (cond.Operator ≠ "between" ∧ q.currToken.Kind ≠ .LSQUARE ∧
      ∃ single, parseValue q.currToken = .ok single ∧ cond.Value = [single]) := by
  rw [Parser.parseCondition, Outcome.bind_eq_ok] at h
  obtain ⟨p1, -, h⟩ := h
  dsimp only at h
  have htail : ∀ p2 : Parser,
      (if (decide (p1.currToken.Kind = TokenKind.NOT) &&
            !allowedNegateSuffix p2.currToken.Lexeme) = true then
          (Outcome.panic ("Negation is not supported for operator: " ++ p2.currToken.Lexeme) :
            Outcome (Condition × Parser))
        else do
          let p3 ← Parser.nextToken fuel p2
          let __do_jp : Value × Parser → Outcome (Condition × Parser) := fun __discr =>
            match __discr with
            | (value, p4) =>
              pure ({ Field := p.currToken.Lexeme, Operator := p2.currToken.Lexeme,
                      Value := value, Negate := decide (p1.currToken.Kind = TokenKind.NOT) },
                    p4)
          if p2.currToken.Lexeme = "between" then do
              let y ← Parser.parseRange fuel p3
              __do_jp y
            else
              if p3.currToken.Kind = TokenKind.LSQUARE then do
                let y ← Parser.parseArray fuel p3
                __do_jp y
              else do
                let single ← parseValue p3.currToken
                let y ← pure ([single], p3)
                __do_jp y) = Outcome.ok (cond, q) →
      (cond.Operator = "between" ∧
        ∃ p3 : Parser, p3.parseRange fuel = .ok (cond.Value, q)) ∨
      (cond.Operator ≠ "between" ∧ ∃ p3 : Parser, p3.currToken.Kind = .LSQUARE ∧
        p3.parseArray fuel = .ok (cond.Value, q)) ∨
      (cond.Operator ≠ "between" ∧ q.currToken.Kind ≠ .LSQUARE ∧
        ∃ single, parseValue q.currToken = .ok single ∧ cond.Value = [single]) := by
    intro p2 h2
    split_ifs at h2 with hneg hbetween
    · rw [Outcome.bind_eq_ok] at h2
      obtain ⟨p3, -, h2⟩ := h2
      rw [Outcome.bind_eq_ok] at h2
      obtain ⟨⟨value, p4⟩, hvalue, h2⟩ := h2
      cases h2
      exact Or.inl ⟨hbetween, p3, hvalue⟩
    · rw [Outcome.bind_eq_ok] at h2
      obtain ⟨p3, -, h2⟩ := h2
      dsimp only at h2
      split_ifs at h2 with hsquare
      · rw [Outcome.bind_eq_ok] at h2
        obtain ⟨⟨value, p4⟩, hvalue, h2⟩ := h2
        cases h2
        exact Or.inr (Or.inl ⟨hbetween, p3, hsquare, hvalue⟩)
      · rw [Outcome.bind_eq_ok] at h2
        obtain ⟨single, hsingle, h2⟩ := h2
        cases h2
        exact Or.inr (Or.inr ⟨hbetween, hsquare, single, hsingle, rfl⟩)
  split_ifs at h with hnot
  · rw [Outcome.bind_eq_ok] at h
    obtain ⟨p2, -, h⟩ := h
    exact htail p2 h
  · exact htail p1 h

theorem parseCondition_between (fuel : Nat) (p q : Parser) (cond : Condition)
    (h : p.parseCondition fuel = .ok (cond, q)) (hop : cond.Operator = "between") :
    cond.Value.length = 2 := by
  rcases parseCondition_ok_inv fuel p q cond h with ⟨-, p3, hr⟩ | ⟨hne, -⟩ | ⟨hne, -⟩
  · exact parseRange_length fuel p3 q _ hr
  · exact absurd hop hne
  · exact absurd hop hne

theorem parseCondition_single (fuel : Nat) (p q : Parser) (cond : Condition)
    (h : p.parseCondition fuel = .ok (cond, q)) (hop : cond.Operator ≠ "between")
    (hend : q.currToken.Kind ≠ .RSQUARE) : cond.Value.length = 1 := by
  rcases parseCondition_ok_inv fuel p q cond h with ⟨hb, -⟩ | ⟨-, p3, -, ha⟩ | ⟨-, -, v, -, hv⟩
  · exact absurd hb hop
  · exact absurd (parseArray_ends fuel p3 q _ ha) hend
  · rw [hv]; rfl

theorem mem_conditionsOfList (cond : Condition) :
    ∀ children : List Statement,
      cond ∈ Statement.conditions.conditionsOfList children ↔
        ∃ child ∈ children, cond ∈ child.conditions := by
  intro children
  induction children with
  | nil => simp [Statement.conditions.conditionsOfList]
  | cons child rest ih =>
    simp [Statement.conditions.conditionsOfList, ih]

/-! ## The operands of an array -/

theorem ArrayBody.ne_nil (tokens : List Token) (values : Value) (h : ArrayBody tokens values) :
    tokens ≠ [] := by
  cases h <;> simp

theorem parseArrayLoop_inv (fuel : Nat) :
    ∀ (rounds : Nat) (p : Parser) (acc values : Value) (q : Parser),
      Parser.parseArrayLoop fuel rounds p acc = .ok (values, q) →
      ∃ tail operands, values = acc ++ operands ∧ p.advances fuel tail q ∧
        ArrayBody (p.currToken :: tail) operands := by
  intro rounds
  induction rounds with
  | zero => intro p acc values q h; cases h
  | succ n ih =>
    intro p acc values q h
    rw [Parser.parseArrayLoop] at h
    split_ifs at h with hkind
    · rw [Outcome.bind_eq_ok] at h
      obtain ⟨value, hvalue, h⟩ := h
      rw [Outcome.bind_eq_ok] at h
      obtain ⟨p1, hp1, h⟩ := h
      dsimp only at h
      split_ifs at h with hcomma
      · rw [Outcome.bind_eq_ok] at h
        obtain ⟨p2, hp2, h⟩ := h
        obtain ⟨tail, operands, hvalues, hadv, hbody⟩ := ih p2 _ values q h
        refine ⟨p1.currToken :: p2.currToken :: tail, value :: operands, ?_,
          ⟨p1, hp1, rfl, p2, hp2, rfl, hadv⟩, ?_⟩
        · rw [hvalues]
          simp
        · exact ArrayBody.elementComma _ _ _ _ _ hkind hvalue hcomma hbody
      · rw [Outcome.pure_eq, Outcome.ok_bind] at h
        obtain ⟨tail, operands, hvalues, hadv, hbody⟩ := ih p1 _ values q h
        refine ⟨p1.currToken :: tail, value :: operands, ?_, ⟨p1, hp1, rfl, hadv⟩, ?_⟩
        · rw [hvalues]
          simp
        · refine ArrayBody.element _ _ _ _ hkind hvalue ?_ hbody
          intro next hnext
          simp only [List.head?_cons, Option.mem_def, Option.some.injEq] at hnext
          subst hnext
          exact hcomma
    · cases h
      refine ⟨[], [], by simp, rfl, ArrayBody.close _ ?_⟩
      simpa using hkind

theorem parseArray_inv (fuel : Nat) (p q : Parser) (values : Value)
    (h : p.parseArray fuel = .ok (values, q)) :
    ∃ tokens, p.advances fuel tokens q ∧ ArrayBody tokens values := by
  rw [Parser.parseArray, Outcome.bind_eq_ok] at h
  obtain ⟨p1, hp1, h⟩ := h
  rw [Outcome.bind_eq_ok] at h
  obtain ⟨⟨arrayValues, p2⟩, hloop, h⟩ := h
  simp only at h
  split_ifs at h with hk
  cases h
  obtain ⟨tail, operands, hvalues, hadv, hbody⟩ := parseArrayLoop_inv fuel fuel p1 [] _ _ hloop
  rw [List.nil_append] at hvalues
  subst hvalues
  exact ⟨p1.currToken :: tail, ⟨p1, hp1, rfl, hadv⟩, hbody⟩

theorem parseArrayLoop_of_body (fuel : Nat) (tokens : List Token) (operands : Value)
    (hbody : ArrayBody tokens operands) :
    ∀ (rounds : Nat) (p : Parser) (acc : Value) (tail : List Token) (q : Parser),
      tokens = p.currToken :: tail → p.advances fuel tail q → operands.length < rounds →
      Parser.parseArrayLoop fuel rounds p acc = .ok (acc ++ operands, q) := by
  induction hbody with
  | close token hkind =>
    intro rounds p acc tail q htokens hadv hrounds
    simp only [List.cons.injEq] at htokens
    obtain ⟨htoken, htail⟩ := htokens
    subst htail
    rw [Parser.advances] at hadv
    subst hadv
    obtain ⟨n, rfl⟩ : ∃ n, rounds = n + 1 := ⟨rounds - 1, by simp at hrounds; omega⟩
    rw [Parser.parseArrayLoop, ← htoken]
    simp [hkind]
  | element token value rest values hkind hvalue hnext _ ih =>
    intro rounds p acc tail q htokens hadv hrounds
    simp only [List.cons.injEq] at htokens
    obtain ⟨htoken, htail⟩ := htokens
    subst htail
    obtain ⟨n, rfl⟩ : ∃ n, rounds = n + 1 := ⟨rounds - 1, by simp at hrounds; omega⟩
    cases rest with
    | nil => rename_i hrest; exact absurd rfl (ArrayBody.ne_nil _ _ hrest)
    | cons r rest1 =>
      obtain ⟨p1, hp1, hcurrent, hadv1⟩ := hadv
      have hcomma : ¬ p1.currToken.Kind = .COMMA := by
        rw [hcurrent]
        exact hnext r (by simp)
      have hrec := ih n p1 (acc ++ [value]) rest1 q (by rw [hcurrent]) hadv1
        (by simp at hrounds; omega)
      rw [Parser.parseArrayLoop, ← htoken]
      simp only [hkind, ne_eq, not_false_eq_true, if_true, hvalue, Outcome.ok_bind, hp1,
        hcomma, if_false, Outcome.pure_eq, hrec]
      simp
  | elementComma token comma value rest values hkind hvalue hcomma _ ih =>
    intro rounds p acc tail q htokens hadv hrounds
    simp only [List.cons.injEq] at htokens
    obtain ⟨htoken, htail⟩ := htokens
    subst htail
    obtain ⟨n, rfl⟩ : ∃ n, rounds = n + 1 := ⟨rounds - 1, by simp at hrounds; omega⟩
    cases rest with
    | nil => rename_i hrest; exact absurd rfl (ArrayBody.ne_nil _ _ hrest)
    | cons r rest1 =>
      obtain ⟨p1, hp1, hcurrent, p2, hp2, hcurrent2, hadv2⟩ := hadv
      have hc : p1.currToken.Kind = .COMMA := by
        rw [hcurrent]
        exact hcomma
      have hrec := ih n p2 (acc ++ [value]) rest1 q (by rw [hcurrent2]) hadv2
        (by simp at hrounds; omega)
      rw [Parser.parseArrayLoop, ← htoken]
      simp only [hkind, ne_eq, not_false_eq_true, if_true, hvalue, Outcome.ok_bind, hp1,
        hc, hp2, hrec]
      simp

theorem parseArray_of_body (fuel : Nat) (p q : Parser) (tokens : List Token)
    (operands : Value) (hadv : p.advances fuel tokens q) (hbody : ArrayBody tokens operands)
    (hfuel : operands.length < fuel) :
    p.parseArray fuel = .ok (operands, q) := by
  cases tokens with
  | nil => exact absurd rfl (ArrayBody.ne_nil _ _ hbody)
  | cons first tail =>
    obtain ⟨p1, hp1, hcurrent, hadv1⟩ := hadv
    have hloop := parseArrayLoop_of_body fuel _ _ hbody fuel p1 [] tail q (by rw [hcurrent])
      hadv1 hfuel
    have hend : q.currToken.Kind = .RSQUARE := by
      obtain ⟨tail2, operands2, -, hadv2, hbody2⟩ := parseArrayLoop_inv fuel fuel p1 [] _ _ hloop
      have hlast : ∀ (ts : List Token) (vs : Value), ArrayBody ts vs →
          ∀ (a b : Parser) (t : Token) (rest : List Token), ts = t :: rest →
            a.currToken = t → a.advances fuel rest b → b.currToken.Kind = .RSQUARE := by
        intro ts vs hb
        induction hb with
        | close token hk =>
          intro a b t rest hts ha hab
          simp only [List.cons.injEq] at hts
          obtain ⟨ht, hr⟩ := hts
          subst hr
          rw [Parser.advances] at hab
          subst hab
          rw [ha, ← ht]
          exact hk
        | element token value rest values _ _ _ hrest ih =>
          intro a b t rest0 hts ha hab
          simp only [List.cons.injEq] at hts
          obtain ⟨-, hr⟩ := hts
          subst hr
          cases rest with
          | nil => exact absurd rfl (ArrayBody.ne_nil _ _ hrest)
          | cons r rest1 =>
            obtain ⟨a1, -, hc1, hab1⟩ := hab
            exact ih a1 b r rest1 rfl hc1 hab1
        | elementComma token comma value rest values _ _ _ hrest ih =>
          intro a b t rest0 hts ha hab
          simp only [List.cons.injEq] at hts
          obtain ⟨-, hr⟩ := hts
          subst hr
          cases rest with
          | nil => exact absurd rfl (ArrayBody.ne_nil _ _ hrest)
          | cons r rest1 =>
            obtain ⟨a1, -, -, a2, -, hc2, hab2⟩ := hab
            exact ih a2 b r rest1 rfl hc2 hab2
      exact hlast _ _ hbody2 p1 q p1.currToken tail2 rfl rfl hadv2
    rw [Parser.parseArray]
    simp only [hp1, Outcome.ok_bind, hloop, List.nil_append, hend, ne_eq, not_true_eq_false,
      if_false, Outcome.pure_eq]

theorem parseCondition_array (fuel : Nat) (p p1 p3 q : Parser) (tokens : List Token)
    (operands : Value)
    (h1 : p.nextToken fuel = .ok p1) (hnot : p1.currToken.Kind ≠ .NOT)
    (hbetween : p1.currToken.Lexeme ≠ "between")
    (h3 : p1.nextToken fuel = .ok p3) (hsquare : p3.currToken.Kind = .LSQUARE)
    (hadv : p3.advances fuel tokens q) (hbody : ArrayBody tokens operands)
    (hfuel : operands.length < fuel) :
    p.parseCondition fuel =
      .ok ({ Field := p.currToken.Lexeme, Operator := p1.currToken.Lexeme, Value := operands,
             Negate := false }, q) := by
  have harray := parseArray_of_body fuel p3 q tokens operands hadv hbody hfuel
  rw [Parser.parseCondition]
  simp only [h1, Outcome.ok_bind, hnot, if_false, decide_False, Bool.false_and,
    Bool.false_eq_true, Outcome.pure_eq, h3, hbetween, hsquare, if_true, harray]

/-! ## The tokens that the parser reads -/

theorem advances_append (fuel : Nat) :
    ∀ (front : List Token) (p q r : Parser) (back : List Token),
      p.advances fuel front q → q.advances fuel back r → p.advances fuel (front ++ back) r := by
  intro front
  induction front with
  | nil =>
    intro p q r back h1 h2
    rw [Parser.advances] at h1
    subst h1
    exact h2
  | cons token rest ih =>
    intro p q r back h1 h2
    obtain ⟨p1, hp1, hcurrent, hrest⟩ := h1
    exact ⟨p1, hp1, hcurrent, ih p1 q r back hrest h2⟩

theorem advances_nextToken (fuel : Nat) (p p1 : Parser) (h : p.nextToken fuel = .ok p1) :
    p.advances fuel [p1.currToken] p1 := ⟨p1, h, rfl, rfl⟩

theorem parseRange_advances (fuel : Nat) (p q : Parser) (value : Value)
    (h : p.parseRange fuel = .ok (value, q)) : ∃ tokens, p.advances fuel tokens q := by
  rw [Parser.parseRange, Outcome.bind_eq_ok] at h
  obtain ⟨low, -, h⟩ := h
  rw [Outcome.bind_eq_ok] at h
  obtain ⟨p1, hp1, h⟩ := h
  split_ifs at h
  rw [Outcome.bind_eq_ok] at h
  obtain ⟨p2, hp2, h⟩ := h
  rw [Outcome.bind_eq_ok] at h
  obtain ⟨high, -, h⟩ := h
  cases h
  exact ⟨[p1.currToken, _], p1, hp1, rfl, _, hp2, rfl, rfl⟩

/-- The tokens that `parseCondition` reads: from the field, one token or two
(with `not`) to the operator, one more to the first token of the value, and
then the range, the array or nothing more. -/
theorem parseCondition_path (fuel : Nat) (p q : Parser) (cond : Condition)
    (h : p.parseCondition fuel = .ok (cond, q)) :
    ∃ (pre : List Token) (p3 : Parser), p.advances fuel pre p3 ∧
      ((cond.Operator = "between" ∧ p3.parseRange fuel = .ok (cond.Value, q)) ∨
        (cond.Operator ≠ "between" ∧ p3.currToken.Kind = .LSQUARE ∧
          p3.parseArray fuel = .ok (cond.Value, q)) ∨
        (cond.Operator ≠ "between" ∧ q = p3 ∧
          ∃ single, parseValue p3.currToken = .ok single ∧ cond.Value = [single])) := by
  rw [Parser.parseCondition, Outcome.bind_eq_ok] at h
  obtain ⟨p1, hp1, h⟩ := h
  dsimp only at h
  have htail : ∀ (p2 : Parser) (pre2 : List Token), p.advances fuel pre2 p2 →
      (if (decide (p1.currToken.Kind = TokenKind.NOT) &&
            !allowedNegateSuffix p2.currToken.Lexeme) = true then
          (Outcome.panic ("Negation is not supported for operator: " ++ p2.currToken.Lexeme) :
            Outcome (Condition × Parser))
        else do
          let p3 ← Parser.nextToken fuel p2
          let __do_jp : Value × Parser → Outcome (Condition × Parser) := fun __discr =>
            match __discr with
            | (value, p4) =>
              pure ({ Field := p.currToken.Lexeme, Operator := p2.currToken.Lexeme,
                      Value := value, Negate := decide (p1.currToken.Kind = TokenKind.NOT) },
                    p4)
          if p2.currToken.Lexeme = "between" then do
              let y ← Parser.parseRange fuel p3
              __do_jp y
            else
              if p3.currToken.Kind = TokenKind.LSQUARE then do
                let y ← Parser.parseArray fuel p3
                __do_jp y
              else do
                let single ← parseValue p3.currToken
                let y ← pure ([single], p3)
                __do_jp y) = Outcome.ok (cond, q) →
      ∃ (pre : List Token) (p3 : Parser), p.advances fuel pre p3 ∧
        ((cond.Operator = "between" ∧ p3.parseRange fuel = .ok (cond.Value, q)) ∨
          (cond.Operator ≠ "between" ∧ p3.currToken.Kind = .LSQUARE ∧
            p3.parseArray fuel = .ok (cond.Value, q)) ∨
          (cond.Operator ≠ "between" ∧ q = p3 ∧
            ∃ single, parseValue p3.currToken = .ok single ∧ cond.Value = [single])) := by
    intro p2 pre2 hpre2 h2
    split_ifs at h2 with hneg hbetween
    · rw [Outcome.bind_eq_ok] at h2
      obtain ⟨p3, hp3, h2⟩ := h2
      rw [Outcome.bind_eq_ok] at h2
      obtain ⟨⟨value, p4⟩, hvalue, h2⟩ := h2
      cases h2
      exact ⟨_, p3, advances_append fuel _ _ _ _ _ hpre2 (advances_nextToken fuel p2 p3 hp3),
        Or.inl ⟨hbetween, hvalue⟩⟩
    · rw [Outcome.bind_eq_ok] at h2
      obtain ⟨p3, hp3, h2⟩ := h2
      dsimp only at h2
      split_ifs at h2 with hsquare
      · rw [Outcome.bind_eq_ok] at h2
        obtain ⟨⟨value, p4⟩, hvalue, h2⟩ := h2
        cases h2
        exact ⟨_, p3, advances_append fuel _ _ _ _ _ hpre2 (advances_nextToken fuel p2 p3 hp3),
          Or.inr (Or.inl ⟨hbetween, hsquare, hvalue⟩)⟩
      · rw [Outcome.bind_eq_ok] at h2
        obtain ⟨single, hsingle, h2⟩ := h2
        cases h2
        exact ⟨_, p3, advances_append fuel _ _ _ _ _ hpre2 (advances_nextToken fuel p2 p3 hp3),
          Or.inr (Or.inr ⟨hbetween, rfl, single, hsingle, rfl⟩)⟩
  split_ifs at h with hnot
  · rw [Outcome.bind_eq_ok] at h
    obtain ⟨p2, hp2, h⟩ := h
    exact htail p2 _ (advances_append fuel _ _ _ _ _ (advances_nextToken fuel p p1 hp1)
      (advances_nextToken fuel p1 p2 hp2)) h
  · exact htail p1 _ (advances_nextToken fuel p p1 hp1) h

theorem parseCondition_advances (fuel : Nat) (p q : Parser) (cond : Condition)
    (h : p.parseCondition fuel = .ok (cond, q)) : ∃ tokens, p.advances fuel tokens q := by
  obtain ⟨pre, p3, hpre, hcases⟩ := parseCondition_path fuel p q cond h
  rcases hcases with ⟨-, hr⟩ | ⟨-, -, ha⟩ | ⟨-, hq, -⟩
  · obtain ⟨tokens, htokens⟩ := parseRange_advances fuel p3 q _ hr
    exact ⟨_, advances_append fuel _ _ _ _ _ hpre htokens⟩
  · obtain ⟨tokens, htokens, -⟩ := parseArray_inv fuel p3 q _ ha
    exact ⟨_, advances_append fuel _ _ _ _ _ hpre htokens⟩
  · subst hq
    exact ⟨pre, hpre⟩


theorem parseGroupLoop_reads (good : Parser → Condition → Prop) (fuel : Nat)
    (hmono : ∀ (s s2 : Parser) (c : Condition) (pre : List Token),
      s.advances fuel pre s2 → good s2 c → good s c)
    (parseGroup : Parser → Outcome (Statement × Parser))
    (hgroup : ∀ p stmt q, parseGroup p = .ok (stmt, q) →
      (∃ tokens, p.advances fuel tokens q) ∧ ∀ c ∈ stmt.conditions, good p c)
    (hcond : ∀ p c q, Parser.parseCondition fuel p = .ok (c, q) → good p c) :
    ∀ (rounds : Nat) (s q : Parser) (children result : List Statement),
      Parser.parseGroupLoop parseGroup fuel rounds s children = .ok (result, q) →
      (∃ tokens, s.advances fuel tokens q) ∧
        ∃ added, result = children ++ added ∧
          ∀ child ∈ added, ∀ c ∈ child.conditions, good s c := by
  intro rounds
  induction rounds with
  | zero => intro s q children result h; cases h
  | succ n ih =>
    intro s q children result h
    rw [Parser.parseGroupLoop] at h
    split_ifs at h with hkind hg hi
    · rw [Outcome.bind_eq_ok] at h
      obtain ⟨⟨child, p1⟩, hstep, h⟩ := h
      dsimp only at h
      rw [Outcome.pure_eq, Outcome.ok_bind] at h
      dsimp only at h
      rw [Outcome.bind_eq_ok] at h
      obtain ⟨p2, hp2, h⟩ := h
      obtain ⟨⟨t1, ht1⟩, hgood⟩ := hgroup s _ _ hstep
      obtain ⟨⟨t2, ht2⟩, added, hresult, hadded⟩ := ih p2 q _ result h
      have hreach := advances_append fuel _ _ _ _ _ ht1 (advances_nextToken fuel p1 p2 hp2)
      refine ⟨⟨_, advances_append fuel _ _ _ _ _ hreach ht2⟩, child :: added,
        by rw [hresult]; simp, ?_⟩
      intro st hst c hc
      rw [List.mem_cons] at hst
      rcases hst with hst | hst
      · subst hst
        exact hgood c hc
      · exact hmono s p2 c _ hreach (hadded st hst c hc)
    · rw [Outcome.bind_eq_ok] at h
      obtain ⟨⟨cond, p1⟩, hstep, h⟩ := h
      dsimp only at h
      rw [Outcome.pure_eq, Outcome.ok_bind] at h
      dsimp only at h
      rw [Outcome.bind_eq_ok] at h
      obtain ⟨p2, hp2, h⟩ := h
      obtain ⟨t1, ht1⟩ := parseCondition_advances fuel s p1 cond hstep
      obtain ⟨⟨t2, ht2⟩, added, hresult, hadded⟩ := ih p2 q _ result h
      have hreach := advances_append fuel _ _ _ _ _ ht1 (advances_nextToken fuel p1 p2 hp2)
      refine ⟨⟨_, advances_append fuel _ _ _ _ _ hreach ht2⟩, Statement.condition cond :: added,
        by rw [hresult]; simp, ?_⟩
      intro st hst c hc
      rw [List.mem_cons] at hst
      rcases hst with hst | hst
      · subst hst
        simp only [Statement.conditions, List.mem_singleton] at hc
        subst hc
        exact hcond s _ _ hstep
      · exact hmono s p2 c _ hreach (hadded st hst c hc)
    · rw [Outcome.bind_eq_ok] at h
      obtain ⟨⟨children1, p1⟩, hstep, h⟩ := h
      dsimp only at hstep h
      cases hstep
      rw [Outcome.bind_eq_ok] at h
      obtain ⟨p2, hp2, h⟩ := h
      obtain ⟨⟨t2, ht2⟩, added, hresult, hadded⟩ := ih p2 q _ result h
      have hreach := advances_nextToken fuel s p2 hp2
      refine ⟨⟨_, advances_append fuel _ _ _ _ _ hreach ht2⟩, added, hresult, ?_⟩
      intro st hst c hc
      exact hmono s p2 c _ hreach (hadded st hst c hc)
    · cases h
      exact ⟨⟨[], rfl⟩, [], by simp, by simp⟩

theorem parseGroup_reads (good : Parser → Condition → Prop) (fuel : Nat)
    (hmono : ∀ (s s2 : Parser) (c : Condition) (pre : List Token),
      s.advances fuel pre s2 → good s2 c → good s c)
    (hcond : ∀ p c q, Parser.parseCondition fuel p = .ok (c, q) → good p c) :
    ∀ (depth : Nat) (p q : Parser) (stmt : Statement),
      Parser.parseGroup fuel depth p = .ok (stmt, q) →
      (∃ tokens, p.advances fuel tokens q) ∧ ∀ c ∈ stmt.conditions, good p c := by
  intro depth
  induction depth with
  | zero => intro p q stmt h; cases h
  | succ n ih =>
    intro p q stmt h
    rw [Parser.parseGroup, Outcome.bind_eq_ok] at h
    obtain ⟨p1, hp1, h⟩ := h
    split_ifs at h
    rw [Outcome.bind_eq_ok] at h
    obtain ⟨p2, hp2, h⟩ := h
    rw [Outcome.bind_eq_ok] at h
    obtain ⟨⟨children, p3⟩, hloop, h⟩ := h
    cases h
    obtain ⟨⟨t, ht⟩, added, hresult, hadded⟩ := parseGroupLoop_reads good fuel hmono _
      (fun p s q hs => ih p q s hs) hcond fuel p2 _ [] children hloop
    rw [List.nil_append] at hresult
    subst hresult
    have hreach := advances_append fuel _ _ _ _ _ (advances_nextToken fuel p p1 hp1)
      (advances_nextToken fuel p1 p2 hp2)
    refine ⟨⟨_, advances_append fuel _ _ _ _ _ hreach ht⟩, ?_⟩
    intro c hc
    rw [Statement.conditions, mem_conditionsOfList] at hc
    obtain ⟨child, hchild, hc⟩ := hc
    exact hmono p p2 c _ hreach (hadded child hchild c hc)

theorem ParseNext_reads (good : Parser → Condition → Prop) (fuel : Nat)
    (hmono : ∀ (s s2 : Parser) (c : Condition) (pre : List Token),
      s.advances fuel pre s2 → good s2 c → good s c)
    (hcond : ∀ p c q, Parser.parseCondition fuel p = .ok (c, q) → good p c)
    (p q : Parser) (stmt : Statement) (h : p.ParseNext fuel = .ok (some stmt, q)) :
    ∀ c ∈ stmt.conditions, good p c := by
  rw [Parser.ParseNext] at h
  split_ifs at h with heof hg hi
  · cases h
  · rw [Outcome.bind_eq_ok] at h
    obtain ⟨⟨result, p1⟩, hresult, h⟩ := h
    dsimp only at h
    rw [Outcome.bind_eq_ok] at h
    obtain ⟨p2, -, h⟩ := h
    cases h
    exact (parseGroup_reads good fuel hmono hcond fuel p p1 _ hresult).2
  · dsimp only at h
    rw [Outcome.bind_eq_ok] at h
    obtain ⟨⟨cond, p1⟩, hc, h⟩ := h
    dsimp only at h
    rw [Outcome.pure_eq, Outcome.ok_bind] at h
    dsimp only at h
    rw [Outcome.bind_eq_ok] at h
    obtain ⟨p2, -, h⟩ := h
    cases h
    intro c hmem
    simp only [Statement.conditions, List.mem_singleton] at hmem
    subst hmem
    exact hcond p _ _ hc
  · dsimp only at h
    rw [Outcome.panic_bind] at h
    cases h

/-- The operands of a condition that `parseCondition` returns, with the
tokens of the array that were read for them. -/
theorem parseCondition_operands_read (fuel : Nat) (p q : Parser) (c : Condition)
    (h : p.parseCondition fuel = .ok (c, q)) :
    (c.Operator = "between" → c.Value.length = 2) ∧
    (c.Operator ≠ "between" → c.Value.length = 1 ∨
      ∃ (pre : List Token) (p3 q3 : Parser) (tokens : List Token),
        p.advances fuel pre p3 ∧ p3.currToken.Kind = .LSQUARE ∧
          p3.advances fuel tokens q3 ∧ ArrayBody tokens c.Value) := by
  obtain ⟨pre, p3, hpre, hcases⟩ := parseCondition_path fuel p q c h
  rcases hcases with ⟨hb, hr⟩ | ⟨hne, hk, ha⟩ | ⟨hne, -, v, -, hv⟩
  · exact ⟨fun _ => parseRange_length fuel p3 q _ hr, fun hne => absurd hb hne⟩
  · obtain ⟨tokens, hadv, hbody⟩ := parseArray_inv fuel p3 q _ ha
    exact ⟨fun hb => absurd hb hne, fun _ => Or.inr ⟨pre, p3, q, tokens, hpre, hk, hadv, hbody⟩⟩
  · exact ⟨fun hb => absurd hb hne, fun _ => Or.inl (by rw [hv]; rfl)⟩

/-- C13, as amended: every condition of a statement that `ParseNext` returns,
at top level or inside groups, has exactly 2 operands when its operator is
`between`; with any other operator it has exactly 1 operand, or was read as
an array: among the tokens that the parser reads from where it stands there
is a `[`, the tokens after it up to the `]` are the elements of an array,
each followed by a comma or not, and the operands are the values of the
elements, in order.  An array is read after every operator other than
`between`: when the token after the operator is `[` and the tokens after it
are those of an array, `parseCondition` returns the condition with that
operator and the values of the elements as operands (`fuel` bounds the
number of elements). -/
theorem operand_counts (fuel : Nat) (p : Parser) :
    (∀ stmt q, p.ParseNext fuel = .ok (some stmt, q) →
      ∀ c ∈ stmt.conditions,
        (c.Operator = "between" → c.Value.length = 2) ∧
        (c.Operator ≠ "between" → c.Value.length = 1 ∨
          ∃ (pre : List Token) (p3 q3 : Parser) (tokens : List Token),
            p.advances fuel pre p3 ∧ p3.currToken.Kind = .LSQUARE ∧
              p3.advances fuel tokens q3 ∧ ArrayBody tokens c.Value)) ∧
    (∀ p1 p3 q tokens operands,
      p.nextToken fuel = .ok p1 → p1.currToken.Kind ≠ .NOT →
      p1.currToken.Lexeme ≠ "between" → p1.nextToken fuel = .ok p3 →
      p3.currToken.Kind = .LSQUARE → p3.advances fuel tokens q →
      ArrayBody tokens operands → operands.length < fuel →
      p.parseCondition fuel =
        .ok ({ Field := p.currToken.Lexeme, Operator := p1.currToken.Lexeme,
               Value := operands, Negate := false }, q)) := by
  refine ⟨fun stmt q h => ?_, fun p1 p3 q tokens operands h1 hnot hbetween h3 hsquare hadv hbody
    hfuel => parseCondition_array fuel p p1 p3 q tokens operands h1 hnot hbetween h3 hsquare
      hadv hbody hfuel⟩
  refine ParseNext_reads
    (fun s c => (c.Operator = "between" → c.Value.length = 2) ∧
      (c.Operator ≠ "between" → c.Value.length = 1 ∨
        ∃ (pre : List Token) (p3 q3 : Parser) (tokens : List Token),
          s.advances fuel pre p3 ∧ p3.currToken.Kind = .LSQUARE ∧
            p3.advances fuel tokens q3 ∧ ArrayBody tokens c.Value))
    fuel ?_ (fun s c q hc => parseCondition_operands_read fuel s q c hc) p q stmt h
  intro s s2 c pre0 hreach hgood
  refine ⟨hgood.1, fun hne => ?_⟩
  rcases hgood.2 hne with hone | ⟨pre, p3, q3, tokens, hpre, hk, hadv, hbody⟩
  · exact Or.inl hone
  · exact Or.inr ⟨_, p3, q3, tokens, advances_append fuel _ _ _ _ _ hreach hpre, hk, hadv,
      hbody⟩

/-- C13, the claim as stated fails: `ParseNext` returns for `a eq [1, 2]` a
condition with the operator `eq` and two operands, and for `a in []` a
condition with the operator `in` and no operand. -/
theorem operand_count_counterexample :
    (∃ p q cond, NewParser 3 (NewLexer "a eq [1, 2]") = .ok p ∧
      p.ParseNext 3 = .ok (some (.condition cond), q) ∧
      cond.Operator = "eq" ∧ cond.Value = [.num (.fin 1), .num (.fin 2)] ∧
      cond.Value.length ≠ 1) ∧
    (∃ p q cond, NewParser 3 (NewLexer "a in []") = .ok p ∧
      p.ParseNext 3 = .ok (some (.condition cond), q) ∧
      cond.Operator = "in" ∧ cond.Value = [] ∧ ¬ 1 ≤ cond.Value.length) :=
  ⟨⟨_, _, _, rfl, rfl, rfl, rfl, by decide⟩, ⟨_, _, _, rfl, rfl, rfl, rfl, by decide⟩⟩

theorem operand_counts_witness :
    (∃ q cond,
      Parser.ParseNext 3
          { lexer := Lexer.atSplit "a".data " between 1 and 2".data initialLexer,
            currToken := { Kind := .IDENT, Lexeme := "a" } } =
        .ok (some (.condition cond), q) ∧
      cond.Operator = "between" ∧ cond.Value.length = 2) ∧
    (∃ q,
      Parser.parseCondition 4
          { lexer := Lexer.atSplit "a".data " neq [1, \"x\", nil ]".data initialLexer,
            currToken := { Kind := .IDENT, Lexeme := "a" } } =
        .ok ({ Field := "a", Operator := "neq",
               Value := [.num (.fin 1), .str "x", .null], Negate := false }, q)) := by
  constructor
  · refine ⟨_, _, rfl, rfl, ?_⟩
    exact ((operand_counts 3
      { lexer := Lexer.atSplit "a".data " between 1 and 2".data initialLexer,
        currToken := { Kind := .IDENT, Lexeme := "a" } }).1 _ _ rfl _
      (List.mem_singleton.mpr rfl)).1 rfl
  · have hadv : ∃ q, Parser.advances 4
        { lexer := Lexer.atSplit "a neq [".data "1, \"x\", nil ]".data initialLexer,
          currToken := { Kind := .LSQUARE, Lexeme := "[" } }
        [⟨.NUMBER, "1"⟩, ⟨.COMMA, ","⟩, ⟨.STRING, "x"⟩, ⟨.COMMA, ","⟩, ⟨.NIL, "nil"⟩,
          ⟨.RSQUARE, "]"⟩] q :=
      ⟨_, _, rfl, rfl, _, rfl, rfl, _, rfl, rfl, _, rfl, rfl, _, rfl, rfl, _, rfl, rfl, rfl⟩
    obtain ⟨q, hq⟩ := hadv
    exact ⟨q, (operand_counts 4
      { lexer := Lexer.atSplit "a".data " neq [1, \"x\", nil ]".data initialLexer,
        currToken := { Kind := .IDENT, Lexeme := "a" } }).2
      { lexer := Lexer.atSplit "a neq".data " [1, \"x\", nil ]".data initialLexer,
        currToken := { Kind := .NEQ, Lexeme := "neq" } }
      { lexer := Lexer.atSplit "a neq [".data "1, \"x\", nil ]".data initialLexer,
        currToken := { Kind := .LSQUARE, Lexeme := "[" } } q _ _
      rfl (by decide) (by decide) rfl rfl hq
      (ArrayBody.elementComma _ _ (.num (.fin 1)) _ _ (by decide) rfl rfl
        (ArrayBody.elementComma _ _ (.str "x") _ _ (by decide) rfl rfl
          (ArrayBody.element _ (.null) _ _ (by decide) rfl (by simp)
            (ArrayBody.close _ rfl))))
      (by decide)⟩

/-! ## The ordering operators -/

theorem compareNumeric_not_numbers (fieldValue operand : SingleValue) (operator : String)
    (negate : Bool) (h : ∀ a b, ¬ (fieldValue = .num a ∧ operand = .num b)) :
    compareNumeric fieldValue operand operator negate =
      .error ("invalid types for numeric comparison: " ++ typeName fieldValue ++ " and " ++
        typeName operand) := by
  cases fieldValue <;> cases operand <;> first
    | rfl
    | exact absurd ⟨rfl, rfl⟩ (h _ _)

theorem evaluateCondition_ordering (field operator : String) (operand : SingleValue)
    (rest : Value) (negate : Bool) (context : List (String × SingleValue))
    (fieldValue : SingleValue)
    (hfield : resolveFieldValue field (.map context) = .ok fieldValue)
    (hop : operator = "lt" ∨ operator = "gt" ∨ operator = "lte" ∨ operator = "gte") :
    evaluateCondition
        { Field := field, Operator := operator, Value := operand :: rest, Negate := negate }
        context =
      compareNumeric fieldValue operand operator negate := by
  simp only [evaluateCondition, hfield, hop, if_true]

/-- C15: for each of `lt`, `gt`, `lte`, `gte`, on a field that resolves to
`fieldValue` and a first operand `operand`: when one of the two is not a
number the condition returns the error that names the two kinds (`%T`) and
no boolean; when both are numbers it returns, without error, the result of
the Go comparison, which for finite numbers is the order of the numbers. -/
theorem ordering_operators (field : String) (operand : SingleValue) (rest : Value)
    (context : List (String × SingleValue)) (fieldValue : SingleValue)
    (hfield : resolveFieldValue field (.map context) = .ok fieldValue) :
    ((∀ a b, ¬ (fieldValue = .num a ∧ operand = .num b)) →
      ∀ operator, operator = "lt" ∨ operator = "gt" ∨ operator = "lte" ∨ operator = "gte" →
        evaluateCondition
          { Field := field, Operator := operator, Value := operand :: rest, Negate := false }
          context =
        .error ("invalid types for numeric comparison: " ++ typeName fieldValue ++ " and " ++
          typeName operand)) ∧
    (∀ a b : Float64, fieldValue = .num a → operand = .num b →
      evaluateCondition
          { Field := field, Operator := "lt", Value := operand :: rest, Negate := false }
          context = .ok (Float64.lt a b) ∧
      evaluateCondition
          { Field := field, Operator := "gt", Value := operand :: rest, Negate := false }
          context = .ok (Float64.lt b a) ∧
      evaluateCondition
          { Field := field, Operator := "lte", Value := operand :: rest, Negate := false }
          context = .ok (Float64.le a b) ∧
      evaluateCondition
          { Field := field, Operator := "gte", Value := operand :: rest, Negate := false }
          context = .ok (Float64.le b a)) ∧
    (∀ a b : ℚ, fieldValue = .num (.fin a) → operand = .num (.fin b) →
      evaluateCondition
          { Field := field, Operator := "lt", Value := operand :: rest, Negate := false }
          context = .ok (decide (a < b)) ∧
      evaluateCondition
          { Field := field, Operator := "gt", Value := operand :: rest, Negate := false }
          context = .ok (decide (a > b)) ∧
      evaluateCondition
          { Field := field, Operator := "lte", Value := operand :: rest, Negate := false }
          context = .ok (decide (a ≤ b)) ∧
      evaluateCondition
          { Field := field, Operator := "gte", Value := operand :: rest, Negate := false }
          context = .ok (decide (a ≥ b))) := by
  have hgeneral : ∀ a b : Float64, fieldValue = .num a → operand = .num b →
      evaluateCondition
          { Field := field, Operator := "lt", Value := operand :: rest, Negate := false }
          context = .ok (Float64.lt a b) ∧
      evaluateCondition
          { Field := field, Operator := "gt", Value := operand :: rest, Negate := false }
          context = .ok (Float64.lt b a) ∧
      evaluateCondition
          { Field := field, Operator := "lte", Value := operand :: rest, Negate := false }
          context = .ok (Float64.le a b) ∧
      evaluateCondition
          { Field := field, Operator := "gte", Value := operand :: rest, Negate := false }
          context = .ok (Float64.le b a) := by
    intro a b ha hb
    subst ha hb
    refine ⟨?_, ?_, ?_, ?_⟩
    · rw [evaluateCondition_ordering field "lt" _ rest false context _ hfield (Or.inl rfl)]
      rfl
    · rw [evaluateCondition_ordering field "gt" _ rest false context _ hfield
        (Or.inr (Or.inl rfl))]
      rfl
    · rw [evaluateCondition_ordering field "lte" _ rest false context _ hfield
        (Or.inr (Or.inr (Or.inl rfl)))]
      rfl
    · rw [evaluateCondition_ordering field "gte" _ rest false context _ hfield
        (Or.inr (Or.inr (Or.inr rfl)))]
      rfl
  refine ⟨?_, hgeneral, ?_⟩
  · intro hkinds operator hop
    rw [evaluateCondition_ordering field operator operand rest false context fieldValue hfield
      hop]
    exact compareNumeric_not_numbers fieldValue operand operator false hkinds
  · intro a b ha hb
    exact hgeneral (.fin a) (.fin b) ha hb

theorem ordering_operators_witness :
    evaluateCondition
        { Field := "age", Operator := "lt", Value := [.str "twenty"], Negate := false }
        [("age", .num (.fin 30))] =
      .error "invalid types for numeric comparison: float64 and string" ∧
    evaluateCondition
        { Field := "age", Operator := "gt", Value := [.num (.fin 18)], Negate := false }
        [("age", .num (.fin 30))] = .ok (decide ((30 : ℚ) > 18)) :=
  ⟨(ordering_operators "age" (.str "twenty") [] [("age", .num (.fin 30))] (.num (.fin 30))
      rfl).1 (by intro a b h; cases h.2) "lt" (Or.inl rfl),
    ((ordering_operators "age" (.num (.fin 18)) [] [("age", .num (.fin 30))] (.num (.fin 30))
      rfl).2.2 30 18 rfl rfl).2.1⟩

/-! ## String literals of any bytes -/

theorem readStringLoop_bytes (base : Lexer) (content : List Char) :
    ∀ (before rest builder : List Char) (fuel : Nat),
      content.all (fun c => c ≠ '"' && c ≠ NUL) = true →
      (∀ c ∈ rest.head?, c = '"') → content.length ≤ fuel →
      Lexer.readStringLoop fuel (Lexer.atSplit before (content ++ rest) base) builder =
        (Lexer.atSplit (before ++ content) rest base, builder ++ writtenRunes content) := by
  induction content with
  | nil =>
    intro before rest builder fuel _ hrest _
    have hch : ¬ (((Lexer.atSplit before rest base).ch ≠ '"' &&
        (Lexer.atSplit before rest base).ch ≠ NUL) = true) := by
      rw [atSplit_ch]
      cases rest with
      | nil => decide
      | cons c cs =>
        have := hrest c (by simp)
        subst this
        simp
    cases fuel with
    | zero => simp [Lexer.readStringLoop, writtenRunes]
    | succ n =>
      simp only [List.nil_append]
      rw [Lexer.readStringLoop, if_neg hch]
      simp [writtenRunes]
  | cons c cs ih =>
    intro before rest builder fuel hall hrest hfuel
    simp only [List.all_cons, Bool.and_eq_true, decide_eq_true_eq] at hall
    obtain ⟨⟨hq, hn⟩, hcs⟩ := hall
    cases fuel with
    | zero => simp at hfuel
    | succ n =>
      have hcond : ((Lexer.atSplit before (c :: cs ++ rest) base).ch ≠ '"' &&
          (Lexer.atSplit before (c :: cs ++ rest) base).ch ≠ NUL) = true := by
        rw [atSplit_ch]
        simp [hq, hn]
      have hch : (Lexer.atSplit before (c :: cs ++ rest) base).ch = c := rfl
      rw [Lexer.readStringLoop, if_pos hcond, hch]
      simp only [List.cons_append]
      rw [atSplit_readRune, ih (before ++ [c]) rest (builder ++ writeRune c) n
        (by simpa [List.all_eq_true] using hcs) hrest (by simpa using hfuel)]
      simp [writtenRunes]

theorem scanToken_bytes (before content rest : List Char) (base : Lexer)
    (hwf : content.all (fun c => c ≠ '"' && c ≠ NUL) = true) :
    (Lexer.atSplit before ((Lexical.string content).text ++ rest) base).scanToken =
      ({ Kind := .STRING, Lexeme := String.mk (writtenRunes content) },
        Lexer.atSplit (before ++ (Lexical.string content).text) rest base) := by
  have hloop := readStringLoop_bytes base content (before ++ ['"']) ('"' :: rest) []
    ((before ++ ['"'] ++ (content ++ '"' :: rest)).length + 1) hwf (by simp)
    (by simp only [List.length_append, List.length_cons]; omega)
  have htext : (Lexical.string content).text ++ rest = '"' :: (content ++ '"' :: rest) := by
    simp [Lexical.text]
  have hch : (Lexer.atSplit before ('"' :: (content ++ '"' :: rest)) base).ch = '"' := rfl
  rw [htext, Lexer.scanToken, if_pos hch, Lexer.readStringToken]
  simp only [atSplit_readRune, atSplit_input, hloop, atSplit_ch, List.headD_cons, if_true,
    Lexer.newToken, List.nil_append]
  simp [Lexical.text]

theorem Next_bytes (content before spaces rest : List Char) (base : Lexer)
    (hbase : ¬ base.dedentCount > 0)
    (hspaces : spaces.all (fun c => c = ' ') = true)
    (hwf : content.all (fun c => c ≠ '"' && c ≠ NUL) = true) :
    (Lexer.atSplit before (spaces ++ ((Lexical.string content).text ++ rest)) base).Next =
      .ok ({ Kind := .STRING, Lexeme := String.mk (writtenRunes content) },
        Lexer.atSplit (before ++ spaces ++ (Lexical.string content).text) rest base) := by
  have htext : (Lexical.string content).text = '"' :: (content ++ ['"']) := rfl
  have hskip : (Lexer.atSplit before (spaces ++ ((Lexical.string content).text ++ rest))
      base).skipWhitespace =
      Lexer.atSplit (before ++ spaces) ((Lexical.string content).text ++ rest) base := by
    apply skipWhitespace_atSplit before spaces _ base hspaces
    intro d hd
    rw [htext] at hd
    simp only [List.cons_append, List.head?_cons, Option.mem_def, Option.some.injEq] at hd
    subst hd
    decide
  have hch : (Lexer.atSplit before (spaces ++ ((Lexical.string content).text ++ rest))
      base).ch ≠ '\n' := by
    rw [atSplit_ch]
    cases spaces with
    | nil =>
      rw [htext]
      simp
    | cons s ss =>
      simp only [List.all_cons, Bool.and_eq_true, decide_eq_true_eq] at hspaces
      rw [List.cons_append, List.headD_cons, hspaces.1]
      decide
  rw [Next_of_no_indent
      (Lexer.atSplit before (spaces ++ ((Lexical.string content).text ++ rest)) base) hbase hch,
    hskip, scanToken_bytes _ content rest base hwf]
  rw [hskip, atSplit_ch, htext]
  simp

theorem Scalar.lexical_wellFormed (v : Scalar) (hv : v.isLiteral = true)
    (hstring : ∀ content, v ≠ .string content) : v.lexical.wellFormed = true := by
  cases v with
  | string content => exact absurd rfl (hstring content)
  | number digits => exact hv
  | boolTrue => decide
  | boolFalse => decide
  | null => decide

theorem Next_scalar (v : Scalar) (before spaces rest : List Char) (base : Lexer)
    (hbase : ¬ base.dedentCount > 0)
    (hspaces : spaces.all (fun c => c = ' ') = true)
    (hv : v.isLiteral = true) (hend : v.lexical.endsBefore rest = true) :
    (Lexer.atSplit before (spaces ++ (v.lexical.text ++ rest)) base).Next =
      .ok (v.token, Lexer.atSplit (before ++ spaces ++ v.lexical.text) rest base) := by
  cases v with
  | string content => exact Next_bytes content before spaces rest base hbase hspaces hv
  | number digits =>
    exact Next_lexical _ before spaces rest base hbase hspaces hv hend
  | boolTrue =>
    exact Next_lexical _ before spaces rest base hbase hspaces (by decide) hend
  | boolFalse =>
    exact Next_lexical _ before spaces rest base hbase hspaces (by decide) hend
  | null =>
    exact Next_lexical _ before spaces rest base hbase hspaces (by decide) hend

theorem Scalar.token_kind (v : Scalar) :
    v.token.Kind = .STRING ∨ v.token.Kind = .NUMBER ∨ v.token.Kind = .TRUE ∨
      v.token.Kind = .FALSE ∨ v.token.Kind = .NIL := by
  cases v with
  | string content => exact Or.inl rfl
  | number digits => exact Or.inr (Or.inl rfl)
  | boolTrue => exact Or.inr (Or.inr (Or.inl (by decide)))
  | boolFalse => exact Or.inr (Or.inr (Or.inr (Or.inl (by decide))))
  | null => exact Or.inr (Or.inr (Or.inr (Or.inr (by decide))))

theorem nextToken_scalar (fuel : Nat) (token : Token) (v : Scalar)
    (before rest : List Char) (base : Lexer)
    (hbase : ¬ base.dedentCount > 0)
    (hv : v.isLiteral = true) (hend : v.lexical.endsBefore rest = true) :
    Parser.nextToken (fuel + 1)
        { lexer := Lexer.atSplit before (' ' :: (v.lexical.text ++ rest)) base,
          currToken := token } =
      .ok { lexer := Lexer.atSplit (before ++ ' ' :: v.lexical.text) rest base,
            currToken := v.token } := by
  have h := nextToken_of_Next fuel
    { lexer := Lexer.atSplit before (' ' :: (v.lexical.text ++ rest)) base, currToken := token }
    _ _ (Next_scalar v before [' '] rest base hbase (by decide) hv hend)
    (by rcases v.token_kind with h | h | h | h | h <;> rw [h] <;> decide)
  simpa using h

/-! ## Parsing a condition that is not negated -/

theorem Scalar.token_kind_ne_square (v : Scalar) : v.token.Kind ≠ .LSQUARE := by
  rcases v.token_kind with h | h | h | h | h <;> rw [h] <;> decide

theorem parseValue_token (v : Scalar) (hv : v.isLiteral = true)
    (hval : v.value.isSome = true) :
    ∃ val, parseValue v.token = .ok val := by
  cases v with
  | string content => exact ⟨_, rfl⟩
  | number digits =>
    cases hvalue : (Scalar.number digits).value with
    | none => rw [hvalue] at hval; cases hval
    | some val => exact ⟨val, parseValue_scalar (.number digits) val hv hvalue⟩
  | boolTrue => exact ⟨_, rfl⟩
  | boolFalse => exact ⟨_, rfl⟩
  | null => exact ⟨_, rfl⟩

theorem parseCondition_plain (fuel : Nat) (p p1 p2 : Parser) (val : SingleValue)
    (h1 : p.nextToken fuel = .ok p1) (hnot : p1.currToken.Kind ≠ .NOT)
    (hbetween : p1.currToken.Lexeme ≠ "between")
    (h2 : p1.nextToken fuel = .ok p2) (hkind : p2.currToken.Kind ≠ .LSQUARE)
    (hval : parseValue p2.currToken = .ok val) :
    p.parseCondition fuel =
      .ok ({ Field := p.currToken.Lexeme, Operator := p1.currToken.Lexeme, Value := [val],
             Negate := false }, p2) := by
  rw [Parser.parseCondition]
  simp only [h1, Outcome.ok_bind, hnot, if_false, decide_False, Bool.false_and,
    Bool.false_eq_true, Outcome.pure_eq, h2, hbetween, hkind, hval]

theorem parseCondition_plain_between (fuel : Nat) (p p1 p2 p3 p4 : Parser)
    (low high : SingleValue)
    (h1 : p.nextToken fuel = .ok p1) (hnot : p1.currToken.Kind ≠ .NOT)
    (hbetween : p1.currToken.Lexeme = "between")
    (h2 : p1.nextToken fuel = .ok p2) (hlow : parseValue p2.currToken = .ok low)
    (h3 : p2.nextToken fuel = .ok p3) (hand : p3.currToken.Kind = .AND)
    (h4 : p3.nextToken fuel = .ok p4) (hhigh : parseValue p4.currToken = .ok high) :
    p.parseCondition fuel =
      .ok ({ Field := p.currToken.Lexeme, Operator := "between", Value := [low, high],
             Negate := false }, p4) := by
  have hne : ¬ (TokenKind.AND ≠ TokenKind.AND) := by simp
  rw [Parser.parseCondition]
  simp only [h1, Outcome.ok_bind, hnot, if_false, decide_False, Bool.false_and,
    Bool.false_eq_true, Outcome.pure_eq, h2, hbetween, if_true, Parser.parseRange, hlow, h3,
    hand, hne, h4, hhigh]

theorem ParseNext_plain (fuel : Nat) (f : List Char) (op : Lexical) (v : Scalar)
    (val : SingleValue)
    (hf : (Lexical.word f).wellFormed = true)
    (hident : lookupKeyword (String.mk f) = .IDENT)
    (hop : op.wellFormed = true) (hnot : op.token.Kind ≠ .NOT)
    (hbetween : op.token.Lexeme ≠ "between")
    (hv : v.isLiteral = true) (hval : parseValue v.token = .ok val) :
    ∃ p q, NewParser (fuel + 1) (NewLexer (ruleText [f, op.text, v.lexical.text])) = .ok p ∧
      p.ParseNext (fuel + 1) =
        .ok (some (.condition
          { Field := String.mk f, Operator := op.token.Lexeme, Value := [val],
            Negate := false }), q) ∧
      q.currToken.Kind = .EOF := by
  have hB := initialLexer_no_dedent
  have h0 := NewParser_ruleText fuel f (' ' :: (op.text ++ (' ' :: v.lexical.text))) hf
    (endsBefore_space _ _)
  have h1 := nextToken_spaced fuel (Lexical.word f).token op f (' ' :: v.lexical.text)
    initialLexer hB hop (endsBefore_space _ _)
  have h2 := nextToken_scalar fuel op.token v (f ++ ' ' :: op.text) [] initialLexer hB hv
    (endsBefore_nil _)
  have h3 := nextToken_end fuel v.token (f ++ ' ' :: op.text ++ ' ' :: v.lexical.text)
    initialLexer hB
  simp only [List.append_nil] at h1 h2 h3
  have hcond := parseCondition_plain (fuel + 1) _ _ _ val h1 hnot hbetween h2
    v.token_kind_ne_square hval
  exact ⟨_, _, h0, ParseNext_condition (fuel + 1) _ _ _ _ hident hcond h3, rfl⟩

theorem ParseNext_plain_between (fuel : Nat) (f : List Char) (x y : Scalar)
    (low high : SingleValue)
    (hf : (Lexical.word f).wellFormed = true)
    (hident : lookupKeyword (String.mk f) = .IDENT)
    (hx : x.isLiteral = true) (hlow : parseValue x.token = .ok low)
    (hy : y.isLiteral = true) (hhigh : parseValue y.token = .ok high) :
    ∃ p q, NewParser (fuel + 1)
        (NewLexer (ruleText
          [f, "between".data, x.lexical.text, "and".data, y.lexical.text])) = .ok p ∧
      p.ParseNext (fuel + 1) =
        .ok (some (.condition
          { Field := String.mk f, Operator := "between", Value := [low, high],
            Negate := false }), q) ∧
      q.currToken.Kind = .EOF := by
  have hB := initialLexer_no_dedent
  have h0 := NewParser_ruleText fuel f
    (' ' :: ("between".data ++ (' ' :: (x.lexical.text ++
      (' ' :: ("and".data ++ (' ' :: y.lexical.text))))))) hf (endsBefore_space _ _)
  have h1 := nextToken_spaced fuel (Lexical.word f).token (.word "between".data) f
    (' ' :: (x.lexical.text ++ (' ' :: ("and".data ++ (' ' :: y.lexical.text)))))
    initialLexer hB (by decide) (endsBefore_space _ _)
  have h2 := nextToken_scalar fuel (Lexical.word "between".data).token x
    (f ++ ' ' :: "between".data) (' ' :: ("and".data ++ (' ' :: y.lexical.text)))
    initialLexer hB hx (endsBefore_space _ _)
  have h3 := nextToken_spaced fuel x.token (.word "and".data)
    (f ++ ' ' :: "between".data ++ ' ' :: x.lexical.text)
    (' ' :: y.lexical.text) initialLexer hB (by decide) (endsBefore_space _ _)
  have h4 := nextToken_scalar fuel (Lexical.word "and".data).token y
    (f ++ ' ' :: "between".data ++ ' ' :: x.lexical.text ++ ' ' :: "and".data) []
    initialLexer hB hy (endsBefore_nil _)
  have h5 := nextToken_end fuel y.token
    (f ++ ' ' :: "between".data ++ ' ' :: x.lexical.text ++ ' ' :: "and".data ++
      ' ' :: y.lexical.text)
    initialLexer hB
  simp only [List.append_nil, Lexical.text] at h1 h2 h3 h4 h5
  have hnot : (Lexical.word "between".data).token.Kind ≠ .NOT := by decide
  have hcond := parseCondition_plain_between (fuel + 1) _ _ _ _ _ low high h1 hnot rfl
    h2 hlow h3 rfl h4 hhigh
  exact ⟨_, _, h0, ParseNext_condition (fuel + 1) _ _ _ _ hident hcond h5, rfl⟩

/-! ## An operator that the evaluator does not know -/

theorem resolveFieldValue_identifier (f : List Char) (context : List (String × SingleValue))
    (hne : f ≠ []) (hword : f.all isWordChar = true) :
    resolveFieldValue (String.mk f) (.map context) = .ok (mapIndex context (String.mk f)) := by
  have hpath := FindAllString_pathText [.key (String.mk f)] (by
    intro seg hseg
    rw [List.mem_singleton] at hseg
    subst hseg
    simp [Segment.wellFormed, hne, hword])
  have htext : pathText [.key (String.mk f)] = String.mk f := by
    simp [pathText, pathTail]
  rw [htext] at hpath
  rw [resolveFieldValue, hpath]
  rfl

theorem evaluateCondition_unknown (cond : Condition) (context : List (String × SingleValue))
    (fieldValue first : SingleValue) (rest : Value)
    (hfield : resolveFieldValue cond.Field (.map context) = .ok fieldValue)
    (hvalue : cond.Value = first :: rest)
    (hop : cond.Operator ∉ ["eq", "neq", "gt", "gte", "lt", "lte", "contains", "between",
      "startsWith", "endsWith", "in"]) :
    evaluateCondition cond context = .error ("unknown operator '" ++ cond.Operator ++ "'") := by
  simp only [List.mem_cons, List.mem_singleton, List.not_mem_nil, or_false, not_or] at hop
  obtain ⟨h1, h2, h3, h4, h5, h6, h7, h8, h9, h10, h11⟩ := hop
  simp only [evaluateCondition, hfield, hvalue, h1, h2, h3, h4, h5, h6, h7, h8, h9, h10, h11,
    or_self, if_false]

/-- C14, as amended: for every context mapping, every field `f` that is a
single identifier, every identifier `op` that is none of the eleven operators
and every scalar literal `v` that has a value (a string literal of any bytes,
`true`, `false`, `nil`, or a number that `strconv.ParseFloat` rounds to a
finite `float64`), evaluating the rule text `f op v` returns the error
`unknown operator 'op'`, hence no boolean. -/
theorem unknown_operator (fuel : Nat) (f op : List Char) (v : Scalar)
    (context : List (String × SingleValue))
    (hf : (Lexical.word f).wellFormed = true) (hsingle : f.all isWordChar = true)
    (hfident : lookupKeyword (String.mk f) = .IDENT)
    (hop : (Lexical.word op).wellFormed = true)
    (hopident : lookupKeyword (String.mk op) = .IDENT)
    (hunknown : String.mk op ∉ ["eq", "neq", "gt", "gte", "lt", "lte", "contains", "between",
      "startsWith", "endsWith", "in"])
    (hv : v.isLiteral = true) (hvalue : v.value.isSome = true) :
    EvaluateLogix (fuel + 1) (ruleText [f, op, v.lexical.text]) context =
      .error ("unknown operator '" ++ String.mk op ++ "'") := by
  obtain ⟨val, hval⟩ := parseValue_token v hv hvalue
  have hnot : (Lexical.word op).token.Kind ≠ .NOT := by
    simp only [Lexical.token, hopident]
    decide
  have hbetween : (Lexical.word op).token.Lexeme ≠ "between" := by
    intro h
    apply hunknown
    simp only [Lexical.token] at h
    rw [h]
    decide
  obtain ⟨p, q, hp, hparse, -⟩ := ParseNext_plain fuel f (.word op) v val hf hfident hop hnot
    hbetween hv hval
  have hne : f ≠ [] := by
    intro h
    subst h
    simp [Lexical.wellFormed] at hf
  have heval := evaluateCondition_unknown
    { Field := String.mk f, Operator := String.mk op, Value := [val], Negate := false }
    context _ val [] (resolveFieldValue_identifier f context hne hsingle) rfl hunknown
  have hp1 : NewParser (fuel + 1) (NewLexer (ruleText [f, op, v.lexical.text])) = .ok p := hp
  simp only [Lexical.token] at hparse
  simp only [EvaluateLogix, hp1, Evaluate, evaluateLoop, hparse, heval]

theorem unknown_operator_witness :
    EvaluateLogix 1 "age xyz 30" [("age", .num (.fin 25))] =
      .error "unknown operator 'xyz'" :=
  unknown_operator 0 "age".data "xyz".data (.number "30".data) [("age", .num (.fin 25))]
    (by decide) (by decide) (by decide) (by decide) (by decide) (by decide) (by decide) rfl

/-! ## A number beyond the range of `float64` -/

theorem roundFloat64_none (n : Nat) (h : 2 ^ 1024 ≤ n) : roundFloat64 n = none := by
  have hn : n ≠ 0 := Nat.pos_iff_ne_zero.mp (lt_of_lt_of_le (Nat.two_pow_pos 1024) h)
  have hlow := Nat.log2_self_le hn
  have hhigh := Nat.lt_log2_self (n := n)
  have hlog : 1024 ≤ Nat.log2 n := by
    by_contra hlt
    have hle : Nat.log2 n + 1 ≤ 1024 := by omega
    have := Nat.pow_le_pow_right (show 0 < 2 by decide) hle
    omega
  have hbig : ¬ n < 2 ^ 53 := by
    have : 2 ^ 53 ≤ 2 ^ 1024 := Nat.pow_le_pow_right (by decide) (by decide)
    omega
  obtain ⟨shift, hshift⟩ : ∃ shift, shift = Nat.log2 n - 52 := ⟨_, rfl⟩
  have hsplit : 2 ^ Nat.log2 n = 2 ^ 52 * 2 ^ shift := by
    rw [← Nat.pow_add]
    congr 1
    omega
  have hmantissa : 2 ^ 52 ≤ n / 2 ^ shift := by
    rw [Nat.le_div_iff_mul_le (Nat.two_pow_pos shift)]
    omega
  have hfloor : 2 ^ 1024 ≤ n / 2 ^ shift * 2 ^ shift := by
    have h1 : 2 ^ 52 * 2 ^ shift ≤ n / 2 ^ shift * 2 ^ shift :=
      Nat.mul_le_mul_right _ hmantissa
    have h2 : 2 ^ 1024 ≤ 2 ^ Nat.log2 n := Nat.pow_le_pow_right (by decide) hlog
    omega
  have hup : n / 2 ^ shift * 2 ^ shift ≤ (n / 2 ^ shift + 1) * 2 ^ shift :=
    Nat.mul_le_mul_right _ (Nat.le_succ _)
  unfold roundFloat64
  rw [if_neg hbig]
  simp only [← hshift]
  split_ifs with h1 h2
  all_goals first
    | rfl
    | exact absurd (le_trans hfloor hup) h2

theorem parseValue_out_of_range (digits : List Char)
    (hv : (Scalar.number digits).isLiteral = true)
    (hrange : roundFloat64 (decimalValue digits) = none) :
    parseValue (Scalar.number digits).token =
      .panic ("Invalid number literal: " ++
        ("strconv.ParseFloat: parsing \"" ++ String.mk digits ++ "\": value out of range")) := by
  simp only [Scalar.isLiteral, Bool.and_eq_true, Bool.not_eq_true',
    List.isEmpty_eq_false_iff_exists_mem] at hv
  have hne : digits ≠ [] := by
    obtain ⟨⟨c, hc⟩, -⟩ := hv
    exact List.ne_nil_of_mem hc
  simp [parseValue, Scalar.token, Scalar.lexical, Lexical.token, ParseFloat, hne, hv.2, hrange]

theorem parseCondition_value_panic (fuel : Nat) (p p1 p2 : Parser) (msg : String)
    (h1 : p.nextToken fuel = .ok p1) (hnot : p1.currToken.Kind ≠ .NOT)
    (hbetween : p1.currToken.Lexeme ≠ "between")
    (h2 : p1.nextToken fuel = .ok p2) (hkind : p2.currToken.Kind ≠ .LSQUARE)
    (hval : parseValue p2.currToken = .panic msg) :
    p.parseCondition fuel = .panic msg := by
  rw [Parser.parseCondition]
  simp only [h1, Outcome.ok_bind, hnot, if_false, decide_False, Bool.false_and,
    Bool.false_eq_true, Outcome.pure_eq, h2, hbetween, hkind, hval, Outcome.panic_bind]

/-- On the rule text `f op v` with a number `v` beyond the range of
`float64`, `parseValue` panics on the operand and so does `EvaluateLogix`,
whatever the operator is. -/
theorem EvaluateLogix_number_out_of_range (fuel : Nat) (f op digits : List Char)
    (context : List (String × SingleValue))
    (hf : (Lexical.word f).wellFormed = true)
    (hfident : lookupKeyword (String.mk f) = .IDENT)
    (hop : (Lexical.word op).wellFormed = true)
    (hopident : lookupKeyword (String.mk op) = .IDENT)
    (hv : (Scalar.number digits).isLiteral = true)
    (hrange : roundFloat64 (decimalValue digits) = none) :
    EvaluateLogix (fuel + 1) (ruleText [f, op, digits]) context =
      .panic ("Invalid number literal: " ++
        ("strconv.ParseFloat: parsing \"" ++ String.mk digits ++ "\": value out of range")) := by
  have hB := initialLexer_no_dedent
  have hnot : (Lexical.word op).token.Kind ≠ .NOT := by
    simp only [Lexical.token, hopident]
    decide
  have hbetween : (Lexical.word op).token.Lexeme ≠ "between" := by
    intro h
    simp only [Lexical.token] at h
    rw [h] at hopident
    revert hopident
    decide
  have h0 := NewParser_ruleText fuel f (' ' :: (op ++ (' ' :: digits))) hf
    (endsBefore_space _ _)
  have h1 := nextToken_spaced fuel (Lexical.word f).token (.word op) f (' ' :: digits)
    initialLexer hB hop (endsBefore_space _ _)
  have h2 := nextToken_scalar fuel (Lexical.word op).token (.number digits)
    (f ++ ' ' :: op) [] initialLexer hB hv (endsBefore_nil _)
  simp only [List.append_nil, Lexical.text, Scalar.lexical] at h1 h2
  have hcond := parseCondition_value_panic (fuel + 1) _ _ _ _ h1 hnot hbetween h2
    (Scalar.number digits).token_kind_ne_square (parseValue_out_of_range digits hv hrange)
  have hparse := ParseNext_condition_panic (fuel + 1) _ _ hfident hcond
  have hp : NewParser (fuel + 1) (NewLexer (ruleText [f, op, digits])) = _ := h0
  simp only [EvaluateLogix, hp, Evaluate, evaluateLoop, hparse]

theorem decimalValue_zeros (digits : List Char) :
    ∀ n, decimalValue (digits ++ List.replicate n '0') = decimalValue digits * 10 ^ n := by
  intro n
  induction n with
  | zero => simp
  | succ m ih =>
    rw [List.replicate_succ', ← List.append_assoc, decimalValue, List.foldl_append]
    rw [decimalValue] at ih
    rw [ih]
    simp only [List.foldl_cons, List.foldl_nil]
    rw [decimalValue, Nat.pow_succ]
    have : ('0' : Char).toNat - 48 = 0 := by decide
    rw [this]
    ring

/-- C14, the claim as stated fails: a run of digits is a number of the
grammar at any length, and on `age xyz` followed by the digit 1 and 309
zeros, a number beyond the range of `float64`, `parseValue` panics with
`Invalid number literal` and no error `unknown operator 'xyz'` is returned. -/
theorem unknown_operator_counterexample :
    (Scalar.number ('1' :: List.replicate 309 '0')).isLiteral = true ∧
    EvaluateLogix 1 (ruleText ["age".data, "xyz".data, '1' :: List.replicate 309 '0'])
        [("age", .num (.fin 25))] =
      .panic ("Invalid number literal: " ++
        ("strconv.ParseFloat: parsing \"" ++ String.mk ('1' :: List.replicate 309 '0') ++
          "\": value out of range")) ∧
    EvaluateLogix 1 (ruleText ["age".data, "xyz".data, '1' :: List.replicate 309 '0'])
        [("age", .num (.fin 25))] ≠ .error "unknown operator 'xyz'" := by
  have hliteral : (Scalar.number ('1' :: List.replicate 309 '0')).isLiteral = true := by
    show (!(('1' :: List.replicate 309 '0').isEmpty) &&
      ('1' :: List.replicate 309 '0').all isDigit) = true
    rw [List.all_cons, List.isEmpty_cons, List.all_eq_true.2 (fun c hc => by
      rw [(List.mem_replicate.mp hc).2]
      decide)]
    decide
  have hvalue : decimalValue ('1' :: List.replicate 309 '0') = 10 ^ 309 := by
    have h := decimalValue_zeros ['1'] 309
    have hone : decimalValue ['1'] = 1 := by decide
    rw [hone, Nat.one_mul] at h
    exact h
  have hrange : roundFloat64 (decimalValue ('1' :: List.replicate 309 '0')) = none := by
    rw [hvalue]
    exact roundFloat64_none _ (by norm_num)
  have hrun := EvaluateLogix_number_out_of_range 0 "age".data "xyz".data
    ('1' :: List.replicate 309 '0') [("age", .num (.fin 25))] (by decide) (by decide)
    (by decide) (by decide) hliteral hrange
  refine ⟨hliteral, hrun, ?_⟩
  rw [hrun]
  exact fun h => Outcome.noConfusion h

/-! ## What follows a false statement -/

theorem nextToken_panic (fuel : Nat) (p : Parser) (msg : String)
    (hnext : p.lexer.Next = .panic msg) : p.nextToken fuel = .panic msg := by
  rw [Parser.nextToken, hnext]

/-- C1, the failing input: on the rule text `age eq 1` followed by a line
break and two spaces, with `age` 25, the one statement evaluates to false,
and `EvaluateLogix` panics instead of returning false: `ParseNext` reads the
token after the statement before it returns it, and that call of `Next`
panics in `setIndentationMode`.  Without the white space at the end, and
with a statement after it that would raise an error, the result is false. -/
theorem Evaluate_panics_after_false_statement :
    (∀ fuel, EvaluateLogix (fuel + 1) "age eq 1\n  " [("age", .num (.fin 25))] =
      .panic "runtime error: index out of range [11] with length 11") ∧
    evaluateCondition
        { Field := "age", Operator := "eq", Value := [.num (.fin 1)], Negate := false }
        [("age", .num (.fin 25))] = .ok false ∧
    EvaluateLogix 2 "age eq 1" [("age", .num (.fin 25))] = .ok false ∧
    EvaluateLogix 2 "age eq 1\nage lt \"twenty\"" [("age", .num (.fin 25))] = .ok false := by
  refine ⟨?_, by decide, by decide, by decide⟩
  intro fuel
  have n0 : (NewLexer "age eq 1\n  ").Next =
      .ok ({ Kind := .IDENT, Lexeme := "age" },
        Lexer.atSplit "age".data " eq 1\n  ".data initialLexer) := by decide
  have n1 : (Lexer.atSplit "age".data " eq 1\n  ".data initialLexer).Next =
      .ok ({ Kind := .EQ, Lexeme := "eq" },
        Lexer.atSplit "age eq".data " 1\n  ".data initialLexer) := by decide
  have n2 : (Lexer.atSplit "age eq".data " 1\n  ".data initialLexer).Next =
      .ok ({ Kind := .NUMBER, Lexeme := "1" },
        Lexer.atSplit "age eq 1".data "\n  ".data initialLexer) := by decide
  have n3 : (Lexer.atSplit "age eq 1".data "\n  ".data initialLexer).Next =
      .panic "runtime error: index out of range [11] with length 11" := by decide
  have t0 := nextToken_of_Next fuel
    { lexer := NewLexer "age eq 1\n  ", currToken := { Kind := .EOF, Lexeme := "" } }
    _ _ n0 (by decide)
  have t1 := nextToken_of_Next fuel
    { lexer := Lexer.atSplit "age".data " eq 1\n  ".data initialLexer,
      currToken := { Kind := .IDENT, Lexeme := "age" } } _ _ n1 (by decide)
  have t2 := nextToken_of_Next fuel
    { lexer := Lexer.atSplit "age eq".data " 1\n  ".data initialLexer,
      currToken := { Kind := .EQ, Lexeme := "eq" } } _ _ n2 (by decide)
  have t3 := nextToken_panic (fuel + 1)
    { lexer := Lexer.atSplit "age eq 1".data "\n  ".data initialLexer,
      currToken := { Kind := .NUMBER, Lexeme := "1" } } _ n3
  have hvalue : parseValue { Kind := .NUMBER, Lexeme := "1" } = .ok (.num (.fin 1)) := rfl
  have hcond := parseCondition_plain (fuel + 1) _ _ _ _ t1 (by decide) (by decide) t2
    (by decide) hvalue
  have h1 : ¬ (TokenKind.IDENT = TokenKind.EOF) := by decide
  have h2 : ¬ (TokenKind.IDENT = TokenKind.GROUP) := by decide
  have hparse : Parser.ParseNext (fuel + 1)
      { lexer := Lexer.atSplit "age".data " eq 1\n  ".data initialLexer,
        currToken := { Kind := .IDENT, Lexeme := "age" } } =
      .panic "runtime error: index out of range [11] with length 11" := by
    rw [Parser.ParseNext]
    simp only [h1, h2, if_false, if_true, hcond, Outcome.ok_bind, Outcome.pure_eq, t3,
      Outcome.panic_bind]
  rw [EvaluateLogix, NewParser, t0]
  simp only [Evaluate, evaluateLoop, hparse]

/-! ## The operands of a condition -/

theorem writtenRunes_ascii (content : List Char)
    (h : content.all (fun c => decide (c.toNat < 128)) = true) :
    writtenRunes content = content := by
  induction content with
  | nil => rfl
  | cons c cs ih =>
    simp only [List.all_cons, Bool.and_eq_true, decide_eq_true_eq] at h
    have hc : writeRune c = [c] := by simp [writeRune, h.1]
    have hcs := ih h.2
    unfold writtenRunes at hcs ⊢
    simp [hc, hcs]

theorem Scalar.isLiteral_of_wellFormed (v : Scalar) (hv : v.lexical.wellFormed = true) :
    v.isLiteral = true ∧ v.token = v.lexical.token := by
  cases v with
  | string content =>
    simp only [Scalar.lexical, Lexical.wellFormed, List.all_eq_true, Bool.and_eq_true,
      decide_eq_true_eq] at hv
    refine ⟨?_, ?_⟩
    · simp only [Scalar.isLiteral, List.all_eq_true, Bool.and_eq_true, decide_eq_true_eq]
      exact fun c hc => (hv c hc).1
    · simp only [Scalar.token, Scalar.lexical, Lexical.token]
      rw [writtenRunes_ascii content (by
        simp only [List.all_eq_true, decide_eq_true_eq]
        exact fun c hc => (hv c hc).2)]
  | number digits => exact ⟨hv, rfl⟩
  | boolTrue => exact ⟨rfl, rfl⟩
  | boolFalse => exact ⟨rfl, rfl⟩
  | null => exact ⟨rfl, rfl⟩

/-- For every identifier `f`, every operator `op` among `eq`, `neq`, `gt`,
`gte`, `lt`, `lte`, `contains`, `startsWith`, `endsWith`, `in` and every
scalar literal `v` whose string content is ASCII, `ParseNext` on `f op v`
returns the condition with the one operand that `v` denotes and reaches the
end of the input. -/
theorem ParseNext_operand (fuel : Nat) (f op : List Char) (v : Scalar) (val : SingleValue)
    (hf : (Lexical.word f).wellFormed = true)
    (hident : lookupKeyword (String.mk f) = .IDENT)
    (hop : String.mk op ∈ ["eq", "neq", "gt", "gte", "lt", "lte", "contains", "startsWith",
      "endsWith", "in"])
    (hv : v.lexical.wellFormed = true) (hval : v.value = some val) :
    ∃ p q, NewParser (fuel + 1) (NewLexer (ruleText [f, op, v.lexical.text])) = .ok p ∧
      p.ParseNext (fuel + 1) =
        .ok (some (.condition
          { Field := String.mk f, Operator := String.mk op, Value := [val],
            Negate := false }), q) ∧
      q.currToken.Kind = .EOF := by
  obtain ⟨hliteral, htoken⟩ := v.isLiteral_of_wellFormed hv
  have hvalue : parseValue v.token = .ok val := by
    rw [htoken]
    exact parseValue_scalar v val hv hval
  have hword : (Lexical.word op).wellFormed = true ∧ (Lexical.word op).token.Kind ≠ .NOT ∧
      (Lexical.word op).token.Lexeme ≠ "between" := by
    simp only [List.mem_cons, List.mem_singleton, List.not_mem_nil, or_false] at hop
    rcases hop with h | h | h | h | h | h | h | h | h | h <;>
      · have hdata := congrArg String.data h
        simp only at hdata
        subst hdata
        decide
  exact ParseNext_plain fuel f (.word op) v val hf hident hword.1 hword.2.1 hword.2.2 hliteral
    hvalue

theorem ParseNext_operand_witness :
    ∃ p q, NewParser 1 (NewLexer "age gte 18") = .ok p ∧
      p.ParseNext 1 =
        .ok (some (.condition
          { Field := "age", Operator := "gte", Value := [.num (.fin 18)],
            Negate := false }), q) ∧
      q.currToken.Kind = .EOF :=
  ParseNext_operand 0 "age".data "gte".data (.number "18".data) (.num (.fin 18))
    (by decide) (by decide) (by decide) (by decide) rfl

/-- On `f between x and y`, `ParseNext` returns the condition with the
operands that `x` and `y` denote, when their string contents are ASCII. -/
theorem ParseNext_operands_between (fuel : Nat) (f : List Char) (x y : Scalar)
    (low high : SingleValue)
    (hf : (Lexical.word f).wellFormed = true)
    (hident : lookupKeyword (String.mk f) = .IDENT)
    (hx : x.lexical.wellFormed = true) (hlow : x.value = some low)
    (hy : y.lexical.wellFormed = true) (hhigh : y.value = some high) :
    ∃ p q, NewParser (fuel + 1)
        (NewLexer (ruleText
          [f, "between".data, x.lexical.text, "and".data, y.lexical.text])) = .ok p ∧
      p.ParseNext (fuel + 1) =
        .ok (some (.condition
          { Field := String.mk f, Operator := "between", Value := [low, high],
            Negate := false }), q) ∧
      q.currToken.Kind = .EOF := by
  obtain ⟨hxl, hxt⟩ := x.isLiteral_of_wellFormed hx
  obtain ⟨hyl, hyt⟩ := y.isLiteral_of_wellFormed hy
  exact ParseNext_plain_between fuel f x y low high hf hident hxl
    (by rw [hxt]; exact parseValue_scalar x low hx hlow) hyl
    (by rw [hyt]; exact parseValue_scalar y high hy hhigh)

/-- For a string literal of any bytes the operand is not the content of the
literal but its bytes written as runes. -/
theorem ParseNext_string_operand (fuel : Nat) (f op content : List Char)
    (hf : (Lexical.word f).wellFormed = true)
    (hident : lookupKeyword (String.mk f) = .IDENT)
    (hop : String.mk op ∈ ["eq", "neq", "gt", "gte", "lt", "lte", "contains", "startsWith",
      "endsWith", "in"])
    (hv : (Scalar.string content).isLiteral = true) :
    ∃ p q, NewParser (fuel + 1)
        (NewLexer (ruleText [f, op, (Scalar.string content).lexical.text])) = .ok p ∧
      p.ParseNext (fuel + 1) =
        .ok (some (.condition
          { Field := String.mk f, Operator := String.mk op,
            Value := [.str (String.mk (writtenRunes content))], Negate := false }), q) := by
  have hword : (Lexical.word op).wellFormed = true ∧ (Lexical.word op).token.Kind ≠ .NOT ∧
      (Lexical.word op).token.Lexeme ≠ "between" := by
    simp only [List.mem_cons, List.mem_singleton, List.not_mem_nil, or_false] at hop
    rcases hop with h | h | h | h | h | h | h | h | h | h <;>
      · have hdata := congrArg String.data h
        simp only at hdata
        subst hdata
        decide
  obtain ⟨p, q, hp, hparse, -⟩ := ParseNext_plain fuel f (.word op) (.string content) _ hf
    hident hword.1 hword.2.1 hword.2.2 hv rfl
  exact ⟨p, q, hp, hparse⟩

/-- C19, the failing input: in the rule text `name eq "é"` the content of
the string literal is the two bytes C3 A9 of `é` in UTF-8.  `ParseNext`
returns the condition with an operand of four bytes, C3 83 C2 A9, since
`readStringToken` writes each byte of the content as a rune of its own; the
operand is not the content of the quoted string, and the rule is false on a
context whose `name` is that very string. -/
theorem string_operand_is_not_content :
    (∃ p q,
      NewParser 1 (NewLexer
        (String.mk ("name eq ".data ++ '"' :: [Char.ofNat 195, Char.ofNat 169, '"']))) = .ok p ∧
      p.ParseNext 1 =
        .ok (some (.condition
          { Field := "name", Operator := "eq",
            Value := [.str (String.mk
              [Char.ofNat 195, Char.ofNat 131, Char.ofNat 194, Char.ofNat 169])],
            Negate := false }), q)) ∧
    String.mk [Char.ofNat 195, Char.ofNat 131, Char.ofNat 194, Char.ofNat 169] ≠
      String.mk [Char.ofNat 195, Char.ofNat 169] ∧
    EvaluateLogix 2
        (String.mk ("name eq ".data ++ '"' :: [Char.ofNat 195, Char.ofNat 169, '"']))
        [("name", .str (String.mk [Char.ofNat 195, Char.ofNat 169]))] = .ok false ∧
    EvaluateLogix 2 "name eq \"e\"" [("name", .str "e")] = .ok true :=
  ⟨⟨_, _, rfl, rfl⟩, by decide, by decide, by decide⟩

/-! ## Groups -/

theorem yields_append (front back : List Token) :
    ∀ (l final : Lexer), l.yields (front ++ back) final ↔
      ∃ middle, l.yields front middle ∧ middle.yields back final := by
  induction front with
  | nil =>
    intro l final
    simp only [List.nil_append, Lexer.yields]
    exact ⟨fun h => ⟨l, rfl, h⟩, fun ⟨m, hm, h⟩ => hm ▸ h⟩
  | cons token rest ih =>
    intro l final
    constructor
    · rintro ⟨l1, h1, h⟩
      obtain ⟨m, hm, h⟩ := (ih l1 final).mp h
      exact ⟨m, ⟨l1, h1, hm⟩, h⟩
    · rintro ⟨m, ⟨l1, h1, hm⟩, h⟩
      exact ⟨l1, h1, (ih l1 final).mpr ⟨m, hm, h⟩⟩

theorem nextToken_yields (fuel : Nat) (current token : Token) (rest : List Token)
    (l final : Lexer) (hyields : l.yields (token :: rest) final) (hkind : token.Kind ≠ .INDENT) :
    ∃ l1, Parser.nextToken (fuel + 1) { lexer := l, currToken := current } =
        .ok { lexer := l1, currToken := token } ∧ l1.yields rest final := by
  obtain ⟨l1, hnext, hrest⟩ := hyields
  exact ⟨l1, nextToken_of_Next fuel _ _ _ hnext hkind, hrest⟩

theorem nextToken_yields_indent (fuel : Nat) (current indent token : Token)
    (rest : List Token) (l final : Lexer)
    (hyields : l.yields (indent :: token :: rest) final)
    (hindent : indent.Kind = .INDENT) (hkind : token.Kind ≠ .INDENT) :
    ∃ l1, Parser.nextToken (fuel + 2) { lexer := l, currToken := current } =
        .ok { lexer := l1, currToken := token } ∧ l1.yields rest final := by
  obtain ⟨l1, hnext, l2, hnext2, hrest⟩ := hyields
  refine ⟨l2, ?_, hrest⟩
  rw [Parser.nextToken, hnext]
  simp only [Parser.skipIndent, hindent, if_true, hnext2, hkind, if_false]

theorem writtenAs_head (fuel : Nat) (stmt : Statement) (tokens : List Token)
    (h : stmt.writtenAs fuel tokens) :
    ∃ first rest, tokens = first :: rest ∧ (first.Kind = .IDENT ∨ first.Kind = .GROUP) := by
  cases stmt with
  | condition cond =>
    rw [Statement.writtenAs] at h
    obtain ⟨first, rest, htokens, hkind, -⟩ := h
    exact ⟨first, rest, htokens, Or.inl hkind⟩
  | group logicalOp children =>
    rw [Statement.writtenAs] at h
    obtain ⟨header, op, indent, body, close, htokens, hkind, -⟩ := h
    exact ⟨header, _, htokens, Or.inr hkind⟩

theorem writtenAsList_head (fuel : Nat) (children : List Statement) (body : List Token)
    (close : Token) (hclose : close.Kind = .DEDENT ∨ close.Kind = .EOF)
    (h : Statement.writtenAs.writtenAsList fuel children body) :
    ∃ first rest, body ++ [close] = first :: rest ∧ first.Kind ≠ .INDENT := by
  cases children with
  | nil =>
    rw [Statement.writtenAs.writtenAsList] at h
    subst h
    exact ⟨close, [], rfl, by rcases hclose with h | h <;> rw [h] <;> decide⟩
  | cons child rest =>
    rw [Statement.writtenAs.writtenAsList] at h
    obtain ⟨front, back, hbody, hchild, -⟩ := h
    obtain ⟨first, tail, hfront, hkind⟩ := writtenAs_head fuel child front hchild
    subst hbody hfront
    refine ⟨first, tail ++ back ++ [close], by simp, ?_⟩
    rcases hkind with h | h <;> rw [h] <;> decide

theorem writtenAsList_length (fuel : Nat) :
    ∀ (children : List Statement) (body : List Token),
      Statement.writtenAs.writtenAsList fuel children body → children.length ≤ body.length := by
  intro children
  induction children with
  | nil => intro body _; simp
  | cons child rest ih =>
    intro body h
    rw [Statement.writtenAs.writtenAsList] at h
    obtain ⟨front, back, hbody, hchild, hrest⟩ := h
    obtain ⟨first, tail, hfront, -⟩ := writtenAs_head fuel child front hchild
    have := ih back hrest
    subst hbody hfront
    simp only [List.length_cons, List.length_append]
    omega

theorem parseGroupLoop_written (fuel : Nat)
    (parseGroup : Parser → Outcome (Statement × Parser)) (bound : Nat)
    (hgroup : ∀ (logicalOp : String) (children : List Statement) (header : Token)
      (rest : List Token) (l final : Lexer),
      (Statement.group logicalOp children).writtenAs (fuel + 2) (header :: rest) →
      (header :: rest).length ≤ bound → l.yields rest final →
      parseGroup { lexer := l, currToken := header } =
        .ok (.group logicalOp children,
          { lexer := final, currToken := rest.getLastD header }))
    (close : Token) (hclose : close.Kind = .DEDENT ∨ close.Kind = .EOF) :
    ∀ (children : List Statement) (body : List Token) (rounds : Nat) (acc : List Statement)
      (first : Token) (rest : List Token) (l final : Lexer),
      Statement.writtenAs.writtenAsList (fuel + 2) children body →
      body.length ≤ bound → children.length < rounds →
      body ++ [close] = first :: rest → l.yields rest final →
      Parser.parseGroupLoop parseGroup (fuel + 2) rounds { lexer := l, currToken := first }
          acc =
        .ok (acc ++ children, { lexer := final, currToken := close }) := by
  intro children
  induction children with
  | nil =>
    intro body rounds acc first rest l final hbody _ hrounds htokens hyields
    rw [Statement.writtenAs.writtenAsList] at hbody
    subst hbody
    simp only [List.nil_append, List.cons.injEq] at htokens
    obtain ⟨hfirst, hrest⟩ := htokens
    subst hfirst hrest
    rw [Lexer.yields] at hyields
    subst hyields
    cases rounds with
    | zero => simp at hrounds
    | succ r =>
      rw [Parser.parseGroupLoop]
      rcases hclose with h | h <;> simp [h]
  | cons child cs ih =>
    intro body rounds acc first rest l final hbody hbound hrounds htokens hyields
    rw [Statement.writtenAs.writtenAsList] at hbody
    obtain ⟨front, back, hsplit, hchild, hcs⟩ := hbody
    obtain ⟨n, ntail, hback, hn⟩ := writtenAsList_head (fuel + 2) cs back close hclose hcs
    have hbackBound : back.length ≤ bound := by
      rw [hsplit, List.length_append] at hbound
      omega
    cases rounds with
    | zero => simp at hrounds
    | succ r =>
      have hr : cs.length < r := by simpa using hrounds
      cases child with
      | condition cond =>
        rw [Statement.writtenAs] at hchild
        obtain ⟨f, ftail, hfront, hkind, hparse⟩ := hchild
        subst hsplit hfront
        simp only [List.cons_append, List.append_assoc, List.cons.injEq] at htokens
        obtain ⟨hfirst, hrest⟩ := htokens
        subst hfirst hrest
        obtain ⟨middle, hfrontYields, hbackYields⟩ := (yields_append _ _ _ _).mp hyields
        rw [hback] at hbackYields
        obtain ⟨l1, hnext, hrestYields⟩ := nextToken_yields (fuel + 1)
          (ftail.getLastD f) n ntail middle final hbackYields hn
        have hcond := hparse l middle hfrontYields
        have h1 : ¬ (TokenKind.IDENT = TokenKind.GROUP) := by decide
        have h2 : TokenKind.IDENT ≠ TokenKind.DEDENT ∧ TokenKind.IDENT ≠ TokenKind.EOF := by
          decide
        rw [Parser.parseGroupLoop]
        simp only [hkind, h1, h2, if_false, if_true, hcond, Outcome.ok_bind, Outcome.pure_eq,
          hnext]
        rw [ih back r (acc ++ [Statement.condition cond]) n ntail l1 final hcs hbackBound hr
          hback hrestYields]
        simp
      | group logicalOp children =>
        obtain ⟨f, ftail, hfront, -⟩ := writtenAs_head _ _ _ hchild
        have hkind : f.Kind = .GROUP := by
          rw [Statement.writtenAs] at hchild
          obtain ⟨header, op, indent, inner, c, htoks, hheader, -⟩ := hchild
          rw [hfront] at htoks
          rw [(List.cons.inj htoks).1]
          exact hheader
        subst hsplit hfront
        simp only [List.cons_append, List.append_assoc, List.cons.injEq] at htokens
        obtain ⟨hfirst, hrest⟩ := htokens
        subst hfirst hrest
        obtain ⟨middle, hfrontYields, hbackYields⟩ := (yields_append _ _ _ _).mp hyields
        rw [hback] at hbackYields
        obtain ⟨l1, hnext, hrestYields⟩ := nextToken_yields (fuel + 1)
          (ftail.getLastD f) n ntail middle final hbackYields hn
        have hfrontBound : (f :: ftail).length ≤ bound := by
          rw [List.length_append] at hbound
          omega
        have hcall := hgroup logicalOp children f ftail l middle hchild hfrontBound
          hfrontYields
        have h2 : TokenKind.GROUP ≠ TokenKind.DEDENT ∧ TokenKind.GROUP ≠ TokenKind.EOF := by
          decide
        rw [Parser.parseGroupLoop]
        simp only [hkind, h2, if_true, hcall, Outcome.ok_bind, Outcome.pure_eq, hnext]
        rw [ih back r (acc ++ [Statement.group logicalOp children]) n ntail l1 final hcs
          hbackBound hr hback hrestYields]
        simp

theorem getLastD_block (header op indent close : Token) (body : List Token) :
    (op :: indent :: (body ++ [close])).getLastD header = close := by
  simp [List.getLastD]

theorem parseGroup_written (fuel : Nat) :
    ∀ (depth : Nat) (logicalOp : String) (children : List Statement) (header : Token)
      (rest : List Token) (l final : Lexer),
      (Statement.group logicalOp children).writtenAs (fuel + 2) (header :: rest) →
      (header :: rest).length ≤ depth → (header :: rest).length ≤ fuel + 2 →
      l.yields rest final →
      Parser.parseGroup (fuel + 2) depth { lexer := l, currToken := header } =
        .ok (.group logicalOp children,
          { lexer := final, currToken := rest.getLastD header }) := by
  intro depth
  induction depth with
  | zero => intro logicalOp children header rest l final _ hdepth; simp at hdepth
  | succ d ih =>
    intro logicalOp children header rest l final hwritten hdepth hfuel hyields
    rw [Statement.writtenAs] at hwritten
    obtain ⟨header1, op, indent, body, close, htokens, -, hop, hlexeme, hindent, hclose,
      hchildren⟩ := hwritten
    simp only [List.cons.injEq] at htokens
    obtain ⟨hheader, hrest⟩ := htokens
    subst hheader hrest
    simp only [List.length_cons, List.length_append, List.length_nil] at hdepth hfuel
    obtain ⟨n, ntail, hbody, hn⟩ := writtenAsList_head (fuel + 2) children body close hclose
      hchildren
    obtain ⟨l1, hnext1, hyields1⟩ := nextToken_yields (fuel + 1) header op _ l final hyields
      (by rcases hop with h | h <;> rw [h] <;> decide)
    rw [hbody] at hyields1
    obtain ⟨l2, hnext2, hyields2⟩ := nextToken_yields_indent fuel op indent n ntail l1 final
      hyields1 hindent hn
    have hlength := writtenAsList_length (fuel + 2) children body hchildren
    have hloop := parseGroupLoop_written fuel (Parser.parseGroup (fuel + 2) d) body.length
      (fun logicalOp1 children1 header1 rest1 la lb hw hlen hy =>
        ih logicalOp1 children1 header1 rest1 la lb hw (by omega) (by omega) hy)
      close hclose children body (fuel + 2) [] n ntail l2 final hchildren (le_refl _)
      (by omega) hbody hyields2
    have hcheck : ¬ (op.Kind ≠ .AND ∧ op.Kind ≠ .OR) := by
      rcases hop with h | h <;> rw [h] <;> decide
    rw [Parser.parseGroup]
    simp only [hnext1, Outcome.ok_bind, hcheck, if_false, hnext2, hloop, Outcome.pure_eq,
      List.nil_append, hlexeme, getLastD_block]

theorem ParseNext_written (fuel : Nat) (stmt : Statement) (first : Token)
    (rest : List Token) (next : Token) (l final : Lexer)
    (hwritten : stmt.writtenAs (fuel + 2) (first :: rest))
    (hlength : (first :: rest).length ≤ fuel + 2) (hnext : next.Kind ≠ .INDENT)
    (hyields : l.yields (rest ++ [next]) final) :
    Parser.ParseNext (fuel + 2) { lexer := l, currToken := first } =
      .ok (some stmt, { lexer := final, currToken := next }) := by
  obtain ⟨middle, hrest, hlast⟩ := (yields_append _ _ _ _).mp hyields
  obtain ⟨l1, hstep, hend⟩ := nextToken_yields (fuel + 1) (rest.getLastD first) next [] middle
    final hlast hnext
  rw [Lexer.yields] at hend
  subst hend
  cases stmt with
  | condition cond =>
    rw [Statement.writtenAs] at hwritten
    obtain ⟨f, ftail, htokens, hkind, hparse⟩ := hwritten
    simp only [List.cons.injEq] at htokens
    obtain ⟨hf, htail⟩ := htokens
    subst hf htail
    exact ParseNext_condition (fuel + 2) _ _ _ cond hkind (hparse l middle hrest) hstep
  | group logicalOp children =>
    have hcall := parseGroup_written fuel (fuel + 2) logicalOp children first rest l middle
      hwritten hlength hlength hrest
    have hkind : first.Kind = .GROUP := by
      rw [Statement.writtenAs] at hwritten
      obtain ⟨header, op, indent, inner, c, htoks, hheader, -⟩ := hwritten
      rw [(List.cons.inj htoks).1]
      exact hheader
    have h1 : ¬ (TokenKind.GROUP = TokenKind.EOF) := by decide
    rw [Parser.ParseNext]
    simp only [hkind, h1, if_false, if_true, hcall, Outcome.ok_bind, Outcome.pure_eq, hstep]

theorem writtenAs_plain (fuel : Nat) (field operator operand : Token) (val : SingleValue)
    (hfield : field.Kind = .IDENT)
    (hnot : operator.Kind ≠ .NOT) (hop : operator.Kind ≠ .INDENT)
    (hbetween : operator.Lexeme ≠ "between")
    (hsquare : operand.Kind ≠ .LSQUARE) (hoperand : operand.Kind ≠ .INDENT)
    (hval : parseValue operand = .ok val) :
    (Statement.condition
      { Field := field.Lexeme, Operator := operator.Lexeme, Value := [val],
        Negate := false }).writtenAs (fuel + 1) [field, operator, operand] := by
  rw [Statement.writtenAs]
  refine ⟨field, [operator, operand], rfl, hfield, ?_⟩
  intro l final hyields
  obtain ⟨l1, h1, hyields1⟩ := nextToken_yields fuel field operator [operand] l final hyields
    hop
  obtain ⟨l2, h2, hyields2⟩ := nextToken_yields fuel operator operand [] l1 final hyields1
    hoperand
  rw [Lexer.yields] at hyields2
  subst hyields2
  exact parseCondition_plain (fuel + 1) _ _ _ val h1 hnot hbetween h2 hsquare hval

/-- The grammar of a group on the tokens: a group block is the tokens `group`, `and` or `or`, `INDENT`, the
tokens of its children (conditions and groups, nested in the same way) and
`DEDENT`.  When the lexer returns the tokens of such a block, then those of
a statement `following` and then the token `next`, `ParseNext` returns the
group with the lexeme of the `and`/`or` token as `LogicalOp` and with exactly
the children of the block, in order and with the same nesting, and stands at
the first token of `following`; the next call of `ParseNext` returns
`following`. -/
theorem ParseNext_group_block (fuel : Nat) (logicalOp : String) (children : List Statement)
    (following : Statement) (header : Token) (block : List Token) (first : Token)
    (rest : List Token) (next : Token) (l final : Lexer)
    (hgroup : (Statement.group logicalOp children).writtenAs (fuel + 2) (header :: block))
    (hfollowing : following.writtenAs (fuel + 2) (first :: rest))
    (hblock : (header :: block).length ≤ fuel + 2)
    (hrest : (first :: rest).length ≤ fuel + 2)
    (hnext : next.Kind ≠ .INDENT)
    (hyields : l.yields (block ++ first :: (rest ++ [next])) final) :
    ∃ p1, Parser.ParseNext (fuel + 2) { lexer := l, currToken := header } =
        .ok (some (.group logicalOp children), p1) ∧
      p1.currToken = first ∧
      p1.ParseNext (fuel + 2) = .ok (some following, { lexer := final, currToken := next }) := by
  have hsplit : block ++ first :: (rest ++ [next]) = (block ++ [first]) ++ (rest ++ [next]) := by
    simp
  rw [hsplit] at hyields
  obtain ⟨middle, hfront, hback⟩ := (yields_append _ _ _ _).mp hyields
  obtain ⟨f, ftail, hhead, hkind⟩ := writtenAs_head _ _ _ hfollowing
  have hfirst : first.Kind ≠ .INDENT := by
    rw [(List.cons.inj hhead).1]
    rcases hkind with h | h <;> rw [h] <;> decide
  exact ⟨_, ParseNext_written fuel _ header block first l middle hgroup hblock hfirst hfront,
    rfl, ParseNext_written fuel _ first rest next middle final hfollowing hrest hnext hback⟩

theorem ParseNext_group_block_witness :
    ∃ p p1 p2,
      NewParser 14 (NewLexer "group or\n  group and\n    a eq 1\n  b eq 2\nc eq 3") = .ok p ∧
      p.ParseNext 14 =
        .ok (some (.group "or"
          [.group "and"
            [.condition
              { Field := "a", Operator := "eq", Value := [.num (.fin 1)], Negate := false }],
           .condition
              { Field := "b", Operator := "eq", Value := [.num (.fin 2)], Negate := false }]),
          p1) ∧
      p1.currToken = { Kind := .IDENT, Lexeme := "c" } ∧
      p1.ParseNext 14 =
        .ok (some (.condition
          { Field := "c", Operator := "eq", Value := [.num (.fin 3)], Negate := false }),
          p2) := by
  have hyields : ∃ final,
      (Lexer.atSplit "group".data " or\n  group and\n    a eq 1\n  b eq 2\nc eq 3".data
        initialLexer).yields
        ([⟨.OR, "or"⟩, ⟨.INDENT, ""⟩, ⟨.GROUP, "group"⟩, ⟨.AND, "and"⟩, ⟨.INDENT, ""⟩,
          ⟨.IDENT, "a"⟩, ⟨.EQ, "eq"⟩, ⟨.NUMBER, "1"⟩, ⟨.DEDENT, ""⟩,
          ⟨.IDENT, "b"⟩, ⟨.EQ, "eq"⟩, ⟨.NUMBER, "2"⟩, ⟨.DEDENT, ""⟩] ++
          ⟨.IDENT, "c"⟩ :: ([⟨.EQ, "eq"⟩, ⟨.NUMBER, "3"⟩] ++ [⟨.EOF, ""⟩])) final :=
    ⟨_, _, rfl, _, rfl, _, rfl, _, rfl, _, rfl, _, rfl, _, rfl, _, rfl, _, rfl, _, rfl, _, rfl,
      _, rfl, _, rfl, _, rfl, _, rfl, _, rfl, _, rfl, rfl⟩
  obtain ⟨final, hfinal⟩ := hyields
  have ha := writtenAs_plain 13 ⟨.IDENT, "a"⟩ ⟨.EQ, "eq"⟩ ⟨.NUMBER, "1"⟩ (.num (.fin 1))
    (by decide) (by decide) (by decide) (by decide) (by decide) (by decide) rfl
  have hb := writtenAs_plain 13 ⟨.IDENT, "b"⟩ ⟨.EQ, "eq"⟩ ⟨.NUMBER, "2"⟩ (.num (.fin 2))
    (by decide) (by decide) (by decide) (by decide) (by decide) (by decide) rfl
  have hc := writtenAs_plain 13 ⟨.IDENT, "c"⟩ ⟨.EQ, "eq"⟩ ⟨.NUMBER, "3"⟩ (.num (.fin 3))
    (by decide) (by decide) (by decide) (by decide) (by decide) (by decide) rfl
  have hinner : (Statement.group "and"
      [.condition
        { Field := "a", Operator := "eq", Value := [.num (.fin 1)], Negate := false }]).writtenAs
      14 [⟨.GROUP, "group"⟩, ⟨.AND, "and"⟩, ⟨.INDENT, ""⟩,
          ⟨.IDENT, "a"⟩, ⟨.EQ, "eq"⟩, ⟨.NUMBER, "1"⟩, ⟨.DEDENT, ""⟩] := by
    rw [Statement.writtenAs]
    exact ⟨_, _, _, [⟨.IDENT, "a"⟩, ⟨.EQ, "eq"⟩, ⟨.NUMBER, "1"⟩], _, rfl, rfl, Or.inl rfl, rfl,
      rfl, Or.inl rfl, _, [], rfl, ha, rfl⟩
  have houter : (Statement.group "or"
      [.group "and"
        [.condition
          { Field := "a", Operator := "eq", Value := [.num (.fin 1)], Negate := false }],
       .condition
          { Field := "b", Operator := "eq", Value := [.num (.fin 2)], Negate := false }]).writtenAs
      14 (⟨.GROUP, "group"⟩ :: [⟨.OR, "or"⟩, ⟨.INDENT, ""⟩, ⟨.GROUP, "group"⟩, ⟨.AND, "and"⟩,
          ⟨.INDENT, ""⟩, ⟨.IDENT, "a"⟩, ⟨.EQ, "eq"⟩, ⟨.NUMBER, "1"⟩, ⟨.DEDENT, ""⟩,
          ⟨.IDENT, "b"⟩, ⟨.EQ, "eq"⟩, ⟨.NUMBER, "2"⟩, ⟨.DEDENT, ""⟩]) := by
    rw [Statement.writtenAs]
    exact ⟨_, _, _, [⟨.GROUP, "group"⟩, ⟨.AND, "and"⟩, ⟨.INDENT, ""⟩, ⟨.IDENT, "a"⟩,
      ⟨.EQ, "eq"⟩, ⟨.NUMBER, "1"⟩, ⟨.DEDENT, ""⟩, ⟨.IDENT, "b"⟩, ⟨.EQ, "eq"⟩, ⟨.NUMBER, "2"⟩],
      _, rfl, rfl, Or.inr rfl, rfl, rfl, Or.inl rfl,
      _, [⟨.IDENT, "b"⟩, ⟨.EQ, "eq"⟩, ⟨.NUMBER, "2"⟩], rfl, hinner, _, [], rfl, hb, rfl⟩
  obtain ⟨p1, hp1, hcurrent, hp2⟩ := ParseNext_group_block 12 "or" _ _ _ _ _ _ _ _ final houter
    hc (by decide) (by decide) (by decide) hfinal
  exact ⟨_, p1, _, rfl, hp1, hcurrent, hp2⟩

/-! ## A blank line inside a block -/

/-- C20, the failing inputs: in the block of `group and` with the children
`a eq 1` and `b eq 2`, both indented by two spaces, a blank line between the
children ends the group: the tokenizer measures the empty line as level 0
and returns `DEDENT`, and skips the indentation of `b eq 2` as white space,
so `ParseNext` returns the group with the child `a eq 1` only and then
`b eq 2` and `c eq 3` as statements of their own.  With the line ends
`\r\n` the tokenizer returns no `INDENT` and no `DEDENT` at all, and the
statement `c eq 3` after the block becomes a child of the group.  Without
the blank line and with the line end `\n`, the group has its two children
and `c eq 3` is the next statement.  With `group or`, `a` being 1 and `b`
being 3, the blank line turns the result of the evaluation from true into
false.  At level 0 the tokenizer passes over an empty line without a token:
`a eq 1`, an empty line and `b eq 2` give the tokens of the two conditions
and nothing else, and the input of the test `TestParseGroup`, which starts
with an empty line and ends with a line break, gives the group with its two
children. -/
theorem blank_line_ends_group :
    (Lexer.take 13 (NewLexer "group and\n  a eq 1\n\n  b eq 2\nc eq 3") =
        [⟨.GROUP, "group"⟩, ⟨.AND, "and"⟩, ⟨.INDENT, ""⟩, ⟨.IDENT, "a"⟩, ⟨.EQ, "eq"⟩,
          ⟨.NUMBER, "1"⟩, ⟨.DEDENT, ""⟩, ⟨.IDENT, "b"⟩, ⟨.EQ, "eq"⟩, ⟨.NUMBER, "2"⟩,
          ⟨.IDENT, "c"⟩, ⟨.EQ, "eq"⟩, ⟨.NUMBER, "3"⟩] ∧
      ∃ p p1 p2 p3, NewParser 4 (NewLexer "group and\n  a eq 1\n\n  b eq 2\nc eq 3") = .ok p ∧
        p.ParseNext 4 =
          .ok (some (.group "and"
            [.condition
              { Field := "a", Operator := "eq", Value := [.num (.fin 1)], Negate := false }]),
            p1) ∧
        p1.ParseNext 4 =
          .ok (some (.condition
            { Field := "b", Operator := "eq", Value := [.num (.fin 2)], Negate := false }),
            p2) ∧
        p2.ParseNext 4 =
          .ok (some (.condition
            { Field := "c", Operator := "eq", Value := [.num (.fin 3)], Negate := false }),
            p3)) ∧
    (Lexer.take 9 (NewLexer "group and\r\n  a eq 1\r\nc eq 3") =
        [⟨.GROUP, "group"⟩, ⟨.AND, "and"⟩, ⟨.IDENT, "a"⟩, ⟨.EQ, "eq"⟩, ⟨.NUMBER, "1"⟩,
          ⟨.IDENT, "c"⟩, ⟨.EQ, "eq"⟩, ⟨.NUMBER, "3"⟩, ⟨.EOF, ""⟩] ∧
      ∃ p p1, NewParser 4 (NewLexer "group and\r\n  a eq 1\r\nc eq 3") = .ok p ∧
        p.ParseNext 4 =
          .ok (some (.group "and"
            [.condition
              { Field := "a", Operator := "eq", Value := [.num (.fin 1)], Negate := false },
             .condition
              { Field := "c", Operator := "eq", Value := [.num (.fin 3)], Negate := false }]),
            p1) ∧
        p1.currToken.Kind = .EOF) ∧
    (∃ p p1 p2, NewParser 4 (NewLexer "group and\n  a eq 1\n  b eq 2\nc eq 3") = .ok p ∧
      p.ParseNext 4 =
        .ok (some (.group "and"
          [.condition
            { Field := "a", Operator := "eq", Value := [.num (.fin 1)], Negate := false },
           .condition
            { Field := "b", Operator := "eq", Value := [.num (.fin 2)], Negate := false }]),
          p1) ∧
      p1.ParseNext 4 =
        .ok (some (.condition
          { Field := "c", Operator := "eq", Value := [.num (.fin 3)], Negate := false }),
          p2)) ∧
    EvaluateLogix 4 "group or\n  a eq 1\n  b eq 2" [("a", .num (.fin 1)), ("b", .num (.fin 3))] =
      .ok true ∧
    EvaluateLogix 4 "group or\n  a eq 1\n\n  b eq 2"
      [("a", .num (.fin 1)), ("b", .num (.fin 3))] = .ok false ∧
    Lexer.take 7 (NewLexer "a eq 1\n\nb eq 2") =
      [⟨.IDENT, "a"⟩, ⟨.EQ, "eq"⟩, ⟨.NUMBER, "1"⟩, ⟨.IDENT, "b"⟩, ⟨.EQ, "eq"⟩, ⟨.NUMBER, "2"⟩,
        ⟨.EOF, ""⟩] ∧
    ∃ p p1, NewParser 4 (NewLexer "\ngroup and\n    field1 eq 10\n    field2 gt 20\n") = .ok p ∧
      p.ParseNext 4 =
        .ok (some (.group "and"
          [.condition
            { Field := "field1", Operator := "eq", Value := [.num (.fin 10)], Negate := false },
           .condition
            { Field := "field2", Operator := "gt", Value := [.num (.fin 20)], Negate := false }]),
          p1) := by
  refine ⟨⟨by decide, _, _, _, _, rfl, rfl, rfl, rfl⟩, ⟨by decide, _, _, rfl, rfl, rfl⟩,
    ⟨_, _, _, rfl, rfl, rfl⟩, by decide!, by decide!, by decide, _, _, rfl, rfl⟩

/-! ## The width of the indentation -/

theorem atSplit_peek (before : List Char) (c : Char) (rest : List Char) (base : Lexer) :
    (Lexer.atSplit before (c :: rest) base).peek = rest.headD NUL := by
  cases rest with
  | nil => simp [Lexer.peek, Lexer.atSplit]
  | cons d ds =>
    have hbyte : byteAt (before ++ c :: d :: ds) (before.length + 1) = some d := by
      simp only [byteAt]
      rw [List.get?_eq_getElem?, List.getElem?_append_right (by omega)]
      simp
    simp [Lexer.peek, Lexer.atSplit, hbyte]

theorem readIndentLoop_atSplit (ch : Char) (base : Lexer) (tail : List Char)
    (htail : ∀ c ∈ tail.head?, c ≠ ch) (hch : ch ≠ NUL) :
    ∀ (run : List Char) (before : List Char) (x : Char) (fuel : Nat) (count : Int),
      (∀ c ∈ run, c = ch) → run.length ≤ fuel →
      Lexer.readIndentLoop ch fuel (Lexer.atSplit before (x :: (run ++ tail)) base) count =
        (Lexer.atSplit (before ++ (x :: run).dropLast) (run.getLastD x :: tail) base,
          count + run.length) := by
  intro run
  induction run with
  | nil =>
    intro before x fuel count _ _
    have hpeek : (Lexer.atSplit before (x :: tail) base).peek ≠ ch := by
      rw [atSplit_peek]
      cases tail with
      | nil => exact fun h => hch h.symm
      | cons d ds => exact htail d (by simp)
    cases fuel with
    | zero => simp [Lexer.readIndentLoop]
    | succ f => simp [Lexer.readIndentLoop, hpeek]
  | cons c cs ih =>
    intro before x fuel count hrun hfuel
    have hc : c = ch := hrun c (by simp)
    subst hc
    cases fuel with
    | zero => simp at hfuel
    | succ f =>
      have hpeek : (Lexer.atSplit before (x :: (c :: cs ++ tail)) base).peek = c := by
        rw [atSplit_peek]
        rfl
      rw [Lexer.readIndentLoop, if_pos hpeek]
      simp only [List.cons_append]
      rw [atSplit_readRune, ih (before ++ [x]) c f (count + 1)
        (fun d hd => hrun d (List.mem_cons_of_mem _ hd)) (by simpa using hfuel)]
      simp only [List.append_assoc, List.singleton_append, List.dropLast_cons₂,
        List.getLastD_cons, List.length_cons, Nat.cast_add, Nat.cast_one]
      refine Prod.ext ?_ ?_
      · rfl
      · simp only; omega

theorem countSpaces_replicate (tail : List Char) (c : Char) (hc : unicodeIsSpace c = false) :
    ∀ (j i : Nat), countSpaces (List.replicate j ' ' ++ c :: tail) i = some (i + j) := by
  intro j
  induction j with
  | zero => intro i; simp [countSpaces, hc]
  | succ n ih =>
    intro i
    have hspace : unicodeIsSpace ' ' = true := by decide
    rw [List.replicate_succ, List.cons_append, countSpaces, if_pos hspace, ih]
    congr 1
    omega

theorem setIndentationMode_set (l : Lexer) (h : l.indentWidth ≠ -1) :
    l.setIndentationMode = .ok l := by
  simp [Lexer.setIndentationMode, h]

theorem setIndentationMode_no_indent (l : Lexer)
    (h : ¬ (l.ch = '\n' ∧ (l.peek = ' ' ∨ l.peek = '\t'))) :
    l.setIndentationMode = .ok l := by
  have hfalse : (decide (l.ch = '\n') && decide (l.peek ≠ NUL) &&
      (decide (l.peek = ' ') || decide (l.peek = '\t'))) = false := by
    by_cases hch : l.ch = '\n'
    · have hpeek : ¬ (l.peek = ' ' ∨ l.peek = '\t') := fun hp => h ⟨hch, hp⟩
      rw [not_or] at hpeek
      simp [hpeek.1, hpeek.2]
    · simp [hch]
  simp only [Lexer.setIndentationMode, hfalse]
  simp

theorem setIndentationMode_spaces (l : Lexer) (i : Nat) (hwidth : l.indentWidth = -1)
    (hch : l.ch = '\n') (hpeek : l.peek = ' ')
    (hbyte : byteAt l.input l.readPosition = some ' ')
    (hcount : countSpaces (l.input.drop l.readPosition) 0 = some i) :
    l.setIndentationMode = .ok { l with useSpaces := true, indentWidth := i } := by
  have htrue : (decide (l.ch = '\n') && decide (l.peek ≠ NUL) &&
      (decide (l.peek = ' ') || decide (l.peek = '\t'))) = true := by
    rw [hch, hpeek]
    decide
  have htab : ¬ ((' ' : Char) = '\t') := by decide
  simp only [Lexer.setIndentationMode, htrue, hwidth, hbyte, hcount, htab]
  simp

theorem setIndentationMode_break (k : Nat) (hk : 0 < k) (st : Indentation) (n : Nat)
    (before : List Char) (c : Char) (tail : List Char) (hc : unicodeIsSpace c = false) :
    (Lexer.atSplit before ('\n' :: (List.replicate (n * k) ' ' ++ c :: tail))
        (st.lexer k)).setIndentationMode =
      .ok (Lexer.atSplit before ('\n' :: (List.replicate (n * k) ' ' ++ c :: tail))
        ((st.withStep n).lexer k)) := by
  have hspace : c ≠ ' ' := by intro h; subst h; revert hc; decide
  have htab : c ≠ '\t' := by intro h; subst h; revert hc; decide
  obtain ⟨unit, levels⟩ := st
  cases unit with
  | some u =>
    have hwidth : ((u * k : Nat) : Int) ≠ -1 := by omega
    exact setIndentationMode_set _ hwidth
  | none =>
    cases n with
    | zero =>
      have hpeek := atSplit_peek before '\n' (c :: tail)
        (Indentation.lexer k { unit := none, levels := levels })
      simp only [List.headD_cons] at hpeek
      simp only [Nat.zero_mul, List.replicate_zero, List.nil_append]
      rw [setIndentationMode_no_indent _ (by rw [hpeek]; tauto)]
      rfl
    | succ m =>
      obtain ⟨j, hj⟩ : ∃ j, (m + 1) * k = j + 1 := ⟨(m + 1) * k - 1, by
        have : 0 < (m + 1) * k := Nat.mul_pos (Nat.succ_pos m) hk
        omega⟩
      have hpeek := atSplit_peek before '\n' (List.replicate ((m + 1) * k) ' ' ++ c :: tail)
        (Indentation.lexer k { unit := none, levels := levels })
      have hbyte : byteAt (before ++ '\n' :: (List.replicate ((m + 1) * k) ' ' ++ c :: tail))
          (before.length + 1) = some ' ' := by
        simp only [byteAt]
        rw [List.get?_eq_getElem?, List.getElem?_append_right (by omega), hj]
        simp [List.replicate_succ]
      have hdrop : (before ++ '\n' :: (List.replicate ((m + 1) * k) ' ' ++ c :: tail)).drop
          (before.length + 1) = List.replicate ((m + 1) * k) ' ' ++ c :: tail := by
        rw [List.drop_append_eq_append_drop]
        simp
      have hcount := countSpaces_replicate tail c hc ((m + 1) * k) 0
      rw [Nat.zero_add] at hcount
      have hhead : (List.replicate ((m + 1) * k) ' ' ++ c :: tail).headD NUL = ' ' := by
        rw [hj]
        rfl
      rw [hhead] at hpeek
      have hcount2 : countSpaces
          ((before ++ '\n' :: (List.replicate ((m + 1) * k) ' ' ++ c :: tail)).drop
            (before.length + 1)) 0 = some ((m + 1) * k) := by
        rw [hdrop]
        exact hcount
      rw [setIndentationMode_spaces _ ((m + 1) * k) rfl rfl hpeek hbyte hcount2]
      simp [Lexer.atSplit, Indentation.lexer, Indentation.withStep, Indentation.step]

theorem closeLevels_getLast (level : Nat) :
    ∀ levels : List Nat, levels.getLast? = some 0 →
      (closeLevels level levels).1.getLast? = some 0 ∧
      (closeLevels level levels).1.headD 0 ≤ level := by
  intro levels
  induction levels with
  | nil => intro h; simp at h
  | cons top below ih =>
    intro hlast
    rw [closeLevels]
    split_ifs with hlt
    · cases below with
      | nil =>
        simp only [List.getLast?_singleton, Option.some.injEq] at hlast
        omega
      | cons b bs =>
        rw [List.getLast?_cons_cons] at hlast
        exact ih hlast
    · exact ⟨hlast, by simpa using hlt⟩

theorem popLevels_closeLevels (level : Nat) :
    ∀ (levels : List Nat) (fuel : Nat) (count : Int),
      levels.getLast? = some 0 → levels.length < fuel →
      popLevels level fuel (levels.reverse.map Int.ofNat) count =
        .ok ((closeLevels level levels).1.reverse.map Int.ofNat,
          count + (closeLevels level levels).2) := by
  intro levels
  induction levels with
  | nil => intro fuel count h; simp at h
  | cons top below ih =>
    intro fuel count hlast hfuel
    cases fuel with
    | zero => simp at hfuel
    | succ f =>
      have htop : stackTop ((top :: below).reverse.map Int.ofNat) = .ok (top : Int) := by
        simp [stackTop]
      rw [popLevels, htop, closeLevels]
      simp only [Nat.cast_lt]
      split_ifs with hlt
      · cases below with
        | nil =>
          simp only [List.getLast?_singleton, Option.some.injEq] at hlast
          omega
        | cons b bs =>
          rw [List.getLast?_cons_cons] at hlast
          have hdrop : ((top :: b :: bs).reverse.map Int.ofNat).dropLast =
              (b :: bs).reverse.map Int.ofNat := by
            simp [List.dropLast_append_of_ne_nil]
          rw [hdrop, ih f (count + 1) hlast (by simpa using hfuel)]
          simp only [Nat.cast_add, Nat.cast_one]
          congr 2
          omega
      · simp

/-! ## A line break -/

theorem Next_indent_token (l l1 l2 : Lexer) (token : Token)
    (hmode : l.setIndentationMode = .ok l1) (hdedent : ¬ l1.dedentCount > 0)
    (hstep : l1.indentStep = .ok (some token, l2)) :
    l.Next = .ok (token, l2) := by
  simp only [Lexer.Next, Lexer.nextFuel, hmode, hdedent, if_false, hstep]

theorem Next_fallthrough (l l1 l2 : Lexer)
    (hmode : l.setIndentationMode = .ok l1) (hdedent : ¬ l1.dedentCount > 0)
    (hstep : l1.indentStep = .ok (none, l2)) (hcomment : l2.skipWhitespace.ch ≠ '#') :
    l.Next = .ok l2.skipWhitespace.scanToken := by
  simp only [Lexer.Next, Lexer.nextFuel, hmode, hdedent, if_false, hstep, hcomment]

theorem Next_pending (l l1 : Lexer)
    (hmode : l.setIndentationMode = .ok l1) (hdedent : l1.dedentCount > 0) :
    l.Next = .ok ({ Kind := .DEDENT, Lexeme := "" },
      { l1 with dedentCount := l1.dedentCount - 1 }) := by
  simp only [Lexer.Next, Lexer.nextFuel, hmode, hdedent, if_true, Lexer.newToken]

theorem indentStep_of (l l1 : Lexer) (level top : Int) (hch : l.ch = '\n')
    (hlevel : l.readIndentLevel = .ok (level, l1))
    (htop : stackTop l1.indentStack = .ok top) :
    (top < level → l.indentStep =
      .ok (some { Kind := .INDENT, Lexeme := "" },
        { l1 with indentStack := l1.indentStack ++ [level] })) ∧
    (level < top → ∀ stack count,
      popLevels level (l1.indentStack.length + 1) l1.indentStack l1.dedentCount =
        .ok (stack, count) →
      l.indentStep =
        .ok (some { Kind := .DEDENT, Lexeme := "" },
          { l1 with indentStack := stack, dedentCount := count - 1 })) ∧
    (level = top → l.indentStep = .ok (none, l1)) := by
  refine ⟨?_, ?_, ?_⟩
  · intro h
    simp only [Lexer.indentStep, hch, if_true, hlevel, htop, gt_iff_lt, h, Lexer.newToken]
  · intro h stack count hpop
    have hnot : ¬ top < level := by omega
    simp only [Lexer.indentStep, hch, if_true, hlevel, htop, gt_iff_lt, hnot, if_false, h,
      hpop, Lexer.newToken]
  · intro h
    have h1 : ¬ top < level := by omega
    have h2 : ¬ level < top := by omega
    simp only [Lexer.indentStep, hch, if_true, hlevel, htop, gt_iff_lt, h1, h2, if_false]

theorem step_none (st : Indentation) (n : Nat) (h : st.step n = none) :
    n = 0 ∧ st.unit = none := by
  unfold Indentation.step at h
  split_ifs at h with hcond
  · simp only [Bool.and_eq_true, decide_eq_true_eq] at hcond
    have hunit : st.unit = none := h
    refine ⟨?_, hunit⟩
    by_contra hn
    exact hcond ⟨by rw [hunit]; rfl, Nat.pos_of_ne_zero hn⟩

theorem step_some (st : Indentation) (n u : Nat) (hsound : st.sound) (h : st.step n = some u) :
    0 < u := by
  unfold Indentation.step at h
  split_ifs at h with hcond
  · simp only [Bool.and_eq_true, decide_eq_true_eq] at hcond
    simp only [Option.some.injEq] at h
    omega
  · exact hsound.1 u h

theorem readIndentLevel_break (k : Nat) (hk : 0 < k) (st : Indentation) (hsound : st.sound)
    (n : Nat) (before : List Char) (c : Char) (tail : List Char)
    (hc : unicodeIsSpace c = false) :
    (Lexer.atSplit before ('\n' :: (List.replicate (n * k) ' ' ++ c :: tail))
        ((st.withStep n).lexer k)).readIndentLevel =
      .ok ((st.depth n : Int),
        Lexer.atSplit (before ++ ('\n' :: List.replicate (n * k) ' ').dropLast)
          ((List.replicate (n * k) ' ').getLastD '\n' :: c :: tail)
          ((st.withStep n).lexer k)) := by
  have hspace : c ≠ ' ' := by intro h; subst h; revert hc; decide
  have htab : c ≠ '\t' := by intro h; subst h; revert hc; decide
  cases hstep : st.step n with
  | none =>
    obtain ⟨hn, -⟩ := step_none st n hstep
    subst hn
    have hloop := readIndentLoop_atSplit '\t' ((st.withStep 0).lexer k) (c :: tail)
      (by simpa using htab) (by decide) [] before '\n'
      (before ++ '\n' :: c :: tail).length 0 (by simp) (by simp)
    have hmode : ((st.withStep 0).lexer k).useSpaces = false := by
      simp [Indentation.lexer, Indentation.withStep, hstep]
    simp only [List.nil_append] at hloop
    simp only [Nat.zero_mul, List.replicate_zero, List.nil_append, Lexer.readIndentLevel,
      Lexer.atSplit, hmode] at hloop ⊢
    simp only [Bool.false_eq_true, if_false, hloop]
    simp [Indentation.depth, hstep]
  | some u =>
    have hu := step_some st n u hsound hstep
    have hloop := readIndentLoop_atSplit ' ' ((st.withStep n).lexer k) (c :: tail)
      (by simpa using hspace) (by decide) (List.replicate (n * k) ' ') before '\n'
      (before ++ '\n' :: (List.replicate (n * k) ' ' ++ c :: tail)).length 0
      (by intro d hd; exact (List.mem_replicate.mp hd).2)
      (by simp only [List.length_append, List.length_cons, List.length_replicate]; omega)
    have hmode : ((st.withStep n).lexer k).useSpaces = true := by
      simp [Indentation.lexer, Indentation.withStep, hstep]
    have hwidth : ((st.withStep n).lexer k).indentWidth = ((u * k : Nat) : Int) := by
      simp [Indentation.lexer, Indentation.withStep, hstep]
    have hne : ((u * k : Nat) : Int) ≠ 0 := by
      have : 0 < u * k := Nat.mul_pos hu hk
      omega
    simp only [Lexer.readIndentLevel, Lexer.atSplit, hmode, hwidth] at hloop ⊢
    simp only [if_true, hloop, hne, if_false, List.length_replicate, zero_add]
    rw [← Int.ofNat_tdiv, Nat.mul_div_mul_right n u hk]
    simp [Indentation.depth, hstep]

theorem isSpace_blank (c : Char) (hc : unicodeIsSpace c = false) :
    (c = ' ' || c = '\t' || c = '\n' || c = '\r') = false ∧ c ≠ ' ' ∧ c ≠ '\t' ∧ c ≠ '\n' := by
  refine ⟨?_, ?_, ?_, ?_⟩
  · simp only [unicodeIsSpace, Bool.or_eq_false_iff, decide_eq_false_iff_not] at hc
    simp only [Bool.or_eq_false_iff, decide_eq_false_iff_not]
    tauto
  · intro h; subst h; revert hc; decide
  · intro h; subst h; revert hc; decide
  · intro h; subst h; revert hc; decide

theorem skipWhitespace_blanks (before blanks rest : List Char) (base : Lexer)
    (hblanks : ∀ c ∈ blanks, c = ' ' ∨ c = '\t' ∨ c = '\n')
    (hrest : ∀ c ∈ rest.head?, (c = ' ' || c = '\t' || c = '\n' || c = '\r') = false) :
    (Lexer.atSplit before (blanks ++ rest) base).skipWhitespace =
      Lexer.atSplit (before ++ blanks) rest base := by
  rw [Lexer.skipWhitespace]
  apply readWhile_atSplit _ (by decide) base blanks before rest
  · rw [List.all_eq_true]
    intro c hc
    rcases hblanks c hc with h | h | h <;> subst h <;> decide
  · exact hrest
  · rw [atSplit_input]
    simp only [List.length_append]
    omega

/-! ## The fuel of `Next` -/

theorem follows_refl (l : Lexer) (h : l.proper) : l.follows l := ⟨rfl, le_refl _, h⟩

theorem follows_trans (a b c : Lexer) (h1 : a.follows b) (h2 : b.follows c) : a.follows c :=
  ⟨h2.1.trans h1.1, le_trans h1.2.1 h2.2.1, h2.2.2⟩

theorem readRune_proper (l : Lexer) : l.readRune.proper := by
  refine ⟨rfl, ?_⟩
  intro hch
  show l.readPosition < l.input.length
  by_contra hge
  apply hch
  show (if l.readPosition ≥ l.input.length then NUL
    else (byteAt l.input l.readPosition).getD NUL) = NUL
  rw [if_pos (by omega)]

theorem readRune_follows (l : Lexer) (h : l.proper) :
    l.follows l.readRune ∧ l.position < l.readRune.position := by
  have hpos : l.readRune.position = l.position + 1 := h.1
  exact ⟨⟨rfl, by omega, readRune_proper l⟩, by omega⟩

theorem readWhile_follows (cond : Char → Bool) :
    ∀ (fuel : Nat) (l : Lexer), l.proper →
      l.follows (Lexer.readWhile cond fuel l) ∧
        (cond l.ch = true → 0 < fuel → l.position < (Lexer.readWhile cond fuel l).position) := by
  intro fuel
  induction fuel with
  | zero => intro l h; exact ⟨follows_refl l h, fun _ h0 => absurd h0 (lt_irrefl 0)⟩
  | succ n ih =>
    intro l h
    rw [Lexer.readWhile]
    split_ifs with hc
    · obtain ⟨hf, hlt⟩ := readRune_follows l h
      obtain ⟨hf2, -⟩ := ih l.readRune hf.2.2
      exact ⟨follows_trans _ _ _ hf hf2, fun _ _ => lt_of_lt_of_le hlt hf2.2.1⟩
    · exact ⟨follows_refl l h, fun h1 _ => absurd h1 hc⟩

theorem readIndentLoop_follows (ch : Char) :
    ∀ (fuel : Nat) (l : Lexer) (count : Int), l.proper →
      l.follows (Lexer.readIndentLoop ch fuel l count).1 := by
  intro fuel
  induction fuel with
  | zero => intro l count h; exact follows_refl l h
  | succ n ih =>
    intro l count h
    rw [Lexer.readIndentLoop]
    split_ifs with hc
    · obtain ⟨hf, -⟩ := readRune_follows l h
      exact follows_trans _ _ _ hf (ih l.readRune (count + 1) hf.2.2)
    · exact follows_refl l h

theorem setIndentationMode_follows (l l1 : Lexer) (h : l.setIndentationMode = .ok l1)
    (hp : l.proper) : l.follows l1 ∧ l1.ch = l.ch := by
  unfold Lexer.setIndentationMode at h
  simp only at h
  split_ifs at h with h1
  · cases h
    exact ⟨follows_refl l hp, rfl⟩
  · cases hbyte : byteAt l.input l.readPosition with
    | none => rw [hbyte] at h; cases h
    | some c =>
      rw [hbyte] at h
      simp only at h
      split_ifs at h with htab
      · cases h
        exact ⟨⟨rfl, le_refl _, hp⟩, rfl⟩
      · cases hcount : countSpaces (l.input.drop l.readPosition) 0 with
        | none => rw [hcount] at h; cases h
        | some i =>
          rw [hcount] at h
          cases h
          exact ⟨⟨rfl, le_refl _, hp⟩, rfl⟩

theorem readIndentLevel_follows (l l1 : Lexer) (level : Int)
    (h : l.readIndentLevel = .ok (level, l1)) (hp : l.proper) : l.follows l1 := by
  unfold Lexer.readIndentLevel at h
  simp only at h
  have hloop := readIndentLoop_follows (if l.useSpaces = true then ' ' else '\t')
    l.input.length l 0 hp
  split_ifs at h with h1 h2 h3 h4 h5
  all_goals
    simp only [Outcome.ok.injEq, Prod.mk.injEq] at h
    rw [← h.2]
    first
      | (rw [if_pos h1] at hloop; exact hloop)
      | (rw [if_neg h1] at hloop; exact hloop)

theorem indentStep_follows (l l1 : Lexer) (r : Option Token)
    (h : l.indentStep = .ok (r, l1)) (hp : l.proper) : l.follows l1 := by
  unfold Lexer.indentStep at h
  split_ifs at h with hch
  · cases hlevel : l.readIndentLevel with
    | ok v =>
      obtain ⟨level, l2⟩ := v
      have hf := readIndentLevel_follows l l2 level hlevel hp
      rw [hlevel] at h
      simp only at h
      cases htop : stackTop l2.indentStack with
      | ok top =>
        rw [htop] at h
        simp only at h
        split_ifs at h with h1 h2
        · simp only [Outcome.ok.injEq, Prod.mk.injEq] at h
          rw [← h.2]
          exact hf
        · cases hpop : popLevels level (l2.indentStack.length + 1) l2.indentStack
              l2.dedentCount with
          | ok w =>
            obtain ⟨stack, count⟩ := w
            rw [hpop] at h
            simp only [Outcome.ok.injEq, Prod.mk.injEq] at h
            rw [← h.2]
            exact hf
          | panic msg => rw [hpop] at h; cases h
          | error msg => rw [hpop] at h; cases h
          | timeout => rw [hpop] at h; cases h
        · simp only [Outcome.ok.injEq, Prod.mk.injEq] at h
          rw [← h.2]
          exact hf
      | panic msg => rw [htop] at h; cases h
      | error msg => rw [htop] at h; cases h
      | timeout => rw [htop] at h; cases h
    | panic msg => rw [hlevel] at h; cases h
    | error msg => rw [hlevel] at h; cases h
    | timeout => rw [hlevel] at h; cases h
  · simp only [Outcome.ok.injEq, Prod.mk.injEq] at h
    rw [← h.2]
    exact follows_refl l hp

theorem nextFuel_eq (fuel : Nat) (l0 : Lexer) :
    Lexer.nextFuel (fuel + 1) l0 =
      match l0.setIndentationMode with
      | .ok l =>
        if l.dedentCount > 0 then
          .ok (({ l with dedentCount := l.dedentCount - 1 } : Lexer).newToken .DEDENT "",
            { l with dedentCount := l.dedentCount - 1 })
        else
          match l.indentStep with
          | .ok (some token, l1) => .ok (token, l1)
          | .ok (none, l1) =>
            if l1.skipWhitespace.ch = '#' then Lexer.nextFuel fuel l1.skipWhitespace.skipComment
            else .ok l1.skipWhitespace.scanToken
          | .panic msg => .panic msg
          | .error msg => .error msg
          | .timeout => .timeout
      | .panic msg => .panic msg
      | .error msg => .error msg
      | .timeout => .timeout := by
  rfl

/-- The recursive call of `Next` after a comment is the only use of the
fuel. -/
theorem nextFuel_congr (f1 f2 : Nat) (l : Lexer) (hp : l.proper)
    (h : ∀ l1 : Lexer, l1.proper → l1.input = l.input → l.position < l1.position →
      l.position < l.input.length → Lexer.nextFuel f1 l1 = Lexer.nextFuel f2 l1) :
    Lexer.nextFuel (f1 + 1) l = Lexer.nextFuel (f2 + 1) l := by
  rw [nextFuel_eq f1 l, nextFuel_eq f2 l]
  cases hmode : l.setIndentationMode with
  | ok l1 =>
    simp only
    obtain ⟨hf1, -⟩ := setIndentationMode_follows l l1 hmode hp
    split_ifs with hdedent
    · rfl
    · cases hstep : l1.indentStep with
      | ok v =>
        obtain ⟨r, l2⟩ := v
        cases r with
        | some token => rfl
        | none =>
          simp only
          have hf2 := indentStep_follows l1 l2 none hstep hf1.2.2
          obtain ⟨hf3, -⟩ := readWhile_follows
            (fun c => c = ' ' || c = '\t' || c = '\n' || c = '\r') (l2.input.length + 1) l2
            hf2.2.2
          have hskip : l2.skipWhitespace = Lexer.readWhile
            (fun c => c = ' ' || c = '\t' || c = '\n' || c = '\r') (l2.input.length + 1) l2 :=
            rfl
          rw [← hskip] at hf3
          split_ifs with hcomment
          · have hlt := hf3.2.2.2 (by rw [hcomment]; decide)
            have hin : l2.skipWhitespace.input = l.input := by rw [hf3.1, hf2.1, hf1.1]
            obtain ⟨hf4, hadv⟩ := readWhile_follows (fun c => c ≠ '\n' && c ≠ NUL)
              (l2.skipWhitespace.input.length + 1) l2.skipWhitespace hf3.2.2
            have hadv2 := hadv (by rw [hcomment]; decide) (Nat.succ_pos _)
            have hcom : l2.skipWhitespace.skipComment = Lexer.readWhile
              (fun c => c ≠ '\n' && c ≠ NUL) (l2.skipWhitespace.input.length + 1)
              l2.skipWhitespace := rfl
            rw [← hcom] at hf4 hadv2
            rw [hin] at hlt
            have h1 := hf1.2.1
            have h2 := hf2.2.1
            have h3 := hf3.2.1
            exact h _ hf4.2.2 (by rw [hf4.1, hin]) (by omega) (by omega)
          · rfl
      | panic msg => rfl
      | error msg => rfl
      | timeout => rfl
  | panic msg => rfl
  | error msg => rfl
  | timeout => rfl

/-- With fuel for the comments that are left in the input, one more unit of
fuel does not change the result of `Next`. -/
theorem nextFuel_succ :
    ∀ (fuel : Nat) (l : Lexer), l.proper → l.input.length + 1 - l.position ≤ fuel →
      Lexer.nextFuel (fuel + 2) l = Lexer.nextFuel (fuel + 1) l := by
  intro fuel
  induction fuel with
  | zero =>
    intro l hp hfuel
    apply nextFuel_congr 1 0 l hp
    intro l1 _ _ _ hlen
    omega
  | succ n ih =>
    intro l hp hfuel
    apply nextFuel_congr (n + 2) (n + 1) l hp
    intro l1 hp1 hin hlt hlen
    apply ih l1 hp1
    rw [hin]
    omega

theorem indentStep_no_newline (l : Lexer) (hch : l.ch ≠ '\n') :
    l.indentStep = .ok (none, l) := by
  simp [Lexer.indentStep, hch]

/-! ## Comments -/

theorem atSplit_proper (before rest : List Char) (base : Lexer) :
    (Lexer.atSplit before rest base).proper := by
  refine ⟨rfl, ?_⟩
  intro hch
  rw [atSplit_ch] at hch
  rw [atSplit_position, atSplit_input]
  cases rest with
  | nil => exact absurd rfl hch
  | cons c cs => simp

theorem isLineComment_cases (comment : List Char) (h : isLineComment comment = true) :
    comment = [] ∨ ∃ blanks text, comment = blanks ++ '#' :: text ∧
      (∀ c ∈ blanks, c = ' ' ∨ c = '\t') ∧ ∀ c ∈ text, c ≠ '\n' ∧ c ≠ NUL := by
  unfold isLineComment at h
  have hsplit := List.takeWhile_append_dropWhile (fun c => c = ' ' || c = '\t') comment
  cases hdrop : comment.dropWhile (fun c => c = ' ' || c = '\t') with
  | nil =>
    rw [hdrop] at h
    left
    simpa using h
  | cons c text =>
    rw [hdrop] at h hsplit
    simp only [Bool.and_eq_true, decide_eq_true_eq] at h
    right
    refine ⟨comment.takeWhile (fun c => c = ' ' || c = '\t'), text, ?_, ?_, ?_⟩
    · rw [← h.1]
      exact hsplit.symm
    · intro d hd
      have := List.mem_takeWhile_imp hd
      simpa using this
    · intro d hd
      have := List.all_eq_true.mp h.2 d hd
      simpa using this

theorem skipComment_atSplit (before text rest : List Char) (base : Lexer)
    (htext : ∀ c ∈ text, c ≠ '\n' ∧ c ≠ NUL) (hrest : ∀ c ∈ rest.head?, c = '\n') :
    (Lexer.atSplit before ('#' :: (text ++ rest)) base).skipComment =
      Lexer.atSplit (before ++ '#' :: text) rest base := by
  rw [Lexer.skipComment]
  have h := readWhile_atSplit (fun c => c ≠ '\n' && c ≠ NUL) (by decide) base ('#' :: text)
    before rest ((Lexer.atSplit before ('#' :: (text ++ rest)) base).input.length + 1)
    (by
      rw [List.all_cons, Bool.and_eq_true]
      refine ⟨by decide, ?_⟩
      rw [List.all_eq_true]
      intro c hc
      have := htext c hc
      simp [this.1, this.2])
    (by
      intro c hc
      have := hrest c hc
      subst this
      decide)
    (by
      rw [atSplit_input]
      simp only [List.length_append, List.length_cons]
      omega)
  simpa using h

/-- A call of `Next` that comes to a comment returns what the call after the
comment returns. -/
theorem Next_through_comment (l l1 l2 : Lexer) (before text rest : List Char) (base : Lexer)
    (hinput : l.input.length = (before ++ '#' :: (text ++ rest)).length)
    (htext : ∀ c ∈ text, c ≠ '\n' ∧ c ≠ NUL) (hrest : ∀ c ∈ rest.head?, c = '\n')
    (hmode : l.setIndentationMode = .ok l1) (hdedent : ¬ l1.dedentCount > 0)
    (hstep : l1.indentStep = .ok (none, l2))
    (hskip : l2.skipWhitespace = Lexer.atSplit before ('#' :: (text ++ rest)) base) :
    l.Next = (Lexer.atSplit (before ++ '#' :: text) rest base).Next := by
  have hch : l2.skipWhitespace.ch = '#' := by
    rw [hskip, atSplit_ch]
    rfl
  have hlen : (Lexer.atSplit (before ++ '#' :: text) rest base).input.length =
      l.input.length := by
    rw [atSplit_input, hinput]
    simp
  rw [Lexer.Next, nextFuel_eq]
  simp only [hmode, hdedent, if_false, hstep, hch, if_true]
  rw [hskip, skipComment_atSplit before text rest base htext hrest, Lexer.Next, hlen]
  exact (nextFuel_succ l.input.length _ (atSplit_proper _ _ _) (by
    rw [hlen, atSplit_position]
    simp only [List.length_append, List.length_cons]
    omega)).symm

theorem Next_comment (before comment rest : List Char) (base : Lexer)
    (hbase : ¬ base.dedentCount > 0) (hcomment : isLineComment comment = true)
    (hrest : ∀ c ∈ rest.head?, c = '\n') :
    (Lexer.atSplit before (comment ++ rest) base).Next =
      (Lexer.atSplit (before ++ comment) rest base).Next := by
  rcases isLineComment_cases comment hcomment with h | ⟨blanks, text, h, hblanks, htext⟩
  · subst h
    simp
  · subst h
    have hch : (Lexer.atSplit before (blanks ++ '#' :: (text ++ rest)) base).ch ≠ '\n' := by
      rw [atSplit_ch]
      cases blanks with
      | nil => simp
      | cons b bs =>
        simp only [List.cons_append, List.headD_cons]
        rcases hblanks b (by simp) with hb | hb <;> rw [hb] <;> decide
    have hskip := skipWhitespace_blanks before blanks ('#' :: (text ++ rest)) base
      (fun c hc => by
        rcases hblanks c hc with h | h
        · exact Or.inl h
        · exact Or.inr (Or.inl h))
      (by
        intro c hc
        simp only [List.head?_cons, Option.mem_def, Option.some.injEq] at hc
        subst hc
        decide)
    have hnext := Next_through_comment
      (Lexer.atSplit before (blanks ++ '#' :: (text ++ rest)) base) _ _
      (before ++ blanks) text rest base (by rw [atSplit_input]; simp) htext hrest
      (setIndentationMode_no_indent _ (fun h => hch h.1))
      (by rw [atSplit_dedentCount]; exact hbase)
      (indentStep_no_newline _ hch) hskip
    simpa using hnext

theorem yields_of_Next_eq (a b : Lexer) (h : a.Next = b.Next) (token : Token)
    (tokens : List Token) (final : Lexer) (hb : b.yields (token :: tokens) final) :
    a.yields (token :: tokens) final := by
  obtain ⟨l1, hnext, hrest⟩ := hb
  exact ⟨l1, h.trans hnext, hrest⟩

theorem yields_reaches (l middle final : Lexer) (front back : List Token)
    (h1 : l.yields front middle) (h2 : middle.reaches back final) :
    l.reaches (front ++ back) final := by
  obtain ⟨x, hx, hnext⟩ := h2
  exact ⟨x, (yields_append _ _ _ _).mpr ⟨middle, h1, hx⟩, hnext⟩

theorem reaches_trans (l middle final : Lexer) (front back : List Token)
    (h1 : l.reaches front middle) (h2 : middle.reaches back final) :
    l.reaches (front ++ back) final := by
  obtain ⟨x, hx, hnext⟩ := h1
  obtain ⟨y, hy, hnext2⟩ := h2
  cases back with
  | nil =>
    rw [Lexer.yields] at hy
    subst hy
    exact ⟨x, by simpa using hx, hnext.trans hnext2⟩
  | cons token rest =>
    exact ⟨y, (yields_append _ _ _ _).mpr
      ⟨x, hx, yields_of_Next_eq x middle hnext token rest y hy⟩, hnext2⟩

theorem reaches_yields (l middle final : Lexer) (front : List Token) (token : Token)
    (back : List Token) (h1 : l.reaches front middle)
    (h2 : middle.yields (token :: back) final) :
    l.yields (front ++ token :: back) final := by
  obtain ⟨x, hx, hnext⟩ := h1
  exact (yields_append _ _ _ _).mpr ⟨x, hx, yields_of_Next_eq x middle hnext token back final h2⟩

theorem wellFormed_head (line : Line) (hwf : line.wellFormed) :
    ∃ c cs, line.content ++ line.comment = c :: cs ∧ unicodeIsSpace c = false := by
  obtain ⟨hcomment, ⟨hcontent, -, hhead⟩ | ⟨⟨c, cs, hcontent, hc, -⟩, -⟩⟩ := hwf
  · cases hcom : line.comment with
    | nil => rw [hcom] at hhead; simp at hhead
    | cons d ds =>
      rw [hcom] at hhead
      simp only [List.head?_cons, Option.some.injEq] at hhead
      subst hhead
      exact ⟨'#', ds, by rw [hcontent]; rfl, by decide⟩
  · exact ⟨c, cs ++ line.comment, by rw [hcontent]; rfl, hc⟩

/-- From a state whose call of `Next` comes to the content of a line, or to
its comment when it has no content, the tokenizer reads the tokens of the
line. -/
theorem reaches_of_entry (line : Line) (hwf : line.wellFormed) (l l1 l2 : Lexer)
    (before rest : List Char) (base : Lexer) (hbase : ¬ base.dedentCount > 0)
    (hrest : ∀ c ∈ rest.head?, c = '\n')
    (hinput : l.input.length = (before ++ (line.content ++ (line.comment ++ rest))).length)
    (hmode : l.setIndentationMode = .ok l1) (hdedent : ¬ l1.dedentCount > 0)
    (hstep : l1.indentStep = .ok (none, l2))
    (hskip : l2.skipWhitespace =
      Lexer.atSplit before (line.content ++ (line.comment ++ rest)) base) :
    l.reaches line.tokens
      (Lexer.atSplit (before ++ (line.content ++ line.comment)) rest base) := by
  obtain ⟨hcomment, ⟨hcontent, htokens, hhead⟩ | ⟨⟨c, cs, hcontent, hc, hhash⟩, hreads⟩⟩ := hwf
  · rcases isLineComment_cases line.comment hcomment with h | ⟨blanks, text, h, hblanks, htext⟩
    · rw [h] at hhead
      simp at hhead
    · have hb : blanks = [] := by
        cases blanks with
        | nil => rfl
        | cons b bs =>
          rw [h] at hhead
          simp only [List.cons_append, List.head?_cons, Option.some.injEq] at hhead
          rcases hblanks b (by simp) with hb | hb <;> rw [hb] at hhead <;>
            exact absurd hhead (by decide)
      subst hb
      rw [htokens]
      rw [hcontent, h] at hskip hinput ⊢
      simp only [List.nil_append, List.cons_append] at hskip hinput ⊢
      exact ⟨l, rfl, Next_through_comment l l1 l2 before text rest base hinput htext hrest hmode
        hdedent hstep hskip⟩
  · have hyields := hreads before rest base hbase hrest
    obtain ⟨hblank, -, -, hnewline⟩ := isSpace_blank c hc
    have hch : (Lexer.atSplit before (line.content ++ (line.comment ++ rest)) base).ch = c := by
      rw [atSplit_ch, hcontent]
      rfl
    have hself : (Lexer.atSplit before (line.content ++ (line.comment ++ rest))
        base).skipWhitespace =
        Lexer.atSplit before (line.content ++ (line.comment ++ rest)) base := by
      have h := skipWhitespace_blanks before [] (line.content ++ (line.comment ++ rest)) base
        (by simp) (by
          intro d hd
          rw [hcontent] at hd
          simp only [List.cons_append, List.head?_cons, Option.mem_def, Option.some.injEq] at hd
          subst hd
          exact hblank)
      simpa using h
    have hcanonical := Next_of_no_indent
      (Lexer.atSplit before (line.content ++ (line.comment ++ rest)) base) hbase
      (by rw [hch]; exact hnewline) (by rw [hself, hch]; exact hhash)
    rw [hself] at hcanonical
    have hnext := Next_fallthrough l l1 l2 hmode hdedent hstep
      (by rw [hskip, hch]; exact hhash)
    rw [hskip, ← hcanonical] at hnext
    have hafter := Next_comment (before ++ line.content) line.comment rest base hbase hcomment
      hrest
    rw [List.append_assoc] at hafter
    refine ⟨_, ?_, hafter⟩
    cases htokens : line.tokens with
    | nil =>
      rw [htokens, Lexer.yields] at hyields
      have hposition := congrArg Lexer.position hyields
      rw [atSplit_position, atSplit_position, hcontent] at hposition
      simp at hposition
    | cons token tokens =>
      rw [htokens] at hyields
      obtain ⟨l3, hfirst, hmore⟩ := hyields
      exact ⟨l3, hnext.trans hfirst, hmore⟩

theorem yields_pending (before : List Char) (x c : Char) (tail : List Char)
    (hspace : c ≠ ' ') (htab : c ≠ '\t') :
    ∀ (m : Nat) (base : Lexer), base.dedentCount = (m : Int) →
      (Lexer.atSplit before (x :: c :: tail) base).yields
        (List.replicate m { Kind := .DEDENT, Lexeme := "" })
        (Lexer.atSplit before (x :: c :: tail) { base with dedentCount := 0 }) := by
  intro m
  induction m with
  | zero =>
    intro base hbase
    rw [List.replicate_zero, Lexer.yields]
    obtain ⟨input, position, readPosition, ch, width, spaces, stack, dedent⟩ := base
    simp only [Nat.cast_zero] at hbase
    subst hbase
    rfl
  | succ m ih =>
    intro base hbase
    have hmode := setIndentationMode_no_indent (Lexer.atSplit before (x :: c :: tail) base) (by
      rw [atSplit_peek]
      simp only [List.headD_cons]
      tauto)
    have hpending : (Lexer.atSplit before (x :: c :: tail) base).dedentCount > 0 := by
      rw [atSplit_dedentCount, hbase]
      omega
    have hnext := Next_pending _ _ hmode hpending
    rw [List.replicate_succ]
    refine ⟨_, hnext, ?_⟩
    have hstate : ({ Lexer.atSplit before (x :: c :: tail) base with
        dedentCount := (Lexer.atSplit before (x :: c :: tail) base).dedentCount - 1 } : Lexer) =
        Lexer.atSplit before (x :: c :: tail) { base with dedentCount := (m : Int) } := by
      rw [atSplit_dedentCount, hbase]
      simp [Lexer.atSplit]
    rw [hstate]
    exact ih { base with dedentCount := (m : Int) } rfl

theorem withStep_zero (st : Indentation) : st.withStep 0 = st := by
  obtain ⟨unit, levels⟩ := st
  simp [Indentation.withStep, Indentation.step]

theorem depth_zero (st : Indentation) : st.depth 0 = 0 := by
  unfold Indentation.depth
  cases st.step 0 <;> simp

theorem stackTop_levels (k : Nat) (st : Indentation) (hsound : st.sound) :
    stackTop (st.lexer k).indentStack = .ok (st.levels.headD 0 : Int) := by
  obtain ⟨unit, levels⟩ := st
  cases levels with
  | nil => simp [Indentation.sound] at hsound
  | cons top below => simp [stackTop, Indentation.lexer]

theorem dropLast_append_getLastD (x : Char) (run : List Char) :
    (x :: run).dropLast ++ [run.getLastD x] = x :: run := by
  induction run generalizing x with
  | nil => rfl
  | cons c cs ih =>
    rw [List.dropLast_cons₂, List.getLastD_cons, List.cons_append, ih]

/-- After the indentation of a line has been read (the tokenizer stands on
its last space, or on the line break when there is none and the innermost
open block has level 0), the tokenizer reads the tokens of the line. -/
theorem reaches_after_indentation (k : Nat) (hk : 0 < k) (st : Indentation)
    (hsound : st.sound) (line : Line) (hwf : line.wellFormed)
    (before : List Char) (x : Char) (rest : List Char)
    (hrest : ∀ c ∈ rest.head?, c = '\n')
    (hx : x = ' ' ∨ (x = '\n' ∧ st.levels.headD 0 = 0)) :
    (Lexer.atSplit before (x :: (line.content ++ (line.comment ++ rest))) (st.lexer k)).reaches
      line.tokens
      (Lexer.atSplit (before ++ x :: (line.content ++ line.comment)) rest (st.lexer k)) := by
  obtain ⟨c, cs, hbody, hc⟩ := wellFormed_head line hwf
  obtain ⟨hblank, hspace, htab, hnewline⟩ := isSpace_blank c hc
  have hbody2 : line.content ++ (line.comment ++ rest) = c :: (cs ++ rest) := by
    rw [← List.append_assoc, hbody]
    rfl
  have hbase : ¬ (st.lexer k).dedentCount > 0 := by simp [Indentation.lexer]
  have hmode := setIndentationMode_no_indent
    (Lexer.atSplit before (x :: (line.content ++ (line.comment ++ rest))) (st.lexer k)) (by
      rw [atSplit_peek, hbody2]
      simp only [List.headD_cons]
      tauto)
  have hskip : (Lexer.atSplit before (x :: (line.content ++ (line.comment ++ rest)))
      (st.lexer k)).skipWhitespace =
      Lexer.atSplit (before ++ [x]) (line.content ++ (line.comment ++ rest)) (st.lexer k) := by
    apply skipWhitespace_blanks before [x] (line.content ++ (line.comment ++ rest)) (st.lexer k)
    · intro d hd
      rw [List.mem_singleton] at hd
      subst hd
      tauto
    · intro d hd
      rw [hbody2] at hd
      simp only [List.head?_cons, Option.mem_def, Option.some.injEq] at hd
      subst hd
      exact hblank
  have hfinal : before ++ [x] ++ (line.content ++ line.comment) =
      before ++ x :: (line.content ++ line.comment) := by simp
  have hinput : (Lexer.atSplit before (x :: (line.content ++ (line.comment ++ rest)))
      (st.lexer k)).input.length =
      (before ++ [x] ++ (line.content ++ (line.comment ++ rest))).length := by
    rw [atSplit_input]
    simp
  rw [← hfinal]
  rcases hx with hx | ⟨hx, htop⟩
  · subst hx
    exact reaches_of_entry line hwf _ _ _ _ rest _ hbase hrest hinput hmode hbase
      (indentStep_no_newline _ (by rw [atSplit_ch]; simp)) hskip
  · subst hx
    have hlevel := readIndentLevel_break k hk st hsound 0 before c (cs ++ rest) hc
    rw [withStep_zero, depth_zero] at hlevel
    simp only [Nat.zero_mul, List.replicate_zero, List.nil_append, List.dropLast_single,
      List.append_nil, List.getLastD_nil] at hlevel
    have hstate : Lexer.atSplit before ('\n' :: (line.content ++ (line.comment ++ rest)))
        (st.lexer k) = Lexer.atSplit before ('\n' :: c :: (cs ++ rest)) (st.lexer k) := by
      rw [hbody2]
    rw [← hstate] at hlevel
    have hstack := stackTop_levels k st hsound
    rw [htop] at hstack
    have hstep := (indentStep_of _ _ _ _ (by rw [atSplit_ch]; rfl) hlevel hstack).2.2 rfl
    exact reaches_of_entry line hwf _ _ _ _ rest _ hbase hrest hinput hmode hbase hstep hskip

theorem getLastD_replicate (j : Nat) :
    (List.replicate j ' ').getLastD '\n' = ' ' ∨
      ((List.replicate j ' ').getLastD '\n' = '\n' ∧ j = 0) := by
  induction j with
  | zero => exact Or.inr ⟨rfl, rfl⟩
  | succ m ih =>
    left
    rw [List.replicate_succ, List.getLastD_cons]
    cases m with
    | zero => rfl
    | succ i =>
      rcases ih with h | ⟨-, h⟩
      · rw [List.replicate_succ, List.getLastD_cons] at h ⊢
        cases i with
        | zero => rfl
        | succ i2 =>
          rw [List.replicate_succ, List.getLastD_cons] at h ⊢
          exact h
      · omega

theorem closeLevels_count (level : Nat) (levels : List Nat) (h : level < levels.headD 0) :
    ∃ m, (closeLevels level levels).2 = m + 1 := by
  cases levels with
  | nil => simp at h
  | cons top below =>
    simp only [List.headD_cons] at h
    rw [closeLevels, if_pos h]
    exact ⟨_, rfl⟩

theorem withStep_sound (st : Indentation) (hsound : st.sound) (n : Nat) :
    (st.withStep n).sound :=
  ⟨fun u hu => step_some st n u hsound hu, hsound.2⟩

theorem depth_le (st : Indentation) (n : Nat) : st.depth n ≤ n := by
  unfold Indentation.depth
  cases st.step n with
  | none => exact Nat.zero_le n
  | some u => exact Nat.div_le_self n u

/-- A line break and the line after it: the tokenizer returns the tokens of
the indentation, then the tokens of the line, and stands at the end of the
line with the indentation of the line. -/
theorem reaches_line (k : Nat) (hk : 0 < k) (st : Indentation) (hsound : st.sound)
    (line : Line) (hwf : line.wellFormed) (before rest : List Char)
    (hrest : ∀ c ∈ rest.head?, c = '\n') :
    (Lexer.atSplit before ('\n' :: (line.render k ++ rest)) (st.lexer k)).reaches
        ((st.enter line.level).1 ++ line.tokens)
        (Lexer.atSplit (before ++ '\n' :: line.render k) rest
          ((st.enter line.level).2.lexer k)) ∧
      (st.enter line.level).2.sound := by
  obtain ⟨c, cs, hbody, hc⟩ := wellFormed_head line hwf
  obtain ⟨hblank, hspace, htab, hnewline⟩ := isSpace_blank c hc
  have hbody2 : line.content ++ (line.comment ++ rest) = c :: (cs ++ rest) := by
    rw [← List.append_assoc, hbody]
    rfl
  have hsound1 := withStep_sound st hsound line.level
  have htext : '\n' :: (line.render k ++ rest) =
      '\n' :: (List.replicate (line.level * k) ' ' ++ c :: (cs ++ rest)) := by
    rw [Line.render, List.append_assoc, hbody, List.cons_append]
  have hjoin : before ++ ('\n' :: List.replicate (line.level * k) ' ').dropLast ++
      (List.replicate (line.level * k) ' ').getLastD '\n' :: (line.content ++ line.comment) =
      before ++ '\n' :: line.render k := by
    have h := dropLast_append_getLastD '\n' (List.replicate (line.level * k) ' ')
    have hassoc : ∀ (a b : List Char) (x : Char) (r : List Char),
        a ++ b ++ x :: r = a ++ ((b ++ [x]) ++ r) := by
      intros
      simp
    rw [Line.render, hassoc, h]
    simp
  have htail : (List.replicate (line.level * k) ' ').getLastD '\n' :: c :: (cs ++ rest) =
      (List.replicate (line.level * k) ' ').getLastD '\n' ::
        (line.content ++ (line.comment ++ rest)) := by
    rw [hbody2]
  have hmode := setIndentationMode_break k hk st line.level before c (cs ++ rest) hc
  have hlevel := readIndentLevel_break k hk st hsound line.level before c (cs ++ rest) hc
  have hstack := stackTop_levels k (st.withStep line.level) hsound1
  have hdedent : ¬ (Lexer.atSplit before
      ('\n' :: (List.replicate (line.level * k) ' ' ++ c :: (cs ++ rest)))
      ((st.withStep line.level).lexer k)).dedentCount > 0 := by
    rw [atSplit_dedentCount]
    simp [Indentation.lexer]
  obtain ⟨hindent, hclose, hsame⟩ := indentStep_of _ _ _ _ (by rw [atSplit_ch]; rfl) hlevel
    hstack
  rw [htext]
  rw [htail] at hlevel hindent hclose hsame
  have hlast := getLastD_replicate (line.level * k)
  rcases Nat.lt_trichotomy (st.levels.headD 0) (st.depth line.level) with hlt | heq | hgt
  · -- the line is deeper: INDENT
    have henter : st.enter line.level =
        ([{ Kind := .INDENT, Lexeme := "" }],
          { unit := st.step line.level, levels := st.depth line.level :: st.levels }) := by
      rw [Indentation.enter, if_pos hlt]
    have hsound2 : Indentation.sound
        { unit := st.step line.level, levels := st.depth line.level :: st.levels } := by
      refine ⟨hsound1.1, ?_⟩
      have hne : st.levels ≠ [] := by
        intro h
        have := hsound.2
        rw [h] at this
        simp at this
      obtain ⟨top, below, hlevels⟩ := List.exists_cons_of_ne_nil hne
      have := hsound.2
      rw [hlevels] at this ⊢
      simpa using this
    have hx : (List.replicate (line.level * k) ' ').getLastD '\n' = ' ' := by
      rcases hlast with h | ⟨-, h⟩
      · exact h
      · have h1 := depth_le st line.level
        have h2 : line.level = 0 := by
          rcases Nat.mul_eq_zero.mp h with h3 | h3
          · exact h3
          · omega
        omega
    have hnext := Next_indent_token _ _ _ _ hmode hdedent
      (hindent (by exact_mod_cast hlt))
    have hrun := reaches_after_indentation k hk _ hsound2 line hwf
      (before ++ ('\n' :: List.replicate (line.level * k) ' ').dropLast)
      ((List.replicate (line.level * k) ' ').getLastD '\n') rest hrest (Or.inl hx)
    rw [hjoin] at hrun
    rw [henter]
    refine ⟨?_, hsound2⟩
    refine yields_reaches _ _ _ [_] _ ⟨_, hnext, rfl⟩ ?_
    convert hrun using 2
    simp [Lexer.atSplit, Indentation.lexer, Indentation.withStep]
  · -- the same depth: no token
    have henter : st.enter line.level = ([], st.withStep line.level) := by
      rw [Indentation.enter, if_neg (by omega), if_neg (by omega)]
      rfl
    have hskip := skipWhitespace_blanks
      (before ++ ('\n' :: List.replicate (line.level * k) ' ').dropLast)
      [(List.replicate (line.level * k) ' ').getLastD '\n']
      (line.content ++ (line.comment ++ rest))
      ((st.withStep line.level).lexer k)
      (by
        intro d hd
        rw [List.mem_singleton] at hd
        subst hd
        rcases hlast with h | ⟨h, -⟩
        · exact Or.inl h
        · exact Or.inr (Or.inr h))
      (by
        intro d hd
        rw [hbody2] at hd
        simp only [List.head?_cons, Option.mem_def, Option.some.injEq] at hd
        subst hd
        exact hblank)
    have hrun := reaches_of_entry line hwf _ _ _ _ rest _ (by simp [Indentation.lexer]) hrest
      (by
        rw [atSplit_input, hbody2, List.append_assoc before,
          dropLast_append_getLastD '\n' (List.replicate (line.level * k) ' ')]
        simp)
      hmode hdedent (hsame (by exact_mod_cast heq.symm)) hskip
    rw [henter]
    refine ⟨?_, hsound1⟩
    simp only [List.nil_append]
    convert hrun using 2
    rw [← hjoin]
    simp
  · -- the line closes blocks: DEDENT
    obtain ⟨m, hm⟩ := closeLevels_count (st.depth line.level) st.levels hgt
    obtain ⟨hbottom, hhead⟩ := closeLevels_getLast (st.depth line.level) st.levels hsound.2
    have hnot : ¬ st.levels.headD 0 < st.depth line.level := by omega
    have henter : st.enter line.level =
        (List.replicate (m + 1) { Kind := .DEDENT, Lexeme := "" },
          { unit := st.step line.level,
            levels := (closeLevels (st.depth line.level) st.levels).1 }) := by
      rw [Indentation.enter, if_neg hnot, if_pos hgt, hm]
    have hsound2 : Indentation.sound
        { unit := st.step line.level,
          levels := (closeLevels (st.depth line.level) st.levels).1 } :=
      ⟨hsound1.1, hbottom⟩
    have hpop := popLevels_closeLevels (st.depth line.level) st.levels
      (((st.withStep line.level).lexer k).indentStack.length + 1) 0 hsound.2
      (by simp [Indentation.lexer, Indentation.withStep])
    have hnext := Next_indent_token _ _ _ _ hmode hdedent
      (hclose (by exact_mod_cast hgt) _ _ hpop)
    obtain ⟨st2, hst2⟩ : ∃ st2 : Indentation, st2 =
        { unit := st.step line.level,
          levels := (closeLevels (st.depth line.level) st.levels).1 } := ⟨_, rfl⟩
    rw [← hst2] at hsound2 henter
    have hpending := yields_pending
      (before ++ ('\n' :: List.replicate (line.level * k) ' ').dropLast)
      ((List.replicate (line.level * k) ' ').getLastD '\n') c (cs ++ rest) hspace htab m
      { st2.lexer k with dedentCount := (m : Int) } rfl
    have hx : (List.replicate (line.level * k) ' ').getLastD '\n' = ' ' ∨
        ((List.replicate (line.level * k) ' ').getLastD '\n' = '\n' ∧
          st2.levels.headD 0 = 0) := by
      rcases hlast with h | ⟨h, hzero⟩
      · exact Or.inl h
      · right
        rw [hst2]
        refine ⟨h, ?_⟩
        show (closeLevels (st.depth line.level) st.levels).1.headD 0 = 0
        have h2 : line.level = 0 := by
          rcases Nat.mul_eq_zero.mp hzero with h3 | h3
          · exact h3
          · omega
        have h1 := depth_le st line.level
        omega
    have hrun := reaches_after_indentation k hk _ hsound2 line hwf
      (before ++ ('\n' :: List.replicate (line.level * k) ' ').dropLast)
      ((List.replicate (line.level * k) ' ').getLastD '\n') rest hrest hx
    rw [hjoin] at hrun
    rw [htail] at hpending
    rw [henter, List.replicate_succ, List.cons_append]
    refine ⟨?_, hsound2⟩
    refine yields_reaches _ _ _ [_] _ ⟨_, hnext, rfl⟩ ?_
    refine yields_reaches _ _ _ _ _ ?_ hrun
    subst hst2
    convert hpending using 2
    simp [Lexer.atSplit, Indentation.lexer, Indentation.withStep, hm]

/-! ## The lines of a rule text -/

theorem renderLines_head (k : Nat) (lines : List Line) :
    ∀ c ∈ (renderLines k lines).head?, c = '\n' := by
  cases lines with
  | nil => simp [renderLines]
  | cons line rest => simp [renderLines]

theorem yields_lines (k : Nat) (hk : 0 < k) :
    ∀ (lines : List Line) (st : Indentation) (before : List Char), st.sound →
      (∀ line ∈ lines, line.wellFormed) →
      ∃ final, (Lexer.atSplit before (renderLines k lines) (st.lexer k)).yields
          (lineTokens st lines ++ [{ Kind := .EOF, Lexeme := "" }]) final ∧
        final.ch = NUL ∧ ¬ final.dedentCount > 0 := by
  intro lines
  induction lines with
  | nil =>
    intro st before _ _
    have hbase : ¬ (st.lexer k).dedentCount > 0 := by simp [Indentation.lexer]
    exact ⟨_, ⟨_, Next_end before (st.lexer k) hbase, rfl⟩, rfl, hbase⟩
  | cons line rest ih =>
    intro st before hsound hwf
    obtain ⟨hline, hsound2⟩ := reaches_line k hk st hsound line
      (hwf line (List.mem_cons_self _ _)) before (renderLines k rest) (renderLines_head k rest)
    obtain ⟨final, hrest, hfinal⟩ := ih (st.enter line.level).2 (before ++ '\n' :: line.render k)
      hsound2 (fun l hl => hwf l (List.mem_cons_of_mem _ hl))
    refine ⟨final, ?_, hfinal⟩
    rw [lineTokens, renderLines, List.append_assoc]
    obtain ⟨token, tokens, htokens⟩ : ∃ token tokens,
        lineTokens (st.enter line.level).2 rest ++ [({ Kind := .EOF, Lexeme := "" } : Token)] =
          token :: tokens := by
      cases lineTokens (st.enter line.level).2 rest with
      | nil => exact ⟨_, _, rfl⟩
      | cons t ts => exact ⟨_, _, rfl⟩
    rw [htokens] at hrest ⊢
    exact reaches_yields _ _ _ _ _ _ hline hrest

theorem reaches_first_line (k : Nat) (first : Line) (hwf : first.wellFormed)
    (rest : List Char) (hrest : ∀ c ∈ rest.head?, c = '\n') (base : Lexer)
    (hbase : ¬ base.dedentCount > 0) :
    (Lexer.atSplit [] (first.render k ++ rest) base).reaches first.tokens
      (Lexer.atSplit (first.render k) rest base) := by
  obtain ⟨c, cs, hbody, hc⟩ := wellFormed_head first hwf
  obtain ⟨hblank, hspace, htab, hnewline⟩ := isSpace_blank c hc
  have hbody2 : first.content ++ (first.comment ++ rest) = c :: (cs ++ rest) := by
    rw [← List.append_assoc, hbody]
    rfl
  have htext : first.render k ++ rest =
      List.replicate (first.level * k) ' ' ++ (first.content ++ (first.comment ++ rest)) := by
    simp [Line.render]
  have hch : (Lexer.atSplit [] (first.render k ++ rest) base).ch ≠ '\n' := by
    rw [atSplit_ch, htext, hbody2]
    cases first.level * k with
    | zero => simpa using hnewline
    | succ j => simp [List.replicate_succ]
  have hskip := skipWhitespace_blanks [] (List.replicate (first.level * k) ' ')
    (first.content ++ (first.comment ++ rest)) base
    (by intro d hd; exact Or.inl (List.mem_replicate.mp hd).2)
    (by
      intro d hd
      rw [hbody2] at hd
      simp only [List.head?_cons, Option.mem_def, Option.some.injEq] at hd
      subst hd
      exact hblank)
  rw [← htext] at hskip
  have hrun := reaches_of_entry first hwf _ _ _ _ rest base hbase hrest
    (by rw [atSplit_input, htext]; simp)
    (setIndentationMode_no_indent _ (fun h => hch h.1)) hbase (indentStep_no_newline _ hch) hskip
  simpa [Line.render] using hrun

theorem take_yields (final : Lexer) (hch : final.ch = NUL) (hdedent : ¬ final.dedentCount > 0) :
    ∀ (tokens : List Token) (l : Lexer) (n : Nat), l.yields tokens final →
      Lexer.take n l =
        (tokens ++ List.replicate (n - tokens.length)
          ({ Kind := .EOF, Lexeme := "" } : Token)).take n := by
  intro tokens
  induction tokens with
  | nil =>
    intro l n hyields
    rw [Lexer.yields] at hyields
    subst hyields
    induction n with
    | zero => rfl
    | succ m ih =>
      rw [Lexer.take, Next_at_end l hch hdedent]
      simp only [List.nil_append, List.length_nil, Nat.sub_zero, List.take_replicate,
        min_self] at ih ⊢
      rw [ih, List.replicate_succ]
  | cons token rest ih =>
    intro l n hyields
    obtain ⟨l1, hnext, hrest⟩ := hyields
    cases n with
    | zero => rfl
    | succ m =>
      rw [Lexer.take, hnext]
      simp only [List.cons_append, List.take_succ_cons, List.length_cons, Nat.add_sub_add_right]
      rw [ih l1 m hrest]

/-! ## Levels that rise one at a time -/

theorem closeLevels_levelsTo (n : Nat) :
    ∀ p, n ≤ p → closeLevels n (levelsTo p) = (levelsTo n, p - n) := by
  intro p
  induction p with
  | zero =>
    intro h
    have hn : n = 0 := by omega
    subst hn
    rfl
  | succ p ih =>
    intro h
    rw [levelsTo, closeLevels]
    split_ifs with hlt
    · rw [ih (by omega)]
      simp only [Prod.mk.injEq, true_and]
      omega
    · have hn : n = p + 1 := by omega
      subst hn
      simp [levelsTo]

theorem levelsTo_head (p : Nat) : (levelsTo p).headD 0 = p := by
  cases p <;> rfl

theorem enter_levelsTo (unit : Option Nat) (p n : Nat)
    (hunit : unit = some 1 ∨ (unit = none ∧ p = 0)) (hn : n ≤ p + 1) :
    ∃ unit1, (unit1 = some 1 ∨ (unit1 = none ∧ n = 0)) ∧
      Indentation.enter { unit := unit, levels := levelsTo p } n =
        (if p < n then [{ Kind := .INDENT, Lexeme := "" }]
          else List.replicate (p - n) { Kind := .DEDENT, Lexeme := "" },
          { unit := unit1, levels := levelsTo n }) := by
  have hstep : (Indentation.step { unit := unit, levels := levelsTo p } n = some 1) ∨
      (Indentation.step { unit := unit, levels := levelsTo p } n = none ∧ n = 0) := by
    rcases hunit with h | ⟨h, hp⟩
    · subst h
      left
      simp [Indentation.step]
    · subst h
      by_cases hzero : n = 0
      · right
        subst hzero
        simp [Indentation.step]
      · left
        have hone : n = 1 := by omega
        subst hone
        simp [Indentation.step]
  have hdepth : Indentation.depth { unit := unit, levels := levelsTo p } n = n := by
    unfold Indentation.depth
    rcases hstep with h | ⟨h, hzero⟩
    · rw [h]
      exact Nat.div_one n
    · rw [h, hzero]
  refine ⟨Indentation.step { unit := unit, levels := levelsTo p } n, hstep, ?_⟩
  rw [Indentation.enter, hdepth]
  simp only [levelsTo_head]
  split_ifs with h1 h2
  · have hn1 : n = p + 1 := by omega
    subst hn1
    rfl
  · rw [closeLevels_levelsTo n p (by omega)]
  · have hn1 : n = p := by omega
    subst hn1
    simp

theorem lineTokens_blockTokens :
    ∀ (lines : List Line) (unit : Option Nat) (p : Nat),
      (unit = some 1 ∨ (unit = none ∧ p = 0)) → risesByOne p lines →
      lineTokens { unit := unit, levels := levelsTo p } lines = blockTokens p lines := by
  intro lines
  induction lines with
  | nil => intro unit p _ _; rfl
  | cons line rest ih =>
    intro unit p hunit hrises
    obtain ⟨hstep, hmore⟩ := hrises
    obtain ⟨unit1, hunit1, henter⟩ := enter_levelsTo unit p line.level hunit hstep
    rw [lineTokens, blockTokens, henter]
    simp only
    rw [ih unit1 line.level hunit1 hmore]

/-! ## Lines of words, numbers and strings -/

theorem isAlpha_not_space (c : Char) (h : isAlpha c = true) : unicodeIsSpace c = false := by
  by_contra hspace
  simp only [Bool.not_eq_false, unicodeIsSpace, Bool.or_eq_true, decide_eq_true_eq] at hspace
  rcases hspace with ((((((h1 | h1) | h1) | h1) | h1) | h1) | h1) | h1 <;>
    (subst h1; revert h; decide)

theorem isDigit_not_space (c : Char) (h : isDigit c = true) : unicodeIsSpace c = false := by
  by_contra hspace
  simp only [Bool.not_eq_false, unicodeIsSpace, Bool.or_eq_true, decide_eq_true_eq] at hspace
  rcases hspace with ((((((h1 | h1) | h1) | h1) | h1) | h1) | h1) | h1 <;>
    (subst h1; revert h; decide)

theorem Lexical.text_head_space (item : Lexical) (hwf : item.wellFormed = true) :
    ∃ c cs, item.text = c :: cs ∧ unicodeIsSpace c = false ∧ c ≠ '#' := by
  cases item with
  | word chars =>
    cases chars with
    | nil => simp [Lexical.wellFormed] at hwf
    | cons c cs =>
      simp only [Lexical.wellFormed, List.head?_cons, Option.map_some', Option.getD_some,
        Bool.and_eq_true] at hwf
      exact ⟨c, cs, rfl, isAlpha_not_space c hwf.1, (isAlpha_not_special c hwf.1).2.2.2.2.1⟩
  | number digits =>
    cases digits with
    | nil => simp [Lexical.wellFormed] at hwf
    | cons c cs =>
      simp only [Lexical.wellFormed, Bool.and_eq_true, List.all_cons] at hwf
      exact ⟨c, cs, rfl, isDigit_not_space c hwf.2.1, (isDigit_not_special c hwf.2.1).2.2.2.2.1⟩
  | string content =>
    exact ⟨'"', content ++ ['"'], rfl, by decide, by decide⟩

theorem endsBefore_comment (item : Lexical) (comment rest : List Char)
    (hcomment : isLineComment comment = true) (hrest : ∀ c ∈ rest.head?, c = '\n') :
    item.endsBefore (comment ++ rest) = true := by
  have hchar : ∀ d : Char, d = '\n' ∨ d = ' ' ∨ d = '\t' ∨ d = '#' →
      ∀ ds, item.endsBefore (d :: ds) = true := by
    intro d hd ds
    rcases hd with h | h | h | h <;> subst h <;> cases item <;> simp [Lexical.endsBefore] <;>
      decide
  rcases isLineComment_cases comment hcomment with h | ⟨blanks, text, h, hblanks, -⟩
  · subst h
    cases rest with
    | nil => exact endsBefore_nil item
    | cons d ds => exact hchar d (Or.inl (hrest d (by simp))) ds
  · subst h
    cases blanks with
    | nil => exact hchar '#' (by simp) _
    | cons b bs =>
      rcases hblanks b (by simp) with hb | hb
      · exact hchar b (Or.inr (Or.inl hb)) _
      · exact hchar b (Or.inr (Or.inr (Or.inl hb))) _

theorem yields_pieces (rest : List Char) (base : Lexer) (hbase : ¬ base.dedentCount > 0) :
    ∀ (pieces : List Lexical), pieces ≠ [] → (∀ item ∈ pieces, item.wellFormed = true) →
      (∀ item : Lexical, item.endsBefore rest = true) →
      ∀ (before spaces : List Char), spaces.all (fun c => c = ' ') = true →
      (Lexer.atSplit before (spaces ++ (spaced (pieces.map Lexical.text) ++ rest))
          base).yields (pieces.map Lexical.token)
        (Lexer.atSplit (before ++ spaces ++ spaced (pieces.map Lexical.text)) rest base) := by
  intro pieces
  induction pieces with
  | nil => intro h; exact absurd rfl h
  | cons item more ih =>
    intro _ hwf hends before spaces hspaces
    cases more with
    | nil =>
      have hnext := Next_lexical item before spaces rest base hbase hspaces
        (hwf item (by simp)) (hends item)
      exact ⟨_, hnext, rfl⟩
    | cons item2 more2 =>
      have hnext := Next_lexical item before spaces
        (' ' :: (spaced ((item2 :: more2).map Lexical.text) ++ rest)) base hbase hspaces
        (hwf item (by simp)) (endsBefore_space _ _)
      have hmore := ih (by simp) (fun i hi => hwf i (List.mem_cons_of_mem _ hi)) hends
        (before ++ spaces ++ item.text) [' '] (by decide)
      refine ⟨Lexer.atSplit (before ++ spaces ++ item.text)
        (' ' :: (spaced ((item2 :: more2).map Lexical.text) ++ rest)) base, ?_, ?_⟩
      · simpa [spaced] using hnext
      · simpa [spaced] using hmore

theorem ofPieces_wellFormed (level : Nat) (pieces : List Lexical) (comment : List Char)
    (hne : pieces ≠ []) (hwf : ∀ item ∈ pieces, item.wellFormed = true)
    (hcomment : isLineComment comment = true) :
    (Line.ofPieces level pieces comment).wellFormed := by
  refine ⟨hcomment, Or.inr ⟨?_, ?_⟩⟩
  · cases pieces with
    | nil => exact absurd rfl hne
    | cons item more =>
      obtain ⟨c, cs, htext, hc⟩ := item.text_head_space (hwf item (by simp))
      cases more with
      | nil => exact ⟨c, cs, by simp [Line.ofPieces, spaced, htext], hc⟩
      | cons item2 more2 =>
        exact ⟨c, cs ++ ' ' :: spaced ((item2 :: more2).map Lexical.text),
          by simp [Line.ofPieces, spaced, htext], hc⟩
  · intro before rest base hbase hrest
    have h := yields_pieces (comment ++ rest) base hbase pieces hne hwf
      (fun item => endsBefore_comment item comment rest hcomment hrest) before [] (by simp)
    simpa [Line.ofPieces] using h

theorem ofComment_wellFormed (level : Nat) (text : List Char)
    (htext : text.all (fun d => d ≠ '\n' && d ≠ NUL) = true) :
    (Line.ofComment level text).wellFormed := by
  refine ⟨?_, Or.inl ⟨rfl, rfl, rfl⟩⟩
  simp only [Line.ofComment, isLineComment]
  have hdrop : List.dropWhile (fun c => decide (c = ' ') || decide (c = '\t')) ('#' :: text) =
      '#' :: text := by
    rw [List.dropWhile_cons_of_neg (by decide)]
  rw [hdrop]
  simpa using htext

/-! ## The width of the indentation does not matter -/

theorem yields_text (k : Nat) (hk : 0 < k) (first : Line) (rest : List Line)
    (hfirst : first.wellFormed) (hrest : ∀ line ∈ rest, line.wellFormed) :
    ∃ final, (NewLexer (renderText k first rest)).yields
        (first.tokens ++ lineTokens { unit := none, levels := [0] } rest ++
          [{ Kind := .EOF, Lexeme := "" }]) final ∧
      final.ch = NUL ∧ ¬ final.dedentCount > 0 := by
  have hsound : Indentation.sound { unit := none, levels := [0] } :=
    ⟨fun u hu => (by cases hu), rfl⟩
  have hbase : ¬ initialLexer.dedentCount > 0 := initialLexer_no_dedent
  have hhead := reaches_first_line k first hfirst (renderLines k rest) (renderLines_head k rest)
    initialLexer hbase
  obtain ⟨final, hlines, hfinal⟩ := yields_lines k hk rest { unit := none, levels := [0] }
    (first.render k) hsound hrest
  refine ⟨final, ?_, hfinal⟩
  rw [renderText, NewLexer_atSplit, List.append_assoc]
  obtain ⟨token, tokens, htokens⟩ : ∃ token tokens,
      lineTokens { unit := none, levels := [0] } rest ++
        [({ Kind := .EOF, Lexeme := "" } : Token)] = token :: tokens := by
    cases lineTokens { unit := none, levels := [0] } rest with
    | nil => exact ⟨_, _, rfl⟩
    | cons t ts => exact ⟨_, _, rfl⟩
  rw [htokens] at hlines ⊢
  exact reaches_yields _ _ _ _ _ _ hhead hlines

/-- C18, as amended: take a rule text given as lines, each with a nesting
level, a content that starts with a token and from which the tokenizer reads
the tokens of the line up to the end of the content, and after the content
nothing or a comment (with or without blanks before its `#`); a line may
also hold a comment only.  Written with `k` spaces for each level, the text
gives the same token sequence for every `k ≥ 1`: the tokens of the first
line, then for each line the tokens of its line break and its own tokens,
then `EOF`; so the tokens are those of the text written with one space for
each level.  When the first line has level 0 and the level rises by at most
one from a line to the next, the line break before a line gives one `INDENT`
if the line is one level deeper and one `DEDENT` for each level closed if it
is less deep. -/
theorem tokens_independent_of_indent_width (k : Nat) (hk : 0 < k) (first : Line)
    (rest : List Line) (hfirst : first.wellFormed) (hrest : ∀ line ∈ rest, line.wellFormed) :
    (∃ final, (NewLexer (renderText k first rest)).yields
        (first.tokens ++ lineTokens { unit := none, levels := [0] } rest ++
          [{ Kind := .EOF, Lexeme := "" }]) final) ∧
    (∀ n, Lexer.take n (NewLexer (renderText k first rest)) =
      Lexer.take n (NewLexer (renderText 1 first rest))) ∧
    (first.level = 0 → risesByOne first.level rest →
      lineTokens { unit := none, levels := [0] } rest = blockTokens first.level rest) := by
  obtain ⟨final, hyields, hch, hdedent⟩ := yields_text k hk first rest hfirst hrest
  obtain ⟨final1, hyields1, hch1, hdedent1⟩ := yields_text 1 Nat.one_pos first rest hfirst hrest
  refine ⟨⟨final, hyields⟩, ?_, ?_⟩
  · intro n
    rw [take_yields final hch hdedent _ _ n hyields,
      take_yields final1 hch1 hdedent1 _ _ n hyields1]
  · intro hlevel hrises
    rw [hlevel] at hrises ⊢
    exact lineTokens_blockTokens rest none 0 (Or.inr ⟨rfl, rfl⟩) hrises

theorem tokens_independent_of_indent_width_witness :
    ∃ final,
      (NewLexer
        "group and # c\n    group or\n        a eq 1 # first\n    # only a comment\nb eq 2").yields
        [⟨.GROUP, "group"⟩, ⟨.AND, "and"⟩, ⟨.INDENT, ""⟩, ⟨.GROUP, "group"⟩, ⟨.OR, "or"⟩,
          ⟨.INDENT, ""⟩, ⟨.IDENT, "a"⟩, ⟨.EQ, "eq"⟩, ⟨.NUMBER, "1"⟩, ⟨.DEDENT, ""⟩,
          ⟨.DEDENT, ""⟩, ⟨.IDENT, "b"⟩, ⟨.EQ, "eq"⟩, ⟨.NUMBER, "2"⟩, ⟨.EOF, ""⟩] final := by
  have h := tokens_independent_of_indent_width 4 (by decide)
    (Line.ofPieces 0 [.word "group".data, .word "and".data] " # c".data)
    [Line.ofPieces 1 [.word "group".data, .word "or".data] [],
     Line.ofPieces 2 [.word "a".data, .word "eq".data, .number "1".data] " # first".data,
     Line.ofComment 1 " only a comment".data,
     Line.ofPieces 0 [.word "b".data, .word "eq".data, .number "2".data] []]
    (ofPieces_wellFormed _ _ _ (by simp) (by decide) (by decide))
    (by
      intro line hline
      simp only [List.mem_cons, List.mem_singleton, List.not_mem_nil, or_false] at hline
      rcases hline with h | h | h | h
      · subst h
        exact ofPieces_wellFormed _ _ _ (by simp) (by decide) (by decide)
      · subst h
        exact ofPieces_wellFormed _ _ _ (by simp) (by decide) (by decide)
      · subst h
        exact ofComment_wellFormed _ _ (by decide)
      · subst h
        exact ofPieces_wellFormed _ _ _ (by simp) (by decide) (by decide))
  obtain ⟨⟨final, hyields⟩, -, hblock⟩ := h
  rw [hblock rfl ⟨by decide, by decide, by decide, by decide, trivial⟩] at hyields
  exact ⟨final, hyields⟩

/-- C18, the claim as stated fails.  A string literal left open on a line
goes on over the line break and takes the indentation of the next line into
its lexeme, so the lines `a eq "x` (level 0) and `y"` (level 1) give
different tokens with one and with two spaces for each level.  White space
at the end of a content makes the tokenizer skip the line break, so the
deeper line `b eq 2` after `a eq 1 ` gets no `INDENT`.  The first indented
line sets the width of one step, so after a line at level 2 the line at
level 3 gets no `INDENT`. -/
theorem indent_width_counterexample :
    Lexer.take 4 (NewLexer (renderText 1
        { level := 0, content := "a eq \"x".data, comment := [], tokens := [] }
        [{ level := 1, content := "y\"".data, comment := [], tokens := [] }])) ≠
      Lexer.take 4 (NewLexer (renderText 2
        { level := 0, content := "a eq \"x".data, comment := [], tokens := [] }
        [{ level := 1, content := "y\"".data, comment := [], tokens := [] }])) ∧
    Lexer.take 7 (NewLexer (renderText 2
        { level := 0, content := "a eq 1 ".data, comment := [], tokens := [] }
        [{ level := 1, content := "b eq 2".data, comment := [], tokens := [] }])) =
      [⟨.IDENT, "a"⟩, ⟨.EQ, "eq"⟩, ⟨.NUMBER, "1"⟩, ⟨.IDENT, "b"⟩, ⟨.EQ, "eq"⟩,
        ⟨.NUMBER, "2"⟩, ⟨.EOF, ""⟩] ∧
    Lexer.take 5 (NewLexer (renderText 1
        { level := 0, content := "a".data, comment := [], tokens := [] }
        [{ level := 2, content := "b".data, comment := [], tokens := [] },
         { level := 3, content := "c".data, comment := [], tokens := [] }])) =
      [⟨.IDENT, "a"⟩, ⟨.INDENT, ""⟩, ⟨.IDENT, "b"⟩, ⟨.IDENT, "c"⟩, ⟨.EOF, ""⟩] := by
  have h1 : renderText 1 { level := 0, content := "a eq \"x".data, comment := [], tokens := [] }
      [{ level := 1, content := "y\"".data, comment := [], tokens := [] }] = "a eq \"x\n y\"" := by decide
  have h2 : renderText 2 { level := 0, content := "a eq \"x".data, comment := [], tokens := [] }
      [{ level := 1, content := "y\"".data, comment := [], tokens := [] }] = "a eq \"x\n  y\"" := by decide
  have h3 : renderText 2 { level := 0, content := "a eq 1 ".data, comment := [], tokens := [] }
      [{ level := 1, content := "b eq 2".data, comment := [], tokens := [] }] = "a eq 1 \n  b eq 2" := by
    decide
  have h4 : renderText 1 { level := 0, content := "a".data, comment := [], tokens := [] }
      [{ level := 2, content := "b".data, comment := [], tokens := [] },
       { level := 3, content := "c".data, comment := [], tokens := [] }] = "a\n  b\n   c" := by decide
  have e1 : Lexer.take 4 (NewLexer "a eq \"x\n y\"") =
      [⟨.IDENT, "a"⟩, ⟨.EQ, "eq"⟩, ⟨.STRING, "x\n y"⟩, ⟨.EOF, ""⟩] := by decide
  have e2 : Lexer.take 4 (NewLexer "a eq \"x\n  y\"") =
      [⟨.IDENT, "a"⟩, ⟨.EQ, "eq"⟩, ⟨.STRING, "x\n  y"⟩, ⟨.EOF, ""⟩] := by decide
  rw [h1, h2, h3, h4, e1, e2]
  exact ⟨by decide, by decide, by decide⟩

/-! ## Blocks of lines -/

mutual
theorem lines_wellFormed (fuel : Nat) : ∀ (block : Block) (n : Nat), block.wellFormed fuel →
    ∀ line ∈ block.lines n, line.wellFormed
  | .condition content comment tokens cond, n, h => by
    intro line hline
    rw [Block.lines, List.mem_singleton] at hline
    subst hline
    rw [Block.wellFormed] at h
    exact h.1
  | .group logicalOp comment children, n, h => by
    intro line hline
    rw [Block.wellFormed] at h
    obtain ⟨hop, hcomment, -, hchildren⟩ := h
    rw [Block.lines, List.mem_cons] at hline
    rcases hline with hline | hline
    · subst hline
      refine ofPieces_wellFormed _ _ _ (by simp) ?_ hcomment
      intro item hitem
      simp only [List.mem_cons, List.mem_singleton, List.not_mem_nil, or_false] at hitem
      rcases hitem with hitem | hitem
      · subst hitem
        decide
      · subst hitem
        rcases hop with hop | hop <;> subst hop <;> decide
    · exact linesOfList_wellFormed fuel children (n + 1) hchildren line hline
  | .comment text, n, h => by
    intro line hline
    rw [Block.lines, List.mem_singleton] at hline
    subst hline
    rw [Block.wellFormed] at h
    exact ofComment_wellFormed n text h
theorem linesOfList_wellFormed (fuel : Nat) : ∀ (blocks : List Block) (n : Nat),
    Block.wellFormed.wellFormedList fuel blocks →
    ∀ line ∈ Block.lines.linesOfList n blocks, line.wellFormed
  | [], n, h => by
    intro line hline
    simp [Block.lines.linesOfList] at hline
  | block :: rest, n, h => by
    intro line hline
    rw [Block.wellFormed.wellFormedList] at h
    rw [Block.lines.linesOfList, List.mem_append] at hline
    rcases hline with hline | hline
    · exact lines_wellFormed fuel block n h.1 line hline
    · exact linesOfList_wellFormed fuel rest n h.2 line hline
end


theorem lines_head (block : Block) (n : Nat) :
    ∃ line more, block.lines n = line :: more ∧ line.level = n := by
  cases block with
  | condition content note tokens cond => exact ⟨_, _, rfl, rfl⟩
  | group logicalOp note children => exact ⟨_, _, rfl, rfl⟩
  | comment text => exact ⟨_, _, rfl, rfl⟩

theorem linesOfList_head (blocks : List Block) (n : Nat) (hne : blocks ≠ []) :
    ∃ line more, Block.lines.linesOfList n blocks = line :: more ∧ line.level = n := by
  cases blocks with
  | nil => exact absurd rfl hne
  | cons block rest =>
    obtain ⟨line, more, hlines, hlevel⟩ := lines_head block n
    exact ⟨line, more ++ Block.lines.linesOfList n rest,
      by rw [Block.lines.linesOfList, hlines]; rfl, hlevel⟩

theorem risesByOne_mono (lines : List Line) (p q : Nat) (hpq : p ≤ q)
    (h : risesByOne p lines) : risesByOne q lines := by
  cases lines with
  | nil => trivial
  | cons line rest =>
    rw [risesByOne] at h ⊢
    exact ⟨by omega, h.2⟩

mutual
theorem lines_rises (fuel : Nat) : ∀ (block : Block) (n prev : Nat) (after : List Line),
    block.wellFormed fuel → n ≤ prev + 1 → risesByOne n after →
    risesByOne prev (block.lines n ++ after)
  | .condition content note tokens cond, n, prev, after, _, hn, hafter => by
    rw [Block.lines]
    exact ⟨hn, hafter⟩
  | .comment text, n, prev, after, _, hn, hafter => by
    rw [Block.lines]
    exact ⟨hn, hafter⟩
  | .group logicalOp note [], n, prev, after, h, _, _ => by
    rw [Block.wellFormed] at h
    exact absurd rfl h.2.2.1
  | .group logicalOp note (child :: rest), n, prev, after, h, hn, hafter => by
    rw [Block.wellFormed, Block.wellFormed.wellFormedList] at h
    obtain ⟨-, -, -, hchild, hrest⟩ := h
    rw [Block.lines, Block.lines.linesOfList, List.cons_append, List.append_assoc]
    refine ⟨hn, ?_⟩
    exact lines_rises fuel child (n + 1) n _ hchild (le_refl _)
      (linesOfList_rises fuel rest (n + 1) after hrest
        (risesByOne_mono after n (n + 1) (Nat.le_succ n) hafter))
theorem linesOfList_rises (fuel : Nat) : ∀ (blocks : List Block) (n : Nat) (after : List Line),
    Block.wellFormed.wellFormedList fuel blocks → risesByOne n after →
    risesByOne n (Block.lines.linesOfList n blocks ++ after)
  | [], n, after, _, hafter => by
    rw [Block.lines.linesOfList]
    exact hafter
  | block :: rest, n, after, h, hafter => by
    rw [Block.wellFormed.wellFormedList] at h
    rw [Block.lines.linesOfList, List.append_assoc]
    exact lines_rises fuel block n n _ h.1 (Nat.le_succ n)
      (linesOfList_rises fuel rest n after h.2 hafter)
end


theorem blockTokens_dedent (n : Nat) (line : Line) (more : List Line) (h : line.level ≤ n) :
    blockTokens (n + 1) (line :: more) =
      { Kind := .DEDENT, Lexeme := "" } :: blockTokens n (line :: more) := by
  rw [blockTokens, blockTokens, if_neg (by omega), if_neg (by omega)]
  have hsub : n + 1 - line.level = (n - line.level) + 1 := by omega
  rw [hsub, List.replicate_succ]
  rfl

theorem tokensOfList_cons_dedent (block : Block) (rest : List Block) :
    Block.tokens.tokensOfList { Kind := .DEDENT, Lexeme := "" } (block :: rest) =
      block.tokens { Kind := .DEDENT, Lexeme := "" } ++
        Block.tokens.tokensOfList { Kind := .DEDENT, Lexeme := "" } rest := by
  rw [Block.tokens.tokensOfList]
  simp

mutual
theorem blockTokens_lines (fuel : Nat) : ∀ (block : Block) (n prev : Nat) (line : Line)
    (more : List Line), block.wellFormed fuel → line.level ≤ n →
    blockTokens prev (block.lines n ++ line :: more) =
      (if prev < n then [{ Kind := .INDENT, Lexeme := "" }]
        else List.replicate (prev - n) { Kind := .DEDENT, Lexeme := "" }) ++
        block.tokens { Kind := .DEDENT, Lexeme := "" } ++ blockTokens n (line :: more)
  | .condition content note tokens cond, n, prev, line, more, _, _ => by
    rw [Block.lines, Block.tokens]
    rfl
  | .comment text, n, prev, line, more, _, _ => by
    rw [Block.lines, Block.tokens]
    rfl
  | .group logicalOp note [], n, prev, line, more, h, _ => by
    rw [Block.wellFormed] at h
    exact absurd rfl h.2.2.1
  | .group logicalOp note (child :: rest), n, prev, line, more, h, hline => by
    rw [Block.wellFormed] at h
    obtain ⟨-, -, -, hchildren⟩ := h
    have hlist := blockTokens_linesOfList fuel (child :: rest) (n + 1) n line more hchildren
      (by simp) (by omega)
    rw [if_pos (Nat.lt_succ_self n), blockTokens_dedent n line more hline] at hlist
    rw [Block.lines, Block.tokens, List.cons_append, blockTokens]
    simp only [Line.ofPieces]
    rw [hlist]
    simp [Lexical.token]
theorem blockTokens_linesOfList (fuel : Nat) : ∀ (blocks : List Block) (n prev : Nat)
    (line : Line) (more : List Line), Block.wellFormed.wellFormedList fuel blocks →
    blocks ≠ [] → line.level ≤ n →
    blockTokens prev (Block.lines.linesOfList n blocks ++ line :: more) =
      (if prev < n then [{ Kind := .INDENT, Lexeme := "" }]
        else List.replicate (prev - n) { Kind := .DEDENT, Lexeme := "" }) ++
        Block.tokens.tokensOfList { Kind := .DEDENT, Lexeme := "" } blocks ++
        blockTokens n (line :: more)
  | [], n, prev, line, more, _, hne, _ => absurd rfl hne
  | [block], n, prev, line, more, h, _, hline => by
    rw [Block.wellFormed.wellFormedList] at h
    have hblock := blockTokens_lines fuel block n prev line more h.1 hline
    rw [Block.lines.linesOfList, Block.lines.linesOfList, List.append_nil, hblock,
      tokensOfList_cons_dedent]
    simp [Block.tokens.tokensOfList]
  | block :: next :: rest, n, prev, line, more, h, _, hline => by
    rw [Block.wellFormed.wellFormedList] at h
    obtain ⟨first, tail, hlines, hlevel⟩ := linesOfList_head (next :: rest) n (by simp)
    have hblock := blockTokens_lines fuel block n prev first
      (tail ++ line :: more) h.1 (le_of_eq hlevel)
    have hrest := blockTokens_linesOfList fuel (next :: rest) n n line more h.2 (by simp) hline
    rw [if_neg (lt_irrefl n), Nat.sub_self, List.replicate_zero, List.nil_append] at hrest
    rw [Block.lines.linesOfList, List.append_assoc]
    rw [hlines] at hrest ⊢
    rw [List.cons_append] at hrest ⊢
    rw [hblock, hrest, tokensOfList_cons_dedent block (next :: rest)]
    simp only [List.append_assoc]
end


theorem tokensOfList_cons_cons (close : Token) (block next : Block) (rest : List Block) :
    Block.tokens.tokensOfList close (block :: next :: rest) =
      block.tokens { Kind := .DEDENT, Lexeme := "" } ++
        Block.tokens.tokensOfList close (next :: rest) := by
  rw [Block.tokens.tokensOfList]
  simp

mutual
theorem blockTokens_last (fuel : Nat) : ∀ (block : Block) (n prev : Nat),
    block.wellFormed fuel →
    ∃ m, blockTokens prev (block.lines n) ++ List.replicate m { Kind := .EOF, Lexeme := "" } =
      (if prev < n then [{ Kind := .INDENT, Lexeme := "" }]
        else List.replicate (prev - n) { Kind := .DEDENT, Lexeme := "" }) ++
        block.tokens { Kind := .EOF, Lexeme := "" }
  | .condition content note tokens cond, n, prev, _ => by
    refine ⟨0, ?_⟩
    rw [Block.lines, Block.tokens]
    simp [blockTokens]
  | .comment text, n, prev, _ => by
    refine ⟨0, ?_⟩
    rw [Block.lines, Block.tokens]
    simp [blockTokens, Line.ofComment]
  | .group logicalOp note [], n, prev, h => by
    rw [Block.wellFormed] at h
    exact absurd rfl h.2.2.1
  | .group logicalOp note (child :: rest), n, prev, h => by
    rw [Block.wellFormed] at h
    obtain ⟨-, -, -, hchildren⟩ := h
    obtain ⟨m, hm⟩ := blockTokens_lastOfList fuel (child :: rest) (n + 1) n hchildren (by simp)
    rw [if_pos (Nat.lt_succ_self n)] at hm
    refine ⟨m + 1, ?_⟩
    rw [Block.lines, Block.tokens, blockTokens]
    simp only [Line.ofPieces]
    rw [List.replicate_succ', ← List.append_assoc, List.append_assoc _ _ (List.replicate m _), hm]
    simp [Lexical.token]
theorem blockTokens_lastOfList (fuel : Nat) : ∀ (blocks : List Block) (n prev : Nat),
    Block.wellFormed.wellFormedList fuel blocks → blocks ≠ [] →
    ∃ m, blockTokens prev (Block.lines.linesOfList n blocks) ++
        List.replicate m { Kind := .EOF, Lexeme := "" } =
      (if prev < n then [{ Kind := .INDENT, Lexeme := "" }]
        else List.replicate (prev - n) { Kind := .DEDENT, Lexeme := "" }) ++
        Block.tokens.tokensOfList { Kind := .EOF, Lexeme := "" } blocks
  | [], n, prev, _, hne => absurd rfl hne
  | [block], n, prev, h, _ => by
    rw [Block.wellFormed.wellFormedList] at h
    obtain ⟨m, hm⟩ := blockTokens_last fuel block n prev h.1
    refine ⟨m, ?_⟩
    rw [Block.lines.linesOfList, Block.lines.linesOfList, List.append_nil, hm]
    simp [Block.tokens.tokensOfList]
  | block :: next :: rest, n, prev, h, _ => by
    rw [Block.wellFormed.wellFormedList] at h
    obtain ⟨first, tail, hlines, hlevel⟩ := linesOfList_head (next :: rest) n (by simp)
    have hblock := blockTokens_lines fuel block n prev first tail h.1 (le_of_eq hlevel)
    obtain ⟨m, hm⟩ := blockTokens_lastOfList fuel (next :: rest) n n h.2 (by simp)
    rw [if_neg (lt_irrefl n), Nat.sub_self, List.replicate_zero, List.nil_append] at hm
    refine ⟨m, ?_⟩
    rw [Block.lines.linesOfList]
    rw [hlines] at hm ⊢
    rw [hblock, List.append_assoc, hm, tokensOfList_cons_cons]
    simp only [List.append_assoc]
end


theorem writtenAsList_append (fuel : Nat) :
    ∀ (front back : List Statement) (tokens more : List Token),
      Statement.writtenAs.writtenAsList fuel front tokens →
      Statement.writtenAs.writtenAsList fuel back more →
      Statement.writtenAs.writtenAsList fuel (front ++ back) (tokens ++ more) := by
  intro front
  induction front with
  | nil =>
    intro back tokens more h1 h2
    rw [Statement.writtenAs.writtenAsList] at h1
    subst h1
    exact h2
  | cons stmt rest ih =>
    intro back tokens more h1 h2
    rw [Statement.writtenAs.writtenAsList] at h1
    obtain ⟨first, tail, htokens, hstmt, hrest⟩ := h1
    rw [List.cons_append, Statement.writtenAs.writtenAsList]
    exact ⟨first, tail ++ more, by rw [htokens, List.append_assoc], hstmt,
      ih back tail more hrest h2⟩

mutual
theorem tokens_written (fuel : Nat) : ∀ (block : Block) (close : Token),
    block.wellFormed fuel → (close.Kind = .DEDENT ∨ close.Kind = .EOF) →
    Statement.writtenAs.writtenAsList fuel block.statements (block.tokens close)
  | .condition content note tokens cond, close, h, _ => by
    rw [Block.wellFormed] at h
    rw [Block.statements, Block.tokens, Statement.writtenAs.writtenAsList]
    exact ⟨tokens, [], by simp, h.2, rfl⟩
  | .comment text, close, _, _ => by
    rw [Block.statements, Block.tokens, Statement.writtenAs.writtenAsList]
  | .group logicalOp note children, close, h, hclose => by
    rw [Block.wellFormed] at h
    obtain ⟨hop, -, -, hchildren⟩ := h
    have hbody := tokensOfList_written fuel children close hchildren hclose
    rw [Block.statements, Block.tokens, Statement.writtenAs.writtenAsList]
    refine ⟨(Lexical.word "group".data).token :: (Lexical.word logicalOp).token ::
      { Kind := .INDENT, Lexeme := "" } :: (Block.tokens.tokensOfList close children ++ [close]),
      [], by simp, ?_, rfl⟩
    rw [Statement.writtenAs]
    refine ⟨_, _, _, _, _, rfl, by decide, ?_, ?_, rfl, hclose, hbody⟩
    · rcases hop with hop | hop <;> subst hop
      · exact Or.inl (by decide)
      · exact Or.inr (by decide)
    · rcases hop with hop | hop <;> subst hop <;> rfl
theorem tokensOfList_written (fuel : Nat) : ∀ (blocks : List Block) (close : Token),
    Block.wellFormed.wellFormedList fuel blocks → (close.Kind = .DEDENT ∨ close.Kind = .EOF) →
    Statement.writtenAs.writtenAsList fuel (Block.statements.statementsOfList blocks)
      (Block.tokens.tokensOfList close blocks)
  | [], close, _, _ => by
    rw [Block.statements.statementsOfList, Block.tokens.tokensOfList,
      Statement.writtenAs.writtenAsList]
  | block :: rest, close, h, hclose => by
    rw [Block.wellFormed.wellFormedList] at h
    rw [Block.statements.statementsOfList, Block.tokens.tokensOfList]
    refine writtenAsList_append fuel _ _ _ _ (tokens_written fuel block _ h.1 ?_)
      (tokensOfList_written fuel rest close h.2 hclose)
    split_ifs
    · exact hclose
    · exact Or.inl rfl
end


theorem writtenAsList_first (fuel : Nat) (stmts : List Statement) (tokens : List Token)
    (next : Token) (hnext : next.Kind ≠ .INDENT)
    (h : Statement.writtenAs.writtenAsList fuel stmts tokens) :
    ∃ first rest, tokens ++ [next] = first :: rest ∧ first.Kind ≠ .INDENT := by
  cases stmts with
  | nil =>
    rw [Statement.writtenAs.writtenAsList] at h
    subst h
    exact ⟨next, [], rfl, hnext⟩
  | cons stmt more =>
    rw [Statement.writtenAs.writtenAsList] at h
    obtain ⟨front, back, htokens, hstmt, -⟩ := h
    obtain ⟨first, tail, hfront, hkind⟩ := writtenAs_head fuel stmt front hstmt
    subst htokens hfront
    refine ⟨first, tail ++ back ++ [next], by simp, ?_⟩
    rcases hkind with h | h <;> rw [h] <;> decide

/-- When the lexer returns the tokens of a list of statements of the grammar,
then the token `next`, successive calls of `ParseNext` return the statements,
in order, and leave the parser at `next`. -/
theorem readsStatements_written (fuel : Nat) :
    ∀ (stmts : List Statement) (tokens : List Token) (next current : Token)
      (tail : List Token) (l final : Lexer),
      Statement.writtenAs.writtenAsList (fuel + 2) stmts tokens → tokens.length ≤ fuel + 2 →
      next.Kind ≠ .INDENT → tokens ++ [next] = current :: tail → l.yields tail final →
      readsStatements (fuel + 2) { lexer := l, currToken := current } stmts
        { lexer := final, currToken := next } := by
  intro stmts
  induction stmts with
  | nil =>
    intro tokens next current tail l final h _ _ hsplit hyields
    rw [Statement.writtenAs.writtenAsList] at h
    subst h
    simp only [List.nil_append, List.cons.injEq] at hsplit
    obtain ⟨hcurrent, htail⟩ := hsplit
    subst hcurrent htail
    rw [Lexer.yields] at hyields
    subst hyields
    rfl
  | cons stmt more ih =>
    intro tokens next current tail l final h hlength hnext hsplit hyields
    rw [Statement.writtenAs.writtenAsList] at h
    obtain ⟨front, back, htokens, hstmt, hmore⟩ := h
    obtain ⟨first, ftail, hfront, -⟩ := writtenAs_head (fuel + 2) stmt front hstmt
    obtain ⟨b0, btail, hback, hb0⟩ := writtenAsList_first (fuel + 2) more back next hnext hmore
    subst htokens hfront
    rw [List.append_assoc, hback, List.cons_append, List.cons.injEq] at hsplit
    obtain ⟨hcurrent, htail⟩ := hsplit
    subst hcurrent htail
    have hsplit2 : ftail ++ b0 :: btail = (ftail ++ [b0]) ++ btail := by simp
    rw [hsplit2] at hyields
    obtain ⟨middle, hfrontYields, hbackYields⟩ := (yields_append _ _ _ _).mp hyields
    simp only [List.length_append, List.length_cons] at hlength
    have hparse := ParseNext_written fuel stmt first ftail b0 l middle hstmt
      (by simp only [List.length_cons]; omega) hb0 hfrontYields
    rw [readsStatements]
    exact ⟨_, hparse, ih back next b0 btail middle final hmore (by omega) hnext hback
      hbackYields⟩

theorem yields_EOF (final : Lexer) (hch : final.ch = NUL) (hdedent : ¬ final.dedentCount > 0) :
    ∀ m, final.yields (List.replicate m { Kind := .EOF, Lexeme := "" }) final := by
  intro m
  induction m with
  | zero => rfl
  | succ n ih => exact ⟨final, Next_at_end final hch hdedent, ih⟩

theorem blockTokens_level_zero (line : Line) (rest : List Line) (h : line.level = 0) :
    blockTokens 0 (line :: rest) = line.tokens ++ blockTokens 0 rest := by
  rw [blockTokens, h]
  simp

/-- The tokenizer returns the tokens of the blocks of a rule text, then `EOF`
for ever. -/
theorem yields_blocks (k fuel : Nat) (hk : 0 < k) (blocks : List Block) (hne : blocks ≠ [])
    (hwf : Block.wellFormed.wellFormedList fuel blocks) :
    ∃ final, (NewLexer (blocksText k blocks)).yields
        (Block.tokens.tokensOfList { Kind := .EOF, Lexeme := "" } blocks ++
          [{ Kind := .EOF, Lexeme := "" }]) final := by
  obtain ⟨first, rest, hlines, hlevel⟩ := linesOfList_head blocks 0 hne
  have hwfLines := linesOfList_wellFormed fuel blocks 0 hwf
  have hrises := linesOfList_rises fuel blocks 0 [] hwf trivial
  rw [List.append_nil, hlines, risesByOne, hlevel] at hrises
  rw [hlines] at hwfLines
  obtain ⟨final, hyields, hch, hdedent⟩ := yields_text k hk first rest
    (hwfLines first (List.mem_cons_self _ _))
    (fun line hline => hwfLines line (List.mem_cons_of_mem _ hline))
  have hblock : lineTokens { unit := none, levels := [0] } rest = blockTokens 0 rest :=
    lineTokens_blockTokens rest none 0 (Or.inr ⟨rfl, rfl⟩) hrises.2
  rw [hblock, ← blockTokens_level_zero first rest hlevel, ← hlines] at hyields
  obtain ⟨m, hm⟩ := blockTokens_lastOfList fuel blocks 0 0 hwf hne
  rw [if_neg (lt_irrefl 0), Nat.sub_self, List.replicate_zero, List.nil_append] at hm
  have htext : blocksText k blocks = renderText k first rest := by
    rw [blocksText, hlines]
    rfl
  refine ⟨final, ?_⟩
  rw [htext, ← hm, List.append_assoc, ← List.replicate_succ', List.replicate_succ,
    ← List.singleton_append, ← List.append_assoc]
  exact (yields_append _ _ _ _).mpr ⟨final, hyields, yields_EOF final hch hdedent m⟩


/-- A rule text of blocks: statements written as lines, a condition on a line
of its own, a group as its header line `group and` or `group or` followed by
the lines of its children, each level written as `k` spaces more than the
level around it, with comments after a line or on lines of their own, and
with no empty line.  On such a text successive calls of `ParseNext` return
the statements of the blocks, in order, each group with the word of its
header as `LogicalOp` and with exactly the statements of its block as
children, in order and nested as the blocks are; a statement after a block
is returned by the next call, and after the last statement `ParseNext`
returns nil. -/
theorem ParseNext_blocks (k fuel : Nat) (hk : 0 < k) (blocks : List Block) (hne : blocks ≠ [])
    (hwf : Block.wellFormed.wellFormedList (fuel + 2) blocks)
    (hfuel : (Block.tokens.tokensOfList { Kind := .EOF, Lexeme := "" } blocks).length ≤
      fuel + 2) :
    ∃ p q, NewParser (fuel + 2) (NewLexer (blocksText k blocks)) = .ok p ∧
      readsStatements (fuel + 2) p (Block.statements.statementsOfList blocks) q ∧
      q.ParseNext (fuel + 2) = .ok (none, q) := by
  obtain ⟨final, hyields⟩ := yields_blocks k (fuel + 2) hk blocks hne hwf
  have hwritten := tokensOfList_written (fuel + 2) blocks { Kind := .EOF, Lexeme := "" } hwf
    (Or.inr rfl)
  obtain ⟨current, tail, hsplit, hcurrent⟩ := writtenAsList_first (fuel + 2) _ _
    { Kind := .EOF, Lexeme := "" } (by decide) hwritten
  rw [hsplit] at hyields
  obtain ⟨l1, hnext, htail⟩ := hyields
  have hstart := nextToken_of_Next (fuel + 1)
    { lexer := NewLexer (blocksText k blocks), currToken := { Kind := .EOF, Lexeme := "" } }
    current l1 hnext hcurrent
  have hreads := readsStatements_written fuel _ _ { Kind := .EOF, Lexeme := "" } current tail
    l1 final hwritten hfuel (by decide) hsplit htail
  refine ⟨_, _, hstart, hreads, ?_⟩
  simp [Parser.ParseNext]

theorem ParseNext_blocks_witness :
    ∃ p q,
      NewParser 20 (NewLexer
        "# rules\ngroup or # any of\n    group and\n        a eq 1 # first\n        # more\n    b eq 2\nc eq 3") =
        .ok p ∧
      readsStatements 20 p
        [.group "or"
          [.group "and"
            [.condition
              { Field := "a", Operator := "eq", Value := [.num (.fin 1)], Negate := false }],
           .condition
              { Field := "b", Operator := "eq", Value := [.num (.fin 2)], Negate := false }],
         .condition
            { Field := "c", Operator := "eq", Value := [.num (.fin 3)], Negate := false }] q ∧
      q.ParseNext 20 = .ok (none, q) := by
  have ha := writtenAs_plain 19 ⟨.IDENT, "a"⟩ ⟨.EQ, "eq"⟩ ⟨.NUMBER, "1"⟩ (.num (.fin 1))
    (by decide) (by decide) (by decide) (by decide) (by decide) (by decide) rfl
  have hb := writtenAs_plain 19 ⟨.IDENT, "b"⟩ ⟨.EQ, "eq"⟩ ⟨.NUMBER, "2"⟩ (.num (.fin 2))
    (by decide) (by decide) (by decide) (by decide) (by decide) (by decide) rfl
  have hc := writtenAs_plain 19 ⟨.IDENT, "c"⟩ ⟨.EQ, "eq"⟩ ⟨.NUMBER, "3"⟩ (.num (.fin 3))
    (by decide) (by decide) (by decide) (by decide) (by decide) (by decide) rfl
  have la : (Line.mk 0 "a eq 1".data " # first".data
      [⟨.IDENT, "a"⟩, ⟨.EQ, "eq"⟩, ⟨.NUMBER, "1"⟩]).wellFormed :=
    ofPieces_wellFormed 0 [.word "a".data, .word "eq".data, .number "1".data] " # first".data
      (by simp) (by decide) (by decide)
  have lb : (Line.mk 0 "b eq 2".data []
      [⟨.IDENT, "b"⟩, ⟨.EQ, "eq"⟩, ⟨.NUMBER, "2"⟩]).wellFormed :=
    ofPieces_wellFormed 0 [.word "b".data, .word "eq".data, .number "2".data] []
      (by simp) (by decide) (by decide)
  have lc : (Line.mk 0 "c eq 3".data []
      [⟨.IDENT, "c"⟩, ⟨.EQ, "eq"⟩, ⟨.NUMBER, "3"⟩]).wellFormed :=
    ofPieces_wellFormed 0 [.word "c".data, .word "eq".data, .number "3".data] []
      (by simp) (by decide) (by decide)
  exact ParseNext_blocks 4 18 (by decide)
    [.comment " rules".data,
     .group "or".data " # any of".data
      [.group "and".data []
        [.condition "a eq 1".data " # first".data
          [⟨.IDENT, "a"⟩, ⟨.EQ, "eq"⟩, ⟨.NUMBER, "1"⟩]
          { Field := "a", Operator := "eq", Value := [.num (.fin 1)], Negate := false },
         .comment " more".data],
       .condition "b eq 2".data []
          [⟨.IDENT, "b"⟩, ⟨.EQ, "eq"⟩, ⟨.NUMBER, "2"⟩]
          { Field := "b", Operator := "eq", Value := [.num (.fin 2)], Negate := false }],
     .condition "c eq 3".data []
        [⟨.IDENT, "c"⟩, ⟨.EQ, "eq"⟩, ⟨.NUMBER, "3"⟩]
        { Field := "c", Operator := "eq", Value := [.num (.fin 3)], Negate := false }]
    (by simp)
    ⟨by rw [Block.wellFormed]; decide, ⟨Or.inr rfl, by decide, by simp,
      ⟨Or.inl rfl, by decide, by simp, ⟨la, ha⟩, by rw [Block.wellFormed]; decide, trivial⟩,
      ⟨lb, hb⟩, trivial⟩, ⟨lc, hc⟩, trivial⟩
    (by decide)

/-! ## The indentation fields -/

theorem sameIndentation_refl (l : Lexer) : l.sameIndentation l := ⟨rfl, rfl, rfl, rfl⟩

theorem sameIndentation_trans (a b c : Lexer) (h1 : a.sameIndentation b)
    (h2 : b.sameIndentation c) : a.sameIndentation c :=
  ⟨h1.1.trans h2.1, h1.2.1.trans h2.2.1, h1.2.2.1.trans h2.2.2.1, h1.2.2.2.trans h2.2.2.2⟩

theorem readRune_sameIndentation (l : Lexer) : l.sameIndentation l.readRune :=
  ⟨rfl, rfl, rfl, rfl⟩

theorem readWhile_sameIndentation (cond : Char → Bool) :
    ∀ (fuel : Nat) (l : Lexer), l.sameIndentation (Lexer.readWhile cond fuel l) := by
  intro fuel
  induction fuel with
  | zero => intro l; exact sameIndentation_refl l
  | succ n ih =>
    intro l
    rw [Lexer.readWhile]
    split_ifs
    · exact sameIndentation_trans _ _ _ (readRune_sameIndentation l) (ih _)
    · exact sameIndentation_refl l

theorem readIndentLoop_sameIndentation (ch : Char) :
    ∀ (fuel : Nat) (l : Lexer) (count : Int),
      l.sameIndentation (Lexer.readIndentLoop ch fuel l count).1 ∧
        count ≤ (Lexer.readIndentLoop ch fuel l count).2 := by
  intro fuel
  induction fuel with
  | zero => intro l count; exact ⟨sameIndentation_refl l, le_refl _⟩
  | succ n ih =>
    intro l count
    rw [Lexer.readIndentLoop]
    split_ifs
    · obtain ⟨h1, h2⟩ := ih l.readRune (count + 1)
      exact ⟨sameIndentation_trans _ _ _ (readRune_sameIndentation l) h1, by omega⟩
    · exact ⟨sameIndentation_refl l, le_refl _⟩

theorem readIndentLoop_of_not (ch : Char) (fuel : Nat) (l : Lexer) (count : Int)
    (h : l.peek ≠ ch) : Lexer.readIndentLoop ch fuel l count = (l, count) := by
  cases fuel with
  | zero => rfl
  | succ n => rw [Lexer.readIndentLoop, if_neg h]

theorem readStringLoop_sameIndentation :
    ∀ (fuel : Nat) (l : Lexer) (builder : List Char),
      l.sameIndentation (Lexer.readStringLoop fuel l builder).1 := by
  intro fuel
  induction fuel with
  | zero => intro l builder; exact sameIndentation_refl l
  | succ n ih =>
    intro l builder
    rw [Lexer.readStringLoop]
    split_ifs
    · exact sameIndentation_trans _ _ _ (readRune_sameIndentation l) (ih _ _)
    · exact sameIndentation_refl l

theorem lookupKeyword_ne_DEDENT (lexeme : String) : lookupKeyword lexeme ≠ .DEDENT := by
  unfold lookupKeyword
  cases h : keywords.lookup lexeme with
  | none => simp
  | some kind =>
    have hmem := lookup_mem_values lexeme kind keywords h
    intro heq
    simp only at heq
    subst heq
    revert hmem
    decide

theorem scanToken_sameIndentation (l : Lexer) :
    l.sameIndentation l.scanToken.2 ∧ l.scanToken.1.Kind ≠ .INDENT ∧
      l.scanToken.1.Kind ≠ .DEDENT := by
  unfold Lexer.scanToken
  split_ifs with h1 h2 h3 h4 h5 h6 h7
  · unfold Lexer.readStringToken
    simp only
    have hloop := readStringLoop_sameIndentation (l.readRune.input.length + 1) l.readRune []
    split_ifs
    · exact ⟨sameIndentation_trans _ _ _ (readRune_sameIndentation l)
        (sameIndentation_trans _ _ _ hloop (readRune_sameIndentation _)),
        by simp [Lexer.newToken], by simp [Lexer.newToken]⟩
    · exact ⟨sameIndentation_trans _ _ _ (readRune_sameIndentation l) hloop,
        by simp [Lexer.newToken], by simp [Lexer.newToken]⟩
  · exact ⟨readRune_sameIndentation l, by simp [Lexer.newToken], by simp [Lexer.newToken]⟩
  · exact ⟨readRune_sameIndentation l, by simp [Lexer.newToken], by simp [Lexer.newToken]⟩
  · exact ⟨readRune_sameIndentation l, by simp [Lexer.newToken], by simp [Lexer.newToken]⟩
  · exact ⟨readWhile_sameIndentation _ _ l, lookupKeyword_ne_INDENT _,
      lookupKeyword_ne_DEDENT _⟩
  · exact ⟨readWhile_sameIndentation _ _ l, by simp [Lexer.newToken, Lexer.readNumber],
      by simp [Lexer.newToken, Lexer.readNumber]⟩
  · exact ⟨sameIndentation_refl l, by simp [Lexer.newToken], by simp [Lexer.newToken]⟩
  · exact ⟨readRune_sameIndentation l, by simp [Lexer.newToken], by simp [Lexer.newToken]⟩

theorem sound_of_sameIndentation (a b : Lexer) (h : a.sameIndentation b) (ha : a.sound) :
    b.sound := by
  obtain ⟨h1, h2, h3, h4⟩ := h
  unfold Lexer.sound at ha ⊢
  rw [← h1, ← h2, ← h3, ← h4]
  exact ha

theorem countSpaces_le : ∀ (chars : List Char) (i j : Nat),
    countSpaces chars i = some j → i ≤ j := by
  intro chars
  induction chars with
  | nil => intro i j h; simp [countSpaces] at h
  | cons c rest ih =>
    intro i j h
    rw [countSpaces] at h
    split_ifs at h
    · have := ih (i + 1) j h
      omega
    · simp only [Option.some.injEq] at h
      omega

theorem setIndentationMode_ok (l l1 : Lexer) (h : l.setIndentationMode = .ok l1) :
    (∃ spaces width, l1 = { l with useSpaces := spaces, indentWidth := width }) ∧
      (l.sound → l1.sound) ∧
      (l1.indentWidth = -1 → l1.ch = '\n' → l1.peek ≠ '\t') := by
  unfold Lexer.setIndentationMode at h
  simp only at h
  split_ifs at h with h1
  · cases h
    refine ⟨⟨l.useSpaces, l.indentWidth, rfl⟩, id, ?_⟩
    intro hwidth hch htab
    simp [hwidth, hch, htab] at h1
    revert h1
    decide
  · cases hbyte : byteAt l.input l.readPosition with
    | none => rw [hbyte] at h; cases h
    | some c =>
      rw [hbyte] at h
      simp only at h
      split_ifs at h with htab
      · cases h
        refine ⟨⟨false, 1, rfl⟩, ?_, ?_⟩
        · intro hs
          refine ⟨hs.1, hs.2.1, hs.2.2.1, ?_, ?_⟩
          · intro hfalse
            exact absurd hfalse (by simp)
          · intro hwidth
            exact absurd hwidth (by simp)
        · intro hwidth
          exact absurd hwidth (by simp)
      · cases hcount : countSpaces (l.input.drop l.readPosition) 0 with
        | none => rw [hcount] at h; cases h
        | some i =>
          rw [hcount] at h
          cases h
          have hpos : l.readPosition < l.input.length := by
            simp only [byteAt] at hbyte
            rw [List.get?_eq_getElem?] at hbyte
            exact (List.getElem?_eq_some_iff.mp hbyte).1
          have hpeek : l.peek = c := by
            simp [Lexer.peek, hbyte, Nat.not_le.mpr hpos]
          have hspace : c = ' ' := by
            by_contra hne
            apply h1
            simp [hpeek, hne, htab]
          have hdrop : l.input.drop l.readPosition = c :: l.input.drop (l.readPosition + 1) := by
            simp only [byteAt] at hbyte
            rw [List.get?_eq_getElem?] at hbyte
            rw [List.drop_eq_getElem_cons hpos]
            congr 1
            exact Option.some.inj ((List.getElem?_eq_getElem hpos).symm.trans hbyte)
          have hone : 1 ≤ i := by
            rw [hdrop, countSpaces, hspace] at hcount
            have hblank : unicodeIsSpace ' ' = true := by decide
            rw [if_pos hblank] at hcount
            exact countSpaces_le _ _ _ hcount
          refine ⟨⟨true, i, rfl⟩, ?_, ?_⟩
          · intro hs
            refine ⟨hs.1, hs.2.1, hs.2.2.1, fun _ => ?_, fun hwidth => ?_⟩
            · show (0 : Int) < (i : Int)
              omega
            · have : ((i : Nat) : Int) = -1 := hwidth
              omega
          · intro hwidth
            have : ((i : Nat) : Int) = -1 := hwidth
            omega

theorem readRune_ch (l : Lexer) : l.readRune.ch = l.peek := rfl

theorem readIndentLoop_ch (ch : Char) :
    ∀ (fuel : Nat) (l : Lexer) (count : Int),
      Lexer.readIndentLoop ch fuel l count = (l, count) ∨
        ((Lexer.readIndentLoop ch fuel l count).1.ch = ch ∧
          count < (Lexer.readIndentLoop ch fuel l count).2) := by
  intro fuel
  induction fuel with
  | zero => intro l count; exact Or.inl rfl
  | succ n ih =>
    intro l count
    rw [Lexer.readIndentLoop]
    split_ifs with hpeek
    · right
      rcases ih l.readRune (count + 1) with h | ⟨h1, h2⟩
      · rw [h]
        exact ⟨by rw [readRune_ch]; exact hpeek, by simp⟩
      · exact ⟨h1, by omega⟩
    · exact Or.inl rfl

theorem readIndentLevel_ok (l l1 : Lexer) (level : Int)
    (h : l.readIndentLevel = .ok (level, l1)) :
    l.sameIndentation l1 ∧
      ((l.useSpaces = true → 0 < l.indentWidth) → 0 ≤ level) ∧
      (l.useSpaces = false → l.peek ≠ '\t' → level = 0) ∧
      (level ≠ 0 → l1.ch ≠ '\n') := by
  unfold Lexer.readIndentLevel at h
  simp only at h
  have hloop := readIndentLoop_sameIndentation (if l.useSpaces = true then ' ' else '\t')
    l.input.length l 0
  have hch := readIndentLoop_ch (if l.useSpaces = true then ' ' else '\t') l.input.length l 0
  cases hspaces : l.useSpaces with
  | true =>
    rw [hspaces] at hloop hch h
    simp only [if_true] at hloop hch h
    have hsame : (Lexer.readIndentLoop ' ' l.input.length l 0).1.useSpaces = true := by
      rw [← hloop.1.2.1, hspaces]
    rw [hsame] at h
    simp only [if_true] at h
    split_ifs at h with hzero
    simp only [Outcome.ok.injEq, Prod.mk.injEq] at h
    obtain ⟨hlevel, hl1⟩ := h
    subst hl1
    refine ⟨hloop.1, ?_, ?_, ?_⟩
    · intro hwidth
      have hpos := hwidth rfl
      rw [hloop.1.1] at hpos
      rw [← hlevel]
      exact Int.tdiv_nonneg hloop.2 (le_of_lt hpos)
    · intro hfalse
      cases hfalse
    · intro hne
      rcases hch with hsame2 | ⟨hc, -⟩
      · exfalso
        apply hne
        rw [← hlevel, hsame2]
        simp
      · rw [hc]
        decide
  | false =>
    rw [hspaces] at hloop hch h
    simp only [Bool.false_eq_true, if_false] at hloop hch h
    have hsame : (Lexer.readIndentLoop '\t' l.input.length l 0).1.useSpaces = false := by
      rw [← hloop.1.2.1, hspaces]
    rw [hsame] at h
    simp only [Bool.false_eq_true, if_false, Outcome.ok.injEq, Prod.mk.injEq] at h
    obtain ⟨hlevel, hl1⟩ := h
    subst hl1
    refine ⟨hloop.1, ?_, ?_, ?_⟩
    · intro _
      rw [← hlevel]
      exact hloop.2
    · intro _ hpeek
      rw [← hlevel, readIndentLoop_of_not _ _ _ _ hpeek]
    · intro hne
      rcases hch with hsame2 | ⟨hc, -⟩
      · exfalso
        apply hne
        rw [← hlevel, hsame2]
      · rw [hc]
        decide

theorem popLevels_ok (level : Int) :
    ∀ (fuel : Nat) (stack : List Int) (count : Int) (stack1 : List Int) (count1 : Int),
      popLevels level fuel stack count = .ok (stack1, count1) →
      ∃ popped top, stack = stack1 ++ popped ∧ count1 = count + popped.length ∧
        (∀ x ∈ popped, level < x) ∧ stack1.getLast? = some top ∧ top ≤ level := by
  intro fuel
  induction fuel with
  | zero => intro stack count stack1 count1 h; simp [popLevels] at h
  | succ n ih =>
    intro stack count stack1 count1 h
    rw [popLevels] at h
    cases htop : stackTop stack with
    | ok top =>
      rw [htop] at h
      simp only at h
      have hlast : stack.getLast? = some top := by
        unfold stackTop at htop
        cases hl : stack.getLast? with
        | none => rw [hl] at htop; cases htop
        | some t => rw [hl] at htop; cases htop; rfl
      split_ifs at h with hlt
      · obtain ⟨popped, top1, hstack, hcount, hall, hlast1, hle⟩ := ih _ _ _ _ h
        refine ⟨popped ++ [top], top1, ?_, ?_, ?_, hlast1, hle⟩
        · rw [← List.append_assoc, ← hstack]
          exact (List.dropLast_append_getLast? top hlast).symm
        · rw [hcount]
          simp only [List.length_append, List.length_singleton, Nat.cast_add, Nat.cast_one]
          omega
        · intro x hx
          rcases List.mem_append.mp hx with hx | hx
          · exact hall x hx
          · rw [List.mem_singleton] at hx
            rw [hx]
            exact hlt
      · simp only [Outcome.ok.injEq, Prod.mk.injEq] at h
        obtain ⟨h1, h2⟩ := h
        subst h1 h2
        exact ⟨[], top, by simp, by simp, by simp, hlast, by omega⟩
    | error m => rw [htop] at h; cases h
    | panic m => rw [htop] at h; cases h
    | timeout => rw [htop] at h; cases h

theorem stackTop_ok (stack : List Int) (top : Int) (h : stackTop stack = .ok top) :
    stack.getLast? = some top := by
  unfold stackTop at h
  cases hl : stack.getLast? with
  | none => rw [hl] at h; cases h
  | some t => rw [hl] at h; cases h; rfl

theorem head?_of_append (front popped : List Int) (zero top : Int)
    (hhead : (front ++ popped).head? = some zero) (hlast : front.getLast? = some top) :
    front.head? = some zero := by
  cases front with
  | nil => simp at hlast
  | cons x xs => simpa using hhead

theorem indentStep_ok (l l1 : Lexer) (r : Option Token) (h : l.indentStep = .ok (r, l1))
    (hs : l.sound) (_hd : ¬ l.dedentCount > 0)
    (hmode : l.indentWidth = -1 → l.ch = '\n' → l.peek ≠ '\t') :
    l1.sound ∧
      (∀ token, r = some token →
        (l1.indentStack.length : Int) + l1.dedentCount =
          l.indentStack.length + l.dedentCount + token.indentChange) ∧
      (r = none → l.sameIndentation l1) := by
  unfold Lexer.indentStep at h
  split_ifs at h with hch
  · cases hlevel : l.readIndentLevel with
    | ok r1 =>
      obtain ⟨level, l2⟩ := r1
      rw [hlevel] at h
      simp only at h
      obtain ⟨hsame, -, hzero, -⟩ := readIndentLevel_ok l l2 level hlevel
      have hs2 := sound_of_sameIndentation l l2 hsame hs
      obtain ⟨hhead, hchain, hdedent, hwidth, hunset⟩ := hs2
      have hlevel0 : l2.indentWidth = -1 → level = 0 ∧ l2.indentStack = [0] := by
        intro hw
        obtain ⟨hstack, hspaces⟩ := hunset hw
        rw [← hsame.1] at hw
        rw [← hsame.2.1] at hspaces
        exact ⟨hzero hspaces (hmode hw hch), hstack⟩
      cases htop : stackTop l2.indentStack with
      | ok top =>
        rw [htop] at h
        simp only at h
        have hlast := stackTop_ok _ _ htop
        split_ifs at h with hgt hlt
        · simp only [Outcome.ok.injEq, Prod.mk.injEq] at h
          obtain ⟨hr, hl1⟩ := h
          subst hr hl1
          refine ⟨⟨?_, ?_, hdedent, hwidth, ?_⟩, ?_, fun hnone => Option.noConfusion hnone⟩
          · show (l2.indentStack ++ [level]).head? = some 0
            cases hst : l2.indentStack with
            | nil => rw [hst] at hhead; cases hhead
            | cons x xs => rw [hst] at hhead; simpa using hhead
          · show (l2.indentStack ++ [level]).Chain' (· < ·)
            rw [List.chain'_append]
            refine ⟨hchain, List.chain'_singleton _, ?_⟩
            intro x hx y hy
            rw [hlast] at hx
            simp only [Option.mem_def, Option.some.injEq, List.head?_cons] at hx hy
            subst hx hy
            exact hgt
          · intro hw
            obtain ⟨h0, hstack⟩ := hlevel0 hw
            rw [hstack] at hlast
            simp only [List.getLast?_singleton, Option.some.injEq] at hlast
            omega
          · intro token htoken
            simp only [Option.some.injEq] at htoken
            subst htoken
            show ((l2.indentStack ++ [level]).length : Int) + l2.dedentCount = _
            rw [hsame.2.2.1, hsame.2.2.2]
            simp [Token.indentChange, Lexer.newToken]
            omega
        · cases hpop : popLevels level (l2.indentStack.length + 1) l2.indentStack
              l2.dedentCount with
          | ok r2 =>
            obtain ⟨stack1, count1⟩ := r2
            rw [hpop] at h
            simp only [Outcome.ok.injEq, Prod.mk.injEq] at h
            obtain ⟨hr, hl1⟩ := h
            subst hr hl1
            obtain ⟨popped, top1, hstack, hcount, -, hlast1, hle⟩ := popLevels_ok _ _ _ _ _ _ hpop
            have hpopped : 1 ≤ popped.length := by
              cases popped with
              | nil =>
                rw [List.append_nil] at hstack
                rw [← hstack, hlast] at hlast1
                simp only [Option.some.injEq] at hlast1
                omega
              | cons x xs => simp
            refine ⟨⟨?_, ?_, ?_, hwidth, ?_⟩, ?_, fun hnone => Option.noConfusion hnone⟩
            · show stack1.head? = some 0
              rw [hstack] at hhead
              exact head?_of_append stack1 popped 0 top1 hhead hlast1
            · show stack1.Chain' (· < ·)
              rw [hstack, List.chain'_append] at hchain
              exact hchain.1
            · show (0 : Int) ≤ count1 - 1
              omega
            · intro hw
              obtain ⟨h0, hst⟩ := hlevel0 hw
              rw [hst] at hlast
              simp only [List.getLast?_singleton, Option.some.injEq] at hlast
              omega
            · intro token htoken
              simp only [Option.some.injEq] at htoken
              subst htoken
              show (stack1.length : Int) + (count1 - 1) = _
              rw [hsame.2.2.1, hsame.2.2.2, hcount]
              have hlen : (l2.indentStack.length : Int) = stack1.length + popped.length := by
                rw [hstack]
                simp
              rw [hlen]
              simp only [Token.indentChange, Lexer.newToken]
              simp
              omega
          | error m => rw [hpop] at h; cases h
          | panic m => rw [hpop] at h; cases h
          | timeout => rw [hpop] at h; cases h
        · simp only [Outcome.ok.injEq, Prod.mk.injEq] at h
          obtain ⟨hr, hl1⟩ := h
          subst hr hl1
          exact ⟨⟨hhead, hchain, hdedent, hwidth, hunset⟩,
            fun token htoken => Option.noConfusion htoken, fun _ => hsame⟩
      | error m => rw [htop] at h; cases h
      | panic m => rw [htop] at h; cases h
      | timeout => rw [htop] at h; cases h
    | error m => rw [hlevel] at h; cases h
    | panic m => rw [hlevel] at h; cases h
    | timeout => rw [hlevel] at h; cases h
  · simp only [Outcome.ok.injEq, Prod.mk.injEq] at h
    obtain ⟨hr, hl1⟩ := h
    subst hr hl1
    exact ⟨hs, fun token htoken => Option.noConfusion htoken, fun _ => sameIndentation_refl l⟩

theorem nextFuel_step :
    ∀ (fuel : Nat) (l l1 : Lexer) (token : Token),
      Lexer.nextFuel fuel l = .ok (token, l1) → l.sound →
      l1.sound ∧
        (l1.indentStack.length : Int) + l1.dedentCount =
          l.indentStack.length + l.dedentCount + token.indentChange := by
  intro fuel
  induction fuel with
  | zero => intro l l1 token h; simp [Lexer.nextFuel] at h
  | succ n ih =>
    intro l0 l1 token h hs0
    rw [Lexer.nextFuel] at h
    cases hmode : l0.setIndentationMode with
    | ok l =>
      rw [hmode] at h
      simp only at h
      obtain ⟨⟨spaces, width, hl⟩, hsound, hpeek⟩ := setIndentationMode_ok l0 l hmode
      have hs := hsound hs0
      have hstack : l.indentStack = l0.indentStack := by rw [hl]
      have hcount : l.dedentCount = l0.dedentCount := by rw [hl]
      rw [← hstack, ← hcount]
      split_ifs at h with hdedent
      · simp only [Outcome.ok.injEq, Prod.mk.injEq] at h
        obtain ⟨htoken, hl1⟩ := h
        subst htoken hl1
        refine ⟨⟨hs.1, hs.2.1, ?_, hs.2.2.2.1, hs.2.2.2.2⟩, ?_⟩
        · show (0 : Int) ≤ l.dedentCount - 1
          omega
        · show (l.indentStack.length : Int) + (l.dedentCount - 1) = _
          simp [Token.indentChange, Lexer.newToken]
          omega
      · cases hstep : l.indentStep with
        | ok r =>
          obtain ⟨tok, l2⟩ := r
          rw [hstep] at h
          obtain ⟨hs2, hbalance, hnone⟩ := indentStep_ok l l2 tok hstep hs hdedent hpeek
          cases tok with
          | some t =>
            simp only [Outcome.ok.injEq, Prod.mk.injEq] at h
            obtain ⟨htoken, hl1⟩ := h
            subst htoken hl1
            exact ⟨hs2, hbalance t rfl⟩
          | none =>
            simp only at h
            have hsame := hnone rfl
            have hskip := readWhile_sameIndentation
              (fun c => c = ' ' || c = '\t' || c = '\n' || c = '\r') (l2.input.length + 1) l2
            have hsame2 := sameIndentation_trans _ _ _ hsame hskip
            split_ifs at h with hcomment
            · have hcom := readWhile_sameIndentation (fun c => c ≠ '\n' && c ≠ NUL)
                (l2.skipWhitespace.input.length + 1) l2.skipWhitespace
              have hsame3 := sameIndentation_trans _ _ _ hsame2 hcom
              obtain ⟨hs1, hb1⟩ := ih _ _ _ h (sound_of_sameIndentation _ _ hsame3 hs)
              refine ⟨hs1, ?_⟩
              rw [hb1, hsame3.2.2.1, hsame3.2.2.2]
              rfl
            · simp only [Outcome.ok.injEq] at h
              obtain ⟨hscan, hindent, hdedentKind⟩ := scanToken_sameIndentation l2.skipWhitespace
              rw [h] at hscan hindent hdedentKind
              have hsame3 := sameIndentation_trans _ _ _ hsame2 hscan
              refine ⟨sound_of_sameIndentation _ _ hsame3 hs, ?_⟩
              rw [hsame3.2.2.1, hsame3.2.2.2]
              simp [Token.indentChange, hindent, hdedentKind]
        | error m => rw [hstep] at h; cases h
        | panic m => rw [hstep] at h; cases h
        | timeout => rw [hstep] at h; cases h
    | error m => rw [hmode] at h; cases h
    | panic m => rw [hmode] at h; cases h
    | timeout => rw [hmode] at h; cases h

theorem NewLexer_sound (input : String) : (NewLexer input).sound := by
  rw [NewLexer_atSplit]
  refine ⟨rfl, ?_, ?_, ?_, ?_⟩
  · exact List.chain'_singleton _
  · exact le_refl _
  · intro h
    cases h
  · intro _
    exact ⟨rfl, rfl⟩

theorem indentBalance_cons (token : Token) (tokens : List Token) :
    indentBalance (token :: tokens) = token.indentChange + indentBalance tokens := by
  unfold indentBalance Token.indentChange
  by_cases h1 : token.Kind = .INDENT
  · have h2 : token.Kind ≠ .DEDENT := by rw [h1]; decide
    simp [List.countP_cons, h1]
    omega
  · by_cases h2 : token.Kind = .DEDENT
    · simp [List.countP_cons, h2]
      omega
    · simp [List.countP_cons, h1, h2]

theorem yields_sound :
    ∀ (tokens : List Token) (l final : Lexer), l.yields tokens final → l.sound →
      final.sound ∧
        (final.indentStack.length : Int) + final.dedentCount =
          l.indentStack.length + l.dedentCount + indentBalance tokens := by
  intro tokens
  induction tokens with
  | nil =>
    intro l final h hs
    rw [Lexer.yields] at h
    subst h
    exact ⟨hs, by simp [indentBalance]⟩
  | cons token rest ih =>
    intro l final h hs
    obtain ⟨l1, hnext, hrest⟩ := h
    obtain ⟨hs1, hb1⟩ := nextFuel_step _ l l1 token hnext hs
    obtain ⟨hs2, hb2⟩ := ih l1 final hrest hs1
    refine ⟨hs2, ?_⟩
    rw [hb2, hb1, indentBalance_cons]
    omega

theorem le_top_of_increasing (stack : List Int) (top : Int)
    (hchain : stack.Chain' (· < ·)) (hlast : stack.getLast? = some top) :
    ∀ x ∈ stack, x ≤ top := by
  obtain ⟨front, hfront⟩ := List.getLast?_eq_some_iff.1 hlast
  subst hfront
  rw [List.chain'_iff_pairwise, List.pairwise_append] at hchain
  intro x hx
  rw [List.mem_append, List.mem_singleton] at hx
  rcases hx with hx | hx
  · exact le_of_lt (hchain.2.2 x hx top (List.mem_singleton.2 rfl))
  · exact le_of_eq hx

theorem top_nonneg (l : Lexer) (top : Int) (hs : l.sound)
    (hlast : l.indentStack.getLast? = some top) : 0 ≤ top := by
  apply le_top_of_increasing l.indentStack top hs.2.1 hlast
  cases hst : l.indentStack with
  | nil => rw [hst] at hlast; cases hlast
  | cons x xs =>
    have hhead := hs.1
    rw [hst] at hhead
    simp only [List.head?_cons, Option.some.injEq] at hhead
    rw [hhead]
    exact List.mem_cons_self _ _

theorem popLevels_total (level : Int) (hlevel : 0 ≤ level) :
    ∀ (fuel : Nat) (stack : List Int) (count : Int), stack.length < fuel →
      stack.head? = some 0 → ∃ r, popLevels level fuel stack count = .ok r := by
  intro fuel
  induction fuel with
  | zero => intro stack count h; omega
  | succ n ih =>
    intro stack count hlen hhead
    rw [popLevels]
    cases hl : stack.getLast? with
    | none =>
      rw [List.getLast?_eq_none_iff] at hl
      rw [hl] at hhead
      cases hhead
    | some top =>
      simp only [stackTop, hl]
      split_ifs with hlt
      · apply ih
        · rw [List.length_dropLast]
          have hpos : 0 < stack.length := by
            cases stack with
            | nil => cases hhead
            | cons x xs => simp
          omega
        · rw [List.head?_dropLast]
          have hlong : 1 < stack.length := by
            match stack, hhead, hl with
            | [x], hhead, hl =>
              simp only [List.head?_cons, Option.some.injEq, List.getLast?_singleton] at hhead hl
              omega
            | x :: y :: rest, _, _ => simp
          rw [if_pos hlong]
          exact hhead
      · exact ⟨_, rfl⟩

theorem filter_levels (front popped : List Int) (level : Int)
    (hfront : ∀ x ∈ front, x ≤ level) (hpopped : ∀ x ∈ popped, level < x) :
    (front ++ popped).filter (fun x => decide (x ≤ level)) = front ∧
      (front ++ popped).filter (fun x => decide (level < x)) = popped := by
  constructor
  · rw [List.filter_append, List.filter_eq_self.2, List.filter_eq_nil_iff.2, List.append_nil]
    · intro x hx
      simpa using hpopped x hx
    · intro x hx
      simpa using hfront x hx
  · have h1 : front.filter (fun x => decide (level < x)) = [] :=
      List.filter_eq_nil_iff.2 (fun x hx => by simpa using hfront x hx)
    have h2 : popped.filter (fun x => decide (level < x)) = popped :=
      List.filter_eq_self.2 (fun x hx => by simpa using hpopped x hx)
    rw [List.filter_append, h1, h2, List.nil_append]

theorem yields_drain :
    ∀ (m : Nat) (s : Lexer), s.indentWidth ≠ -1 → s.dedentCount = (m : Int) →
      s.yields (List.replicate m { Kind := .DEDENT, Lexeme := "" })
        { s with dedentCount := 0 } := by
  intro m
  induction m with
  | zero =>
    intro s _ hcount
    rw [List.replicate_zero, Lexer.yields]
    obtain ⟨input, position, readPosition, ch, width, spaces, stack, dedent⟩ := s
    simp only [Nat.cast_zero] at hcount
    subst hcount
    rfl
  | succ k ih =>
    intro s hwidth hcount
    rw [List.replicate_succ]
    have hpos : s.dedentCount > 0 := by
      rw [hcount]
      push_cast
      omega
    refine ⟨_, Next_pending s s (setIndentationMode_set s hwidth) hpos, ?_⟩
    have hrest := ih { s with dedentCount := s.dedentCount - 1 } hwidth (by
      show s.dedentCount - 1 = (k : Int)
      rw [hcount]
      push_cast
      omega)
    exact hrest

/-- The facts about a state in which `Next` measures a line break: the state
is sound, the measured level is not negative, and the width of one step is
set as soon as the level differs from the top of the stack. -/
theorem line_break_facts (l0 l l1 : Lexer) (level top : Int) (hs0 : l0.sound)
    (hmode : l0.setIndentationMode = .ok l) (hch : l.ch = '\n')
    (hlevel : l.readIndentLevel = .ok (level, l1))
    (htop : stackTop l.indentStack = .ok top) :
    l.sound ∧ l.sameIndentation l1 ∧ stackTop l1.indentStack = .ok top ∧ 0 ≤ level ∧
      0 ≤ top ∧ (level ≠ top → l.indentWidth ≠ -1) ∧ (level ≠ 0 → l1.ch ≠ '\n') := by
  obtain ⟨-, hsound, hpeek⟩ := setIndentationMode_ok l0 l hmode
  have hs := hsound hs0
  obtain ⟨hsame, hnonneg, hzero, hne⟩ := readIndentLevel_ok l l1 level hlevel
  have htop0 := top_nonneg l top hs (stackTop_ok _ _ htop)
  refine ⟨hs, hsame, ?_, hnonneg hs.2.2.2.1, htop0, ?_, hne⟩
  · rw [← hsame.2.2.1]
    exact htop
  · intro hdiff hw
    obtain ⟨hstack, hspaces⟩ := hs.2.2.2.2 hw
    have h0 := hzero hspaces (hpeek hw hch)
    have hlast := stackTop_ok _ _ htop
    rw [hstack] at hlast
    simp only [List.getLast?_singleton, Option.some.injEq] at hlast
    omega

/-! ## The indent stack and the balance of `INDENT` and `DEDENT` -/

/-- C25: in every lexer state reached from `NewLexer input` by calls to `Next`
that return a token, `indentStack` is not empty, its bottom entry is 0, its
entries are strictly increasing from bottom to top, `dedentCount` is not
negative, and reading the top of the stack gives a value. -/
theorem indent_stack_invariant (input : String) (tokens : List Token) (l : Lexer)
    (hreach : (NewLexer input).yields tokens l) :
    l.indentStack ≠ [] ∧ l.indentStack.head? = some 0 ∧
      l.indentStack.Pairwise (· < ·) ∧ 0 ≤ l.dedentCount ∧
      ∃ top, stackTop l.indentStack = .ok top := by
  obtain ⟨⟨hhead, hchain, hdedent, -, -⟩, -⟩ :=
    yields_sound tokens (NewLexer input) l hreach (NewLexer_sound input)
  have hne : l.indentStack ≠ [] := by
    intro hnil
    rw [hnil] at hhead
    cases hhead
  refine ⟨hne, hhead, List.chain'_iff_pairwise.1 hchain, hdedent, ?_⟩
  cases hlast : l.indentStack.getLast? with
  | none => exact absurd (List.getLast?_eq_none_iff.1 hlast) hne
  | some top => exact ⟨top, by simp only [stackTop, hlast]⟩

theorem indent_stack_invariant_witness :
    ∃ l, (NewLexer "group and\n  group or\n    a eq 1\nb eq 2").yields
        [⟨.GROUP, "group"⟩, ⟨.AND, "and"⟩, ⟨.INDENT, ""⟩, ⟨.GROUP, "group"⟩, ⟨.OR, "or"⟩,
          ⟨.INDENT, ""⟩, ⟨.IDENT, "a"⟩] l ∧
      l.indentStack = [0, 1, 2] ∧
      (l.indentStack ≠ [] ∧ l.indentStack.head? = some 0 ∧
        l.indentStack.Pairwise (· < ·) ∧ 0 ≤ l.dedentCount ∧
        ∃ top, stackTop l.indentStack = .ok top) := by
  have hyields : ∃ l, (NewLexer "group and\n  group or\n    a eq 1\nb eq 2").yields
        [⟨.GROUP, "group"⟩, ⟨.AND, "and"⟩, ⟨.INDENT, ""⟩, ⟨.GROUP, "group"⟩, ⟨.OR, "or"⟩,
          ⟨.INDENT, ""⟩, ⟨.IDENT, "a"⟩] l ∧ l.indentStack = [0, 1, 2] :=
    ⟨_, ⟨_, rfl, _, rfl, _, rfl, _, rfl, _, rfl, _, rfl, _, rfl, rfl⟩, rfl⟩
  obtain ⟨l, hl, hstack⟩ := hyields
  exact ⟨l, hl, hstack, indent_stack_invariant _ _ l hl⟩

/-- C24: for every input and every sequence of tokens returned by successive
calls to `Next` from `NewLexer input`, the number of `INDENT` tokens minus the
number of `DEDENT` tokens is the length of the indent stack minus 1 plus the
pending `dedentCount`; it is never negative, so the tokenizer has never
returned more `DEDENT` tokens than `INDENT` tokens. -/
theorem indent_dedent_balance (input : String) (tokens : List Token) (l : Lexer)
    (hreach : (NewLexer input).yields tokens l) :
    indentBalance tokens = ((l.indentStack.length : Int) - 1) + l.dedentCount ∧
      0 ≤ indentBalance tokens ∧
      (tokens.countP fun token => token.Kind = .DEDENT) ≤
        (tokens.countP fun token => token.Kind = .INDENT) := by
  obtain ⟨⟨hhead, -, hdedent, -, -⟩, hbalance⟩ :=
    yields_sound tokens (NewLexer input) l hreach (NewLexer_sound input)
  have hlen : 1 ≤ l.indentStack.length := by
    cases hst : l.indentStack with
    | nil => rw [hst] at hhead; cases hhead
    | cons x xs => simp
  have hstart : ((NewLexer input).indentStack.length : Int) + (NewLexer input).dedentCount = 1 := by
    rw [NewLexer_atSplit]
    rfl
  have heq : indentBalance tokens = ((l.indentStack.length : Int) - 1) + l.dedentCount := by
    omega
  refine ⟨heq, by omega, ?_⟩
  have hnonneg : 0 ≤ indentBalance tokens := by omega
  unfold indentBalance at hnonneg
  omega

theorem indent_dedent_balance_witness :
    ∃ l, (NewLexer "group and\n  group or\n    a eq 1\nb eq 2").yields
        [⟨.GROUP, "group"⟩, ⟨.AND, "and"⟩, ⟨.INDENT, ""⟩, ⟨.GROUP, "group"⟩, ⟨.OR, "or"⟩,
          ⟨.INDENT, ""⟩, ⟨.IDENT, "a"⟩, ⟨.EQ, "eq"⟩, ⟨.NUMBER, "1"⟩, ⟨.DEDENT, ""⟩] l ∧
      l.indentStack = [0] ∧ l.dedentCount = 1 ∧
      indentBalance
        [⟨.GROUP, "group"⟩, ⟨.AND, "and"⟩, ⟨.INDENT, ""⟩, ⟨.GROUP, "group"⟩, ⟨.OR, "or"⟩,
          ⟨.INDENT, ""⟩, ⟨.IDENT, "a"⟩, ⟨.EQ, "eq"⟩, ⟨.NUMBER, "1"⟩, ⟨.DEDENT, ""⟩] =
        ((l.indentStack.length : Int) - 1) + l.dedentCount := by
  have hyields : ∃ l, (NewLexer "group and\n  group or\n    a eq 1\nb eq 2").yields
        [⟨.GROUP, "group"⟩, ⟨.AND, "and"⟩, ⟨.INDENT, ""⟩, ⟨.GROUP, "group"⟩, ⟨.OR, "or"⟩,
          ⟨.INDENT, ""⟩, ⟨.IDENT, "a"⟩, ⟨.EQ, "eq"⟩, ⟨.NUMBER, "1"⟩, ⟨.DEDENT, ""⟩] l ∧
      l.indentStack = [0] ∧ l.dedentCount = 1 :=
    ⟨_, ⟨_, rfl, _, rfl, _, rfl, _, rfl, _, rfl, _, rfl, _, rfl, _, rfl, _, rfl, _, rfl, rfl⟩,
      rfl, rfl⟩
  obtain ⟨l, hl, hstack, hcount⟩ := hyields
  exact ⟨l, hl, hstack, hcount, (indent_dedent_balance _ _ l hl).1⟩

/-- C23: let `Next` be called, by its caller or by itself after a comment
(`nextFuel` with any fuel left), in a state `l0` that satisfies the invariant
of the states reached from `NewLexer`, with no `DEDENT` pending and the
current rune a line break; let `level` be the indentation level that
`readIndentLevel` measures there and `top` the top of the indent stack.
When `level < top`, the call pops exactly the entries of the stack greater
than `level` and returns `DEDENT`, and the following calls return `DEDENT`
once for each further popped entry, after which none is pending, the top of
the stack is at most `level`, and the lexer is past the line break unless
`level` is 0.  When
`level = top`, the block for the line break returns no token and leaves the
stack as it is; the token that `Next` scans after it is neither `INDENT` nor
`DEDENT`, and when a comment follows `Next` calls itself in a state that
satisfies the invariant again.  When `level > top`, the call pushes `level`
and returns `INDENT`, and leaves the lexer past the line break with no
`DEDENT` pending, so the next call does not measure again. -/
theorem line_break_tokens (fuel : Nat) (l0 l l1 : Lexer) (level top : Int)
    (hsound : l0.sound)
    (hmode : l0.setIndentationMode = .ok l)
    (hpending : ¬ l.dedentCount > 0)
    (hch : l.ch = '\n')
    (hlevel : l.readIndentLevel = .ok (level, l1))
    (htop : stackTop l.indentStack = .ok top) :
    (level < top →
      1 ≤ (l.indentStack.filter fun x => decide (level < x)).length ∧
      Lexer.nextFuel (fuel + 1) l0 = .ok ({ Kind := .DEDENT, Lexeme := "" },
        { l1 with
          indentStack := l.indentStack.filter fun x => decide (x ≤ level)
          dedentCount := ((l.indentStack.filter fun x => decide (level < x)).length : Int) - 1 }) ∧
      Lexer.yields
        { l1 with
          indentStack := l.indentStack.filter fun x => decide (x ≤ level)
          dedentCount := ((l.indentStack.filter fun x => decide (level < x)).length : Int) - 1 }
        (List.replicate ((l.indentStack.filter fun x => decide (level < x)).length - 1)
          { Kind := .DEDENT, Lexeme := "" })
        { l1 with
          indentStack := l.indentStack.filter fun x => decide (x ≤ level)
          dedentCount := 0 } ∧
      (∃ kept, stackTop (l.indentStack.filter fun x => decide (x ≤ level)) = .ok kept ∧
        kept ≤ level) ∧
      (level ≠ 0 → l1.ch ≠ '\n')) ∧
    (level = top →
      l.indentStep = .ok (none, l1) ∧ l1.indentStack = l.indentStack ∧
      l1.dedentCount = l.dedentCount ∧
      (l1.skipWhitespace.ch ≠ '#' →
        Lexer.nextFuel (fuel + 1) l0 = .ok l1.skipWhitespace.scanToken ∧
        l1.skipWhitespace.scanToken.1.Kind ≠ .INDENT ∧
        l1.skipWhitespace.scanToken.1.Kind ≠ .DEDENT) ∧
      (l1.skipWhitespace.ch = '#' →
        Lexer.nextFuel (fuel + 1) l0 = Lexer.nextFuel fuel l1.skipWhitespace.skipComment ∧
        l1.skipWhitespace.skipComment.sound)) ∧
    (level > top →
      Lexer.nextFuel (fuel + 1) l0 = .ok ({ Kind := .INDENT, Lexeme := "" },
        { l1 with indentStack := l.indentStack ++ [level] }) ∧
      l1.ch ≠ '\n' ∧ l1.dedentCount = 0) := by
  obtain ⟨hs, hsame, htop1, hlevel0, htop0, hwidth, hpast⟩ :=
    line_break_facts l0 l l1 level top hsound hmode hch hlevel htop
  have hs1 := sound_of_sameIndentation l l1 hsame hs
  obtain ⟨hindent, hpop, hequal⟩ := indentStep_of l l1 level top hch hlevel htop1
  have hzero : l.dedentCount = 0 := le_antisymm (not_lt.1 hpending) hs.2.2.1
  refine ⟨?_, ?_, ?_⟩
  · intro hlt
    obtain ⟨⟨stack1, count1⟩, hrun⟩ := popLevels_total level hlevel0
      (l1.indentStack.length + 1) l1.indentStack l1.dedentCount (Nat.lt_succ_self _) hs1.1
    obtain ⟨popped, top1, hstack, hcount, hall, hlast1, hle⟩ := popLevels_ok _ _ _ _ _ _ hrun
    have hchain := hs1.2.1
    rw [hstack, List.chain'_append] at hchain
    have hfront : ∀ x ∈ stack1, x ≤ level := fun x hx =>
      le_trans (le_top_of_increasing stack1 top1 hchain.1 hlast1 x hx) hle
    obtain ⟨hkept, hgone⟩ := filter_levels stack1 popped level hfront hall
    rw [hsame.2.2.1, hstack, hkept, hgone]
    have hlen : 1 ≤ popped.length := by
      cases popped with
      | nil =>
        rw [List.append_nil] at hstack
        have hlast := stackTop_ok _ _ htop1
        rw [hstack, hlast1] at hlast
        simp only [Option.some.injEq] at hlast
        omega
      | cons x xs => simp
    have hcount1 : count1 - 1 = (popped.length : Int) - 1 := by
      rw [hcount, ← hsame.2.2.2, hzero]
      omega
    refine ⟨hlen, ?_, ?_, ⟨top1, by simp only [stackTop, hlast1], hle⟩, hpast⟩
    · rw [← hcount1]
      simp only [Lexer.nextFuel, hmode, hpending, if_false, hpop hlt stack1 count1 hrun]
    · obtain ⟨k, hk⟩ : ∃ k, popped.length = k + 1 := ⟨popped.length - 1, by omega⟩
      rw [hk, Nat.add_sub_cancel]
      exact yields_drain k
        { l1 with indentStack := stack1, dedentCount := ((k + 1 : Nat) : Int) - 1 }
        (by
          show l1.indentWidth ≠ -1
          rw [← hsame.1]
          exact hwidth (ne_of_lt hlt))
        (by
          show ((k + 1 : Nat) : Int) - 1 = (k : Int)
          push_cast
          omega)
  · intro heq
    have hstep := hequal heq
    refine ⟨hstep, hsame.2.2.1.symm, hsame.2.2.2.symm, ?_, ?_⟩
    · intro hcomment
      obtain ⟨-, hkind1, hkind2⟩ := scanToken_sameIndentation l1.skipWhitespace
      refine ⟨?_, hkind1, hkind2⟩
      simp only [Lexer.nextFuel, hmode, hpending, if_false, hstep, hcomment]
    · intro hcomment
      refine ⟨?_, ?_⟩
      · simp only [Lexer.nextFuel, hmode, hpending, if_false, hstep, hcomment, if_true]
      · have hskip := readWhile_sameIndentation
          (fun c => c = ' ' || c = '\t' || c = '\n' || c = '\r') (l1.input.length + 1) l1
        have hcom := readWhile_sameIndentation (fun c => c ≠ '\n' && c ≠ NUL)
          (l1.skipWhitespace.input.length + 1) l1.skipWhitespace
        exact sound_of_sameIndentation _ _ (sameIndentation_trans _ _ _ hskip hcom) hs1
  · intro hgt
    refine ⟨?_, hpast (by omega), ?_⟩
    · rw [hsame.2.2.1]
      simp only [Lexer.nextFuel, hmode, hpending, if_false, hindent hgt]
    · rw [← hsame.2.2.2]
      exact hzero

theorem line_break_tokens_witness :
    (∃ reached, (NewLexer "group and\n  group or\n    a lt 20 # c\nb lte 5").yields
        [⟨.GROUP, "group"⟩, ⟨.AND, "and"⟩, ⟨.INDENT, ""⟩, ⟨.GROUP, "group"⟩, ⟨.OR, "or"⟩,
          ⟨.INDENT, ""⟩, ⟨.IDENT, "a"⟩, ⟨.LT, "lt"⟩, ⟨.NUMBER, "20"⟩] reached ∧
      reached.skipWhitespace.skipComment =
        Lexer.atSplit "group and\n  group or\n    a lt 20 # c".data "\nb lte 5".data
          { initialLexer with
            indentWidth := 2, useSpaces := true, indentStack := [0, 1, 2] }) ∧
    (Lexer.atSplit "group and\n  group or\n    a lt 20 # c".data "\nb lte 5".data
        { initialLexer with indentWidth := 2, useSpaces := true, indentStack := [0, 1, 2] }).Next =
      .ok ({ Kind := .DEDENT, Lexeme := "" },
        Lexer.atSplit "group and\n  group or\n    a lt 20 # c".data "\nb lte 5".data
          { initialLexer with
            indentWidth := 2, useSpaces := true, indentStack := [0], dedentCount := 1 }) ∧
    (Lexer.atSplit "group and\n  group or\n    a lt 20 # c".data "\nb lte 5".data
        { initialLexer with
          indentWidth := 2, useSpaces := true, indentStack := [0], dedentCount := 1 }).yields
      [{ Kind := .DEDENT, Lexeme := "" }]
      (Lexer.atSplit "group and\n  group or\n    a lt 20 # c".data "\nb lte 5".data
        { initialLexer with indentWidth := 2, useSpaces := true, indentStack := [0] }) := by
  have h := (line_break_tokens
    ("group and\n  group or\n    a lt 20 # c".data ++ "\nb lte 5".data).length.succ
    (Lexer.atSplit "group and\n  group or\n    a lt 20 # c".data "\nb lte 5".data
      { initialLexer with indentWidth := 2, useSpaces := true, indentStack := [0, 1, 2] })
    _ _ 0 2 ⟨rfl, (show List.Chain' (· < ·) ([0, 1, 2] : List Int) by simp), by decide, by decide,
      by decide⟩ rfl (by decide) rfl rfl rfl).1
    (by decide)
  exact ⟨⟨_, ⟨_, rfl, _, rfl, _, rfl, _, rfl, _, rfl, _, rfl, _, rfl, _, rfl, _, rfl, rfl⟩,
    by decide⟩, h.2.1, h.2.2.1⟩

/-! ## An array that ends in a keyword -/

theorem ParseNext_unclosed_last (last : Token) (value : SingleValue)
    (s1 s2 s3 s4 s5 s6 : Lexer)
    (hsquare : last.Kind ≠ .RSQUARE) (hindent : last.Kind ≠ .INDENT)
    (hvalue : parseValue last = .ok value)
    (n1 : s1.Next = .ok ({ Kind := .IN, Lexeme := "in" }, s2))
    (n2 : s2.Next = .ok ({ Kind := .LSQUARE, Lexeme := "[" }, s3))
    (n3 : s3.Next = .ok ({ Kind := .NUMBER, Lexeme := "1" }, s4))
    (n4 : s4.Next = .ok ({ Kind := .COMMA, Lexeme := "," }, s5))
    (n5 : s5.Next = .ok (last, s6))
    (n6 : s6.Next = .ok ({ Kind := .EOF, Lexeme := "" }, s6)) :
    ∀ fuel, Parser.ParseNext fuel
      { lexer := s1, currToken := { Kind := .IDENT, Lexeme := "a" } } = .timeout := by
  intro fuel
  have h1 : ¬ (TokenKind.IDENT = TokenKind.EOF) := by decide
  have h2 : ¬ (TokenKind.IDENT = TokenKind.GROUP) := by decide
  cases fuel with
  | zero =>
    have t0 := nextToken_zero
      { lexer := s1, currToken := { Kind := .IDENT, Lexeme := "a" } } _ _ n1
    rw [Parser.ParseNext]
    simp only [h1, h2, if_false, if_true, Parser.parseCondition, t0, Outcome.timeout_bind]
  | succ k =>
    have t1 := nextToken_of_Next k
      { lexer := s1, currToken := { Kind := .IDENT, Lexeme := "a" } } _ _ n1 (by decide)
    have t2 := nextToken_of_Next k
      { lexer := s2, currToken := { Kind := .IN, Lexeme := "in" } } _ _ n2 (by decide)
    have t3 := nextToken_of_Next k
      { lexer := s3, currToken := { Kind := .LSQUARE, Lexeme := "[" } } _ _ n3 (by decide)
    have t4 := nextToken_of_Next k
      { lexer := s4, currToken := { Kind := .NUMBER, Lexeme := "1" } } _ _ n4 (by decide)
    have t5 := nextToken_of_Next k
      { lexer := s5, currToken := { Kind := .COMMA, Lexeme := "," } } _ _ n5 hindent
    have t6 := nextToken_of_Next k { lexer := s6, currToken := last } _ _ n6 (by decide)
    have hloop2 : ∀ (rounds : Nat) (arrayValues : Value),
        Parser.parseArrayLoop (k + 1) rounds { lexer := s6, currToken := last } arrayValues =
          .timeout := by
      intro rounds arrayValues
      cases rounds with
      | zero => rfl
      | succ r =>
        have hc : ¬ (TokenKind.EOF = TokenKind.COMMA) := by decide
        rw [Parser.parseArrayLoop]
        simp only [hsquare, ne_eq, not_false_eq_true, if_true, hvalue, Outcome.ok_bind, t6, hc,
          if_false, Outcome.pure_eq]
        exact parseArrayLoop_at_end k s6 n6 r _
    have hloop1 : Parser.parseArrayLoop (k + 1) (k + 1)
          { lexer := s4, currToken := { Kind := .NUMBER, Lexeme := "1" } } [] = .timeout := by
      have hv : parseValue { Kind := .NUMBER, Lexeme := "1" } = .ok (.num (.fin 1)) := by
        rfl
      have hk : TokenKind.NUMBER ≠ TokenKind.RSQUARE := by decide
      rw [Parser.parseArrayLoop]
      simp only [hk, ne_eq, not_false_eq_true, if_true, hv, Outcome.ok_bind, t4, t5,
        Outcome.pure_eq]
      exact hloop2 k _
    have hnot : ¬ (TokenKind.IN = TokenKind.NOT) := by decide
    have hbetween : ¬ (("in" : String) = "between") := by decide
    rw [Parser.ParseNext]
    simp only [h1, h2, if_false, if_true, Parser.parseCondition, t1, Outcome.ok_bind, hnot,
      decide_False, Bool.false_and, Bool.false_eq_true, Outcome.pure_eq, t2, hbetween,
      Parser.parseArray, t3, hloop1, Outcome.timeout_bind]

theorem unclosed_keyword (word : List Char) (last : Token) (value : SingleValue)
    (hsquare : last.Kind ≠ .RSQUARE) (hindent : last.Kind ≠ .INDENT)
    (hvalue : parseValue last = .ok value)
    (n0 : (Lexer.atSplit [] ("a in [1, ".data ++ word) initialLexer).Next =
      .ok ({ Kind := .IDENT, Lexeme := "a" },
        Lexer.atSplit "a".data (" in [1, ".data ++ word) initialLexer))
    (n1 : (Lexer.atSplit "a".data (" in [1, ".data ++ word) initialLexer).Next =
      .ok ({ Kind := .IN, Lexeme := "in" },
        Lexer.atSplit "a in".data (" [1, ".data ++ word) initialLexer))
    (n2 : (Lexer.atSplit "a in".data (" [1, ".data ++ word) initialLexer).Next =
      .ok ({ Kind := .LSQUARE, Lexeme := "[" },
        Lexer.atSplit "a in [".data ("1, ".data ++ word) initialLexer))
    (n3 : (Lexer.atSplit "a in [".data ("1, ".data ++ word) initialLexer).Next =
      .ok ({ Kind := .NUMBER, Lexeme := "1" },
        Lexer.atSplit "a in [1".data (", ".data ++ word) initialLexer))
    (n4 : (Lexer.atSplit "a in [1".data (", ".data ++ word) initialLexer).Next =
      .ok ({ Kind := .COMMA, Lexeme := "," },
        Lexer.atSplit "a in [1,".data (" ".data ++ word) initialLexer))
    (n5 : (Lexer.atSplit "a in [1,".data (" ".data ++ word) initialLexer).Next =
      .ok (last, Lexer.atSplit ("a in [1, ".data ++ word) [] initialLexer)) :
    ∃ p, (∀ fuel, NewParser (fuel + 1)
        (Lexer.atSplit [] ("a in [1, ".data ++ word) initialLexer) = .ok p) ∧
      p.currToken = { Kind := .IDENT, Lexeme := "a" } ∧
      ∀ fuel, p.ParseNext fuel = .timeout :=
  ⟨{ lexer := Lexer.atSplit "a".data (" in [1, ".data ++ word) initialLexer,
     currToken := { Kind := .IDENT, Lexeme := "a" } },
    fun fuel => nextToken_of_Next fuel _ _ _ n0 (by decide), rfl,
    ParseNext_unclosed_last last value _ _ _ _ _ _ hsquare hindent hvalue n1 n2 n3 n4 n5
      (Next_end _ initialLexer initialLexer_no_dedent)⟩

/-- C21, the failing input: on the rule texts `a in [1, nil]`, `a in [1, true]`
and `a in [1, false]` the call of `ParseNext` does not end.  `readLexeme`
takes `]` into a lexeme, so the last element and the closing bracket give one
`IDENT` token (`nil]`, `true]`, `false]`) and no `RSQUARE` token follows; the
loop of `parseArray` then reads the `EOF` token again and again.  With the
keyword before a comma, as in `a in [nil, 1]`, the tokens are `NIL`, `COMMA`,
`NUMBER` and `RSQUARE`. -/
theorem parseArray_keyword_last_diverges :
    (Lexer.take 7 (NewLexer "a in [1, nil]") =
        [⟨.IDENT, "a"⟩, ⟨.IN, "in"⟩, ⟨.LSQUARE, "["⟩, ⟨.NUMBER, "1"⟩, ⟨.COMMA, ","⟩,
          ⟨.IDENT, "nil]"⟩, ⟨.EOF, ""⟩] ∧
      ∃ p, (∀ fuel, NewParser (fuel + 1) (NewLexer "a in [1, nil]") = .ok p) ∧
        p.currToken = { Kind := .IDENT, Lexeme := "a" } ∧
        ∀ fuel, p.ParseNext fuel = .timeout) ∧
    (∃ p, (∀ fuel, NewParser (fuel + 1) (NewLexer "a in [1, true]") = .ok p) ∧
      p.currToken = { Kind := .IDENT, Lexeme := "a" } ∧
      ∀ fuel, p.ParseNext fuel = .timeout) ∧
    (∃ p, (∀ fuel, NewParser (fuel + 1) (NewLexer "a in [1, false]") = .ok p) ∧
      p.currToken = { Kind := .IDENT, Lexeme := "a" } ∧
      ∀ fuel, p.ParseNext fuel = .timeout) ∧
    Lexer.take 8 (NewLexer "a in [nil, 1]") =
      [⟨.IDENT, "a"⟩, ⟨.IN, "in"⟩, ⟨.LSQUARE, "["⟩, ⟨.NIL, "nil"⟩, ⟨.COMMA, ","⟩,
        ⟨.NUMBER, "1"⟩, ⟨.RSQUARE, "]"⟩, ⟨.EOF, ""⟩] := by
  refine ⟨⟨by decide, ?_⟩, ?_, ?_, by decide⟩
  · exact unclosed_keyword "nil]".data ⟨.IDENT, "nil]"⟩ .null (by decide) (by decide) rfl
      (by decide) (by decide) (by decide) (by decide) (by decide) (by decide)
  · exact unclosed_keyword "true]".data ⟨.IDENT, "true]"⟩ .null (by decide) (by decide) rfl
      (by decide) (by decide) (by decide) (by decide) (by decide) (by decide)
  · exact unclosed_keyword "false]".data ⟨.IDENT, "false]"⟩ .null (by decide) (by decide) rfl
      (by decide) (by decide) (by decide) (by decide) (by decide) (by decide)

/-! ## Comments and indentation -/

/-- C22, the failing input: the tokens of `a eq 1`, a line with four spaces
and the comment `# c`, and `b eq 2` have an `INDENT` and a `DEDENT` between
the two conditions, and the same text with the comment deleted (the line
break kept), or with the whole line left out, has none: `Next` measures the
indentation at the line break, before it sees that the line holds only a
comment.  In the same way a comment line at column 0 inside a block gives a
`DEDENT` and an `INDENT` where the text without the comment gives a `DEDENT`
only, and `group and # c` gives an `INDENT` for its block where the text
without the comment, which ends the line in a space, gives none. -/
theorem comment_changes_tokens :
    (Lexer.take 9 (NewLexer "a eq 1\n    # c\nb eq 2") =
        [⟨.IDENT, "a"⟩, ⟨.EQ, "eq"⟩, ⟨.NUMBER, "1"⟩, ⟨.INDENT, ""⟩, ⟨.DEDENT, ""⟩,
          ⟨.IDENT, "b"⟩, ⟨.EQ, "eq"⟩, ⟨.NUMBER, "2"⟩, ⟨.EOF, ""⟩] ∧
      Lexer.take 9 (NewLexer "a eq 1\n    \nb eq 2") =
        [⟨.IDENT, "a"⟩, ⟨.EQ, "eq"⟩, ⟨.NUMBER, "1"⟩,
          ⟨.IDENT, "b"⟩, ⟨.EQ, "eq"⟩, ⟨.NUMBER, "2"⟩, ⟨.EOF, ""⟩, ⟨.EOF, ""⟩, ⟨.EOF, ""⟩] ∧
      Lexer.take 9 (NewLexer "a eq 1\nb eq 2") =
        [⟨.IDENT, "a"⟩, ⟨.EQ, "eq"⟩, ⟨.NUMBER, "1"⟩,
          ⟨.IDENT, "b"⟩, ⟨.EQ, "eq"⟩, ⟨.NUMBER, "2"⟩, ⟨.EOF, ""⟩, ⟨.EOF, ""⟩, ⟨.EOF, ""⟩]) ∧
    (Lexer.take 12 (NewLexer "group and\n  a eq 1\n# c\n  b eq 2") =
        [⟨.GROUP, "group"⟩, ⟨.AND, "and"⟩, ⟨.INDENT, ""⟩, ⟨.IDENT, "a"⟩, ⟨.EQ, "eq"⟩,
          ⟨.NUMBER, "1"⟩, ⟨.DEDENT, ""⟩, ⟨.INDENT, ""⟩, ⟨.IDENT, "b"⟩, ⟨.EQ, "eq"⟩,
          ⟨.NUMBER, "2"⟩, ⟨.EOF, ""⟩] ∧
      Lexer.take 12 (NewLexer "group and\n  a eq 1\n\n  b eq 2") =
        [⟨.GROUP, "group"⟩, ⟨.AND, "and"⟩, ⟨.INDENT, ""⟩, ⟨.IDENT, "a"⟩, ⟨.EQ, "eq"⟩,
          ⟨.NUMBER, "1"⟩, ⟨.DEDENT, ""⟩, ⟨.IDENT, "b"⟩, ⟨.EQ, "eq"⟩,
          ⟨.NUMBER, "2"⟩, ⟨.EOF, ""⟩, ⟨.EOF, ""⟩]) ∧
    (Lexer.take 7 (NewLexer "group and # c\n  a eq 1") =
        [⟨.GROUP, "group"⟩, ⟨.AND, "and"⟩, ⟨.INDENT, ""⟩, ⟨.IDENT, "a"⟩, ⟨.EQ, "eq"⟩,
          ⟨.NUMBER, "1"⟩, ⟨.EOF, ""⟩] ∧
      Lexer.take 7 (NewLexer "group and \n  a eq 1") =
        [⟨.GROUP, "group"⟩, ⟨.AND, "and"⟩, ⟨.IDENT, "a"⟩, ⟨.EQ, "eq"⟩,
          ⟨.NUMBER, "1"⟩, ⟨.EOF, ""⟩, ⟨.EOF, ""⟩]) := by
  refine ⟨⟨?_, ?_, ?_⟩, ⟨?_, ?_⟩, ?_, ?_⟩ <;> decide

end Logix
